import Mathlib

/-!
# Granularity converter of libplateau: a shallow embedding

The development embeds `src/src/granularity_convert/granularity_converter.cpp`
and `src/src/polygon_mesh/node.cpp`.

Conventions of the embedding.

* `std::vector<T>` is `List T`; `v.at(i)` is `vecAt v i`, which fails with
  `Error.outOfRange` exactly when `i` is not a valid position.
* C++ exceptions are the `Except Error` monad.
* `float` / `double` values are exact rationals (`ℚ`); the conversion
  `(float)n` of an `int` is the exact cast (valid for `|n| ≤ 2^24`).
* `size_t`, `unsigned` are `Nat`; `long` / `int` are `Int`. The start and end positions of
  a `SubMesh` are `size_t`.
* A `Node*` into a model under construction is the path of child positions from the roots
  down to the node; the empty path is `nullptr`. Reading or writing through the pointer
  goes through `Model.nodeAt` / `Model.modifyAt`.
* A `while` loop over a work queue takes a number of iterations (fuel); the callers pass the
  number of nodes of the tree walked, one iteration per node.
-/

namespace Plateau

/-! ## Data model -/

/-- Errors the embedded code can raise. `outOfRange` is `std::out_of_range` thrown by
`vector::at`; `nullPointer` stands for dereferencing `nullptr`; `unknownArgument` is the
`std::runtime_error` of `convert`; `outOfFuel` is an artefact of the embedding (a `while`
loop given too few iterations). -/
inductive Error where
  | outOfRange
  | nullPointer
  | unknownArgument
  | outOfFuel
deriving DecidableEq, Repr

deriving instance DecidableEq for Except

/-- Modelled from the spec: `TVec3d` (its header is not under src/), a record of three
doubles. -/
structure TVec3d where
  x : ℚ
  y : ℚ
  z : ℚ
deriving DecidableEq, Repr

/-- Modelled from the spec: `TVec2f` (its header is not under src/), a record of two
floats. -/
structure TVec2f where
  x : ℚ
  y : ℚ
deriving DecidableEq, Repr

/-- Modelled from the spec: `CityObjectIndex` (city_object_list.h is not under src/), the
pair `(primary_index, atomic_index)`. -/
structure CityObjectIndex where
  primary_index : Int
  atomic_index : Int
deriving DecidableEq, Repr

/-- Modelled from the spec: `CityObjectIndex::invalidIndex()` is not under src/;
the spec gives the sentinel `invalid_index = -1`. -/
def CityObjectIndex.invalidIndex : Int := -1

/-- Modelled from the spec: the float to int conversion used when decoding a UV
("decoding truncates to integers"): truncation toward zero. -/
def truncToInt (q : ℚ) : Int := if 0 ≤ q then ⌊q⌋ else ⌈q⌉

/-- Modelled from the spec: `CityObjectIndex::fromUV` is not under src/; the spec gives
`uv.x = primary`, `uv.y = atomic`, decoding by truncation. -/
def CityObjectIndex.fromUV (uv : TVec2f) : CityObjectIndex :=
  ⟨truncToInt uv.x, truncToInt uv.y⟩

/-- Modelled from the spec: `CityObjectIndex::toUV` is not under src/; the spec gives
`uv.x = primary`, `uv.y = atomic`. -/
def CityObjectIndex.toUV (c : CityObjectIndex) : TVec2f := ⟨(c.primary_index : ℚ), (c.atomic_index : ℚ)⟩

/-- Modelled from the spec: the ordering of `CityObjectIndex` (used by
`std::set<CityObjectIndex>`) is not under src/; the spec gives the lexicographic order on
`(primary, atomic)`. -/
def CityObjectIndex.lt (a b : CityObjectIndex) : Bool :=
  decide (a.primary_index < b.primary_index) ||
    (decide (a.primary_index = b.primary_index) && decide (a.atomic_index < b.atomic_index))

/-- Modelled from the spec: `CityObjectList` is not under src/; the spec describes a mapping
from `CityObjectIndex` to gml-id. It is kept as an association list, first match wins. -/
abbrev CityObjectList := List (CityObjectIndex × String)

/-- Modelled from the spec: `tryGetAtomicGmlID(idx, out)`: the id for `idx` if present,
otherwise `out` keeps the caller's value. -/
def CityObjectList.tryGetAtomicGmlID (l : CityObjectList) (idx : CityObjectIndex)
    (out : String) : String :=
  match l.find? (fun e => decide (e.1 = idx)) with
  | some e => e.2
  | none => out

/-- Modelled from the spec: `tryGetPrimaryGmlID(p, out)`: the id for `(p, -1)` if present. -/
def CityObjectList.tryGetPrimaryGmlID (l : CityObjectList) (p : Int) (out : String) : String :=
  CityObjectList.tryGetAtomicGmlID l ⟨p, -1⟩ out

/-- Modelled from the spec: the record `SubMesh` (sub_mesh.h is not under src/): inclusive
positions `[start_index, end_index]` into the index array of the owning mesh, and a material
reference that the converter never inspects. -/
structure SubMesh where
  start_index : Nat
  end_index : Nat
  material : String
deriving DecidableEq, Repr

/-- Modelled from the spec: the aggregate `Mesh` (mesh.h and mesh.cpp are not under src/):
the parallel per-vertex arrays, the index array, the sub-meshes and the city-object list. -/
structure Mesh where
  vertices : List TVec3d
  uv1 : List TVec2f
  uv4 : List TVec2f
  indices : List Nat
  sub_meshes : List SubMesh
  city_object_list : CityObjectList
deriving DecidableEq, Repr

/-- Modelled from the spec: the default-constructed `Mesh()`, everything empty. -/
def Mesh.empty : Mesh := ⟨[], [], [], [], [], []⟩

/-- Modelled from the spec: `Mesh::addVerticesList` (mesh.cpp is not under src/) appends
vertices to the vertex array. -/
def Mesh.addVerticesList (m : Mesh) (vs : List TVec3d) : Mesh :=
  { m with vertices := m.vertices ++ vs }

/-- Modelled from the spec: `Mesh::addIndicesList(indices, prev_num_vertex, invert)` as the
converter calls it (`invert = false`): every index is shifted by `prev_num_vertex` and
appended. -/
def Mesh.addIndicesList (m : Mesh) (is : List Nat) (prev_num_vertex : Nat) : Mesh :=
  { m with indices := m.indices ++ is.map (fun i => i + prev_num_vertex) }

/-- Modelled from the spec: the setter `Mesh::setUV1`. -/
def Mesh.setUV1 (m : Mesh) (uv : List TVec2f) : Mesh := { m with uv1 := uv }

/-- Modelled from the spec: the setter `Mesh::setUV4`. -/
def Mesh.setUV4 (m : Mesh) (uv : List TVec2f) : Mesh := { m with uv4 := uv }

/-- Modelled from the spec: the setter `Mesh::setSubMeshes`. -/
def Mesh.setSubMeshes (m : Mesh) (s : List SubMesh) : Mesh := { m with sub_meshes := s }

/-- Modelled from the spec: the setter `Mesh::setCityObjectList`. -/
def Mesh.setCityObjectList (m : Mesh) (l : CityObjectList) : Mesh :=
  { m with city_object_list := l }

/-- Modelled from the spec: the test `Mesh::hasVertices` ("has any vertex"). -/
def Mesh.hasVertices (m : Mesh) : Bool := !m.vertices.isEmpty

/-- Bounds-checked access `v.at(i)`. -/
def vecAt {α : Type} (v : List α) (i : Nat) : Except Error α :=
  match v[i]? with
  | some a => .ok a
  | none => .error .outOfRange

/-! ## `filterByCityObjIndex` -/

/-- The variables the vertex loop of `filterByCityObjIndex` updates. -/
structure VertexPass where
  vert_id_transform : List Int
  dst_vertices : List TVec3d
  dst_uv1 : List TVec2f
  dst_uv4 : List TVec2f
  current_vert_id : Nat
deriving DecidableEq, Repr

/-- Number of halvings that bring `a` below `2^24`: the power of two by which the 24-bit
significand of the float nearest to `a` is scaled. -/
def floatShift : Nat → Nat → Nat
  | 0, _ => 0
  | fuel + 1, a => if a < 2 ^ 24 then 0 else floatShift fuel (a / 2) + 1

/-- The conversion `(float)x` of an `int` to a 32-bit float (line 130), given by the integer
value of the result: `x` itself when `|x| ≤ 2^24`, otherwise the nearest integer with a
24-bit significand, a tie going to the even significand. (An `int` stays far below the
largest float, so the result is always finite.) -/
def floatOfInt (x : Int) : Int :=
  let a := x.natAbs
  if a ≤ 2 ^ 24 then x
  else
    let e := floatShift a a
    let q := a / 2 ^ e
    let rem := a % 2 ^ e
    let q := if 2 ^ (e - 1) < rem ∨ (rem = 2 ^ (e - 1) ∧ q % 2 = 1) then q + 1 else q
    x.sign * ((q * 2 ^ e : Nat) : Int)

/-- One iteration (loop variable `i`) of the vertex loop, lines 124-135. -/
def vertexStep (src : Mesh) (filter_id : CityObjectIndex) (uv4_atomic_index : Int)
    (st : VertexPass) (i : Nat) : Except Error VertexPass := do
  let uv ← vecAt src.uv4 i
  let src_id := CityObjectIndex.fromUV uv
  if src_id = filter_id then
    let v ← vecAt src.vertices i
    let t ← vecAt src.uv1 i
    pure { vert_id_transform := st.vert_id_transform ++ [(st.current_vert_id : Int)]
           dst_vertices := st.dst_vertices ++ [v]
           dst_uv1 := st.dst_uv1 ++ [t]
           dst_uv4 := st.dst_uv4 ++ [⟨0, (floatOfInt uv4_atomic_index : ℚ)⟩]
           current_vert_id := st.current_vert_id + 1 }
  else
    pure { st with vert_id_transform := st.vert_id_transform ++ [-1] }

/-- State of the vertex loop after its first `n` iterations (`i = 0 .. n-1`). -/
def vertexLoop (src : Mesh) (filter_id : CityObjectIndex) (uv4_atomic_index : Int) :
    Nat → Except Error VertexPass
  | 0 => .ok ⟨[], [], [], [], 0⟩
  | n + 1 => do
    let st ← vertexLoop src filter_id uv4_atomic_index n
    vertexStep src filter_id uv4_atomic_index st n

/-- The index loop, lines 149-157, over the remaining source indices; the accumulator is
`(dst_indices, indices_id_transform)`. -/
def indexLoop (vert_id_transform : List Int) :
    List Nat → List Nat × List Int → Except Error (List Nat × List Int)
  | [], acc => .ok acc
  | src_index :: rest, (dst_indices, indices_id_transform) => do
    let next_id ← vecAt vert_id_transform src_index
    if next_id < 0 then
      indexLoop vert_id_transform rest (dst_indices, indices_id_transform ++ [-1])
    else
      let dst_indices := dst_indices ++ [next_id.toNat]
      indexLoop vert_id_transform rest
        (dst_indices, indices_id_transform ++ [(dst_indices.length : Int) - 1])

/-- The first `while` of the sub-mesh loop, lines 166-169. The first argument is
`indices_id_transform` from position `src_start` on, so its head is
`indices_id_transform.at(src_start)` and an empty list means the access throws. The result is
the value of `src_start` when the loop is left. -/
def advanceStart : List Int → Nat → Nat → Except Error Nat
  | [], _, _ => .error .outOfRange
  | t :: rest, src_start, src_end =>
    if t < 0 then
      if src_start + 1 > src_end then .ok (src_start + 1)
      else advanceStart rest (src_start + 1) src_end
    else .ok src_start

/-- The second `while` of the sub-mesh loop, lines 173-176, by recursion on `src_end`. The
result is the value of `src_end` when the loop is left, through its condition or through the
inner `break`. `src_end` is unsigned: decrementing it at `0` wraps around to the largest
value, which is not below `src_start`, and the next `indices_id_transform.at(src_end)`
throws. -/
def retractEnd (indices_id_transform : List Int) (src_start : Nat) :
    Nat → Except Error Nat
  | 0 => do
    let t ← vecAt indices_id_transform 0
    if t < 0 then .error .outOfRange else pure 0
  | e + 1 => do
    let t ← vecAt indices_id_transform (e + 1)
    if t < 0 then
      if e < src_start then pure e
      else retractEnd indices_id_transform src_start e
    else pure (e + 1)

/-- What one iteration of the sub-mesh loop does to the loop. -/
inductive SubMeshStep where
  | skip
  | stop
  | emit (s : SubMesh)
deriving DecidableEq, Repr

/-- One iteration of the sub-mesh loop, lines 161-186: `skip` is the `continue` of line 170,
`stop` the `break` of line 177, `emit` the `push_back` of line 185. -/
def subMeshStep (indices_id_transform : List Int) (src_sub_mesh : SubMesh) :
    Except Error SubMeshStep := do
  let src_start ← advanceStart (indices_id_transform.drop src_sub_mesh.start_index)
    src_sub_mesh.start_index src_sub_mesh.end_index
  if src_start > src_sub_mesh.end_index then pure .skip
  else
    let src_end ← retractEnd indices_id_transform src_start src_sub_mesh.end_index
    if src_end < src_start then pure .stop
    else
      let dst_start ← vecAt indices_id_transform src_start
      let dst_end ← vecAt indices_id_transform src_end
      pure (.emit { src_sub_mesh with start_index := dst_start.toNat, end_index := dst_end.toNat })

/-- The sub-mesh loop over the remaining source sub-meshes; the accumulator is
`dst_sub_meshes`. -/
def subMeshLoop (indices_id_transform : List Int) :
    List SubMesh → List SubMesh → Except Error (List SubMesh)
  | [], dst_sub_meshes => .ok dst_sub_meshes
  | src_sub_mesh :: rest, dst_sub_meshes => do
    match ← subMeshStep indices_id_transform src_sub_mesh with
    | .skip => subMeshLoop indices_id_transform rest dst_sub_meshes
    | .stop => pure dst_sub_meshes
    | .emit s => subMeshLoop indices_id_transform rest (dst_sub_meshes ++ [s])

/-- The function `filterByCityObjIndex(src, filter_id, uv4_atomic_index)`. -/
def filterByCityObjIndex (src : Mesh) (filter_id : CityObjectIndex) (uv4_atomic_index : Int) :
    Except Error Mesh := do
  let vertex_count := src.vertices.length
  let vp ← vertexLoop src filter_id uv4_atomic_index vertex_count
  let (dst_indices, indices_id_transform) ← indexLoop vp.vert_id_transform src.indices ([], [])
  let dst_sub_meshes ← subMeshLoop indices_id_transform src.sub_meshes []
  let ret := Mesh.empty
  let ret := ret.addVerticesList vp.dst_vertices
  let ret := ret.addIndicesList dst_indices 0
  let ret := ret.setUV1 vp.dst_uv1
  let ret := ret.setUV4 vp.dst_uv4
  let ret := ret.setSubMeshes dst_sub_meshes
  pure ret

/-! ## Nodes and models -/

/-- The class `Node`: a name, an optional mesh (`none` is `mesh_ == nullptr`), the
"is primary" flag and the ordered children. -/
structure Node where
  name : String
  mesh : Option Mesh
  is_primary : Bool
  children : List Node
deriving Repr

mutual
/-- Decidable equality of nodes. -/
def Node.decEq : (a b : Node) → Decidable (a = b)
  | ⟨n1, m1, p1, c1⟩, ⟨n2, m2, p2, c2⟩ =>
    if h1 : n1 = n2 then
      if h2 : m1 = m2 then
        if h3 : p1 = p2 then
          match decEqList c1 c2 with
          | isTrue h4 => isTrue (by rw [h1, h2, h3, h4])
          | isFalse h4 => isFalse (fun h => h4 (Node.mk.inj h).2.2.2)
        else isFalse (fun h => h3 (Node.mk.inj h).2.2.1)
      else isFalse (fun h => h2 (Node.mk.inj h).2.1)
    else isFalse (fun h => h1 (Node.mk.inj h).1)
/-- Decidable equality of lists of nodes. -/
def decEqList : (a b : List Node) → Decidable (a = b)
  | [], [] => isTrue rfl
  | [], _ :: _ => isFalse (fun h => List.noConfusion h)
  | _ :: _, [] => isFalse (fun h => List.noConfusion h)
  | a :: as, b :: bs =>
    match Node.decEq a b with
    | isTrue h1 =>
      match decEqList as bs with
      | isTrue h2 => isTrue (by rw [h1, h2])
      | isFalse h2 => isFalse (fun h => h2 (List.cons.inj h).2)
    | isFalse h1 => isFalse (fun h => h1 (List.cons.inj h).1)
end

instance : DecidableEq Node := Node.decEq

/-- The constructor `Node(name)`: no mesh, no children. Modelled from the spec: the
`is_primary` flag (the node.h under src/ predates it) starts out false. -/
def Node.ofName (name : String) : Node := ⟨name, none, false, []⟩

/-- The method `Node::addChildNode`: `push_back` on the children. -/
def Node.addChildNode (n : Node) (c : Node) : Node := { n with children := n.children ++ [c] }

/-- The method `Node::setMesh`. -/
def Node.setMesh (n : Node) (m : Option Mesh) : Node := { n with mesh := m }

/-- Modelled from the spec: `Node::setIsPrimary` (used by the converter, absent from the
node.cpp under src/) sets the "is primary" flag. -/
def Node.setIsPrimary (n : Node) (b : Bool) : Node := { n with is_primary := b }

/-- The method `Node::getChildAt`: `child_nodes_.at(index)`. -/
def Node.getChildAt (n : Node) (index : Nat) : Except Error Node := vecAt n.children index

/-- The method `Node::polygonExists`. -/
def Node.polygonExists (n : Node) : Bool :=
  match n.mesh with
  | none => false
  | some m => !m.vertices.isEmpty && !m.indices.isEmpty

mutual
/-- The method `Node::eraseEmptyChildren`. -/
def Node.eraseEmptyChildren : Node → Node
  | ⟨name, mesh, is_primary, children⟩ => ⟨name, mesh, is_primary, eraseEmptyList children⟩
/-- The `remove_if` / `erase` of `eraseEmptyChildren` on a vector of nodes: each node is
pruned first, then dropped when it has no child left and no polygon. -/
def eraseEmptyList : List Node → List Node
  | [] => []
  | child :: rest =>
    let child := child.eraseEmptyChildren
    if child.children.length = 0 && !child.polygonExists then eraseEmptyList rest
    else child :: eraseEmptyList rest
end

mutual
/-- Number of nodes of a subtree. -/
def Node.count : Node → Nat
  | ⟨_, _, _, children⟩ => 1 + countList children
/-- Number of nodes of a forest. -/
def countList : List Node → Nat
  | [] => 0
  | child :: rest => child.count + countList rest
end

/-- Modelled from the spec: the class `Model` (model.cpp is not under src/): the ordered
sequence of root nodes. -/
structure Model where
  root_nodes : List Node
deriving DecidableEq, Repr

/-- Modelled from the spec: the default-constructed `Model()`, no root node. -/
def Model.empty : Model := ⟨[]⟩

/-- Modelled from the spec: `Model::getRootNodeAt`, bounds-checked indexed access. -/
def Model.getRootNodeAt (m : Model) (index : Nat) : Except Error Node := vecAt m.root_nodes index

/-- Modelled from the spec: `Model::addNode` appends a root node. -/
def Model.addNode (m : Model) (n : Node) : Model := ⟨m.root_nodes ++ [n]⟩

/-- Modelled from the spec: `Model::eraseEmptyNodes` (model.cpp is not under src/;
"recursively removes nodes that have no mesh and no children"), the pruning of
`Node::eraseEmptyChildren` applied to the root nodes. -/
def Model.eraseEmptyNodes (m : Model) : Model := ⟨eraseEmptyList m.root_nodes⟩

/-- The `for` loop of `NodePos::toNode`: follow child positions down from a node. -/
def Node.descend : List Nat → Node → Except Error Node
  | [], n => .ok n
  | i :: rest, n => do
    let c ← n.getChildAt i
    Node.descend rest c

/-- Reading through a `Node*` into `model`: the node at the end of the path. -/
def Model.nodeAt (ptr : List Nat) (model : Model) : Except Error Node :=
  match ptr with
  | [] => .error .nullPointer
  | i :: rest => do
    let root ← model.getRootNodeAt i
    Node.descend rest root

/-- Writing through a pointer that points below `n`: the node at the end of the path is
replaced by its image under `f`. -/
def Node.modifyAt (f : Node → Node) : List Nat → Node → Except Error Node
  | [], n => .ok (f n)
  | i :: rest, n => do
    let c ← n.getChildAt i
    let c ← Node.modifyAt f rest c
    pure { n with children := n.children.set i c }

/-- Writing through a `Node*` into `model`. -/
def Model.modifyAt (f : Node → Node) (ptr : List Nat) (model : Model) : Except Error Model :=
  match ptr with
  | [] => .error .nullPointer
  | i :: rest => do
    let root ← model.getRootNodeAt i
    let root ← Node.modifyAt f rest root
    pure ⟨model.root_nodes.set i root⟩

/-- The method `NodePos::toNode`: `nullptr` for the empty position list, otherwise the pointer
to the node reached from the roots (every step bounds-checked). -/
def NodePos.toNode (positions : List Nat) (model : Model) : Except Error (List Nat) :=
  match positions with
  | [] => .ok []
  | _ :: _ => do
    let _ ← Model.nodeAt positions model
    pure positions

/-- The method `NodePos::parent`: the positions without the last one. -/
def NodePos.parent (positions : List Nat) : List Nat := positions.dropLast

/-- The method `NodePos::plus`. -/
def NodePos.plus (positions : List Nat) (next_index : Nat) : List Nat := positions ++ [next_index]

/-- The expression `parent == nullptr ? &model.addNode(node) : &parent->addChildNode(node)`:
the new model and the pointer to the node just added. -/
def Model.addNodeUnder (parent : List Nat) (node : Node) (model : Model) :
    Except Error (List Nat × Model) :=
  if parent = [] then pure ([model.root_nodes.length], model.addNode node)
  else do
    let p ← Model.nodeAt parent model
    let model ← Model.modifyAt (fun n => n.addChildNode node) parent model
    pure (parent ++ [p.children.length], model)

/-- The method `NodePos::addChildNode(node, model)`. -/
def NodePos.addChildNode (positions : List Nat) (node : Node) (model : Model) :
    Except Error Model :=
  match positions with
  | [] => pure (model.addNode node)
  | _ :: _ => do
    let ptr ← NodePos.toNode positions model
    Model.modifyAt (fun n => n.addChildNode node) ptr model

/-- Insertion into a `std::set` kept as its sorted list of elements; `lt` is the strict
order of the set. -/
def stdSetInsert {α : Type} (lt : α → α → Bool) (a : α) : List α → List α
  | [] => [a]
  | b :: rest =>
    if lt a b then a :: b :: rest
    else if lt b a then b :: stdSetInsert lt a rest
    else b :: rest

/-! ## `convertToAtomic` -/

/-- The default gml id. -/
def gmlIdNotFound : String := "gml_id_not_found"

/-- The loop of lines 232-236: the sets `indices_in_mesh` and `primary_indices_in_mesh`. -/
def collectIndices (uv4 : List TVec2f) : List CityObjectIndex × List Int :=
  uv4.foldl
    (fun acc uv =>
      let id := CityObjectIndex.fromUV uv
      (stdSetInsert CityObjectIndex.lt id acc.1,
       stdSetInsert (fun (a b : Int) => decide (a < b)) id.primary_index acc.2))
    ([], [])

/-- One iteration of the loop over `indices_in_mesh`, lines 265-280. -/
def atomicStep (src_mesh : Mesh) (primary_id : Int) (primary_node : List Nat)
    (dst_model : Model) (id : CityObjectIndex) : Except Error Model :=
  if id.primary_index ≠ primary_id then pure dst_model
  else if id.atomic_index = CityObjectIndex.invalidIndex then pure dst_model
  else do
    let atomic_gml_id := src_mesh.city_object_list.tryGetAtomicGmlID id gmlIdNotFound
    let added ← Model.addNodeUnder primary_node (Node.ofName atomic_gml_id) dst_model
    let atomic_node := added.1
    let atomic_mesh ← filterByCityObjIndex src_mesh id 0
    if atomic_mesh.hasVertices then
      let atomic_mesh := atomic_mesh.setCityObjectList [(⟨0, 0⟩, atomic_gml_id)]
      Model.modifyAt (fun n => n.setMesh (some atomic_mesh)) atomic_node added.2
    else pure added.2

/-- The test `dst_parent != nullptr && dst_parent->isPrimary()`, line 243. -/
def isParentPrimary (dst_parent : List Nat) (dst_model : Model) : Except Error Bool :=
  if dst_parent = [] then pure false
  else do
    let p ← Model.nodeAt dst_parent dst_model
    pure p.is_primary

/-- The `else` branch of lines 248-262: a new primary node under `dst_parent`, flagged
primary, with the primary-only geometry when there is some. The result is the pointer
`primary_node` and the new model. -/
def makePrimaryNode (src_mesh : Mesh) (primary_id : Int) (dst_parent : List Nat)
    (dst_model : Model) : Except Error (List Nat × Model) := do
  let primary_gml_id := src_mesh.city_object_list.tryGetPrimaryGmlID primary_id gmlIdNotFound
  let added ← Model.addNodeUnder dst_parent (Node.ofName primary_gml_id) dst_model
  let primary_node := added.1
  let dst_model ← Model.modifyAt (fun n => n.setIsPrimary true) primary_node added.2
  let primary_mesh ← filterByCityObjIndex src_mesh ⟨primary_id, -1⟩ (-1)
  if primary_mesh.hasVertices then
    let primary_mesh := primary_mesh.setCityObjectList [(⟨0, -1⟩, primary_gml_id)]
    (Model.modifyAt (fun n => n.setMesh (some primary_mesh)) primary_node dst_model).map
      (fun dst_model => (primary_node, dst_model))
  else pure (primary_node, dst_model)

/-- One iteration of the loop over `primary_indices_in_mesh`, lines 241-281. -/
def primaryStep (src_mesh : Mesh) (node_pos : List Nat) (indices_in_mesh : List CityObjectIndex)
    (dst_model : Model) (primary_id : Int) : Except Error Model := do
  let dst_parent ← NodePos.toNode (NodePos.parent node_pos) dst_model
  let is_parent_primary ← isParentPrimary dst_parent dst_model
  let primary ← (if is_parent_primary then pure (dst_parent, dst_model)
    else makePrimaryNode src_mesh primary_id dst_parent dst_model)
  indices_in_mesh.foldlM (atomicStep src_mesh primary_id primary.1) primary.2

/-- What one iteration of the `while` loop of `convertToAtomic` does to `dst_model` for the
source node `src_node` at `node_pos`, lines 224-287. -/
def convertNode (node_pos : List Nat) (src_node : Node) (dst_model : Model) :
    Except Error Model :=
  match src_node.mesh with
  | some src_mesh =>
    let sets := collectIndices src_mesh.uv4
    sets.2.foldlM (primaryStep src_mesh node_pos sets.1) dst_model
  | none => NodePos.addChildNode (NodePos.parent node_pos) (Node.ofName src_node.name) dst_model

/-- The `while` loop of `convertToAtomic`, lines 212-288, with the queue of positions as a
list (front first). -/
def convertLoop (src : Model) : Nat → List (List Nat) → Model → Except Error Model
  | _, [], dst_model => pure dst_model
  | 0, _ :: _, _ => .error .outOfFuel
  | fuel + 1, node_pos :: queue, dst_model => do
    let src_node ← Model.nodeAt node_pos src
    let queue := queue ++ (List.range src_node.children.length).map (NodePos.plus node_pos)
    let dst_model ← convertNode node_pos src_node dst_model
    convertLoop src fuel queue dst_model

/-- The function `convertToAtomic(src)`. -/
def convertToAtomic (src : Model) : Except Error Model :=
  convertLoop src (countList src.root_nodes)
    ((List.range src.root_nodes.length).map (fun i => [i])) Model.empty

/-! ## Merging and the conversions from the atomic model -/

/-- Modelled from the spec: `CityObjectList::add` (not under src/) extends the mapping with
one entry. The mapping is kept sorted by key; an entry with the same key is replaced. -/
def CityObjectList.add (l : CityObjectList) (key : CityObjectIndex) (value : String) :
    CityObjectList :=
  match l with
  | [] => [(key, value)]
  | e :: rest =>
    if CityObjectIndex.lt key e.1 then (key, value) :: e :: rest
    else if CityObjectIndex.lt e.1 key then e :: CityObjectList.add rest key value
    else (key, value) :: rest

/-- Modelled from the spec: `Mesh::merge(src, false, true)` (mesh.cpp is not under src/):
appends vertices, `uv1` and `uv4`, the indices shifted by the old vertex count, and the
sub-meshes shifted by the old index count. -/
def Mesh.merge (dst : Mesh) (other : Mesh) : Mesh :=
  { dst with
    vertices := dst.vertices ++ other.vertices
    uv1 := dst.uv1 ++ other.uv1
    uv4 := dst.uv4 ++ other.uv4
    indices := dst.indices ++ other.indices.map (fun i => i + dst.vertices.length)
    sub_meshes := dst.sub_meshes ++ other.sub_meshes.map (fun sm =>
      { sm with start_index := sm.start_index + dst.indices.length
                end_index := sm.end_index + dst.indices.length }) }

/-- The body of the `if(src_node.getMesh() != nullptr)` of `mergePrimaryNodeAndChildren`,
lines 303-336, on the pair `(dst_mesh, next_atomic_id)`. -/
def mergeNode (primary_id : Int) (src_node : Node) (st : Mesh × Int) : Mesh × Int :=
  match src_node.mesh with
  | none => st
  | some src_mesh =>
    let atomic_id := if src_node.is_primary then -1 else st.2
    let next_atomic_id := if src_node.is_primary then st.2 else st.2 + 1
    let uv4 := (CityObjectIndex.mk primary_id atomic_id).toUV
    let src_mesh_copy := src_mesh.setUV4 (List.replicate src_mesh.uv4.length uv4)
    let dst_mesh := st.1.merge src_mesh_copy
    let gml_id := src_mesh.city_object_list.tryGetAtomicGmlID ⟨0, 0⟩ gmlIdNotFound
    let gml_id :=
      if gml_id = gmlIdNotFound then
        src_mesh.city_object_list.tryGetAtomicGmlID ⟨0, -1⟩ gml_id
      else gml_id
    let dst_mesh := dst_mesh.setCityObjectList
      (dst_mesh.city_object_list.add ⟨primary_id, atomic_id⟩ gml_id)
    (dst_mesh, next_atomic_id)

/-- The `while` loop of `mergePrimaryNodeAndChildren`, lines 298-342; the queue holds the
source nodes themselves (the source is not modified). -/
def mergeLoop (primary_id : Int) : Nat → List Node → Mesh × Int → Except Error (Mesh × Int)
  | _, [], st => pure st
  | 0, _ :: _, _ => .error .outOfFuel
  | fuel + 1, src_node :: queue, st =>
    mergeLoop primary_id fuel (queue ++ src_node.children) (mergeNode primary_id src_node st)

/-- The function `mergePrimaryNodeAndChildren(src_node_arg, dst_mesh, primary_id)`; the
result is the new value of `dst_mesh`. -/
def mergePrimaryNodeAndChildren (src_node_arg : Node) (dst_mesh : Mesh) (primary_id : Int) :
    Except Error Mesh := do
  let st ← mergeLoop primary_id src_node_arg.count [src_node_arg] (dst_mesh, 0)
  pure st.1

/-- The function `NodeQueueOfIndexOfParent::getNodeFromParent` on the source model, a
pointer into which is kept as the node it points to (`none` is `nullptr`). -/
def getNodeFromParent (parent_node : Option Node) (child_index : Nat) (model : Model) :
    Except Error Node :=
  match parent_node with
  | none => model.getRootNodeAt child_index
  | some p => p.getChildAt child_index

/-- The function `NodeQueueOfIndexOfParent::getNodeFromParent` on the model under
construction: the pointer to the child, bounds-checked. -/
def getNodePtrFromParent (parent_node : List Nat) (child_index : Nat) (model : Model) :
    Except Error (List Nat) := do
  let _ ← Model.nodeAt (parent_node ++ [child_index]) model
  pure (parent_node ++ [child_index])

/-- The `while` loop of `convertFromAtomicToArea`, lines 368-382, on the pair
`(dst_mesh, primary_id)`. -/
def areaLoop (src : Model) :
    Nat → List (Option Node × Nat) → Mesh × Int → Except Error (Mesh × Int)
  | _, [], st => pure st
  | 0, _ :: _, _ => .error .outOfFuel
  | fuel + 1, (src_parent_node, src_parent_index) :: src_queue, (dst_mesh, primary_id) => do
    let src_node ← getNodeFromParent src_parent_node src_parent_index src
    if src_node.is_primary then
      let dst_mesh ← mergePrimaryNodeAndChildren src_node dst_mesh primary_id
      areaLoop src fuel src_queue (dst_mesh, primary_id + 1)
    else
      areaLoop src fuel
        (src_queue ++ (List.range src_node.children.length).map (fun i => (some src_node, i)))
        (dst_mesh, primary_id)

/-- The name of the single node of the area model, lines 348-349: the name of the source
root when there is exactly one, "combined" otherwise. -/
def areaRootName (src : Model) : Except Error String :=
  if src.root_nodes.length = 1 then do
    let n ← src.getRootNodeAt 0
    pure n.name
  else pure "combined"

/-- The function `convertFromAtomicToArea(src)`. The mesh of the single destination node is
carried through the loop and stored in the node at the end. -/
def convertFromAtomicToArea (src : Model) : Except Error Model := do
  let root_node_name ← areaRootName src
  let st ← areaLoop src (countList src.root_nodes)
    ((List.range src.root_nodes.length).map (fun i => (none, i))) (Mesh.empty, 0)
  pure ⟨[{ name := root_node_name, mesh := some st.1, is_primary := true, children := [] }]⟩

/-- One iteration of the `for` loop over the children in `convertFromAtomicToPrimary`,
lines 414-419, on `(dst_model, src_queue, dst_queue)`. -/
def primaryChildStep (src_node : Node) (dst_node : List Nat)
    (st : Model × List (Option Node × Nat) × List (List Nat × Nat)) (i : Nat) :
    Except Error (Model × List (Option Node × Nat) × List (List Nat × Nat)) := do
  let src_child ← src_node.getChildAt i
  let dst_model ← Model.modifyAt (fun n => n.addChildNode (Node.ofName src_child.name))
    dst_node st.1
  let d ← Model.nodeAt dst_node dst_model
  pure (dst_model, st.2.1 ++ [(some src_node, i)], st.2.2 ++ [(dst_node, d.children.length - 1)])

/-- The `while` loop of `convertFromAtomicToPrimary`, lines 401-421. The two queues are
pushed and popped together; popping an empty `dst_queue` (undefined in C++) is an error. -/
def primaryLoop (src_model : Model) :
    Nat → List (Option Node × Nat) → List (List Nat × Nat) → Model → Except Error Model
  | _, [], _, dst_model => pure dst_model
  | 0, _ :: _, _, _ => .error .outOfFuel
  | _ + 1, _ :: _, [], _ => .error .outOfRange
  | fuel + 1, (src_parent_node, src_parent_index) :: src_queue,
      (dst_parent_node, dst_parent_index) :: dst_queue, dst_model => do
    let src_node ← getNodeFromParent src_parent_node src_parent_index src_model
    let dst_node ← getNodePtrFromParent dst_parent_node dst_parent_index dst_model
    if src_node.is_primary then
      let dst_mesh ← mergePrimaryNodeAndChildren src_node Mesh.empty 0
      let dst_model ← Model.modifyAt (fun n => n.setMesh (some dst_mesh)) dst_node dst_model
      primaryLoop src_model fuel src_queue dst_queue dst_model
    else
      let st ← (List.range src_node.children.length).foldlM
        (primaryChildStep src_node dst_node) (dst_model, src_queue, dst_queue)
      primaryLoop src_model fuel st.2.1 st.2.2 st.1

/-- The function `convertFromAtomicToPrimary(src_model)`. -/
def convertFromAtomicToPrimary (src_model : Model) : Except Error Model :=
  let dst_model : Model := ⟨src_model.root_nodes.map (fun n => Node.ofName n.name)⟩
  let src_queue := (List.range src_model.root_nodes.length).map
    (fun i => ((none : Option Node), i))
  let dst_queue := (List.range src_model.root_nodes.length).map
    (fun i => (([] : List Nat), i))
  primaryLoop src_model (countList src_model.root_nodes) src_queue dst_queue dst_model

/-! ## `GranularityConverter::convert` -/

/-- The enumeration `MeshGranularity`; `other` stands for any value of the underlying
integer type that is none of the three enumerators. -/
inductive MeshGranularity where
  | PerPrimaryFeatureObject
  | PerAtomicFeatureObject
  | PerCityModelArea
  | other (raw : Nat)
deriving DecidableEq, Repr

/-- The function `GranularityConverter::convert(src, option)`. -/
def convert (src : Model) (granularity : MeshGranularity) : Except Error Model := do
  let atomic ← convertToAtomic src
  let atomic := atomic.eraseEmptyNodes
  match granularity with
  | .PerAtomicFeatureObject => pure atomic
  | .PerPrimaryFeatureObject => convertFromAtomicToPrimary atomic
  | .PerCityModelArea => convertFromAtomicToArea atomic
  | .other _ => .error .unknownArgument

/-! ## Example inputs -/

/-- The mesh of Scenario B: six vertices, two atomic objects. -/
def scenarioBMesh : Mesh :=
  { vertices := [⟨0, 0, 0⟩, ⟨1, 0, 0⟩, ⟨0, 1, 0⟩, ⟨0, 0, 1⟩, ⟨1, 0, 1⟩, ⟨0, 1, 1⟩]
    uv1 := [⟨0, 0⟩, ⟨1, 0⟩, ⟨0, 1⟩, ⟨0, 0⟩, ⟨1, 0⟩, ⟨0, 1⟩]
    uv4 := [⟨0, 0⟩, ⟨0, 0⟩, ⟨0, 0⟩, ⟨0, 1⟩, ⟨0, 1⟩, ⟨0, 1⟩]
    indices := [0, 1, 2, 3, 4, 5]
    sub_meshes := [⟨0, 5, "m"⟩]
    city_object_list := [(⟨0, -1⟩, "P"), (⟨0, 0⟩, "A0"), (⟨0, 1⟩, "A1")] }

/-- The mesh of Scenario E: sub-mesh `[0,2]` kept and `[3,5]` dropped under tag `(0,0)`,
the other way round under tag `(0,1)`. -/
def scenarioEMesh : Mesh :=
  { scenarioBMesh with sub_meshes := [⟨0, 2, "m0"⟩, ⟨3, 5, "m1"⟩] }

/-- The mesh `filterByCityObjIndex` returns on Scenario B's mesh for tag `(0,0)`. -/
def scenarioBAtomic0 : Mesh :=
  { vertices := [⟨0, 0, 0⟩, ⟨1, 0, 0⟩, ⟨0, 1, 0⟩]
    uv1 := [⟨0, 0⟩, ⟨1, 0⟩, ⟨0, 1⟩]
    uv4 := [⟨0, 0⟩, ⟨0, 0⟩, ⟨0, 0⟩]
    indices := [0, 1, 2]
    sub_meshes := [⟨0, 2, "m"⟩]
    city_object_list := [] }

/-- The mesh `filterByCityObjIndex` returns on Scenario B's mesh for tag `(0,1)`. -/
def scenarioBAtomic1 : Mesh :=
  { vertices := [⟨0, 0, 1⟩, ⟨1, 0, 1⟩, ⟨0, 1, 1⟩]
    uv1 := [⟨0, 0⟩, ⟨1, 0⟩, ⟨0, 1⟩]
    uv4 := [⟨0, 0⟩, ⟨0, 0⟩, ⟨0, 0⟩]
    indices := [0, 1, 2]
    sub_meshes := [⟨0, 2, "m"⟩]
    city_object_list := [] }

/-- The model of Scenario B: one root node carrying `scenarioBMesh`. -/
def scenarioBModel : Model := ⟨[⟨"root", some scenarioBMesh, false, []⟩]⟩

/-- The atomic model of Scenario B: primary node "P" with the atomic children "A0", "A1". -/
def scenarioBAtomicModel : Model :=
  ⟨[⟨"P", none, true,
      [⟨"A0", some { scenarioBAtomic0 with city_object_list := [(⟨0, 0⟩, "A0")] }, false, []⟩,
       ⟨"A1", some { scenarioBAtomic1 with city_object_list := [(⟨0, 0⟩, "A1")] }, false, []⟩]⟩]⟩

/-- The mesh of Scenario A: a single triangle of the atomic object "b1". -/
def scenarioAMesh : Mesh :=
  { vertices := [⟨0, 0, 0⟩, ⟨1, 0, 0⟩, ⟨0, 1, 0⟩]
    uv1 := [⟨0, 0⟩, ⟨1, 0⟩, ⟨0, 1⟩]
    uv4 := [⟨0, 0⟩, ⟨0, 0⟩, ⟨0, 0⟩]
    indices := [0, 1, 2]
    sub_meshes := [⟨0, 2, "m"⟩]
    city_object_list := [(⟨0, 0⟩, "b1")] }

/-- The model of Scenario A: one root node carrying `scenarioAMesh`. -/
def scenarioAModel : Model := ⟨[⟨"root", some scenarioAMesh, false, []⟩]⟩

/-- A well-formed mesh without polygons: three vertices of the atomic object "b1", all tagged
`(0,0)`, and no index. -/
def pointsOnlyMesh : Mesh :=
  { vertices := [⟨0, 0, 0⟩, ⟨1, 0, 0⟩, ⟨0, 1, 0⟩]
    uv1 := [⟨0, 0⟩, ⟨1, 0⟩, ⟨0, 1⟩]
    uv4 := [⟨0, 0⟩, ⟨0, 0⟩, ⟨0, 0⟩]
    indices := []
    sub_meshes := []
    city_object_list := [(⟨0, 0⟩, "b1")] }

/-- One root node carrying `pointsOnlyMesh`. -/
def pointsOnlyModel : Model := ⟨[⟨"root", some pointsOnlyMesh, false, []⟩]⟩

/-- The atomic model of Scenario B after a second conversion to atomic granularity: each
atomic child sits under a new primary node named by the sentinel. -/
def scenarioBReatomized : Model :=
  ⟨[⟨"P", none, false,
      [⟨"gml_id_not_found", none, true,
         [⟨"A0", some { scenarioBAtomic0 with city_object_list := [(⟨0, 0⟩, "A0")] },
           false, []⟩]⟩,
       ⟨"gml_id_not_found", none, true,
         [⟨"A1", some { scenarioBAtomic1 with city_object_list := [(⟨0, 0⟩, "A1")] },
           false, []⟩]⟩]⟩]⟩

/-- The mesh of Scenario C: the two triangles of Scenario B merged, tagged `(0,0)` and
`(0,1)`. -/
def scenarioCMesh : Mesh :=
  { vertices := [⟨0, 0, 0⟩, ⟨1, 0, 0⟩, ⟨0, 1, 0⟩, ⟨0, 0, 1⟩, ⟨1, 0, 1⟩, ⟨0, 1, 1⟩]
    uv1 := [⟨0, 0⟩, ⟨1, 0⟩, ⟨0, 1⟩, ⟨0, 0⟩, ⟨1, 0⟩, ⟨0, 1⟩]
    uv4 := [⟨0, 0⟩, ⟨0, 0⟩, ⟨0, 0⟩, ⟨0, 1⟩, ⟨0, 1⟩, ⟨0, 1⟩]
    indices := [0, 1, 2, 3, 4, 5]
    sub_meshes := [⟨0, 2, "m"⟩, ⟨3, 5, "m"⟩]
    city_object_list := [(⟨0, 0⟩, "A0"), (⟨0, 1⟩, "A1")] }

/-- The model `convert` returns for primary granularity on the atomic model of Scenario B:
a mesh-less "P" over two nodes named by the sentinel, one triangle each. -/
def scenarioBAtomicToPrimary : Model :=
  ⟨[⟨"P", none, false,
      [⟨"gml_id_not_found", some { scenarioBAtomic0 with city_object_list := [(⟨0, 0⟩, "A0")] },
         false, []⟩,
       ⟨"gml_id_not_found", some { scenarioBAtomic1 with city_object_list := [(⟨0, 0⟩, "A1")] },
         false, []⟩]⟩]⟩

/-- A root node carrying a mesh with zero vertices, over one mesh-less child. -/
def emptyMeshModel : Model := ⟨[⟨"g", some Mesh.empty, false, [⟨"c", none, false, []⟩]⟩]⟩

/-- A node with three children to prune: "a" carries a triangle over a mesh-less leaf, "b"
is mesh-less over a mesh-less leaf, "c" carries a mesh without polygon. -/
def pruneExampleNode : Node :=
  ⟨"r", none, false, [⟨"a", some scenarioAMesh, false, [⟨"e", none, false, []⟩]⟩,
    ⟨"b", none, false, [⟨"e", none, false, []⟩]⟩, ⟨"c", some pointsOnlyMesh, false, []⟩]⟩

/-- A mesh-less node whose only child carries `pointsOnlyMesh`, a mesh without polygon. -/
def pointsOnlyParent : Node := ⟨"root", none, false, [⟨"c", some pointsOnlyMesh, false, []⟩]⟩

/-- The mesh of Scenario D: one triangle of the primary object "X", tagged `(0,-1)`. -/
def scenarioDMesh : Mesh :=
  { vertices := [⟨0, 0, 0⟩, ⟨1, 0, 0⟩, ⟨0, 1, 0⟩]
    uv1 := [⟨0, 0⟩, ⟨1, 0⟩, ⟨0, 1⟩]
    uv4 := [⟨0, -1⟩, ⟨0, -1⟩, ⟨0, -1⟩]
    indices := [0, 1, 2]
    sub_meshes := [⟨0, 2, "m"⟩]
    city_object_list := [(⟨0, -1⟩, "X")] }

/-- The model of Scenario D: two sibling primary nodes with one triangle each. -/
def scenarioDModel : Model :=
  ⟨[⟨"X", some scenarioDMesh, true, []⟩, ⟨"Y", some scenarioDMesh, true, []⟩]⟩

/-- The mesh `convertFromAtomicToArea` builds on Scenario D. -/
def scenarioDAreaMesh : Mesh :=
  { vertices := [⟨0, 0, 0⟩, ⟨1, 0, 0⟩, ⟨0, 1, 0⟩, ⟨0, 0, 0⟩, ⟨1, 0, 0⟩, ⟨0, 1, 0⟩]
    uv1 := [⟨0, 0⟩, ⟨1, 0⟩, ⟨0, 1⟩, ⟨0, 0⟩, ⟨1, 0⟩, ⟨0, 1⟩]
    uv4 := [⟨0, -1⟩, ⟨0, -1⟩, ⟨0, -1⟩, ⟨1, -1⟩, ⟨1, -1⟩, ⟨1, -1⟩]
    indices := [0, 1, 2, 3, 4, 5]
    sub_meshes := [⟨0, 2, "m"⟩, ⟨3, 5, "m"⟩]
    city_object_list := [(⟨0, -1⟩, "X"), (⟨1, -1⟩, "X")] }

/-- A model without any mesh: a group over a leaf, and a second leaf. -/
def meshFreeExampleModel : Model :=
  ⟨[⟨"g", none, false, [⟨"c", none, false, []⟩]⟩, ⟨"x", none, false, []⟩]⟩

/-- A root carrying the mesh of Scenario B over a mesh-less child. -/
def scenarioShiftModel : Model :=
  ⟨[⟨"a", some scenarioBMesh, false, [⟨"c", none, false, []⟩]⟩]⟩

/-- A destination model with one primary root without children. -/
def primaryParentExampleModel : Model := ⟨[⟨"P", none, true, []⟩]⟩

/-! ## Specification-side vocabulary for `filterByCityObjIndex` -/

/-- Vertex position `i` of `src` is kept: its `uv4` decodes to `filter_id`. -/
def keepsVertex (src : Mesh) (filter_id : CityObjectIndex) (i : Nat) : Bool :=
  match src.uv4[i]? with
  | some uv => decide (CityObjectIndex.fromUV uv = filter_id)
  | none => false

/-- The entries of `data` at the positions whose tag in `uv4` decodes to `filter_id`, in
source order. -/
def keptEntries {α : Type} (data : List α) (uv4 : List TVec2f) (filter_id : CityObjectIndex) :
    List α :=
  ((data.zip uv4).filter (fun p => decide (CityObjectIndex.fromUV p.2 = filter_id))).map Prod.fst

/-- Number of kept vertices among the first `n`. -/
def keptBefore (src : Mesh) (filter_id : CityObjectIndex) (n : Nat) : Nat :=
  (src.uv4.take n).countP (fun uv => decide (CityObjectIndex.fromUV uv = filter_id))

/-- Index position `j` of `src` survives: it references a kept vertex. -/
def survives (src : Mesh) (filter_id : CityObjectIndex) (j : Nat) : Bool :=
  match src.indices[j]? with
  | some x => keepsVertex src filter_id x
  | none => false

/-- Number of surviving index positions among the first `j`. -/
def survivorsBefore (src : Mesh) (filter_id : CityObjectIndex) (j : Nat) : Nat :=
  (src.indices.take j).countP (fun x => keepsVertex src filter_id x)

/-- The list `indices_id_transform` the index loop builds for the index list `idxs` when
`keep` tells the kept vertices and `c` indices have been emitted before. -/
def indexTransformFrom (keep : Nat → Bool) : List Nat → Nat → List Int
  | [], _ => []
  | x :: xs, c =>
    if keep x then (c : Int) :: indexTransformFrom keep xs (c + 1)
    else -1 :: indexTransformFrom keep xs c

/-- What holds of the loop variables after `n` iterations of the vertex loop. -/
def VertexInv (src : Mesh) (fid : CityObjectIndex) (r : Int) (n : Nat) (st : VertexPass) : Prop :=
  st.vert_id_transform.length = n ∧
  n ≤ src.uv4.length ∧
  st.current_vert_id = keptBefore src fid n ∧
  st.dst_vertices.length = st.current_vert_id ∧
  st.dst_uv1.length = st.current_vert_id ∧
  st.dst_uv4 = List.replicate st.current_vert_id ⟨0, (floatOfInt r : ℚ)⟩ ∧
  (∀ i, i < n → st.vert_id_transform[i]? =
      some (if keepsVertex src fid i then (keptBefore src fid i : Int) else -1)) ∧
  (∀ i, i < n → keepsVertex src fid i = true →
      ∃ v t, src.vertices[i]? = some v ∧ src.uv1[i]? = some t ∧
        st.dst_vertices[keptBefore src fid i]? = some v ∧
        st.dst_uv1[keptBefore src fid i]? = some t)

/-- Position `p` of the list `tr` holds a negative entry (a deleted position). -/
def DeletedAt (tr : List Int) (p : Nat) : Prop := ∃ t, tr[p]? = some t ∧ t < 0

/-- Position `p` of the list `tr` holds the non-negative entry `t` (a surviving position that
moved to `t`). -/
def MovedTo (tr : List Int) (p : Nat) (t : Int) : Prop := tr[p]? = some t ∧ 0 ≤ t

/-- The sub-mesh emitted by an iteration of the sub-mesh loop, if any. -/
def SubMeshStep.emitted : SubMeshStep → Option SubMesh
  | .emit s => some s
  | _ => none

/-- Some index position of the inclusive range of `sm` survives. -/
def hasSurvivor (src : Mesh) (filter_id : CityObjectIndex) (sm : SubMesh) : Bool :=
  (List.range (sm.end_index + 1 - sm.start_index)).any
    (fun k => survives src filter_id (sm.start_index + k))

/-- The list `indices_id_transform` of `filterByCityObjIndex` in closed form. -/
def indicesIdTransform (src : Mesh) (filter_id : CityObjectIndex) : List Int :=
  indexTransformFrom (fun x => keepsVertex src filter_id x) src.indices 0

/-- The invariants of the data model that `filterByCityObjIndex` relies on: parallel
per-vertex arrays, index values below the vertex count, sub-mesh ranges inside the index
array. -/
def Mesh.WellFormed (m : Mesh) : Prop :=
  m.uv1.length = m.vertices.length ∧ m.uv4.length = m.vertices.length ∧
  (∀ x ∈ m.indices, x < m.vertices.length) ∧
  (∀ sm ∈ m.sub_meshes, sm.start_index ≤ sm.end_index ∧ sm.end_index < m.indices.length)

/-! ## Specification-side vocabulary for the conversions -/

mutual
/-- Every node of the subtree satisfies `Q`. -/
def Node.All (Q : Node → Prop) : Node → Prop
  | ⟨name, mesh, is_primary, children⟩ => Q ⟨name, mesh, is_primary, children⟩ ∧ ListAll Q children
/-- Every node of the forest satisfies `Q`. -/
def ListAll (Q : Node → Prop) : List Node → Prop
  | [] => True
  | child :: rest => child.All Q ∧ ListAll Q rest
end

/-- Every node of the model satisfies `Q`. -/
def Model.All (Q : Node → Prop) (m : Model) : Prop := ListAll Q m.root_nodes

/-- The tag of the single city object of a node of the atomic model: `(0,-1)` on a primary
node, `(0,0)` on an atomic child. -/
def atomicTag (is_primary : Bool) : CityObjectIndex := if is_primary then ⟨0, -1⟩ else ⟨0, 0⟩

/-- The tag `atomicTag` as it is written in the `uv4` channel. -/
def atomicTagUV (is_primary : Bool) : TVec2f := if is_primary then ⟨0, -1⟩ else ⟨0, 0⟩

/-- A mesh holds exactly one city object, tagged `tag`: it has a vertex, every `uv4` entry is
the tag `uv` (which decodes to `tag`), one entry per vertex, and its city-object list has
exactly one entry, keyed by `tag`. -/
def Mesh.SingleObject (m : Mesh) (tag : CityObjectIndex) (uv : TVec2f) : Prop :=
  m.vertices ≠ [] ∧ m.uv4.length = m.vertices.length ∧
  (∀ x ∈ m.uv4, x = uv ∧ CityObjectIndex.fromUV x = tag) ∧
  ∃ gml_id, m.city_object_list = [(tag, gml_id)]

/-- A node is as the atomic model wants it: its mesh, if any, holds exactly one city object
with the tag that fits the node's "is primary" flag. -/
def Node.SingleTagged (n : Node) : Prop :=
  ∀ m, n.mesh = some m → m.SingleObject (atomicTag n.is_primary) (atomicTagUV n.is_primary)

/-- The mesh `filterByCityObjIndex` returns, the empty mesh when it throws. -/
def filterResult (src : Mesh) (filter_id : CityObjectIndex) (r : Int) : Mesh :=
  match filterByCityObjIndex src filter_id r with
  | .ok m => m
  | .error _ => Mesh.empty

/-- The atomic child the spec describes for the tag `id` of the mesh `M`: named by the gml id
of `id`, carrying the part of `M` tagged `id`, re-tagged `(0,0)`. -/
def expectedAtomicNode (M : Mesh) (id : CityObjectIndex) : Node :=
  ⟨M.city_object_list.tryGetAtomicGmlID id gmlIdNotFound,
   some ((filterResult M id 0).setCityObjectList
     [(⟨0, 0⟩, M.city_object_list.tryGetAtomicGmlID id gmlIdNotFound)]),
   false, []⟩

/-- The tags `(p, a)` with `a ≠ -1` among `ids`, in the order of `ids`. -/
def atomicIdsOf (ids : List CityObjectIndex) (p : Int) : List CityObjectIndex :=
  ids.filter (fun id => decide (id.primary_index = p) && decide (id.atomic_index ≠ -1))

/-- The primary node the spec describes for the primary index `p` of the mesh `M`: named by
the gml id of `(p,-1)`, flagged primary, carrying the primary-only part of `M` when there is
one, with one atomic child per tag `(p, a)`, `a ≠ -1`, of `ids`. -/
def expectedPrimaryNode (M : Mesh) (ids : List CityObjectIndex) (p : Int) : Node :=
  ⟨M.city_object_list.tryGetPrimaryGmlID p gmlIdNotFound,
   if (filterResult M ⟨p, -1⟩ (-1)).hasVertices then
     some ((filterResult M ⟨p, -1⟩ (-1)).setCityObjectList
       [(⟨0, -1⟩, M.city_object_list.tryGetPrimaryGmlID p gmlIdNotFound)])
   else none,
   true, (atomicIdsOf ids p).map (expectedAtomicNode M)⟩

/-- The atomic model the spec describes for a single childless root carrying `M`. -/
def expectedAtomicModel (M : Mesh) : Model :=
  ⟨(collectIndices M.uv4).2.map (expectedPrimaryNode M (collectIndices M.uv4).1)⟩

/-- Number of nodes of the subtree of `src` at the position `pos` (1 for a position that is
not in `src`). -/
def posWeight (src : Model) (pos : List Nat) : Nat :=
  match Model.nodeAt pos src with
  | .ok n => n.count
  | .error _ => 1

/-- Number of iterations the queue of positions still needs: the nodes below its entries. -/
def queueWeight (src : Model) (queue : List (List Nat)) : Nat :=
  (queue.map (posWeight src)).sum

/-- A computation does not end in the embedding's own `outOfFuel` error: it returns, or
throws an error of the program. -/
def NoFuelError {α : Type} (x : Except Error α) : Prop := x ≠ Except.error Error.outOfFuel

/-- The hypotheses on the order of a `std::set`: a strict total order. -/
structure StrictTotal {α : Type} (lt : α → α → Bool) : Prop where
  irrefl : ∀ a, lt a a = false
  trans : ∀ a b c, lt a b = true → lt b c = true → lt a c = true
  tri : ∀ a b, lt a b = false → lt b a = false → a = b

mutual
/-- Number of levels of a subtree: 1 for a leaf. -/
def Node.depth : Node → Nat
  | ⟨_, _, _, children⟩ => 1 + depthList children
/-- Number of levels of a forest: 0 for the empty forest. -/
def depthList : List Node → Nat
  | [] => 0
  | child :: rest => max child.depth (depthList rest)
end

/-- A node is empty in the sense of the pruning: it has no child and no polygon. -/
def Node.IsEmpty (n : Node) : Prop := n.children.length = 0 ∧ n.polygonExists = false

/-- The lambda of `Node::eraseEmptyChildren` after the recursive call: the pruned child is
removed. -/
def removedByErase (c : Node) : Bool := decide (c.children.length = 0) && !c.polygonExists

/-- The nodes in the order a first-in first-out queue visits them when it starts as `queue`
and every visited node pushes its children: the breadth-first order of the forest. -/
def bfsNodes : Nat → List Node → List Node
  | 0, _ => []
  | _ + 1, [] => []
  | fuel + 1, n :: queue => n :: bfsNodes fuel (queue ++ n.children)

/-- The nodes of the subtree of `n` in breadth-first order, `n` first. -/
def Node.bfs (n : Node) : List Node := bfsNodes n.count [n]

/-- The mesh-carrying nodes of the subtree of `n`, in breadth-first order. -/
def Node.meshNodes (n : Node) : List Node := n.bfs.filter (fun x => x.mesh.isSome)

/-- The mesh of a node, the empty mesh when it has none. -/
def Node.meshOrEmpty (n : Node) : Mesh := n.mesh.getD Mesh.empty

/-- The tag of the node `n` at position `i` of the list `ns` of mesh-carrying nodes when the
subtree is merged under the primary id `p`: `(p,-1)` on a node flagged primary, otherwise
`(p,k)` with `k` the number of nodes not flagged primary before position `i`. -/
def mergeTag (p : Int) (ns : List Node) (i : Nat) (n : Node) : CityObjectIndex :=
  if n.is_primary then ⟨p, -1⟩ else ⟨p, ((ns.take i).countP (fun x => !x.is_primary) : Nat)⟩

/-- The body of `mergePrimaryNodeAndChildren` applied to the nodes of a list, in order. -/
def mergeFold (p : Int) (nodes : List Node) (st : Mesh × Int) : Mesh × Int :=
  nodes.foldl (fun s x => mergeNode p x s) st

/-- The city-object list has an entry with key `k`. -/
def CityObjectList.HasKey (l : CityObjectList) (k : CityObjectIndex) : Prop := ∃ gml, (k, gml) ∈ l

/-- Tag consistency of a mesh: every `uv4` entry decodes to a key of the city-object list of
the mesh. -/
def Mesh.TagConsistent (m : Mesh) : Prop :=
  ∀ uv ∈ m.uv4, ∃ gml, (CityObjectIndex.fromUV uv, gml) ∈ m.city_object_list

/-- The nodes flagged primary that a breadth-first search reaches when it starts with the
queue `queue` and does not descend below a node flagged primary, in the order it reaches
them. -/
def areaNodes : Nat → List Node → List Node
  | 0, _ => []
  | _ + 1, [] => []
  | fuel + 1, n :: queue =>
    if n.is_primary then n :: areaNodes fuel queue else areaNodes fuel (queue ++ n.children)

/-- The primary nodes of a model in the order the breadth-first search of
`convertFromAtomicToArea` reaches them. -/
def Model.primaries (m : Model) : List Node := areaNodes (countList m.root_nodes) m.root_nodes

/-- The body of the `if(src_node->isPrimary())` of `convertFromAtomicToArea` applied to the
primary nodes of a list, in order, on the pair `(dst_mesh, primary_id)`. -/
def areaFold (primaries : List Node) (st : Mesh × Int) : Mesh × Int :=
  primaries.foldl (fun s P => ((mergeFold s.2 P.bfs (s.1, 0)).1, s.2 + 1)) st

/-- The `uv4` entries the merge of the subtree of `P` under the primary id `p` writes. -/
def mergedUV4 (p : Int) (P : Node) : List TVec2f :=
  P.meshNodes.enum.flatMap (fun e =>
    List.replicate e.2.meshOrEmpty.uv4.length (mergeTag p P.meshNodes e.1 e.2).toUV)

/-- The vertices of the mesh-carrying nodes of the subtree of `P`, in breadth-first order. -/
def Node.subtreeVertices (P : Node) : List TVec3d :=
  P.meshNodes.flatMap (fun n => n.meshOrEmpty.vertices)

/-- Tag consistency of a node: its mesh, if any, is tag consistent. -/
def Node.TagConsistent (n : Node) : Prop := ∀ m, n.mesh = some m → m.TagConsistent

/-- A computation does not end in the error of an unknown granularity: it returns, or throws
another error. -/
def NoArgumentError {α : Type} (x : Except Error α) : Prop :=
  x ≠ Except.error Error.unknownArgument

/-- Number of nodes of the subtree a queue entry of the conversions from the atomic model
stands for (1 for an entry that does not resolve). -/
def entryWeight (src : Model) (e : Option Node × Nat) : Nat :=
  match getNodeFromParent e.1 e.2 src with
  | .ok n => n.count
  | .error _ => 1

/-- Number of surviving index positions of the inclusive range of `sm`. -/
def survivorsIn (src : Mesh) (filter_id : CityObjectIndex) (sm : SubMesh) : Nat :=
  ((src.indices.take (sm.end_index + 1)).drop sm.start_index).countP
    (fun x => keepsVertex src filter_id x)

/-- The tag of vertex position `x` of a mesh, if there is such a vertex. -/
def Mesh.tagAt (m : Mesh) (x : Nat) : Option CityObjectIndex :=
  m.uv4[x]?.map CityObjectIndex.fromUV

/-- The distinct tags occurring in the `uv4` channel of a mesh. -/
def Mesh.tags (m : Mesh) : List CityObjectIndex := (m.uv4.map CityObjectIndex.fromUV).dedup

/-- The triangles of an index list: its consecutive triples (a rest of fewer than three
indices is left out). -/
def triangles : List Nat → List (Nat × Nat × Nat)
  | a :: b :: c :: rest => (a, b, c) :: triangles rest
  | _ => []

/-- The root nodes of a model as the children of one node above them, so that pointers into
the model are paths below that node. -/
def Model.vroot (m : Model) : Node := ⟨"", none, false, m.root_nodes⟩

/-- The model whose root nodes are the children of `n`. -/
def Model.ofVroot (n : Node) : Model := ⟨n.children⟩

mutual
/-- The destination subtree a breadth-first construction has built for the source subtree
`n` at position `π` while the positions `pend` are still queued: a queued node is the bare
placeholder `Node(name)`; a node that was taken from the queue has its final fields `fin n`
and, when the construction descends below it (`opn n`), the images of its children. -/
def partialImage (fin : Node → Node) (opn : Node → Bool) (pend : List (List Nat)) :
    List Nat → Node → Node
  | π, ⟨name, mesh, is_primary, children⟩ =>
    if π ∈ pend then Node.ofName name
    else { fin ⟨name, mesh, is_primary, children⟩ with
           children := if opn ⟨name, mesh, is_primary, children⟩
             then partialImageList fin opn pend π 0 children else [] }
/-- The images of the children of the node at position `π`, from child index `k` on. -/
def partialImageList (fin : Node → Node) (opn : Node → Bool) (pend : List (List Nat)) :
    List Nat → Nat → List Node → List Node
  | _, _, [] => []
  | π, k, child :: rest =>
    partialImage fin opn pend (π ++ [k]) child :: partialImageList fin opn pend π (k + 1) rest
end

/-- The source node at the end of a path on which the construction descends below every
node but the last. -/
def openDescend (opn : Node → Bool) : List Nat → Node → Option Node
  | [], n => some n
  | i :: rest, n => if opn n then (n.children[i]?).bind (openDescend opn rest) else none

/-- The mesh `convertFromAtomicToPrimary` gives to the image of a primary node: the merge of
its subtree into an empty mesh under primary id 0, as `mergePrimaryNodeAndChildren` does
it. -/
def Node.mergedMesh (n : Node) : Mesh := (mergeFold 0 n.bfs (Mesh.empty, 0)).1

mutual
/-- The image of a source node under `convertFromAtomicToPrimary`, as the spec describes
it: a node flagged primary becomes a childless node of the same name carrying the merge of
its subtree; any other node is mirrored by a mesh-less node of the same name over the images
of its children, in order. -/
def Node.primaryImage : Node → Node
  | ⟨name, mesh, is_primary, children⟩ =>
    if is_primary then ⟨name, some (Node.mergedMesh ⟨name, mesh, is_primary, children⟩), false, []⟩
    else ⟨name, none, false, primaryImageList children⟩
/-- The images of a list of source nodes under `convertFromAtomicToPrimary`. -/
def primaryImageList : List Node → List Node
  | [] => []
  | child :: rest => child.primaryImage :: primaryImageList rest
end

/-- The fields `convertFromAtomicToPrimary` gives to the image of a source node once it has
taken the node from its queue. -/
def primaryFin (n : Node) : Node :=
  if n.is_primary then ⟨n.name, some n.mergedMesh, false, []⟩ else Node.ofName n.name

/-- The search of `convertFromAtomicToPrimary` descends below the nodes not flagged
primary. -/
def primaryOpen (n : Node) : Bool := !n.is_primary

/-- The node `d` with the nodes `cs` appended to its children. -/
def Node.addChildren (d : Node) (cs : List Node) : Node := { d with children := d.children ++ cs }

/-- Two positions of which none is above the other. -/
def Incomparable (a b : List Nat) : Prop := ¬ a <+: b ∧ ¬ b <+: a

/-- Number of nodes of the source subtree at a queued position (1 when there is none). -/
def pathWeight (opn : Node → Bool) (root : Node) (π : List Nat) : Nat :=
  match openDescend opn π root with
  | some n => n.count
  | none => 1

mutual
/-- The name and shape of a subtree: every node without mesh and not flagged primary. -/
def Node.skeleton : Node → Node
  | ⟨name, _, _, children⟩ => ⟨name, none, false, skeletonList children⟩
/-- The names and shapes of a list of subtrees. -/
def skeletonList : List Node → List Node
  | [] => []
  | child :: rest => child.skeleton :: skeletonList rest
end

/-- The fields `convertToAtomic` gives to the copy of a mesh-less source node. -/
def skeletonFin (n : Node) : Node := Node.ofName n.name

/-- The search of `convertToAtomic` descends below every node. -/
def alwaysOpen (_ : Node) : Bool := true

/-- The children `cs` of the node at position `π` with their positions, the first of them at
child index `k`. -/
def childEntries (π : List Nat) : Nat → List Node → List (List Nat × Node)
  | _, [] => []
  | k, c :: cs => (π ++ [k], c) :: childEntries π (k + 1) cs

/-- The atomic children `convertToAtomic` makes for the mesh `M`: one per tag `(p, a)`,
`a ≠ -1`, in the order of the primary indices and, for each, of the tags. -/
def atomicTagsOf (M : Mesh) : List CityObjectIndex :=
  (collectIndices M.uv4).2.flatMap (fun p => atomicIdsOf (collectIndices M.uv4).1 p)

/-- Number of vertices of the mesh of a node, 0 for a node without mesh. -/
def Node.meshVertexCount (n : Node) : Nat := n.meshOrEmpty.vertices.length

mutual
/-- Total number of vertices of the meshes of a subtree. -/
def Node.vertexCount : Node → Nat
  | ⟨name, mesh, is_primary, children⟩ =>
    Node.meshVertexCount ⟨name, mesh, is_primary, []⟩ + vertexCountList children
/-- Total number of vertices of the meshes of a forest. -/
def vertexCountList : List Node → Nat
  | [] => 0
  | child :: rest => child.vertexCount + vertexCountList rest
end

/-- Total number of vertices over all meshes of a model. -/
def Model.vertexCount (m : Model) : Nat := vertexCountList m.root_nodes

mutual
/-- Every mesh-carrying node of the subtree is flagged primary or lies below a node flagged
primary; `up` tells whether a node above the subtree is flagged primary. -/
def Node.Anchored (up : Bool) : Node → Prop
  | ⟨_, mesh, is_primary, children⟩ =>
    (mesh.isSome = true → is_primary = true ∨ up = true) ∧
      AnchoredList (is_primary || up) children
/-- The same for every node of a forest. -/
def AnchoredList (up : Bool) : List Node → Prop
  | [] => True
  | child :: rest => child.Anchored up ∧ AnchoredList up rest
end

/-- Every mesh-carrying node of the model is flagged primary or lies below a node flagged
primary. -/
def Model.Anchored (m : Model) : Prop := AnchoredList false m.root_nodes

/-- The model `m2` is the model `m` with the node `c` appended to the children of the node
at `q` (to the root nodes when `q` is empty). -/
def AddedUnder (q : List Nat) (c : Node) (m m2 : Model) : Prop :=
  Node.modifyAt (fun d => d.addChildNode c) q m.vroot = Except.ok m2.vroot

mutual
/-- The subtree of the node holds a polygon-bearing mesh: on the node itself or on a
descendant. -/
def Node.hasPolygon : Node → Bool
  | ⟨name, mesh, is_primary, children⟩ =>
    Node.polygonExists ⟨name, mesh, is_primary, children⟩ || anyPolygon children
/-- Some subtree of the forest holds a polygon-bearing mesh. -/
def anyPolygon : List Node → Bool
  | [] => false
  | child :: rest => child.hasPolygon || anyPolygon rest
end

/-- The path in the pruned tree that corresponds to the path `path` of `n`: every child
position is replaced by the number of siblings before it whose subtree holds a
polygon-bearing mesh. -/
def prunedPath : List Nat → Node → List Nat
  | [], _ => []
  | i :: rest, n =>
    (n.children.take i).countP Node.hasPolygon ::
      (match n.children[i]? with
       | some c => prunedPath rest c
       | none => [])

/-! ## Lemmas on the `Except` monad and on `vecAt` -/

theorem bind_ok_eq {α β : Type} (a : α) (f : α → Except Error β) :
    (Except.ok a >>= f) = f a := rfl

theorem bind_error_eq {α β : Type} (e : Error) (f : α → Except Error β) :
    ((Except.error e : Except Error α) >>= f) = Except.error e := rfl

theorem bind_eq_ok {α β : Type} {x : Except Error α} {f : α → Except Error β} {b : β}
    (h : (x >>= f) = Except.ok b) : ∃ a, x = Except.ok a ∧ f a = Except.ok b := by
  cases x with
  | error e => simp [bind_error_eq] at h
  | ok a => exact ⟨a, rfl, h⟩

theorem vecAt_eq_ok {α : Type} {v : List α} {i : Nat} {a : α} :
    vecAt v i = Except.ok a ↔ v[i]? = some a := by
  unfold vecAt
  cases h : v[i]? <;> simp

theorem vecAt_of_lt {α : Type} {v : List α} {i : Nat} (h : i < v.length) :
    vecAt v i = Except.ok (v.get ⟨i, h⟩) := by
  rw [vecAt_eq_ok]
  simp [List.getElem?_eq_getElem h]

/-! ## The vertex pass -/

theorem keptBefore_succ (src : Mesh) (fid : CityObjectIndex) (n : Nat) :
    keptBefore src fid (n + 1) = keptBefore src fid n + (if keepsVertex src fid n then 1 else 0) := by
  unfold keptBefore keepsVertex
  rw [List.take_succ, List.countP_append]
  cases h : src.uv4[n]? with
  | none => simp
  | some uv =>
    by_cases hk : CityObjectIndex.fromUV uv = fid <;> simp [List.countP_cons, hk]

theorem keptBefore_mono (src : Mesh) (fid : CityObjectIndex) {i n : Nat} (h : i ≤ n) :
    keptBefore src fid i ≤ keptBefore src fid n := by
  induction n with
  | zero =>
    have : i = 0 := by omega
    subst this; exact Nat.le_refl _
  | succ n ih =>
    rcases Nat.lt_or_ge i (n + 1) with h1 | h1
    · have := ih (by omega)
      rw [keptBefore_succ]; omega
    · have : i = n + 1 := by omega
      subst this; exact Nat.le_refl _

theorem keptBefore_lt (src : Mesh) (fid : CityObjectIndex) {i n : Nat} (h : i < n)
    (hk : keepsVertex src fid i = true) : keptBefore src fid i < keptBefore src fid n := by
  have h1 := keptBefore_mono src fid (Nat.succ_le_of_lt h)
  rw [keptBefore_succ, hk] at h1
  simp at h1
  omega

theorem vertexLoop_inv (src : Mesh) (fid : CityObjectIndex) (r : Int) :
    ∀ (n : Nat) (st : VertexPass), vertexLoop src fid r n = Except.ok st →
      VertexInv src fid r n st := by
  intro n
  induction n with
  | zero =>
    intro st h
    simp only [vertexLoop, Except.ok.injEq] at h
    subst h
    simp [VertexInv, keptBefore]
  | succ n ih =>
    intro st' h
    simp only [vertexLoop] at h
    obtain ⟨st, hst, hstep⟩ := bind_eq_ok h
    obtain ⟨hlen, hn, hcur, hdv, hdu, hd4, hvt, hdata⟩ := ih st hst
    unfold vertexStep at hstep
    obtain ⟨uv, huv, hstep⟩ := bind_eq_ok hstep
    rw [vecAt_eq_ok] at huv
    have hn' : n < src.uv4.length := by
      rcases Nat.lt_or_ge n src.uv4.length with h1 | h1
      · exact h1
      · rw [List.getElem?_eq_none h1] at huv; cases huv
    by_cases hk : CityObjectIndex.fromUV uv = fid
    · have hkeep : keepsVertex src fid n = true := by simp [keepsVertex, huv, hk]
      simp only [hk, if_true] at hstep
      obtain ⟨v, hv, hstep⟩ := bind_eq_ok hstep
      obtain ⟨t, ht, hstep⟩ := bind_eq_ok hstep
      rw [vecAt_eq_ok] at hv ht
      simp only [pure, Except.pure, Except.ok.injEq] at hstep
      subst hstep
      refine ⟨by simp [hlen], hn', by simp [keptBefore_succ, hkeep, hcur], by simp [hdv],
        by simp [hdu], ?_, ?_, ?_⟩
      · rw [hd4, List.replicate_add]; rfl
      · intro i hi
        rcases Nat.lt_or_ge i n with h1 | h1
        · simp only
          rw [List.getElem?_append_left (by omega)]
          exact hvt i h1
        · have : i = n := by omega
          subst this
          simp only
          rw [List.getElem?_append_right (by omega)]
          simp [hlen, hkeep, hcur]
      · intro i hi hki
        rcases Nat.lt_or_ge i n with h1 | h1
        · obtain ⟨v', t', h1v, h1t, h2v, h2t⟩ := hdata i h1 hki
          have hlt := keptBefore_lt src fid h1 hki
          refine ⟨v', t', h1v, h1t, ?_, ?_⟩
          · simp only
            rw [List.getElem?_append_left (by omega)]
            exact h2v
          · simp only
            rw [List.getElem?_append_left (by omega)]
            exact h2t
        · have : i = n := by omega
          subst this
          refine ⟨v, t, hv, ht, ?_, ?_⟩
          · simp only
            rw [List.getElem?_append_right (by omega)]
            simp [hdv, hcur]
          · simp only
            rw [List.getElem?_append_right (by omega)]
            simp [hdu, hcur]
    · have hkeep : keepsVertex src fid n = false := by simp [keepsVertex, huv, hk]
      simp only [hk, if_false, pure, Except.pure, Except.ok.injEq] at hstep
      subst hstep
      refine ⟨by simp [hlen], hn', by simp [keptBefore_succ, hkeep, hcur], hdv, hdu, hd4, ?_, ?_⟩
      · intro i hi
        rcases Nat.lt_or_ge i n with h1 | h1
        · simp only
          rw [List.getElem?_append_left (by omega)]
          exact hvt i h1
        · have : i = n := by omega
          subst this
          simp only
          rw [List.getElem?_append_right (by omega)]
          simp [hlen, hkeep]
      · intro i hi hki
        rcases Nat.lt_or_ge i n with h1 | h1
        · exact hdata i h1 hki
        · have : i = n := by omega
          subst this
          rw [hkeep] at hki; cases hki

theorem getElem?_some_lt {α : Type} {l : List α} {n : Nat} {a : α} (h : l[n]? = some a) :
    n < l.length := by
  rcases Nat.lt_or_ge n l.length with h1 | h1
  · exact h1
  · rw [List.getElem?_eq_none h1] at h; cases h

theorem keptEntries_snoc {α : Type} (data : List α) (uv4 : List TVec2f) (fid : CityObjectIndex)
    (n : Nat) (x : α) (uv : TVec2f) (hd : data[n]? = some x) (hu : uv4[n]? = some uv) :
    keptEntries (data.take (n + 1)) (uv4.take (n + 1)) fid =
      keptEntries (data.take n) (uv4.take n) fid ++
        (if CityObjectIndex.fromUV uv = fid then [x] else []) := by
  have h1 := getElem?_some_lt hd
  have h2 := getElem?_some_lt hu
  unfold keptEntries
  rw [List.take_succ, List.take_succ, hd, hu]
  simp only [Option.toList]
  rw [List.zip_append (by simp; omega)]
  by_cases hk : CityObjectIndex.fromUV uv = fid <;> simp [List.filter_append, hk]

theorem vertexLoop_entries (src : Mesh) (fid : CityObjectIndex) (r : Int) :
    ∀ (n : Nat) (st : VertexPass), vertexLoop src fid r n = Except.ok st →
      n ≤ src.vertices.length → n ≤ src.uv1.length →
      st.dst_vertices = keptEntries (src.vertices.take n) (src.uv4.take n) fid ∧
      st.dst_uv1 = keptEntries (src.uv1.take n) (src.uv4.take n) fid := by
  intro n
  induction n with
  | zero =>
    intro st h _ _
    simp only [vertexLoop, Except.ok.injEq] at h
    subst h
    simp [keptEntries]
  | succ n ih =>
    intro st' h hv hu
    simp only [vertexLoop] at h
    obtain ⟨st, hst, hstep⟩ := bind_eq_ok h
    obtain ⟨e1, e2⟩ := ih st hst (by omega) (by omega)
    unfold vertexStep at hstep
    obtain ⟨uv, huv, hstep⟩ := bind_eq_ok hstep
    rw [vecAt_eq_ok] at huv
    have hvn : src.vertices[n]? = some (src.vertices.get ⟨n, by omega⟩) := by
      simp [List.getElem?_eq_getElem]
    have hun : src.uv1[n]? = some (src.uv1.get ⟨n, by omega⟩) := by
      simp [List.getElem?_eq_getElem]
    rw [keptEntries_snoc _ _ fid n _ uv hvn huv, keptEntries_snoc _ _ fid n _ uv hun huv]
    by_cases hk : CityObjectIndex.fromUV uv = fid
    · simp only [hk, if_true] at hstep
      obtain ⟨v, hv', hstep⟩ := bind_eq_ok hstep
      obtain ⟨t, ht', hstep⟩ := bind_eq_ok hstep
      rw [vecAt_eq_ok] at hv' ht'
      rw [hvn] at hv'
      rw [hun] at ht'
      simp only [pure, Except.pure, Except.ok.injEq] at hstep
      subst hstep
      cases hv'; cases ht'
      simp [hk, e1, e2]
    · simp only [hk, if_false, pure, Except.pure, Except.ok.injEq] at hstep
      subst hstep
      simp [hk, e1, e2]

/-- The vertex loop runs to its end when the three per-vertex arrays are long enough. -/
theorem vertexLoop_total (src : Mesh) (fid : CityObjectIndex) (r : Int) :
    ∀ (n : Nat), n ≤ src.vertices.length → n ≤ src.uv1.length → n ≤ src.uv4.length →
      ∃ st, vertexLoop src fid r n = Except.ok st := by
  intro n
  induction n with
  | zero => intro _ _ _; exact ⟨_, rfl⟩
  | succ n ih =>
    intro hv hu h4
    obtain ⟨st, hst⟩ := ih (by omega) (by omega) (by omega)
    simp only [vertexLoop, hst, bind_ok_eq]
    unfold vertexStep
    rw [vecAt_of_lt (show n < src.uv4.length by omega), bind_ok_eq]
    by_cases hk : CityObjectIndex.fromUV (src.uv4.get ⟨n, by omega⟩) = fid
    · simp only [hk, if_true]
      rw [vecAt_of_lt (show n < src.vertices.length by omega), bind_ok_eq,
        vecAt_of_lt (show n < src.uv1.length by omega), bind_ok_eq]
      exact ⟨_, rfl⟩
    · simp only [hk, if_false]
      exact ⟨_, rfl⟩

/-! ## The index pass -/

theorem filter_getElem?_countP {α : Type} (p : α → Bool) :
    ∀ (l : List α) (j : Nat) (a : α), l[j]? = some a → p a = true →
      (l.filter p)[(l.take j).countP p]? = some a := by
  intro l
  induction l with
  | nil => intro j a h; simp at h
  | cons x xs ih =>
    intro j a h hp
    cases j with
    | zero =>
      simp at h
      subst h
      simp [List.filter_cons, hp]
    | succ j =>
      simp at h
      have := ih j a h hp
      by_cases hx : p x = true
      · simp [List.filter_cons, hx, List.countP_cons, this]
      · simp [List.filter_cons, hx, List.countP_cons, this]

theorem indexTransformFrom_length (keep : Nat → Bool) :
    ∀ (idxs : List Nat) (c : Nat), (indexTransformFrom keep idxs c).length = idxs.length := by
  intro idxs
  induction idxs with
  | nil => intro c; rfl
  | cons x xs ih =>
    intro c
    by_cases hx : keep x = true <;> simp [indexTransformFrom, hx, ih]

theorem indexTransformFrom_getElem? (keep : Nat → Bool) :
    ∀ (idxs : List Nat) (c : Nat) (j : Nat) (x : Nat), idxs[j]? = some x →
      (indexTransformFrom keep idxs c)[j]? =
        some (if keep x then ((c + (idxs.take j).countP keep : Nat) : Int) else -1) := by
  intro idxs
  induction idxs with
  | nil => intro c j x h; simp at h
  | cons y ys ih =>
    intro c j x h
    cases j with
    | zero =>
      simp at h
      subst h
      by_cases hx : keep y = true <;> simp [indexTransformFrom, hx]
    | succ j =>
      simp at h
      by_cases hy : keep y = true
      · simp only [indexTransformFrom, hy, if_true, List.getElem?_cons_succ, List.take_succ_cons,
          List.countP_cons]
        rw [ih (c + 1) j x h]
        simp [Nat.add_comm, Nat.add_left_comm]
      · simp only [indexTransformFrom, hy, Bool.false_eq_true, if_false,
          List.getElem?_cons_succ, List.take_succ_cons, List.countP_cons]
        rw [ih c j x h]
        simp

/-- The index loop in closed form, for a `vert_id_transform` that sends the kept vertex `i`
to `new_id i` and every other vertex to `-1`. -/
theorem indexLoop_spec (vt : List Int) (keep : Nat → Bool) (new_id : Nat → Nat)
    (hvt : ∀ i, i < vt.length → vt[i]? = some (if keep i then (new_id i : Int) else -1)) :
    ∀ (idxs : List Nat) (di : List Nat) (it : List Int) (di' : List Nat) (it' : List Int),
      indexLoop vt idxs (di, it) = Except.ok (di', it') →
        (∀ x ∈ idxs, x < vt.length) ∧
        di' = di ++ (idxs.filter keep).map new_id ∧
        it' = it ++ indexTransformFrom keep idxs di.length := by
  intro idxs
  induction idxs with
  | nil =>
    intro di it di' it' h
    simp only [indexLoop, Except.ok.injEq, Prod.mk.injEq] at h
    obtain ⟨h1, h2⟩ := h
    subst h1; subst h2
    simp [indexTransformFrom]
  | cons x xs ih =>
    intro di it di' it' h
    simp only [indexLoop] at h
    obtain ⟨k, hk, h⟩ := bind_eq_ok h
    rw [vecAt_eq_ok] at hk
    have hx := getElem?_some_lt hk
    rw [hvt x hx] at hk
    by_cases hkx : keep x = true
    · simp only [hkx, if_true, Option.some.injEq] at hk
      subst hk
      have hnn : ¬ ((new_id x : Int) < 0) := by omega
      simp only [hnn, if_false] at h
      obtain ⟨h1, h2, h3⟩ := ih _ _ _ _ h
      refine ⟨?_, ?_, ?_⟩
      · intro y hy
        rcases List.mem_cons.mp hy with e | e
        · subst e; exact hx
        · exact h1 y e
      · simp [h2, List.filter_cons, hkx]
      · simp [h3, indexTransformFrom, hkx]
    · simp only [hkx, Option.some.injEq] at hk
      simp only [Bool.false_eq_true, if_false] at hk
      subst hk
      simp only [show ((-1 : Int) < 0) from by omega, if_true] at h
      obtain ⟨h1, h2, h3⟩ := ih _ _ _ _ h
      refine ⟨?_, ?_, ?_⟩
      · intro y hy
        rcases List.mem_cons.mp hy with e | e
        · subst e; exact hx
        · exact h1 y e
      · simp [h2, List.filter_cons, hkx]
      · simp [h3, indexTransformFrom, hkx]

/-- The index loop runs to its end when every index is a position of `vert_id_transform`. -/
theorem indexLoop_total (vt : List Int) :
    ∀ (idxs : List Nat) (acc : List Nat × List Int), (∀ x ∈ idxs, x < vt.length) →
      ∃ r, indexLoop vt idxs acc = Except.ok r := by
  intro idxs
  induction idxs with
  | nil => intro acc _; exact ⟨acc, rfl⟩
  | cons x xs ih =>
    intro acc h
    obtain ⟨di, it⟩ := acc
    have hx : x < vt.length := h x (List.mem_cons_self _ _)
    have hxs : ∀ y ∈ xs, y < vt.length := fun y hy => h y (List.mem_cons_of_mem _ hy)
    simp only [indexLoop, vecAt_of_lt hx, bind_ok_eq]
    by_cases hk : vt.get ⟨x, hx⟩ < 0
    · simp only [hk, if_true]
      exact ih _ hxs
    · simp only [hk, if_false]
      exact ih _ hxs

/-! ## The sub-mesh pass -/

theorem advanceStart_spec :
    ∀ (suffix : List Int) (s e s' : Nat), advanceStart suffix s e = Except.ok s' →
      s ≤ s' ∧ (∀ k, k < s' - s → DeletedAt suffix k) ∧
      (s' ≤ e → ∃ t, MovedTo suffix (s' - s) t) := by
  intro suffix
  induction suffix with
  | nil => intro s e s' h; simp [advanceStart] at h
  | cons t rest ih =>
    intro s e s' h
    simp only [advanceStart] at h
    by_cases ht : t < 0
    · simp only [ht, if_true] at h
      by_cases hb : s + 1 > e
      · simp only [hb, if_true, Except.ok.injEq] at h
        subst h
        refine ⟨by omega, ?_, ?_⟩
        · intro k hk
          have : k = 0 := by omega
          subst this
          exact ⟨t, by simp, ht⟩
        · intro h'; omega
      · simp only [hb, if_false] at h
        obtain ⟨h1, h2, h3⟩ := ih (s + 1) e s' h
        refine ⟨by omega, ?_, ?_⟩
        · intro k hk
          cases k with
          | zero => exact ⟨t, by simp, ht⟩
          | succ k =>
            obtain ⟨u, hu, hu'⟩ := h2 k (by omega)
            exact ⟨u, by simpa using hu, hu'⟩
        · intro h'
          obtain ⟨u, hu, hu'⟩ := h3 h'
          refine ⟨u, ?_, hu'⟩
          have : s' - s = (s' - (s + 1)) + 1 := by omega
          rw [this]
          simpa using hu
    · simp only [ht, if_false, Except.ok.injEq] at h
      subst h
      refine ⟨Nat.le_refl _, ?_, ?_⟩
      · intro k hk; omega
      · intro _
        exact ⟨t, by simp, by omega⟩

theorem advanceStart_total :
    ∀ (suffix : List Int) (s e : Nat), e + 1 - s ≤ suffix.length → 0 < suffix.length →
      ∃ s', advanceStart suffix s e = Except.ok s' := by
  intro suffix
  induction suffix with
  | nil => intro s e _ h; simp at h
  | cons t rest ih =>
    intro s e h _
    simp only [advanceStart]
    by_cases ht : t < 0
    · simp only [ht, if_true]
      by_cases hb : s + 1 > e
      · simp only [hb, if_true]; exact ⟨_, rfl⟩
      · simp only [hb, if_false]
        simp only [List.length_cons] at h
        exact ih (s + 1) e (by omega) (by omega)
    · simp only [ht, if_false]; exact ⟨_, rfl⟩

theorem retractEnd_spec (tr : List Int) (s : Nat) :
    ∀ (e e' : Nat), retractEnd tr s e = Except.ok e' →
      e' ≤ e ∧ (∀ p, e' < p → p ≤ e → DeletedAt tr p) ∧
      (s ≤ e' → ∃ t, MovedTo tr e' t) := by
  intro e
  induction e with
  | zero =>
    intro e' h
    simp only [retractEnd] at h
    obtain ⟨t, ht, h⟩ := bind_eq_ok h
    rw [vecAt_eq_ok] at ht
    by_cases hneg : t < 0
    · simp [hneg] at h
    · simp only [hneg, if_false, pure, Except.pure, Except.ok.injEq] at h
      subst h
      exact ⟨Nat.le_refl _, fun p h1 h2 => by omega, fun _ => ⟨t, ht, by omega⟩⟩
  | succ e ih =>
    intro e' h
    simp only [retractEnd] at h
    obtain ⟨t, ht, h⟩ := bind_eq_ok h
    rw [vecAt_eq_ok] at ht
    by_cases hneg : t < 0
    · simp only [hneg, if_true] at h
      by_cases hb : e < s
      · simp only [hb, if_true, pure, Except.pure, Except.ok.injEq] at h
        subst h
        refine ⟨by omega, ?_, fun h' => by omega⟩
        intro p h1 h2
        have : p = e + 1 := by omega
        subst this
        exact ⟨t, ht, hneg⟩
      · simp only [hb, if_false] at h
        obtain ⟨h1, h2, h3⟩ := ih e' h
        refine ⟨by omega, ?_, h3⟩
        intro p hp1 hp2
        rcases Nat.lt_or_ge e p with h4 | h4
        · have : p = e + 1 := by omega
          subst this
          exact ⟨t, ht, hneg⟩
        · exact h2 p hp1 h4
    · simp only [hneg, if_false, pure, Except.pure, Except.ok.injEq] at h
      subst h
      exact ⟨Nat.le_refl _, fun p h1 h2 => by omega, fun _ => ⟨t, ht, by omega⟩⟩

theorem not_deleted_of_moved {tr : List Int} {p : Nat} {t : Int} (h : MovedTo tr p t) :
    ¬ DeletedAt tr p := by
  rintro ⟨u, hu, hu'⟩
  obtain ⟨h1, h2⟩ := h
  rw [h1] at hu
  cases hu
  omega

/-- The second `while` returns when `src_start` survives and `src_end` is a position of
`indices_id_transform`. -/
theorem retractEnd_total (tr : List Int) (s : Nat) (ts : Int) (hs : MovedTo tr s ts) :
    ∀ (e : Nat), s ≤ e → e < tr.length → ∃ e', retractEnd tr s e = Except.ok e' := by
  intro e
  induction e with
  | zero =>
    intro h1 h2
    have : s = 0 := by omega
    subst this
    simp only [retractEnd, vecAt_of_lt h2, bind_ok_eq]
    obtain ⟨h3, h4⟩ := hs
    simp only [List.getElem?_eq_getElem h2, Option.some.injEq] at h3
    have : ¬ (tr.get ⟨0, h2⟩ < 0) := by
      have : tr.get ⟨0, h2⟩ = ts := h3
      omega
    simp only [this, if_false]
    exact ⟨0, rfl⟩
  | succ e ih =>
    intro h1 h2
    simp only [retractEnd, vecAt_of_lt h2, bind_ok_eq]
    by_cases hneg : tr.get ⟨e + 1, h2⟩ < 0
    · simp only [hneg, if_true]
      by_cases hb : e < s
      · simp only [hb, if_true]; exact ⟨e, rfl⟩
      · simp only [hb, if_false]
        exact ih (by omega) (by omega)
    · simp only [hneg, if_false]
      exact ⟨e + 1, rfl⟩

/-- The second `while` is left at or above `src_start` when `src_start` itself survives and
is not above `src_end`: the test of line 177 then fails. -/
theorem retractEnd_ge (tr : List Int) (s e e' : Nat) (ts : Int) (hs : MovedTo tr s ts)
    (hse : s ≤ e) (h : retractEnd tr s e = Except.ok e') : s ≤ e' := by
  obtain ⟨_, h2, _⟩ := retractEnd_spec tr s e e' h
  by_contra hlt
  exact not_deleted_of_moved hs (h2 s (by omega) hse)

theorem deletedAt_drop {tr : List Int} {s k : Nat} (h : DeletedAt (tr.drop s) k) :
    DeletedAt tr (s + k) := by
  obtain ⟨t, ht, hneg⟩ := h
  exact ⟨t, by simpa [List.getElem?_drop] using ht, hneg⟩

theorem movedTo_drop {tr : List Int} {s k : Nat} {t : Int} (h : MovedTo (tr.drop s) k t) :
    MovedTo tr (s + k) t := by
  obtain ⟨ht, hnn⟩ := h
  exact ⟨by simpa [List.getElem?_drop] using ht, hnn⟩

/-- What one iteration of the sub-mesh loop returns: never the outer `break`; `continue`
only on a range whose positions are all deleted; otherwise the sub-mesh between the images of
the first and the last surviving position of the range. -/
theorem subMeshStep_spec (tr : List Int) (sm : SubMesh) (st : SubMeshStep)
    (h : subMeshStep tr sm = Except.ok st) :
    match st with
    | .stop => False
    | .skip => ∀ p, sm.start_index ≤ p → p ≤ sm.end_index → DeletedAt tr p
    | .emit d => ∃ s' e' ts te, sm.start_index ≤ s' ∧ s' ≤ e' ∧ e' ≤ sm.end_index ∧
        MovedTo tr s' ts ∧ MovedTo tr e' te ∧
        (∀ p, sm.start_index ≤ p → p < s' → DeletedAt tr p) ∧
        (∀ p, e' < p → p ≤ sm.end_index → DeletedAt tr p) ∧
        d = { sm with start_index := ts.toNat, end_index := te.toNat } := by
  unfold subMeshStep at h
  obtain ⟨s', hs', h⟩ := bind_eq_ok h
  obtain ⟨ha1, ha2, ha3⟩ := advanceStart_spec _ _ _ _ hs'
  have hdel : ∀ p, sm.start_index ≤ p → p < s' → DeletedAt tr p := by
    intro p hp1 hp2
    have := deletedAt_drop (ha2 (p - sm.start_index) (by omega))
    rwa [show sm.start_index + (p - sm.start_index) = p from by omega] at this
  by_cases hgt : s' > sm.end_index
  · simp only [hgt, if_true, pure, Except.pure, Except.ok.injEq] at h
    subst h
    intro p hp1 hp2
    exact hdel p hp1 (by omega)
  · simp only [hgt, if_false] at h
    obtain ⟨ts, hts⟩ := ha3 (by omega)
    have hts' : MovedTo tr s' ts := by
      have := movedTo_drop hts
      rwa [show sm.start_index + (s' - sm.start_index) = s' from by omega] at this
    obtain ⟨e', hr, h⟩ := bind_eq_ok h
    obtain ⟨he1, he3, he4⟩ := retractEnd_spec tr s' sm.end_index e' hr
    have hge := retractEnd_ge tr s' sm.end_index e' ts hts' (by omega) hr
    obtain ⟨te, hte⟩ := he4 hge
    rw [if_neg (by omega)] at h
    obtain ⟨ds, hds, h⟩ := bind_eq_ok h
    obtain ⟨de, hde, h⟩ := bind_eq_ok h
    rw [vecAt_eq_ok] at hds hde
    simp only [pure, Except.pure, Except.ok.injEq] at h
    subst h
    have e1 : ds = ts := by
      have := hts'.1; rw [hds] at this; exact Option.some.inj this
    have e2 : de = te := by
      have := hte.1; rw [hde] at this; exact Option.some.inj this
    subst e1; subst e2
    exact ⟨s', e', ds, de, ha1, hge, he1, hts', hte, hdel, he3, rfl⟩

/-- An iteration of the sub-mesh loop returns when both ends of the source range are
positions of `indices_id_transform`. -/
theorem subMeshStep_total (tr : List Int) (sm : SubMesh) (hs : sm.start_index < tr.length)
    (he : sm.end_index < tr.length) : ∃ st, subMeshStep tr sm = Except.ok st := by
  unfold subMeshStep
  obtain ⟨s', hs'⟩ := advanceStart_total (tr.drop sm.start_index) sm.start_index sm.end_index
    (by simp; omega) (by simp; omega)
  obtain ⟨ha1, _, ha3⟩ := advanceStart_spec _ _ _ _ hs'
  rw [hs', bind_ok_eq]
  by_cases hgt : s' > sm.end_index
  · simp only [hgt, if_true]; exact ⟨_, rfl⟩
  · simp only [hgt, if_false]
    obtain ⟨ts, hts⟩ := ha3 (by omega)
    have hts' : MovedTo tr s' ts := by
      have := movedTo_drop hts
      rwa [show sm.start_index + (s' - sm.start_index) = s' from by omega] at this
    obtain ⟨e', hr⟩ := retractEnd_total tr s' ts hts' sm.end_index (by omega) he
    have hge := retractEnd_ge tr s' sm.end_index e' ts hts' (by omega) hr
    obtain ⟨_, _, he4⟩ := retractEnd_spec tr s' sm.end_index e' hr
    obtain ⟨te, hte⟩ := he4 hge
    rw [hr, bind_ok_eq, if_neg (by omega)]
    rw [vecAt_eq_ok.mpr hts'.1, bind_ok_eq, vecAt_eq_ok.mpr hte.1, bind_ok_eq]
    exact ⟨_, rfl⟩

/-- The sub-mesh loop as a list of per-sub-mesh results: the output is the list of emitted
sub-meshes, one iteration per source sub-mesh (no iteration leaves the loop early). -/
theorem subMeshLoop_spec (tr : List Int) :
    ∀ (sms acc out : List SubMesh), subMeshLoop tr sms acc = Except.ok out →
      ∃ steps : List SubMeshStep,
        List.Forall₂ (fun sm st => subMeshStep tr sm = Except.ok st) sms steps ∧
        out = acc ++ steps.filterMap SubMeshStep.emitted := by
  intro sms
  induction sms with
  | nil =>
    intro acc out h
    simp only [subMeshLoop, Except.ok.injEq] at h
    exact ⟨[], List.Forall₂.nil, by simp [h]⟩
  | cons sm rest ih =>
    intro acc out h
    simp only [subMeshLoop] at h
    obtain ⟨st, hst, h⟩ := bind_eq_ok h
    have hsp := subMeshStep_spec tr sm st hst
    cases st with
    | stop => exact hsp.elim
    | skip =>
      simp only at h
      obtain ⟨steps, h1, h2⟩ := ih acc out h
      exact ⟨.skip :: steps, List.Forall₂.cons hst h1, by simp [h2, SubMeshStep.emitted]⟩
    | emit d =>
      simp only at h
      obtain ⟨steps, h1, h2⟩ := ih _ out h
      exact ⟨.emit d :: steps, List.Forall₂.cons hst h1, by simp [h2, SubMeshStep.emitted]⟩

theorem subMeshLoop_total (tr : List Int) :
    ∀ (sms acc : List SubMesh),
      (∀ sm ∈ sms, sm.start_index < tr.length ∧ sm.end_index < tr.length) →
      ∃ out, subMeshLoop tr sms acc = Except.ok out := by
  intro sms
  induction sms with
  | nil => intro acc _; exact ⟨acc, rfl⟩
  | cons sm rest ih =>
    intro acc h
    obtain ⟨h1, h2⟩ := h sm (List.mem_cons_self _ _)
    have hrest : ∀ x ∈ rest, x.start_index < tr.length ∧ x.end_index < tr.length :=
      fun x hx => h x (List.mem_cons_of_mem _ hx)
    obtain ⟨st, hst⟩ := subMeshStep_total tr sm h1 h2
    have hsp := subMeshStep_spec tr sm st hst
    simp only [subMeshLoop, hst, bind_ok_eq]
    cases st with
    | stop => exact hsp.elim
    | skip => exact ih acc hrest
    | emit d => exact ih _ hrest

/-! ## Putting the three passes together -/

theorem countP_take_lt {α : Type} (p : α → Bool) (l : List α) (j : Nat) (a : α)
    (h : l[j]? = some a) (hp : p a = true) : (l.take j).countP p < l.countP p := by
  have h1 := filter_getElem?_countP p l j a h hp
  have h2 := getElem?_some_lt h1
  rwa [← List.countP_eq_length_filter] at h2

theorem countP_take_mono {α : Type} (p : α → Bool) (l : List α) {i j : Nat} (h : i ≤ j) :
    (l.take i).countP p ≤ (l.take j).countP p := by
  have : l.take i = (l.take j).take i := by
    rw [List.take_take, Nat.min_eq_left h]
  rw [this]
  exact List.Sublist.countP_le _ (List.take_sublist _ _)

theorem countP_take_strict {α : Type} (p : α → Bool) (l : List α) {i j : Nat} (a : α)
    (h : i < j) (hi : l[i]? = some a) (hp : p a = true) :
    (l.take i).countP p < (l.take j).countP p := by
  have hlt := getElem?_some_lt hi
  have h1 : (l.take j)[i]? = some a := by
    rw [List.getElem?_take_of_lt h]; exact hi
  have := countP_take_lt p (l.take j) i a h1 hp
  rwa [List.take_take, Nat.min_eq_left (Nat.le_of_lt h)] at this

theorem survives_iff {src : Mesh} {fid : CityObjectIndex} {j : Nat} :
    survives src fid j = true ↔ ∃ x, src.indices[j]? = some x ∧ keepsVertex src fid x = true := by
  unfold survives
  cases h : src.indices[j]? <;> simp

theorem indicesIdTransform_length (src : Mesh) (fid : CityObjectIndex) :
    (indicesIdTransform src fid).length = src.indices.length :=
  indexTransformFrom_length _ _ _

theorem indicesIdTransform_getElem? (src : Mesh) (fid : CityObjectIndex) (j : Nat)
    (h : j < src.indices.length) :
    (indicesIdTransform src fid)[j]? =
      some (if survives src fid j then (survivorsBefore src fid j : Int) else -1) := by
  have hx : src.indices[j]? = some (src.indices.get ⟨j, h⟩) := by
    simp [List.getElem?_eq_getElem h]
  unfold indicesIdTransform
  rw [indexTransformFrom_getElem? _ _ 0 j _ hx]
  simp [survives, hx, survivorsBefore]

theorem movedTo_iff (src : Mesh) (fid : CityObjectIndex) (p : Nat) (t : Int) :
    MovedTo (indicesIdTransform src fid) p t ↔
      survives src fid p = true ∧ t = (survivorsBefore src fid p : Int) := by
  constructor
  · rintro ⟨h1, h2⟩
    have hp := getElem?_some_lt h1
    rw [indicesIdTransform_length] at hp
    rw [indicesIdTransform_getElem? src fid p hp] at h1
    by_cases hs : survives src fid p = true
    · simp only [hs, if_true, Option.some.injEq] at h1
      exact ⟨hs, h1.symm⟩
    · simp only [hs, Bool.false_eq_true, if_false, Option.some.injEq] at h1
      omega
  · rintro ⟨h1, h2⟩
    obtain ⟨x, hx, _⟩ := survives_iff.mp h1
    have hp := getElem?_some_lt hx
    refine ⟨?_, by omega⟩
    rw [indicesIdTransform_getElem? src fid p hp]
    simp [h1, h2]

theorem deletedAt_iff (src : Mesh) (fid : CityObjectIndex) (p : Nat) :
    DeletedAt (indicesIdTransform src fid) p ↔
      p < src.indices.length ∧ survives src fid p = false := by
  constructor
  · rintro ⟨t, h1, h2⟩
    have hp := getElem?_some_lt h1
    rw [indicesIdTransform_length] at hp
    rw [indicesIdTransform_getElem? src fid p hp] at h1
    by_cases hs : survives src fid p = true
    · simp only [hs, if_true, Option.some.injEq] at h1
      omega
    · exact ⟨hp, by simpa using hs⟩
  · rintro ⟨hp, hs⟩
    refine ⟨-1, ?_, by omega⟩
    rw [indicesIdTransform_getElem? src fid p hp]
    simp [hs]

/-- The three loops behind a successful call of `filterByCityObjIndex`, with the index pass
in closed form. -/
theorem filter_unfold (src : Mesh) (fid : CityObjectIndex) (r : Int) (out : Mesh)
    (h : filterByCityObjIndex src fid r = Except.ok out) :
    ∃ vp, vertexLoop src fid r src.vertices.length = Except.ok vp ∧
      (∀ x ∈ src.indices, x < src.vertices.length) ∧
      subMeshLoop (indicesIdTransform src fid) src.sub_meshes [] = Except.ok out.sub_meshes ∧
      out.vertices = vp.dst_vertices ∧ out.uv1 = vp.dst_uv1 ∧ out.uv4 = vp.dst_uv4 ∧
      out.indices = (src.indices.filter (fun x => keepsVertex src fid x)).map (keptBefore src fid) ∧
      out.city_object_list = [] := by
  unfold filterByCityObjIndex at h
  obtain ⟨vp, hvp, h⟩ := bind_eq_ok h
  obtain ⟨⟨di, it⟩, hidx, h⟩ := bind_eq_ok h
  simp only at h
  obtain ⟨sms, hsms, h⟩ := bind_eq_ok h
  simp only [pure, Except.pure, Except.ok.injEq] at h
  obtain ⟨hlen, _, _, _, _, _, hvt, _⟩ := vertexLoop_inv src fid r _ vp hvp
  have hvt' : ∀ i, i < vp.vert_id_transform.length → vp.vert_id_transform[i]? =
      some (if (fun x => keepsVertex src fid x) i then (keptBefore src fid i : Int) else -1) := by
    intro i hi
    exact hvt i (by omega)
  obtain ⟨h1, h2, h3⟩ := indexLoop_spec _ _ _ hvt' _ _ _ _ _ hidx
  simp only [List.nil_append, List.length_nil] at h2 h3
  refine ⟨vp, hvp, ?_, ?_, ?_, ?_, ?_, ?_, ?_⟩
  · intro x hx; have := h1 x hx; omega
  · subst h; subst h3
    exact hsms
  all_goals
    subst h
    simp [Mesh.empty, Mesh.addVerticesList, Mesh.addIndicesList, Mesh.setUV1, Mesh.setUV4,
      Mesh.setSubMeshes, h2]

/-- On a well-formed mesh `filterByCityObjIndex` returns a mesh, for every filter id. -/
theorem filter_total (src : Mesh) (fid : CityObjectIndex) (r : Int) (hw : src.WellFormed) :
    ∃ out, filterByCityObjIndex src fid r = Except.ok out := by
  obtain ⟨h1, h4, hidx, hsm⟩ := hw
  obtain ⟨vp, hvp⟩ := vertexLoop_total src fid r src.vertices.length (Nat.le_refl _)
    (by omega) (by omega)
  obtain ⟨hlen, _, _, _, _, _, hvt, _⟩ := vertexLoop_inv src fid r _ vp hvp
  obtain ⟨⟨di, it⟩, hi⟩ := indexLoop_total vp.vert_id_transform src.indices ([], [])
    (by intro x hx; have := hidx x hx; omega)
  have hvt' : ∀ i, i < vp.vert_id_transform.length → vp.vert_id_transform[i]? =
      some (if (fun x => keepsVertex src fid x) i then (keptBefore src fid i : Int) else -1) := by
    intro i hi
    exact hvt i (by omega)
  obtain ⟨_, _, h3⟩ := indexLoop_spec _ _ _ hvt' _ _ _ _ _ hi
  simp only [List.nil_append, List.length_nil] at h3
  have hitlen : it.length = src.indices.length := by
    rw [h3]; exact indexTransformFrom_length _ _ _
  obtain ⟨sms, hs⟩ := subMeshLoop_total it src.sub_meshes [] (by
    intro sm hsm'
    have := hsm sm hsm'
    omega)
  unfold filterByCityObjIndex
  simp only [hvp, bind_ok_eq, hi, hs]
  exact ⟨_, rfl⟩

theorem hasSurvivor_iff (src : Mesh) (fid : CityObjectIndex) (sm : SubMesh) :
    hasSurvivor src fid sm = true ↔
      ∃ p, sm.start_index ≤ p ∧ p ≤ sm.end_index ∧ survives src fid p = true := by
  unfold hasSurvivor
  rw [List.any_eq_true]
  constructor
  · rintro ⟨k, hk, hs⟩
    rw [List.mem_range] at hk
    exact ⟨sm.start_index + k, by omega, by omega, hs⟩
  · rintro ⟨p, h1, h2, hs⟩
    refine ⟨p - sm.start_index, by rw [List.mem_range]; omega, ?_⟩
    rwa [show sm.start_index + (p - sm.start_index) = p from by omega]

theorem survivorsBefore_lt_total (src : Mesh) (fid : CityObjectIndex) (p : Nat)
    (h : survives src fid p = true) :
    survivorsBefore src fid p < (src.indices.filter (fun x => keepsVertex src fid x)).length := by
  obtain ⟨x, hx, hk⟩ := survives_iff.mp h
  rw [← List.countP_eq_length_filter]
  exact countP_take_lt _ _ p x hx hk

/-- One iteration of the sub-mesh loop, read on the source mesh. -/
theorem subMeshStep_src (src : Mesh) (fid : CityObjectIndex) (sm : SubMesh) (st : SubMeshStep)
    (h : subMeshStep (indicesIdTransform src fid) sm = Except.ok st) :
    match st with
    | .stop => False
    | .skip => hasSurvivor src fid sm = false
    | .emit d => hasSurvivor src fid sm = true ∧
        ∃ s' e', sm.start_index ≤ s' ∧ s' ≤ e' ∧ e' ≤ sm.end_index ∧
          survives src fid s' = true ∧ survives src fid e' = true ∧
          (∀ p, sm.start_index ≤ p → p < s' → survives src fid p = false) ∧
          (∀ p, e' < p → p ≤ sm.end_index →
            p < src.indices.length ∧ survives src fid p = false) ∧
          d = { sm with start_index := survivorsBefore src fid s',
                        end_index := survivorsBefore src fid e' } := by
  have hsp := subMeshStep_spec _ sm st h
  cases st with
  | stop => exact hsp
  | skip =>
    simp only at hsp ⊢
    rw [Bool.eq_false_iff]
    intro hs
    obtain ⟨p, h1, h2, h3⟩ := (hasSurvivor_iff src fid sm).mp hs
    have := ((deletedAt_iff src fid p).mp (hsp p h1 h2)).2
    rw [h3] at this; cases this
  | emit d =>
    simp only at hsp ⊢
    obtain ⟨s', e', ts, te, h1, h2, h3, h4, h5, h6, h7, h8⟩ := hsp
    obtain ⟨hs1, hs2⟩ := (movedTo_iff src fid s' ts).mp h4
    obtain ⟨he1, he2⟩ := (movedTo_iff src fid e' te).mp h5
    refine ⟨(hasSurvivor_iff src fid sm).mpr ⟨s', h1, by omega, hs1⟩, s', e', h1, h2, h3, hs1, he1,
      fun p hp1 hp2 => ((deletedAt_iff src fid p).mp (h6 p hp1 hp2)).2,
      fun p hp1 hp2 => (deletedAt_iff src fid p).mp (h7 p hp1 hp2), ?_⟩
    rw [h8, hs2, he2]
    simp

/-- From the per-iteration results to the list of emitted sub-meshes: they pair off, in
order, with the source sub-meshes that have a survivor. -/
theorem emitted_forall₂ (src : Mesh) (fid : CityObjectIndex) (Q : SubMesh → SubMesh → Prop)
    (hQ : ∀ sm d, subMeshStep (indicesIdTransform src fid) sm = Except.ok (.emit d) → Q d sm) :
    ∀ (sms : List SubMesh) (steps : List SubMeshStep),
      List.Forall₂ (fun sm st => subMeshStep (indicesIdTransform src fid) sm = Except.ok st)
        sms steps →
      List.Forall₂ Q (steps.filterMap SubMeshStep.emitted)
        (sms.filter (fun sm => hasSurvivor src fid sm)) := by
  intro sms steps h
  induction h with
  | nil => exact List.Forall₂.nil
  | @cons sm st sms' steps' hst _ ih =>
    have hsp := subMeshStep_src src fid sm st hst
    cases st with
    | stop => exact hsp.elim
    | skip =>
      simp only at hsp
      simpa [SubMeshStep.emitted, List.filter_cons, hsp] using ih
    | emit d =>
      simp only at hsp
      simp only [List.filterMap_cons, SubMeshStep.emitted, List.filter_cons, hsp.1, if_true]
      exact List.Forall₂.cons (hQ sm d hst) ih

/-! ## Properties of `filterByCityObjIndex` -/

/-- C1: for a mesh with `|uv1| = |uv4| = |vertices|`, the vertices of the mesh returned by
`filterByCityObjIndex` are exactly the source vertices whose `uv4` decodes to `filter_id`, in
source order (hence the same multiset), and the returned `uv1` is the `uv1` of the same
positions in the same order. -/
theorem filterByCityObjIndex_vertices (src : Mesh) (filter_id : CityObjectIndex) (r : Int)
    (out : Mesh) (h1 : src.uv1.length = src.vertices.length)
    (h4 : src.uv4.length = src.vertices.length)
    (h : filterByCityObjIndex src filter_id r = Except.ok out) :
    out.vertices = keptEntries src.vertices src.uv4 filter_id ∧
    out.uv1 = keptEntries src.uv1 src.uv4 filter_id ∧
    (out.vertices : Multiset TVec3d) =
      ((src.vertices.zip src.uv4 : Multiset (TVec3d × TVec2f)).filter
        (fun p => CityObjectIndex.fromUV p.2 = filter_id)).map Prod.fst := by
  obtain ⟨vp, hvp, _, _, hv, hu, _, _, _⟩ := filter_unfold src filter_id r out h
  obtain ⟨e1, e2⟩ := vertexLoop_entries src filter_id r _ vp hvp (Nat.le_refl _) (by omega)
  have t1 : List.take src.vertices.length src.vertices = src.vertices := List.take_length _
  have t4 : List.take src.vertices.length src.uv4 = src.uv4 := by
    rw [← h4]; exact List.take_length _
  have tu : List.take src.vertices.length src.uv1 = src.uv1 := by
    rw [← h1]; exact List.take_length _
  rw [t1, t4] at e1
  rw [tu, t4] at e2
  refine ⟨by rw [hv, e1], by rw [hu, e2], ?_⟩
  rw [hv, e1]
  simp [keptEntries]

/-- Witness of C1 on Scenario B's mesh, filtered by tag `(0,1)`. -/
theorem filterByCityObjIndex_vertices_witness :
    filterByCityObjIndex scenarioBMesh ⟨0, 1⟩ 0 = Except.ok scenarioBAtomic1 ∧
    scenarioBAtomic1.vertices = keptEntries scenarioBMesh.vertices scenarioBMesh.uv4 ⟨0, 1⟩ ∧
    scenarioBAtomic1.uv1 = keptEntries scenarioBMesh.uv1 scenarioBMesh.uv4 ⟨0, 1⟩ :=
  ⟨by decide,
   (filterByCityObjIndex_vertices scenarioBMesh ⟨0, 1⟩ 0 scenarioBAtomic1 (by decide) (by decide)
      (by decide)).1,
   (filterByCityObjIndex_vertices scenarioBMesh ⟨0, 1⟩ 0 scenarioBAtomic1 (by decide) (by decide)
      (by decide)).2.1⟩

/-- C2: for a mesh with parallel per-vertex arrays, the mesh returned by
`filterByCityObjIndex` has `|vertices| = |uv1| = |uv4|`, and this length is the number of
source vertices whose `uv4` decodes to the filter id. -/
theorem filterByCityObjIndex_lengths (src : Mesh) (filter_id : CityObjectIndex) (r : Int)
    (out : Mesh) (h4 : src.uv4.length = src.vertices.length)
    (h : filterByCityObjIndex src filter_id r = Except.ok out) :
    out.vertices.length = out.uv1.length ∧ out.uv1.length = out.uv4.length ∧
    out.vertices.length =
      src.uv4.countP (fun uv => decide (CityObjectIndex.fromUV uv = filter_id)) := by
  obtain ⟨vp, hvp, _, _, hv, hu, hu4, _, _⟩ := filter_unfold src filter_id r out h
  obtain ⟨_, _, hcur, hdv, hdu, hd4, _, _⟩ := vertexLoop_inv src filter_id r _ vp hvp
  rw [hv, hu, hu4, hd4, hdv, hdu, hcur]
  refine ⟨rfl, by simp, ?_⟩
  unfold keptBefore
  rw [← h4, List.take_length]

/-- Witness of C2 on Scenario B's mesh, filtered by tag `(0,0)`. -/
theorem filterByCityObjIndex_lengths_witness :
    filterByCityObjIndex scenarioBMesh ⟨0, 0⟩ 0 = Except.ok scenarioBAtomic0 ∧
    scenarioBAtomic0.vertices.length = 3 ∧
    scenarioBAtomic0.vertices.length = scenarioBMesh.uv4.countP
      (fun uv => decide (CityObjectIndex.fromUV uv = ⟨0, 0⟩)) :=
  ⟨by decide, by decide,
   (filterByCityObjIndex_lengths scenarioBMesh ⟨0, 0⟩ 0 scenarioBAtomic0 (by decide)
      (by decide)).2.2⟩

/-- C3 (as stated) fails: the replacement `16777217 = 2^24 + 1` is not a value of a 32-bit
float; Scenario A's mesh filtered by its tag `(0,0)` with that replacement has the `uv4`
entries `(0, 16777216)`, not `(0, 16777217)`. -/
theorem filterByCityObjIndex_uv4_counterexample :
    ∃ out, filterByCityObjIndex scenarioAMesh ⟨0, 0⟩ 16777217 = Except.ok out ∧
      out.uv4 = [⟨0, 16777216⟩, ⟨0, 16777216⟩, ⟨0, 16777216⟩] ∧
      ¬ ∀ uv ∈ out.uv4, uv = (⟨0, ((16777217 : Int) : ℚ)⟩ : TVec2f) :=
  ⟨{ scenarioAMesh with
      uv4 := [⟨0, 16777216⟩, ⟨0, 16777216⟩, ⟨0, 16777216⟩], city_object_list := [] },
    by decide!, rfl, by decide!⟩

/-- C3 (amended): every entry of the `uv4` channel of the mesh returned by
`filterByCityObjIndex(src, filter_id, r)` is `(0, (float)r)`, whatever `filter_id` is: the
channel is that pair repeated once per returned vertex. It is `(0, r)` for every `r` that a
32-bit float holds exactly, and every `r` with `|r| ≤ 2^24` is such a value. -/
theorem filterByCityObjIndex_uv4 (src : Mesh) (filter_id : CityObjectIndex) (r : Int)
    (out : Mesh) (h : filterByCityObjIndex src filter_id r = Except.ok out) :
    ((∀ uv ∈ out.uv4, uv = (⟨0, (floatOfInt r : ℚ)⟩ : TVec2f)) ∧
      out.uv4 = List.replicate out.vertices.length ⟨0, (floatOfInt r : ℚ)⟩) ∧
    (floatOfInt r = r →
      (∀ uv ∈ out.uv4, uv = (⟨0, (r : ℚ)⟩ : TVec2f)) ∧
      out.uv4 = List.replicate out.vertices.length ⟨0, (r : ℚ)⟩) ∧
    (r.natAbs ≤ 2 ^ 24 → floatOfInt r = r) := by
  obtain ⟨vp, hvp, _, _, hv, _, hu4, _, _⟩ := filter_unfold src filter_id r out h
  obtain ⟨_, _, _, hdv, _, hd4, _, _⟩ := vertexLoop_inv src filter_id r _ vp hvp
  have e : out.uv4 = List.replicate out.vertices.length ⟨0, (floatOfInt r : ℚ)⟩ := by
    rw [hu4, hv, hd4, hdv]
  have hall : ∀ uv ∈ out.uv4, uv = (⟨0, (floatOfInt r : ℚ)⟩ : TVec2f) := by
    intro uv huv
    rw [e] at huv
    exact (List.mem_replicate.mp huv).2
  refine ⟨⟨hall, e⟩, ?_, ?_⟩
  · intro hr
    rw [hr] at hall e
    exact ⟨hall, e⟩
  · intro hr
    unfold floatOfInt
    simp only [if_pos hr]

/-- Witness of C3: Scenario B's mesh filtered by tag `(0,1)` with replacement `0`. -/
theorem filterByCityObjIndex_uv4_witness :
    filterByCityObjIndex scenarioBMesh ⟨0, 1⟩ 0 = Except.ok scenarioBAtomic1 ∧
    floatOfInt 0 = 0 ∧
    ∀ uv ∈ scenarioBAtomic1.uv4, uv = (⟨0, ((0 : Int) : ℚ)⟩ : TVec2f) :=
  ⟨by decide, by decide,
    ((filterByCityObjIndex_uv4 scenarioBMesh ⟨0, 1⟩ 0 scenarioBAtomic1 (by decide)).2.1
      (by decide)).1⟩

/-- C4: every value in the indices of the mesh returned by `filterByCityObjIndex` is strictly
below the number of returned vertices; in particular there are no indices when there are no
vertices. (A call that returns has found every source index below `|src.vertices|`.) -/
theorem filterByCityObjIndex_indices_lt (src : Mesh) (filter_id : CityObjectIndex) (r : Int)
    (out : Mesh) (h : filterByCityObjIndex src filter_id r = Except.ok out) :
    (∀ x ∈ out.indices, x < out.vertices.length) ∧
    (out.vertices = [] → out.indices = []) := by
  obtain ⟨vp, hvp, hidx, _, hv, _, _, hi, _⟩ := filter_unfold src filter_id r out h
  obtain ⟨_, _, hcur, hdv, _, _, _, _⟩ := vertexLoop_inv src filter_id r _ vp hvp
  have hall : ∀ x ∈ out.indices, x < out.vertices.length := by
    intro x hx
    rw [hi] at hx
    obtain ⟨y, hy, rfl⟩ := List.mem_map.mp hx
    obtain ⟨hy1, hy2⟩ := List.mem_filter.mp hy
    rw [hv, hdv, hcur]
    exact keptBefore_lt src filter_id (hidx y hy1) hy2
  refine ⟨hall, ?_⟩
  intro hnil
  cases hout : out.indices with
  | nil => rfl
  | cons x xs =>
    have := hall x (by rw [hout]; exact List.mem_cons_self _ _)
    rw [hnil] at this
    simp at this

/-- Witness of C4 on Scenario B's mesh, filtered by tag `(0,1)`. -/
theorem filterByCityObjIndex_indices_lt_witness :
    filterByCityObjIndex scenarioBMesh ⟨0, 1⟩ 0 = Except.ok scenarioBAtomic1 ∧
    ∀ x ∈ scenarioBAtomic1.indices, x < scenarioBAtomic1.vertices.length :=
  ⟨by decide,
   (filterByCityObjIndex_indices_lt scenarioBMesh ⟨0, 1⟩ 0 scenarioBAtomic1 (by decide)).1⟩

/-- C5: on a well-formed mesh `filterByCityObjIndex` returns a mesh whose indices are the
source indices with the entries that reference a dropped vertex deleted, in order, and the
rest renumbered; the surviving source position `j` lands at output position
`survivorsBefore j` and still points at the same vertex data. -/
theorem filterByCityObjIndex_renumbered (src : Mesh) (filter_id : CityObjectIndex) (r : Int)
    (hw : src.WellFormed) :
    ∃ out, filterByCityObjIndex src filter_id r = Except.ok out ∧
      out.indices = (src.indices.filter (fun x => keepsVertex src filter_id x)).map
        (keptBefore src filter_id) ∧
      ∀ j, survives src filter_id j = true →
        ∃ x k v, src.indices[j]? = some x ∧ src.vertices[x]? = some v ∧
          out.indices[survivorsBefore src filter_id j]? = some k ∧
          out.vertices[k]? = some v := by
  obtain ⟨out, h⟩ := filter_total src filter_id r hw
  obtain ⟨vp, hvp, hidx, _, hv, _, _, hi, _⟩ := filter_unfold src filter_id r out h
  obtain ⟨_, _, _, _, _, _, _, hdata⟩ := vertexLoop_inv src filter_id r _ vp hvp
  refine ⟨out, h, hi, ?_⟩
  intro j hj
  obtain ⟨x, hx, hk⟩ := survives_iff.mp hj
  have hxlt : x < src.vertices.length := hidx x (List.getElem?_mem hx)
  obtain ⟨v, _, hv1, _, hv2, _⟩ := hdata x hxlt hk
  refine ⟨x, keptBefore src filter_id x, v, hx, hv1, ?_, by rw [hv]; exact hv2⟩
  rw [hi, List.getElem?_map]
  have := filter_getElem?_countP (fun x => keepsVertex src filter_id x) src.indices j x hx hk
  unfold survivorsBefore
  rw [this]
  rfl

/-- Witness of C5 on Scenario B's mesh, filtered by tag `(0,1)`. -/
theorem filterByCityObjIndex_renumbered_witness :
    scenarioBMesh.WellFormed ∧
    ∃ out, filterByCityObjIndex scenarioBMesh ⟨0, 1⟩ 0 = Except.ok out ∧
      out.indices = (scenarioBMesh.indices.filter
        (fun x => keepsVertex scenarioBMesh ⟨0, 1⟩ x)).map (keptBefore scenarioBMesh ⟨0, 1⟩) :=
  ⟨by unfold Mesh.WellFormed; decide,
   (filterByCityObjIndex_renumbered scenarioBMesh ⟨0, 1⟩ 0
      (by unfold Mesh.WellFormed; decide)).imp (fun _ h => ⟨h.1, h.2.1⟩)⟩

/-- C6: the sub-meshes of the mesh returned by `filterByCityObjIndex` pair off, in order, with
the source sub-meshes that have a surviving index position (a subsequence of the source
sub-meshes: only the fully dropped ones are missing); each keeps its material and has
`0 ≤ start ≤ end < |out.indices|`. -/
theorem filterByCityObjIndex_subMeshes (src : Mesh) (filter_id : CityObjectIndex) (r : Int)
    (out : Mesh) (h : filterByCityObjIndex src filter_id r = Except.ok out) :
    List.Forall₂
      (fun o sm => o.material = sm.material ∧ 0 ≤ o.start_index ∧
        o.start_index ≤ o.end_index ∧ o.end_index < out.indices.length)
      out.sub_meshes (src.sub_meshes.filter (fun sm => hasSurvivor src filter_id sm)) ∧
    (src.sub_meshes.filter (fun sm => hasSurvivor src filter_id sm)).Sublist src.sub_meshes := by
  obtain ⟨vp, _, _, hsm, _, _, _, hi, _⟩ := filter_unfold src filter_id r out h
  obtain ⟨steps, hsteps, hout⟩ := subMeshLoop_spec _ _ _ _ hsm
  rw [List.nil_append] at hout
  refine ⟨?_, List.filter_sublist _⟩
  rw [hout]
  refine emitted_forall₂ src filter_id _ ?_ _ _ hsteps
  intro sm d hd
  have hsp := subMeshStep_src src filter_id sm (.emit d) hd
  simp only at hsp
  obtain ⟨_, s', e', _, hse, _, _, he, _, _, rfl⟩ := hsp
  refine ⟨rfl, Nat.zero_le _, countP_take_mono _ _ hse, ?_⟩
  rw [hi, List.length_map]
  exact survivorsBefore_lt_total src filter_id e' he

/-- Witness of C6: Scenario E's mesh filtered by tag `(0,1)`; the sub-mesh `[0,2]` is
dropped, the sub-mesh `[3,5]` is emitted as `[0,2]`. -/
theorem filterByCityObjIndex_subMeshes_witness :
    (filterByCityObjIndex scenarioEMesh ⟨0, 1⟩ 0 =
      Except.ok { scenarioBAtomic1 with sub_meshes := [⟨0, 2, "m1"⟩] }) ∧
    List.Forall₂
      (fun (o sm : SubMesh) => o.material = sm.material ∧ 0 ≤ o.start_index ∧
        o.start_index ≤ o.end_index ∧ o.end_index < 3)
      [⟨0, 2, "m1"⟩] (scenarioEMesh.sub_meshes.filter (fun sm => hasSurvivor scenarioEMesh ⟨0, 1⟩ sm)) :=
  ⟨by decide,
   (filterByCityObjIndex_subMeshes scenarioEMesh ⟨0, 1⟩ 0
      { scenarioBAtomic1 with sub_meshes := [⟨0, 2, "m1"⟩] } (by decide)).1⟩

/-- C7: in a call of `filterByCityObjIndex` that returns, every iteration of the sub-mesh
loop ends in `continue` or in an emitted sub-mesh, never in the outer `break`; it emits a
sub-mesh exactly when some index position of the source range `[start, end]` survives. The
output sub-meshes are the emitted ones, so there are as many as source sub-meshes with a
survivor, whatever their position in the list. -/
theorem filterByCityObjIndex_emits_iff (src : Mesh) (filter_id : CityObjectIndex) (r : Int)
    (out : Mesh) (h : filterByCityObjIndex src filter_id r = Except.ok out) :
    (∃ steps : List SubMeshStep,
      List.Forall₂
        (fun sm st => subMeshStep (indicesIdTransform src filter_id) sm = Except.ok st ∧
          st ≠ SubMeshStep.stop ∧
          (st.emitted.isSome = true ↔
            ∃ p, sm.start_index ≤ p ∧ p ≤ sm.end_index ∧ survives src filter_id p = true))
        src.sub_meshes steps ∧
      out.sub_meshes = steps.filterMap SubMeshStep.emitted) ∧
    out.sub_meshes.length =
      (src.sub_meshes.filter (fun sm => hasSurvivor src filter_id sm)).length := by
  obtain ⟨vp, _, _, hsm, _, _, _, _, _⟩ := filter_unfold src filter_id r out h
  obtain ⟨steps, hsteps, hout⟩ := subMeshLoop_spec _ _ _ _ hsm
  rw [List.nil_append] at hout
  refine ⟨⟨steps, ?_, hout⟩, ?_⟩
  · refine List.Forall₂.imp ?_ hsteps
    intro sm st hst
    have hsp := subMeshStep_src src filter_id sm st hst
    rw [← hasSurvivor_iff]
    cases st with
    | stop => exact hsp.elim
    | skip =>
      simp only at hsp
      exact ⟨hst, by simp, by simp [SubMeshStep.emitted, hsp]⟩
    | emit d =>
      simp only at hsp
      exact ⟨hst, by simp, by simp [SubMeshStep.emitted, hsp.1]⟩
  · rw [hout]
    exact List.Forall₂.length_eq
      (emitted_forall₂ src filter_id (fun _ _ => True) (fun _ _ _ => trivial) _ _ hsteps)

/-- Witness of C7, both examples of the claim on Scenario E's mesh: under tag `(0,0)` the
sub-mesh `[0,2]` is kept and `[3,5]` dropped, under tag `(0,1)` it is the other way round;
either way the output has exactly one sub-mesh. -/
theorem filterByCityObjIndex_emits_iff_witness :
    ((filterByCityObjIndex scenarioEMesh ⟨0, 0⟩ 0).map (fun m => m.sub_meshes) =
        Except.ok [⟨0, 2, "m0"⟩] ∧
      (filterByCityObjIndex scenarioEMesh ⟨0, 1⟩ 0).map (fun m => m.sub_meshes) =
        Except.ok [⟨0, 2, "m1"⟩]) ∧
    ({ scenarioBAtomic0 with sub_meshes := [⟨0, 2, "m0"⟩] } : Mesh).sub_meshes.length =
      (scenarioEMesh.sub_meshes.filter (fun sm => hasSurvivor scenarioEMesh ⟨0, 0⟩ sm)).length ∧
    ({ scenarioBAtomic1 with sub_meshes := [⟨0, 2, "m1"⟩] } : Mesh).sub_meshes.length =
      (scenarioEMesh.sub_meshes.filter (fun sm => hasSurvivor scenarioEMesh ⟨0, 1⟩ sm)).length :=
  ⟨⟨by decide, by decide⟩,
   (filterByCityObjIndex_emits_iff scenarioEMesh ⟨0, 0⟩ 0
      { scenarioBAtomic0 with sub_meshes := [⟨0, 2, "m0"⟩] } (by decide)).2,
   (filterByCityObjIndex_emits_iff scenarioEMesh ⟨0, 1⟩ 0
      { scenarioBAtomic1 with sub_meshes := [⟨0, 2, "m1"⟩] } (by decide)).2⟩

/-! ## Trees: reading and writing through pointers -/

theorem Node.all_iff (Q : Node → Prop) (n : Node) : n.All Q ↔ Q n ∧ ListAll Q n.children := by
  cases n
  simp [Node.All]

theorem listAll_iff (Q : Node → Prop) (l : List Node) : ListAll Q l ↔ ∀ c ∈ l, c.All Q := by
  induction l with
  | nil => simp [ListAll]
  | cons c rest ih => simp [ListAll, ih]

theorem listAll_append (Q : Node → Prop) (l : List Node) (c : Node) :
    ListAll Q (l ++ [c]) ↔ ListAll Q l ∧ c.All Q := by
  simp only [listAll_iff, List.mem_append, List.mem_singleton]
  constructor
  · intro h
    exact ⟨fun x hx => h x (Or.inl hx), h c (Or.inr rfl)⟩
  · rintro ⟨h1, h2⟩ x (hx | hx)
    · exact h1 x hx
    · subst hx; exact h2

theorem listAll_set (Q : Node → Prop) (l : List Node) (i : Nat) (c : Node)
    (hl : ListAll Q l) (hc : c.All Q) : ListAll Q (l.set i c) := by
  rw [listAll_iff] at hl ⊢
  intro x hx
  rcases List.mem_or_eq_of_mem_set hx with h | h
  · exact hl x h
  · subst h; exact hc

theorem listAll_vecAt (Q : Node → Prop) (l : List Node) (i : Nat) (c : Node)
    (hl : ListAll Q l) (h : vecAt l i = Except.ok c) : c.All Q := by
  rw [vecAt_eq_ok] at h
  exact (listAll_iff Q l).mp hl c (List.getElem?_mem h)

theorem Node.descend_all (Q : Node → Prop) :
    ∀ (path : List Nat) (n t : Node), n.All Q → Node.descend path n = Except.ok t → t.All Q := by
  intro path
  induction path with
  | nil =>
    intro n t hn h
    simp only [Node.descend, Except.ok.injEq] at h
    subst h; exact hn
  | cons i rest ih =>
    intro n t hn h
    simp only [Node.descend] at h
    obtain ⟨c, hc, h⟩ := bind_eq_ok h
    exact ih c t (listAll_vecAt Q _ i c ((Node.all_iff Q n).mp hn).2 hc) h

theorem Model.nodeAt_all (Q : Node → Prop) (m : Model) (ptr : List Nat) (t : Node)
    (hm : m.All Q) (h : Model.nodeAt ptr m = Except.ok t) : t.All Q := by
  cases ptr with
  | nil => simp [Model.nodeAt] at h
  | cons i rest =>
    simp only [Model.nodeAt] at h
    obtain ⟨c, hc, h⟩ := bind_eq_ok h
    exact Node.descend_all Q rest c t (listAll_vecAt Q _ i c hm hc) h

/-- Writing `f` through a pointer below `n`: the write succeeds only on a valid pointer, the
node read through the pointer afterwards is the image under `f` of the one read before, and
a property of all nodes survives when it holds of the nodes of that image. -/
theorem nodeModifyAt_spec (Q : Node → Prop) (hQ : ∀ a b c d e, Q ⟨a, b, c, d⟩ → Q ⟨a, b, c, e⟩)
    (f : Node → Node) :
    ∀ (path : List Nat) (n n' : Node), Node.modifyAt f path n = Except.ok n' →
      ∃ t, Node.descend path n = Except.ok t ∧ Node.descend path n' = Except.ok (f t) ∧
        (n.All Q → (f t).All Q → n'.All Q) := by
  intro path
  induction path with
  | nil =>
    intro n n' h
    simp only [Node.modifyAt, Except.ok.injEq] at h
    subst h
    exact ⟨n, rfl, rfl, fun _ h => h⟩
  | cons i rest ih =>
    intro n n' h
    simp only [Node.modifyAt] at h
    obtain ⟨c, hc, h⟩ := bind_eq_ok h
    obtain ⟨c', hc', h⟩ := bind_eq_ok h
    simp only [pure, Except.pure, Except.ok.injEq] at h
    subst h
    obtain ⟨t, ht1, ht2, ht3⟩ := ih c c' hc'
    have hi : i < n.children.length := by
      unfold Node.getChildAt at hc
      rw [vecAt_eq_ok] at hc
      exact getElem?_some_lt hc
    refine ⟨t, ?_, ?_, ?_⟩
    · simp only [Node.descend, hc, bind_ok_eq]; exact ht1
    · simp only [Node.descend, Node.getChildAt]
      rw [vecAt_eq_ok.mpr (show _ = some c' by simp [List.getElem?_set_self, hi]), bind_ok_eq]
      exact ht2
    · intro hn hft
      obtain ⟨hq, hcs⟩ := (Node.all_iff Q n).mp hn
      rw [Node.all_iff]
      refine ⟨?_, ?_⟩
      · cases n; exact hQ _ _ _ _ _ hq
      · exact listAll_set Q _ i c' hcs (ht3 (listAll_vecAt Q _ i c hcs hc) hft)

theorem modelModifyAt_spec (Q : Node → Prop) (hQ : ∀ a b c d e, Q ⟨a, b, c, d⟩ → Q ⟨a, b, c, e⟩)
    (f : Node → Node) (ptr : List Nat) (m m' : Model)
    (h : Model.modifyAt f ptr m = Except.ok m') :
    ∃ t, Model.nodeAt ptr m = Except.ok t ∧ Model.nodeAt ptr m' = Except.ok (f t) ∧
      (m.All Q → (f t).All Q → m'.All Q) := by
  cases ptr with
  | nil => simp [Model.modifyAt] at h
  | cons i rest =>
    simp only [Model.modifyAt] at h
    obtain ⟨c, hc, h⟩ := bind_eq_ok h
    obtain ⟨c', hc', h⟩ := bind_eq_ok h
    simp only [pure, Except.pure, Except.ok.injEq] at h
    subst h
    obtain ⟨t, ht1, ht2, ht3⟩ := nodeModifyAt_spec Q hQ f rest c c' hc'
    have hi : i < m.root_nodes.length := by
      unfold Model.getRootNodeAt at hc
      rw [vecAt_eq_ok] at hc
      exact getElem?_some_lt hc
    refine ⟨t, ?_, ?_, ?_⟩
    · simp only [Model.nodeAt, hc, bind_ok_eq]; exact ht1
    · simp only [Model.nodeAt, Model.getRootNodeAt]
      rw [vecAt_eq_ok.mpr (show _ = some c' by simp [List.getElem?_set_self, hi]), bind_ok_eq]
      exact ht2
    · intro hm hft
      exact listAll_set Q _ i c' hm (ht3 (listAll_vecAt Q _ i c hm hc) hft)

theorem Node.descend_append (p : List Nat) (k : Nat) :
    ∀ (n : Node), Node.descend (p ++ [k]) n = (Node.descend p n >>= fun t => t.getChildAt k) := by
  induction p with
  | nil =>
    intro n
    simp only [List.nil_append, Node.descend, bind_ok_eq]
    cases n.getChildAt k <;> rfl
  | cons i rest ih =>
    intro n
    simp only [List.cons_append, Node.descend]
    cases n.getChildAt i with
    | error e => rfl
    | ok c => simp only [bind_ok_eq]; exact ih c

theorem Model.nodeAt_append (ptr : List Nat) (k : Nat) (m : Model) (t : Node)
    (h : Model.nodeAt ptr m = Except.ok t) :
    Model.nodeAt (ptr ++ [k]) m = t.getChildAt k := by
  cases ptr with
  | nil => simp [Model.nodeAt] at h
  | cons i rest =>
    simp only [Model.nodeAt] at h
    obtain ⟨c, hc, h⟩ := bind_eq_ok h
    simp only [List.cons_append, Model.nodeAt, hc, bind_ok_eq, Node.descend_append, h]

theorem vecAt_append_length {α : Type} (l : List α) (a : α) :
    vecAt (l ++ [a]) l.length = Except.ok a := by
  rw [vecAt_eq_ok]
  simp

theorem foldlM_inv {α β : Type} (P : β → Prop) (f : β → α → Except Error β)
    (hf : ∀ s x s', P s → f s x = Except.ok s' → P s') :
    ∀ (l : List α) (s s' : β), P s → l.foldlM f s = Except.ok s' → P s' := by
  intro l
  induction l with
  | nil =>
    intro s s' hs h
    simp only [List.foldlM, pure, Except.pure, Except.ok.injEq] at h
    subst h; exact hs
  | cons x xs ih =>
    intro s s' hs h
    simp only [List.foldlM] at h
    obtain ⟨s1, h1, h⟩ := bind_eq_ok h
    exact ih s1 s' (hf s x s1 hs h1) h

/-- The pointer returned by `Model.addNodeUnder` points to the node just added, and a
property of all nodes survives when the new node has it. -/
theorem Model.addNodeUnder_spec (Q : Node → Prop)
    (hQ : ∀ a b c d e, Q ⟨a, b, c, d⟩ → Q ⟨a, b, c, e⟩) (parent : List Nat) (c : Node)
    (m m' : Model) (ptr : List Nat)
    (h : Model.addNodeUnder parent c m = Except.ok (ptr, m')) :
    Model.nodeAt ptr m' = Except.ok c ∧ (m.All Q → c.All Q → m'.All Q) := by
  unfold Model.addNodeUnder at h
  by_cases hp : parent = []
  · simp only [hp, if_true, pure, Except.pure, Except.ok.injEq, Prod.mk.injEq] at h
    obtain ⟨h1, h2⟩ := h
    subst h1; subst h2
    refine ⟨?_, ?_⟩
    · simp only [Model.nodeAt, Model.getRootNodeAt, Model.addNode, vecAt_append_length,
        bind_ok_eq, Node.descend]
    · intro hm hc
      exact (listAll_append Q _ _).mpr ⟨hm, hc⟩
  · simp only [hp, if_false] at h
    obtain ⟨p, hp1, h⟩ := bind_eq_ok h
    obtain ⟨m1, hm1, h⟩ := bind_eq_ok h
    simp only [pure, Except.pure, Except.ok.injEq, Prod.mk.injEq] at h
    obtain ⟨h1, h2⟩ := h
    subst h1; subst h2
    obtain ⟨t, ht1, ht2, ht3⟩ := modelModifyAt_spec Q hQ _ parent m m1 hm1
    rw [hp1] at ht1
    cases ht1
    refine ⟨?_, ?_⟩
    · rw [Model.nodeAt_append parent _ m1 _ ht2]
      simp only [Node.getChildAt, Node.addChildNode, vecAt_append_length]
    · intro hm hc
      refine ht3 hm ?_
      have hpall := Model.nodeAt_all Q m parent p hm hp1
      obtain ⟨hq, hcs⟩ := (Node.all_iff Q p).mp hpall
      rw [Node.all_iff]
      refine ⟨?_, (listAll_append Q _ _).mpr ⟨hcs, hc⟩⟩
      cases p; exact hQ _ _ _ _ _ hq

theorem NodePos.addChildNode_all (Q : Node → Prop)
    (hQ : ∀ a b c d e, Q ⟨a, b, c, d⟩ → Q ⟨a, b, c, e⟩) (positions : List Nat) (c : Node)
    (m m' : Model) (h : NodePos.addChildNode positions c m = Except.ok m')
    (hm : m.All Q) (hc : c.All Q) : m'.All Q := by
  cases positions with
  | nil =>
    simp only [NodePos.addChildNode, pure, Except.pure, Except.ok.injEq] at h
    subst h
    exact (listAll_append Q _ _).mpr ⟨hm, hc⟩
  | cons i rest =>
    simp only [NodePos.addChildNode] at h
    obtain ⟨ptr, hptr, h⟩ := bind_eq_ok h
    obtain ⟨t, ht1, _, ht3⟩ := modelModifyAt_spec Q hQ _ ptr m m' h
    refine ht3 hm ?_
    have hpall := Model.nodeAt_all Q m ptr t hm ht1
    obtain ⟨hq, hcs⟩ := (Node.all_iff Q t).mp hpall
    rw [Node.all_iff]
    refine ⟨?_, (listAll_append Q _ _).mpr ⟨hcs, hc⟩⟩
    cases t; exact hQ _ _ _ _ _ hq

mutual
theorem Node.eraseEmptyChildren_all (Q : Node → Prop)
    (hQ : ∀ a b c d e, Q ⟨a, b, c, d⟩ → Q ⟨a, b, c, e⟩) :
    ∀ n : Node, n.All Q → (n.eraseEmptyChildren).All Q
  | ⟨name, mesh, p, cs⟩, h => by
    simp only [Node.All, Node.eraseEmptyChildren] at h ⊢
    exact ⟨hQ _ _ _ _ _ h.1, eraseEmptyList_all Q hQ cs h.2⟩
theorem eraseEmptyList_all (Q : Node → Prop)
    (hQ : ∀ a b c d e, Q ⟨a, b, c, d⟩ → Q ⟨a, b, c, e⟩) :
    ∀ l : List Node, ListAll Q l → ListAll Q (eraseEmptyList l)
  | [], _ => by simp [eraseEmptyList, ListAll]
  | c :: cs, h => by
    simp only [ListAll, eraseEmptyList] at h ⊢
    split
    · exact eraseEmptyList_all Q hQ cs h.2
    · simp only [ListAll]
      exact ⟨Node.eraseEmptyChildren_all Q hQ c h.1, eraseEmptyList_all Q hQ cs h.2⟩
end

/-! ## The atomic model holds one city object per mesh -/

theorem truncToInt_intCast (n : Int) : truncToInt (n : ℚ) = n := by
  unfold truncToInt
  split <;> simp

theorem fromUV_intCast (p a : Int) :
    CityObjectIndex.fromUV ⟨(p : ℚ), (a : ℚ)⟩ = ⟨p, a⟩ := by
  simp [CityObjectIndex.fromUV, truncToInt_intCast]

theorem floatOfInt_small (x : Int) (h : x.natAbs ≤ 2 ^ 24) : floatOfInt x = x := by
  unfold floatOfInt
  simp only [if_pos h]

theorem floatOfInt_zero : floatOfInt 0 = 0 := floatOfInt_small 0 (by decide)

theorem floatOfInt_neg_one : floatOfInt (-1) = -1 := floatOfInt_small (-1) (by decide)

theorem filter_uv4_replicate (src : Mesh) (fid : CityObjectIndex) (r : Int) (out : Mesh)
    (h : filterByCityObjIndex src fid r = Except.ok out) :
    out.uv4 = List.replicate out.vertices.length ⟨0, (floatOfInt r : ℚ)⟩ := by
  obtain ⟨vp, hvp, _, _, hv, _, hu4, _, _⟩ := filter_unfold src fid r out h
  obtain ⟨_, _, _, hdv, _, hd4, _, _⟩ := vertexLoop_inv src fid r _ vp hvp
  rw [hu4, hv, hd4, hdv]

/-- A mesh returned by `filterByCityObjIndex(_, _, r)` that has a vertex, for an `r` that a
32-bit float holds exactly, once given the one-entry city-object list keyed `(0, r)`, holds
exactly one city object tagged `(0, r)`. -/
theorem filter_singleObject (src : Mesh) (fid : CityObjectIndex) (r : Int) (out : Mesh)
    (gml : String) (hr : floatOfInt r = r) (h : filterByCityObjIndex src fid r = Except.ok out)
    (hv : out.hasVertices = true) :
    (out.setCityObjectList [(⟨0, r⟩, gml)]).SingleObject ⟨0, r⟩ ⟨0, (r : ℚ)⟩ := by
  have hrep := filter_uv4_replicate src fid r out h
  rw [hr] at hrep
  refine ⟨?_, ?_, ?_, gml, rfl⟩
  · intro hnil
    simp only [Mesh.setCityObjectList] at hnil
    simp [Mesh.hasVertices, hnil] at hv
  · simp only [Mesh.setCityObjectList]
    rw [hrep]; simp
  · intro x hx
    simp only [Mesh.setCityObjectList] at hx
    rw [hrep] at hx
    have hx' := (List.mem_replicate.mp hx).2
    subst hx'
    refine ⟨rfl, ?_⟩
    have := fromUV_intCast 0 r
    simpa using this

theorem singleTagged_children (a : String) (b : Option Mesh) (c : Bool) (d e : List Node)
    (h : Node.SingleTagged ⟨a, b, c, d⟩) : Node.SingleTagged ⟨a, b, c, e⟩ := h

theorem singleTagged_leaf_all (name : String) (mesh : Option Mesh) (is_primary : Bool)
    (h : ∀ m, mesh = some m → m.SingleObject (atomicTag is_primary) (atomicTagUV is_primary)) :
    Node.All Node.SingleTagged ⟨name, mesh, is_primary, []⟩ := by
  rw [Node.all_iff]
  exact ⟨h, trivial⟩

theorem atomicStep_all (src_mesh : Mesh) (primary_id : Int) (primary_node : List Nat)
    (dst dst' : Model) (id : CityObjectIndex) (hd : dst.All Node.SingleTagged)
    (h : atomicStep src_mesh primary_id primary_node dst id = Except.ok dst') :
    dst'.All Node.SingleTagged := by
  unfold atomicStep at h
  by_cases h1 : id.primary_index ≠ primary_id
  · rw [if_pos h1] at h
    simp only [pure, Except.pure, Except.ok.injEq] at h
    subst h; exact hd
  · rw [if_neg h1] at h
    by_cases h2 : id.atomic_index = CityObjectIndex.invalidIndex
    · rw [if_pos h2] at h
      simp only [pure, Except.pure, Except.ok.injEq] at h
      subst h; exact hd
    · rw [if_neg h2] at h
      obtain ⟨⟨aptr, dst1⟩, hadd, h⟩ := bind_eq_ok h
      obtain ⟨hget, hall⟩ := Model.addNodeUnder_spec Node.SingleTagged singleTagged_children
        _ _ _ _ _ hadd
      have hd1 : dst1.All Node.SingleTagged :=
        hall hd (singleTagged_leaf_all _ none false (fun m hm => by cases hm))
      simp only at h
      obtain ⟨am, ham, h⟩ := bind_eq_ok h
      by_cases hv : am.hasVertices = true
      · simp only [hv, if_true] at h
        obtain ⟨t, ht1, _, ht3⟩ := modelModifyAt_spec Node.SingleTagged singleTagged_children
          _ _ _ _ h
        rw [hget] at ht1
        cases ht1
        refine ht3 hd1 ?_
        refine singleTagged_leaf_all _ _ false ?_
        intro m hm
        simp only [Node.ofName, Option.some.injEq] at hm
        subst hm
        have := filter_singleObject src_mesh id 0 am
          (src_mesh.city_object_list.tryGetAtomicGmlID id gmlIdNotFound) floatOfInt_zero ham hv
        simpa [atomicTag, atomicTagUV] using this
      · simp only [hv, Bool.false_eq_true, if_false, pure, Except.pure, Except.ok.injEq] at h
        subst h; exact hd1

theorem map_eq_ok {α β : Type} {x : Except Error α} {f : α → β} {b : β}
    (h : x.map f = Except.ok b) : ∃ a, x = Except.ok a ∧ f a = b := by
  cases x with
  | error e => simp [Except.map] at h
  | ok a => exact ⟨a, rfl, by simpa [Except.map] using h⟩

theorem makePrimaryNode_all (src_mesh : Mesh) (primary_id : Int) (dst_parent : List Nat)
    (dst : Model) (r : List Nat × Model) (hd : dst.All Node.SingleTagged)
    (h : makePrimaryNode src_mesh primary_id dst_parent dst = Except.ok r) :
    r.2.All Node.SingleTagged := by
  unfold makePrimaryNode at h
  obtain ⟨⟨pn', dst2⟩, hadd, h⟩ := bind_eq_ok h
  obtain ⟨hget, hall⟩ := Model.addNodeUnder_spec Node.SingleTagged singleTagged_children
    _ _ _ _ _ hadd
  have hd2 : dst2.All Node.SingleTagged :=
    hall hd (singleTagged_leaf_all _ none false (fun m hm => by cases hm))
  simp only at h
  obtain ⟨dst3, hflag, h⟩ := bind_eq_ok h
  obtain ⟨t, ht1, ht2, ht3⟩ := modelModifyAt_spec Node.SingleTagged singleTagged_children
    _ _ _ _ hflag
  rw [hget] at ht1
  cases ht1
  have hd3 : dst3.All Node.SingleTagged :=
    ht3 hd2 (singleTagged_leaf_all _ none true (fun m hm => by cases hm))
  obtain ⟨pm, hpm, h⟩ := bind_eq_ok h
  by_cases hv : pm.hasVertices = true
  · rw [if_pos hv] at h
    obtain ⟨dst4, hmesh, h⟩ := map_eq_ok h
    rw [← h]
    obtain ⟨t', ht1', _, ht3'⟩ := modelModifyAt_spec Node.SingleTagged singleTagged_children
      _ _ _ _ hmesh
    rw [ht2] at ht1'
    cases ht1'
    refine ht3' hd3 ?_
    refine singleTagged_leaf_all _ _ true ?_
    intro m hm
    simp only [Node.ofName, Node.setIsPrimary, Node.setMesh, Option.some.injEq] at hm
    subst hm
    have := filter_singleObject src_mesh ⟨primary_id, -1⟩ (-1) pm
      (src_mesh.city_object_list.tryGetPrimaryGmlID primary_id gmlIdNotFound)
      floatOfInt_neg_one hpm hv
    simpa [atomicTag, atomicTagUV] using this
  · rw [if_neg hv] at h
    simp only [pure, Except.pure, Except.ok.injEq] at h
    rw [← h]; exact hd3

theorem primaryStep_all (src_mesh : Mesh) (node_pos : List Nat)
    (indices_in_mesh : List CityObjectIndex) (dst dst' : Model) (primary_id : Int)
    (hd : dst.All Node.SingleTagged)
    (h : primaryStep src_mesh node_pos indices_in_mesh dst primary_id = Except.ok dst') :
    dst'.All Node.SingleTagged := by
  unfold primaryStep at h
  obtain ⟨dp, _, h⟩ := bind_eq_ok h
  obtain ⟨ipp, _, h⟩ := bind_eq_ok h
  obtain ⟨r, hprim, h⟩ := bind_eq_ok h
  refine foldlM_inv (fun m => Model.All Node.SingleTagged m) _
    (fun s x s' hs hx => atomicStep_all src_mesh primary_id r.1 s s' x hs hx) _ r.2 dst' ?_ h
  by_cases hipp : ipp = true
  · rw [if_pos hipp] at hprim
    simp only [pure, Except.pure, Except.ok.injEq] at hprim
    rw [← hprim]; exact hd
  · rw [if_neg hipp] at hprim
    exact makePrimaryNode_all src_mesh primary_id dp dst r hd hprim

theorem convertNode_all (node_pos : List Nat) (src_node : Node) (dst dst' : Model)
    (hd : dst.All Node.SingleTagged)
    (h : convertNode node_pos src_node dst = Except.ok dst') : dst'.All Node.SingleTagged := by
  unfold convertNode at h
  cases hm : src_node.mesh with
  | none =>
    rw [hm] at h
    simp only at h
    exact NodePos.addChildNode_all Node.SingleTagged singleTagged_children _ _ _ _ h hd
      (singleTagged_leaf_all _ none false (fun m hm => by cases hm))
  | some src_mesh =>
    rw [hm] at h
    simp only at h
    exact foldlM_inv (fun m => Model.All Node.SingleTagged m) _
      (fun s x s' hs hx => primaryStep_all src_mesh node_pos _ s s' x hs hx) _ dst dst' hd h

theorem convertLoop_all (src : Model) :
    ∀ (fuel : Nat) (queue : List (List Nat)) (dst dst' : Model),
      dst.All Node.SingleTagged → convertLoop src fuel queue dst = Except.ok dst' →
      dst'.All Node.SingleTagged := by
  intro fuel
  induction fuel with
  | zero =>
    intro queue dst dst' hd h
    cases queue with
    | nil =>
      simp only [convertLoop, pure, Except.pure, Except.ok.injEq] at h
      subst h; exact hd
    | cons q qs => simp [convertLoop] at h
  | succ fuel ih =>
    intro queue dst dst' hd h
    cases queue with
    | nil =>
      simp only [convertLoop, pure, Except.pure, Except.ok.injEq] at h
      subst h; exact hd
    | cons q qs =>
      simp only [convertLoop] at h
      obtain ⟨src_node, _, h⟩ := bind_eq_ok h
      obtain ⟨dst1, h1, h⟩ := bind_eq_ok h
      exact ih _ dst1 dst' (convertNode_all q src_node dst dst1 hd h1) h

/-- C8: in the model returned by `convert(m, PerAtomicFeatureObject)` every node that carries
a mesh has all its `uv4` entries equal to one single tag, `(0,0)` on an atomic child (a node
not flagged primary) and `(0,-1)` on a primary node, and the city-object list of that mesh
has exactly one entry, keyed by that same tag. -/
theorem convert_atomic_singleTagged (m out : Model)
    (h : convert m MeshGranularity.PerAtomicFeatureObject = Except.ok out) :
    ∀ (ptr : List Nat) (n : Node) (mesh : Mesh), Model.nodeAt ptr out = Except.ok n →
      n.mesh = some mesh →
      mesh.vertices ≠ [] ∧ mesh.uv4.length = mesh.vertices.length ∧
      (∀ uv ∈ mesh.uv4, uv = (if n.is_primary then (⟨0, -1⟩ : TVec2f) else ⟨0, 0⟩) ∧
        CityObjectIndex.fromUV uv = (if n.is_primary then ⟨0, -1⟩ else ⟨0, 0⟩)) ∧
      ∃ gml_id, mesh.city_object_list =
        [((if n.is_primary then ⟨0, -1⟩ else ⟨0, 0⟩ : CityObjectIndex), gml_id)] := by
  unfold convert at h
  obtain ⟨atomic, hatomic, h⟩ := bind_eq_ok h
  simp only [pure, Except.pure, Except.ok.injEq] at h
  subst h
  have h1 : atomic.All Node.SingleTagged :=
    convertLoop_all m _ _ Model.empty atomic trivial hatomic
  have h2 : atomic.eraseEmptyNodes.All Node.SingleTagged :=
    eraseEmptyList_all Node.SingleTagged singleTagged_children _ h1
  intro ptr n mesh hn hmesh
  have h3 := Model.nodeAt_all Node.SingleTagged _ ptr n h2 hn
  have h4 := ((Node.all_iff _ n).mp h3).1 mesh hmesh
  simpa [Mesh.SingleObject, atomicTag, atomicTagUV] using h4

/-- Witness of C8 on Scenario B: the atomic child "A1" of the primary node "P". -/
theorem convert_atomic_singleTagged_witness :
    convert scenarioBModel MeshGranularity.PerAtomicFeatureObject =
      Except.ok scenarioBAtomicModel ∧
    Model.nodeAt [0, 1] scenarioBAtomicModel = Except.ok
      ⟨"A1", some { scenarioBAtomic1 with city_object_list := [(⟨0, 0⟩, "A1")] }, false, []⟩ ∧
    ∃ gml_id, ({ scenarioBAtomic1 with city_object_list := [(⟨0, 0⟩, "A1")] } :
      Mesh).city_object_list = [((⟨0, 0⟩ : CityObjectIndex), gml_id)] :=
  ⟨by decide!, by decide!,
   (convert_atomic_singleTagged scenarioBModel scenarioBAtomicModel (by decide!) [0, 1]
      ⟨"A1", some { scenarioBAtomic1 with city_object_list := [(⟨0, 0⟩, "A1")] }, false, []⟩
      { scenarioBAtomic1 with city_object_list := [(⟨0, 0⟩, "A1")] } (by decide!) rfl).2.2.2⟩

/-! ## The sets of tags of a mesh -/

theorem mem_stdSetInsert {α : Type} (lt : α → α → Bool) (hlt : StrictTotal lt) (a x : α) :
    ∀ (l : List α), x ∈ stdSetInsert lt a l ↔ x = a ∨ x ∈ l := by
  intro l
  induction l with
  | nil => simp [stdSetInsert]
  | cons b rest ih =>
    simp only [stdSetInsert]
    by_cases h1 : lt a b = true
    · simp [h1]
    · by_cases h2 : lt b a = true
      · simp only [h1, h2, if_true, Bool.false_eq_true, if_false, List.mem_cons, ih]
        tauto
      · have hab : a = b := hlt.tri a b (by simpa using h1) (by simpa using h2)
        simp only [h1, h2, Bool.false_eq_true, if_false, List.mem_cons]
        subst hab
        tauto

theorem pairwise_stdSetInsert {α : Type} (lt : α → α → Bool) (hlt : StrictTotal lt) (a : α) :
    ∀ (l : List α), l.Pairwise (fun x y => lt x y = true) →
      (stdSetInsert lt a l).Pairwise (fun x y => lt x y = true) := by
  intro l
  induction l with
  | nil => intro _; simp [stdSetInsert]
  | cons b rest ih =>
    intro h
    obtain ⟨hb, hrest⟩ := List.pairwise_cons.mp h
    simp only [stdSetInsert]
    by_cases h1 : lt a b = true
    · simp only [h1, if_true]
      refine List.pairwise_cons.mpr ⟨?_, h⟩
      intro y hy
      rcases List.mem_cons.mp hy with e | e
      · subst e; exact h1
      · exact hlt.trans a b y h1 (hb y e)
    · by_cases h2 : lt b a = true
      · simp only [h1, h2, if_true, Bool.false_eq_true, if_false]
        refine List.pairwise_cons.mpr ⟨?_, ih hrest⟩
        intro y hy
        rcases (mem_stdSetInsert lt hlt a y rest).mp hy with e | e
        · subst e; exact h2
        · exact hb y e
      · simp only [h1, h2, Bool.false_eq_true, if_false]
        exact h

theorem strictTotal_int : StrictTotal (fun (a b : Int) => decide (a < b)) where
  irrefl := by intro a; simp
  trans := by
    intro a b c h1 h2
    simp only [decide_eq_true_eq] at h1 h2 ⊢
    omega
  tri := by
    intro a b h1 h2
    simp only [decide_eq_false_iff_not] at h1 h2
    omega

theorem CityObjectIndex.lt_iff (a b : CityObjectIndex) :
    CityObjectIndex.lt a b = true ↔
      a.primary_index < b.primary_index ∨
        (a.primary_index = b.primary_index ∧ a.atomic_index < b.atomic_index) := by
  simp [CityObjectIndex.lt]

theorem strictTotal_cityObjectIndex : StrictTotal CityObjectIndex.lt where
  irrefl := by
    intro a
    rw [Bool.eq_false_iff]
    intro h
    rw [CityObjectIndex.lt_iff] at h
    omega
  trans := by
    intro a b c h1 h2
    rw [CityObjectIndex.lt_iff] at h1 h2 ⊢
    omega
  tri := by
    intro a b h1 h2
    rw [Bool.eq_false_iff, Ne, CityObjectIndex.lt_iff] at h1 h2
    cases a; cases b
    simp only [CityObjectIndex.mk.injEq] at h1 h2 ⊢
    omega

/-- The two sets built by lines 232-236, started from `acc`: sorted without repetition, and
holding exactly the tags (primary indices) of `acc` and of the `uv4` entries. -/
theorem collect_foldl (uv4 : List TVec2f) :
    ∀ (acc : List CityObjectIndex × List Int),
      acc.1.Pairwise (fun x y => CityObjectIndex.lt x y = true) →
      acc.2.Pairwise (fun x y => decide (x < y) = true) →
      let r := uv4.foldl
        (fun acc uv =>
          (stdSetInsert CityObjectIndex.lt (CityObjectIndex.fromUV uv) acc.1,
           stdSetInsert (fun (a b : Int) => decide (a < b))
             (CityObjectIndex.fromUV uv).primary_index acc.2)) acc
      r.1.Pairwise (fun x y => CityObjectIndex.lt x y = true) ∧
      r.2.Pairwise (fun x y => decide (x < y) = true) ∧
      (∀ id, id ∈ r.1 ↔ id ∈ acc.1 ∨ ∃ uv ∈ uv4, CityObjectIndex.fromUV uv = id) ∧
      (∀ p, p ∈ r.2 ↔ p ∈ acc.2 ∨ ∃ uv ∈ uv4, (CityObjectIndex.fromUV uv).primary_index = p) := by
  induction uv4 with
  | nil => intro acc h1 h2; exact ⟨h1, h2, by simp, by simp⟩
  | cons uv rest ih =>
    intro acc h1 h2
    simp only [List.foldl_cons]
    obtain ⟨r1, r2, r3, r4⟩ := ih
      (stdSetInsert CityObjectIndex.lt (CityObjectIndex.fromUV uv) acc.1,
       stdSetInsert (fun (a b : Int) => decide (a < b))
         (CityObjectIndex.fromUV uv).primary_index acc.2)
      (pairwise_stdSetInsert _ strictTotal_cityObjectIndex (CityObjectIndex.fromUV uv) _ h1)
      (pairwise_stdSetInsert _ strictTotal_int (CityObjectIndex.fromUV uv).primary_index _ h2)
    refine ⟨r1, r2, ?_, ?_⟩
    · intro id
      rw [r3 id, mem_stdSetInsert _ strictTotal_cityObjectIndex]
      simp only [List.mem_cons, exists_eq_or_imp]
      constructor
      · rintro ((h | h) | h)
        · exact Or.inr (Or.inl h.symm)
        · exact Or.inl h
        · exact Or.inr (Or.inr h)
      · rintro (h | h | h)
        · exact Or.inl (Or.inr h)
        · exact Or.inl (Or.inl h.symm)
        · exact Or.inr h
    · intro p
      rw [r4 p, mem_stdSetInsert _ strictTotal_int]
      simp only [List.mem_cons, exists_eq_or_imp]
      constructor
      · rintro ((h | h) | h)
        · exact Or.inr (Or.inl h.symm)
        · exact Or.inl h
        · exact Or.inr (Or.inr h)
      · rintro (h | h | h)
        · exact Or.inl (Or.inr h)
        · exact Or.inl (Or.inl h.symm)
        · exact Or.inr h

theorem collectIndices_spec (uv4 : List TVec2f) :
    (collectIndices uv4).1.Pairwise (fun x y => CityObjectIndex.lt x y = true) ∧
    (collectIndices uv4).2.Pairwise (fun x y => decide (x < y) = true) ∧
    (∀ id, id ∈ (collectIndices uv4).1 ↔ ∃ uv ∈ uv4, CityObjectIndex.fromUV uv = id) ∧
    (∀ p, p ∈ (collectIndices uv4).2 ↔
      ∃ uv ∈ uv4, (CityObjectIndex.fromUV uv).primary_index = p) := by
  have := collect_foldl uv4 ([], []) List.Pairwise.nil List.Pairwise.nil
  simpa [collectIndices] using this

/-! ## The atomic model of a single mesh -/

theorem filter_ok_result (M : Mesh) (id : CityObjectIndex) (r : Int) (hw : M.WellFormed) :
    filterByCityObjIndex M id r = Except.ok (filterResult M id r) := by
  obtain ⟨out, h⟩ := filter_total M id r hw
  simp [filterResult, h]

theorem filter_vertices_length (src : Mesh) (fid : CityObjectIndex) (r : Int) (out : Mesh)
    (h : filterByCityObjIndex src fid r = Except.ok out) :
    out.vertices.length = keptBefore src fid src.vertices.length := by
  obtain ⟨vp, hvp, _, _, hv, _, _, _, _⟩ := filter_unfold src fid r out h
  obtain ⟨_, _, hcur, hdv, _, _, _, _⟩ := vertexLoop_inv src fid r _ vp hvp
  rw [hv, hdv, hcur]

theorem filterResult_hasVertices (M : Mesh) (id : CityObjectIndex) (r : Int)
    (hw : M.WellFormed) (hocc : ∃ uv ∈ M.uv4, CityObjectIndex.fromUV uv = id) :
    (filterResult M id r).hasVertices = true := by
  have hlen := filter_vertices_length M id r _ (filter_ok_result M id r hw)
  obtain ⟨uv, huv, hid⟩ := hocc
  have hpos : 0 < keptBefore M id M.vertices.length := by
    unfold keptBefore
    rw [← hw.2.1, List.take_length]
    exact List.countP_pos_iff.mpr ⟨uv, huv, by simpa using hid⟩
  unfold Mesh.hasVertices
  cases hv : (filterResult M id r).vertices with
  | nil => rw [hv] at hlen; simp at hlen; omega
  | cons x xs => rfl

theorem Model.nodeAt_last (old : List Node) (P : Node) (q : List Nat) :
    Model.nodeAt (old.length :: q) ⟨old ++ [P]⟩ = Node.descend q P := by
  simp only [Model.nodeAt, Model.getRootNodeAt, vecAt_append_length, bind_ok_eq]

theorem Model.modifyAt_last (f : Node → Node) (old : List Node) (P : Node) (q : List Nat) :
    Model.modifyAt f (old.length :: q) ⟨old ++ [P]⟩ =
      (Node.modifyAt f q P).map (fun P' => ⟨old ++ [P']⟩) := by
  simp only [Model.modifyAt, Model.getRootNodeAt, vecAt_append_length, bind_ok_eq]
  cases Node.modifyAt f q P with
  | error e => rfl
  | ok P' => simp [Except.map, bind_ok_eq, pure, Except.pure]

theorem Node.modifyAt_lastChild (f : Node → Node) (a : String) (b : Option Mesh) (c : Bool)
    (cs : List Node) (x : Node) :
    Node.modifyAt f [cs.length] ⟨a, b, c, cs ++ [x]⟩ = Except.ok ⟨a, b, c, cs ++ [f x]⟩ := by
  simp [Node.modifyAt, Node.getChildAt, vecAt_append_length, bind_ok_eq, pure, Except.pure]

theorem Model.addNodeUnder_last (old : List Node) (P c : Node) :
    Model.addNodeUnder [old.length] c ⟨old ++ [P]⟩ =
      Except.ok ([old.length, P.children.length], ⟨old ++ [P.addChildNode c]⟩) := by
  unfold Model.addNodeUnder
  rw [if_neg (by simp)]
  simp only [Model.nodeAt_last, Node.descend, bind_ok_eq, Model.modifyAt_last, Node.modifyAt,
    Except.map, pure, Except.pure, List.singleton_append]

theorem atomicIdsOf_cons_pos (id : CityObjectIndex) (rest : List CityObjectIndex) (p : Int)
    (h1 : id.primary_index = p) (h2 : id.atomic_index ≠ -1) :
    atomicIdsOf (id :: rest) p = id :: atomicIdsOf rest p := by
  unfold atomicIdsOf
  rw [List.filter_cons, if_pos (by simp [h1, h2])]

theorem atomicIdsOf_cons_neg (id : CityObjectIndex) (rest : List CityObjectIndex) (p : Int)
    (h : ¬ (id.primary_index = p ∧ id.atomic_index ≠ -1)) :
    atomicIdsOf (id :: rest) p = atomicIdsOf rest p := by
  unfold atomicIdsOf
  rw [List.filter_cons, if_neg]
  intro hb
  simp only [Bool.and_eq_true, decide_eq_true_eq] at hb
  exact h hb

/-- An iteration of the loop over `indices_in_mesh` for a tag that gets an atomic node, when
`primary_node` is the last root. -/
theorem atomicStep_last (M : Mesh) (p : Int) (old : List Node) (P : Node)
    (id : CityObjectIndex) (hw : M.WellFormed)
    (hocc : ∃ uv ∈ M.uv4, CityObjectIndex.fromUV uv = id)
    (h1 : id.primary_index = p) (h2 : id.atomic_index ≠ -1) :
    atomicStep M p [old.length] ⟨old ++ [P]⟩ id =
      Except.ok ⟨old ++ [P.addChildNode (expectedAtomicNode M id)]⟩ := by
  unfold atomicStep
  rw [if_neg (by simpa using h1), if_neg (by simpa [CityObjectIndex.invalidIndex] using h2)]
  simp only [Model.addNodeUnder_last, bind_ok_eq, filter_ok_result M id 0 hw,
    filterResult_hasVertices M id 0 hw hocc, if_true, Model.modifyAt_last, Node.modifyAt]
  cases P with
  | mk a b c cs =>
    simp only [Node.addChildNode, Node.getChildAt, vecAt_append_length, bind_ok_eq,
      Except.map, pure, Except.pure, List.set_append_right _ _ (Nat.le_refl _), Nat.sub_self,
      List.set_cons_zero]
    rfl

theorem atomicStep_skip (M : Mesh) (p : Int) (ptr : List Nat) (dst : Model)
    (id : CityObjectIndex) (h : ¬ (id.primary_index = p ∧ id.atomic_index ≠ -1)) :
    atomicStep M p ptr dst id = Except.ok dst := by
  unfold atomicStep
  by_cases h1 : id.primary_index ≠ p
  · rw [if_pos h1]; rfl
  · rw [if_neg h1]
    have h2 : id.atomic_index = CityObjectIndex.invalidIndex := by
      simp only [CityObjectIndex.invalidIndex]
      by_contra hne
      exact h ⟨by simpa using h1, hne⟩
    rw [if_pos h2]; rfl

theorem atomicFold_last (M : Mesh) (p : Int) (old : List Node) (hw : M.WellFormed) :
    ∀ (ids : List CityObjectIndex) (P : Node),
      (∀ id ∈ ids, ∃ uv ∈ M.uv4, CityObjectIndex.fromUV uv = id) →
      ids.foldlM (atomicStep M p [old.length]) ⟨old ++ [P]⟩ =
        Except.ok ⟨old ++ [{ P with children :=
          P.children ++ (atomicIdsOf ids p).map (expectedAtomicNode M) }]⟩ := by
  intro ids
  induction ids with
  | nil =>
    intro P _
    cases P
    simp [atomicIdsOf, pure, Except.pure]
  | cons id rest ih =>
    intro P hocc
    have hrest : ∀ x ∈ rest, ∃ uv ∈ M.uv4, CityObjectIndex.fromUV uv = x :=
      fun x hx => hocc x (List.mem_cons_of_mem _ hx)
    simp only [List.foldlM]
    by_cases hk : id.primary_index = p ∧ id.atomic_index ≠ -1
    · rw [atomicStep_last M p old P id hw (hocc id (List.mem_cons_self _ _)) hk.1 hk.2,
        bind_ok_eq, ih _ hrest, atomicIdsOf_cons_pos id rest p hk.1 hk.2]
      simp [Node.addChildNode]
    · rw [atomicStep_skip M p _ _ id hk, bind_ok_eq, ih _ hrest, atomicIdsOf_cons_neg id rest p hk]

theorem makePrimaryNode_root (M : Mesh) (p : Int) (old : List Node) (hw : M.WellFormed) :
    makePrimaryNode M p [] ⟨old⟩ =
      Except.ok ([old.length], ⟨old ++ [expectedPrimaryNode M [] p]⟩) := by
  have hadd : ∀ c : Node, Model.addNodeUnder [] c ⟨old⟩ =
      Except.ok ([old.length], ⟨old ++ [c]⟩) := by
    intro c
    unfold Model.addNodeUnder
    rw [if_pos rfl]
    rfl
  unfold makePrimaryNode
  simp only [hadd, pure, Except.pure, bind_ok_eq, Model.modifyAt_last, Node.modifyAt,
    Except.map, filter_ok_result M ⟨p, -1⟩ (-1) hw]
  by_cases hv : (filterResult M ⟨p, -1⟩ (-1)).hasVertices = true
  · simp [hv, expectedPrimaryNode, atomicIdsOf, Node.ofName, Node.setIsPrimary, Node.setMesh]
  · simp [hv, expectedPrimaryNode, atomicIdsOf, Node.ofName, Node.setIsPrimary]

/-- An iteration of the loop over `primary_indices_in_mesh` for a source root node: one
more root, the primary node of `p` with its atomic children. -/
theorem primaryStep_root (M : Mesh) (i : Nat) (ids : List CityObjectIndex) (old : List Node)
    (p : Int) (hw : M.WellFormed)
    (hocc : ∀ id ∈ ids, ∃ uv ∈ M.uv4, CityObjectIndex.fromUV uv = id) :
    primaryStep M [i] ids ⟨old⟩ p = Except.ok ⟨old ++ [expectedPrimaryNode M ids p]⟩ := by
  unfold primaryStep
  simp only [NodePos.parent, List.dropLast, NodePos.toNode, bind_ok_eq, isParentPrimary,
    if_true, pure, Except.pure, Bool.false_eq_true, if_false, makePrimaryNode_root M p old hw]
  rw [atomicFold_last M p old hw ids _ hocc]
  simp [expectedPrimaryNode, atomicIdsOf]

theorem primaryFold_root (M : Mesh) (i : Nat) (ids : List CityObjectIndex) (hw : M.WellFormed)
    (hocc : ∀ id ∈ ids, ∃ uv ∈ M.uv4, CityObjectIndex.fromUV uv = id) :
    ∀ (ps : List Int) (old : List Node),
      ps.foldlM (primaryStep M [i] ids) ⟨old⟩ =
        Except.ok ⟨old ++ ps.map (expectedPrimaryNode M ids)⟩ := by
  intro ps
  induction ps with
  | nil => intro old; simp [pure, Except.pure]
  | cons p rest ih =>
    intro old
    simp only [List.foldlM, primaryStep_root M i ids old p hw hocc, bind_ok_eq, ih]
    simp

/-- The function `convertToAtomic` on a single childless root that carries a well-formed
mesh. -/
theorem convertToAtomic_single (name : String) (M : Mesh) (is_primary : Bool)
    (hw : M.WellFormed) :
    convertToAtomic ⟨[⟨name, some M, is_primary, []⟩]⟩ = Except.ok (expectedAtomicModel M) := by
  have hocc : ∀ id ∈ (collectIndices M.uv4).1, ∃ uv ∈ M.uv4, CityObjectIndex.fromUV uv = id :=
    fun id hid => ((collectIndices_spec M.uv4).2.2.1 id).mp hid
  have hr : List.range 1 = [0] := rfl
  simp only [convertToAtomic, countList, Node.count, List.length_singleton, hr,
    List.map_cons, List.map_nil, convertLoop, Model.nodeAt, Model.getRootNodeAt, vecAt,
    List.getElem?_cons_zero, bind_ok_eq, Node.descend, List.length_nil, List.range_zero,
    List.append_nil, convertNode, Model.empty,
    primaryFold_root M 0 _ hw hocc, List.nil_append, pure, Except.pure]
  rfl

/-- C9: for a model of one childless root carrying a well-formed mesh `M`,
`convertToAtomic` returns one root per distinct primary index occurring in `uv4(M)`, in
ascending order, each flagged primary and named by the gml id of `(p,-1)` (default
"gml_id_not_found"); under the root of `p` there is one child per distinct tag `(p,a)`,
`a ≠ -1`, occurring in `uv4(M)`, in ascending `a`, named by the gml id of `(p,a)` and carrying
the mesh `filterByCityObjIndex(M, (p,a), 0)` (with the one-entry city-object list
`(0,0) ↦ name`). -/
theorem convertToAtomic_single_root (name : String) (M : Mesh) (is_primary : Bool)
    (hw : M.WellFormed) :
    convertToAtomic ⟨[⟨name, some M, is_primary, []⟩]⟩ = Except.ok (expectedAtomicModel M) ∧
    (expectedAtomicModel M).root_nodes =
      (collectIndices M.uv4).2.map (fun p =>
        (⟨M.city_object_list.tryGetPrimaryGmlID p gmlIdNotFound,
          (expectedPrimaryNode M (collectIndices M.uv4).1 p).mesh, true,
          (atomicIdsOf (collectIndices M.uv4).1 p).map (fun id =>
            (⟨M.city_object_list.tryGetAtomicGmlID id gmlIdNotFound,
              some ((filterResult M id 0).setCityObjectList
                [(⟨0, 0⟩, M.city_object_list.tryGetAtomicGmlID id gmlIdNotFound)]),
              false, []⟩ : Node))⟩ : Node)) ∧
    (collectIndices M.uv4).2.Pairwise (fun p q => p < q) ∧
    (∀ p, p ∈ (collectIndices M.uv4).2 ↔
      ∃ uv ∈ M.uv4, (CityObjectIndex.fromUV uv).primary_index = p) ∧
    (∀ p, (atomicIdsOf (collectIndices M.uv4).1 p).Pairwise
        (fun x y => x.atomic_index < y.atomic_index) ∧
      ∀ id, id ∈ atomicIdsOf (collectIndices M.uv4).1 p ↔
        (id.primary_index = p ∧ id.atomic_index ≠ -1 ∧
          ∃ uv ∈ M.uv4, CityObjectIndex.fromUV uv = id)) ∧
    (∀ id, filterByCityObjIndex M id 0 = Except.ok (filterResult M id 0)) := by
  obtain ⟨s1, s2, s3, s4⟩ := collectIndices_spec M.uv4
  refine ⟨convertToAtomic_single name M is_primary hw, rfl, ?_, s4, ?_,
    fun id => filter_ok_result M id 0 hw⟩
  · exact s2.imp (fun h => by simpa using h)
  · intro p
    refine ⟨?_, ?_⟩
    · have hsub : (atomicIdsOf (collectIndices M.uv4).1 p).Pairwise
          (fun x y => CityObjectIndex.lt x y = true) :=
        List.Pairwise.sublist (List.filter_sublist _) s1
      refine List.Pairwise.imp_of_mem ?_ hsub
      intro x y hx hy hlt
      have hx' := (List.mem_filter.mp hx).2
      have hy' := (List.mem_filter.mp hy).2
      simp only [Bool.and_eq_true, decide_eq_true_eq] at hx' hy'
      rw [CityObjectIndex.lt_iff] at hlt
      omega
    · intro id
      unfold atomicIdsOf
      rw [List.mem_filter, s3 id]
      simp only [Bool.and_eq_true, decide_eq_true_eq]
      tauto

/-- Witness of C9 on Scenario B: primary node "P" with the atomic children "A0" and "A1",
each with 3 vertices, indices `[0,1,2]`, one sub-mesh `[0,2]` and `uv4` all `(0,0)`. -/
theorem convertToAtomic_single_root_witness :
    scenarioBMesh.WellFormed ∧
    expectedAtomicModel scenarioBMesh = scenarioBAtomicModel ∧
    convertToAtomic scenarioBModel = Except.ok (expectedAtomicModel scenarioBMesh) :=
  ⟨by unfold Mesh.WellFormed; decide, by decide!,
   (convertToAtomic_single_root "root" scenarioBMesh false
      (by unfold Mesh.WellFormed; decide)).1⟩

/-! ## A mesh with a single tag -/

theorem keptEntries_all {α : Type} (data : List α) (uv4 : List TVec2f) (tag : CityObjectIndex)
    (hlen : data.length = uv4.length)
    (htag : ∀ uv ∈ uv4, CityObjectIndex.fromUV uv = tag) : keptEntries data uv4 tag = data := by
  unfold keptEntries
  rw [List.filter_eq_self.mpr]
  · exact List.map_fst_zip _ _ (by omega)
  · intro pr hpr
    have := htag pr.2 (List.of_mem_zip hpr).2
    simpa using this

theorem countP_take_all {α : Type} (p : α → Bool) (l : List α) (n : Nat) (hn : n ≤ l.length)
    (hall : ∀ a ∈ l, p a = true) : (l.take n).countP p = n := by
  rw [List.countP_eq_length.mpr]
  · simp [List.length_take]; omega
  · intro a ha
    exact hall a (List.mem_of_mem_take ha)

theorem keepsVertex_all (M : Mesh) (tag : CityObjectIndex)
    (htag : ∀ uv ∈ M.uv4, CityObjectIndex.fromUV uv = tag) (x : Nat) (hx : x < M.uv4.length) :
    keepsVertex M tag x = true := by
  unfold keepsVertex
  rw [List.getElem?_eq_getElem hx]
  simpa using htag _ (List.getElem_mem hx)

theorem keptBefore_all (M : Mesh) (tag : CityObjectIndex)
    (htag : ∀ uv ∈ M.uv4, CityObjectIndex.fromUV uv = tag) (n : Nat) (hn : n ≤ M.uv4.length) :
    keptBefore M tag n = n :=
  countP_take_all _ _ n hn (fun uv huv => by simpa using htag uv huv)

theorem survives_all (M : Mesh) (tag : CityObjectIndex) (hw : M.WellFormed)
    (htag : ∀ uv ∈ M.uv4, CityObjectIndex.fromUV uv = tag) (j : Nat)
    (hj : j < M.indices.length) : survives M tag j = true := by
  unfold survives
  rw [List.getElem?_eq_getElem hj]
  have := hw.2.2.1 _ (List.getElem_mem hj)
  exact keepsVertex_all M tag htag _ (by rw [hw.2.1]; exact this)

theorem survivorsBefore_all (M : Mesh) (tag : CityObjectIndex) (hw : M.WellFormed)
    (htag : ∀ uv ∈ M.uv4, CityObjectIndex.fromUV uv = tag) (j : Nat)
    (hj : j ≤ M.indices.length) : survivorsBefore M tag j = j :=
  countP_take_all _ _ j hj (fun x hx =>
    keepsVertex_all M tag htag x (by rw [hw.2.1]; exact hw.2.2.1 x hx))

/-- Filtering a well-formed mesh by the tag all its vertices carry keeps the vertices, `uv1`,
indices and sub-meshes as they are. -/
theorem filterResult_all (M : Mesh) (tag : CityObjectIndex) (r : Int) (hw : M.WellFormed)
    (htag : ∀ uv ∈ M.uv4, CityObjectIndex.fromUV uv = tag) :
    filterResult M tag r =
      { M with uv4 := List.replicate M.vertices.length ⟨0, (floatOfInt r : ℚ)⟩,
               city_object_list := [] } := by
  have hok := filter_ok_result M tag r hw
  generalize filterResult M tag r = out at hok
  obtain ⟨vp, hvp, _, hsm, hv, hu, _, hi, hc⟩ := filter_unfold M tag r out hok
  obtain ⟨e1, e2⟩ := vertexLoop_entries M tag r _ vp hvp (Nat.le_refl _) (by rw [hw.1])
  have t1 : List.take M.vertices.length M.vertices = M.vertices := List.take_length _
  have t4 : List.take M.vertices.length M.uv4 = M.uv4 := by
    rw [← hw.2.1]; exact List.take_length _
  have tu : List.take M.vertices.length M.uv1 = M.uv1 := by
    rw [← hw.1]; exact List.take_length _
  rw [t1, t4, keptEntries_all _ _ tag (by rw [hw.2.1]) htag] at e1
  rw [tu, t4, keptEntries_all _ _ tag (by rw [hw.1, hw.2.1]) htag] at e2
  have hvert : out.vertices = M.vertices := by rw [hv, e1]
  have huv1 : out.uv1 = M.uv1 := by rw [hu, e2]
  have huv4 := filter_uv4_replicate M tag r out hok
  rw [hvert] at huv4
  have hidx : out.indices = M.indices := by
    rw [hi, List.filter_eq_self.mpr]
    · conv => rhs; rw [← List.map_id M.indices]
      refine List.map_congr_left ?_
      intro x hx
      exact keptBefore_all M tag htag x (by rw [hw.2.1]; exact Nat.le_of_lt (hw.2.2.1 x hx))
    · intro x hx
      exact keepsVertex_all M tag htag x (by rw [hw.2.1]; exact hw.2.2.1 x hx)
  have hsub : out.sub_meshes = M.sub_meshes := by
    obtain ⟨steps, hsteps, hout⟩ := subMeshLoop_spec _ _ _ _ hsm
    rw [List.nil_append] at hout
    have hf := emitted_forall₂ M tag (fun d sm => d = sm) (by
      intro sm d hd
      have hsp := subMeshStep_src M tag sm (.emit d) hd
      simp only at hsp
      obtain ⟨hhas, s', e', h1, h2, h3, hs1, he1, hbefore, hafter, rfl⟩ := hsp
      obtain ⟨xs, hxs, _⟩ := survives_iff.mp hs1
      obtain ⟨xe, hxe, _⟩ := survives_iff.mp he1
      have hs'lt := getElem?_some_lt hxs
      have he'lt := getElem?_some_lt hxe
      have hs' : s' = sm.start_index := by
        by_contra hne
        have := hbefore sm.start_index (Nat.le_refl _) (by omega)
        rw [survives_all M tag hw htag _ (by omega)] at this
        cases this
      have he'' : sm.end_index < M.indices.length := by
        rcases Nat.lt_or_ge e' sm.end_index with hx | hx
        · exact (hafter sm.end_index hx (Nat.le_refl _)).1
        · omega
      have he' : e' = sm.end_index := by
        by_contra hne
        have := (hafter sm.end_index (by omega) (Nat.le_refl _)).2
        rw [survives_all M tag hw htag _ he''] at this
        cases this
      subst hs'; subst he'
      rw [survivorsBefore_all M tag hw htag _ (by omega),
        survivorsBefore_all M tag hw htag _ (by omega)]) _ _ hsteps
    rw [← hout] at hf
    have hall : M.sub_meshes.filter (fun sm => hasSurvivor M tag sm) = M.sub_meshes := by
      rw [List.filter_eq_self]
      intro sm hsm'
      have := hw.2.2.2 sm hsm'
      exact (hasSurvivor_iff M tag sm).mpr ⟨sm.start_index, Nat.le_refl _, this.1,
        survives_all M tag hw htag _ (by omega)⟩
    rw [hall, List.forall₂_eq_eq_eq] at hf
    exact hf
  cases out
  simp only at hvert huv1 huv4 hidx hsub hc
  subst hvert; subst huv1; subst huv4; subst hidx; subst hsub; subst hc
  rfl

theorem filterResult_no_vertices (M : Mesh) (id : CityObjectIndex) (r : Int)
    (hw : M.WellFormed) (hocc : ∀ uv ∈ M.uv4, CityObjectIndex.fromUV uv ≠ id) :
    (filterResult M id r).hasVertices = false := by
  have hlen := filter_vertices_length M id r _ (filter_ok_result M id r hw)
  have hzero : keptBefore M id M.vertices.length = 0 := by
    unfold keptBefore
    rw [List.countP_eq_zero]
    intro uv huv
    simpa using hocc uv (List.mem_of_mem_take huv)
  rw [hzero] at hlen
  simp [Mesh.hasVertices, List.length_eq_zero.mp hlen]

theorem eq_singleton_of_pairwise {α : Type} (R : α → α → Prop) (hirr : ∀ a, ¬ R a a)
    (a : α) : ∀ (l : List α), l.Pairwise R → (∀ x, x ∈ l ↔ x = a) → l = [a] := by
  intro l hp hmem
  cases l with
  | nil => exact absurd ((hmem a).mpr rfl) (List.not_mem_nil a)
  | cons x rest =>
    have hx : x = a := (hmem x).mp (List.mem_cons_self _ _)
    subst hx
    obtain ⟨h1, _⟩ := List.pairwise_cons.mp hp
    have : rest = [] := by
      rw [List.eq_nil_iff_forall_not_mem]
      intro y hy
      have hyx : y = x := (hmem y).mp (List.mem_cons_of_mem _ hy)
      subst hyx
      exact hirr y (h1 y hy)
    rw [this]

/-- The two sets of tags of a non-empty `uv4` channel whose entries all decode to `tag`. -/
theorem collectIndices_all (uv4 : List TVec2f) (tag : CityObjectIndex) (hne : uv4 ≠ [])
    (htag : ∀ uv ∈ uv4, CityObjectIndex.fromUV uv = tag) :
    collectIndices uv4 = ([tag], [tag.primary_index]) := by
  obtain ⟨s1, s2, s3, s4⟩ := collectIndices_spec uv4
  obtain ⟨uv0, huv0⟩ := List.exists_mem_of_ne_nil uv4 hne
  have e1 : (collectIndices uv4).1 = [tag] := by
    refine eq_singleton_of_pairwise _ ?_ tag _ s1 ?_
    · intro a h
      rw [strictTotal_cityObjectIndex.irrefl a] at h
      cases h
    · intro x
      rw [s3 x]
      constructor
      · rintro ⟨uv, huv, rfl⟩; exact htag uv huv
      · rintro rfl; exact ⟨uv0, huv0, htag uv0 huv0⟩
  have e2 : (collectIndices uv4).2 = [tag.primary_index] := by
    refine eq_singleton_of_pairwise _ ?_ tag.primary_index _ s2 ?_
    · intro a h
      simp at h
    · intro x
      rw [s4 x]
      constructor
      · rintro ⟨uv, huv, rfl⟩; rw [htag uv huv]
      · rintro rfl; exact ⟨uv0, huv0, by rw [htag uv0 huv0]⟩
  exact Prod.ext e1 e2

/-- C10, the claim as stated fails: a well-formed mesh whose vertices all carry the tag
`(0,0)` but that has no index gives an atomic model without any node, hence without a
mesh-bearing leaf. -/
theorem convert_atomic_single_tag_counterexample :
    pointsOnlyMesh.WellFormed ∧
    pointsOnlyMesh.uv4.map CityObjectIndex.fromUV = [⟨0, 0⟩, ⟨0, 0⟩, ⟨0, 0⟩] ∧
    convert pointsOnlyModel MeshGranularity.PerAtomicFeatureObject = Except.ok ⟨[]⟩ :=
  ⟨by unfold Mesh.WellFormed; decide, by decide, by decide!⟩

/-- C10 (amended): for a model of one childless root whose mesh is well-formed, has at
least one index, and has every vertex tagged with the same tag `(p,a)`, `a ≠ -1`,
`convert(m, PerAtomicFeatureObject)` is one primary root without mesh over exactly one leaf;
the leaf is named by the gml id of `(p,a)` and its mesh has the vertices, `uv1`, indices and
sub-meshes of the source mesh, unchanged. It is the only node with a mesh. -/
theorem convert_atomic_single_tag (name : String) (M : Mesh) (is_primary : Bool)
    (tag : CityObjectIndex) (hw : M.WellFormed) (hidx : M.indices ≠ [])
    (htag : ∀ uv ∈ M.uv4, CityObjectIndex.fromUV uv = tag) (ha : tag.atomic_index ≠ -1) :
    convert ⟨[⟨name, some M, is_primary, []⟩]⟩ MeshGranularity.PerAtomicFeatureObject =
      Except.ok ⟨[⟨M.city_object_list.tryGetPrimaryGmlID tag.primary_index gmlIdNotFound,
        none, true,
        [⟨M.city_object_list.tryGetAtomicGmlID tag gmlIdNotFound,
          some { M with
            uv4 := List.replicate M.vertices.length ⟨0, 0⟩
            city_object_list :=
              [(⟨0, 0⟩, M.city_object_list.tryGetAtomicGmlID tag gmlIdNotFound)] },
          false, []⟩]⟩]⟩ ∧
    ∀ (ptr : List Nat) (n : Node) (out : Model),
      convert ⟨[⟨name, some M, is_primary, []⟩]⟩ MeshGranularity.PerAtomicFeatureObject =
        Except.ok out →
      Model.nodeAt ptr out = Except.ok n → n.mesh ≠ none → ptr = [0, 0] := by
  obtain ⟨x0, hx0⟩ := List.exists_mem_of_ne_nil M.indices hidx
  have hvlen : 0 < M.vertices.length := Nat.lt_of_le_of_lt (Nat.zero_le _) (hw.2.2.1 x0 hx0)
  have hvne : M.vertices ≠ [] := by
    intro h; rw [h] at hvlen; simp at hvlen
  have huvne : M.uv4 ≠ [] := by
    intro h
    have := hw.2.1
    rw [h] at this
    simp at this
    omega
  have hnone : (filterResult M ⟨tag.primary_index, -1⟩ (-1)).hasVertices = false := by
    refine filterResult_no_vertices M _ _ hw ?_
    intro uv huv h
    rw [htag uv huv] at h
    rw [h] at ha
    exact ha rfl
  have hconv : convert ⟨[⟨name, some M, is_primary, []⟩]⟩
      MeshGranularity.PerAtomicFeatureObject =
      Except.ok ⟨[⟨M.city_object_list.tryGetPrimaryGmlID tag.primary_index gmlIdNotFound,
        none, true,
        [⟨M.city_object_list.tryGetAtomicGmlID tag gmlIdNotFound,
          some { M with
            uv4 := List.replicate M.vertices.length ⟨0, 0⟩
            city_object_list :=
              [(⟨0, 0⟩, M.city_object_list.tryGetAtomicGmlID tag gmlIdNotFound)] },
          false, []⟩]⟩]⟩ := by
    have hids : atomicIdsOf [tag] tag.primary_index = [tag] := by
      rw [atomicIdsOf_cons_pos tag [] tag.primary_index rfl ha]
      rfl
    unfold convert
    rw [convertToAtomic_single name M is_primary hw, bind_ok_eq]
    simp only [expectedAtomicModel, collectIndices_all M.uv4 tag huvne htag, List.map_cons,
      List.map_nil, expectedPrimaryNode, hnone, Bool.false_eq_true, if_false,
      hids, expectedAtomicNode,
      filterResult_all M tag 0 hw htag, floatOfInt_zero, Mesh.setCityObjectList,
      Model.eraseEmptyNodes,
      eraseEmptyList, Node.eraseEmptyChildren, Node.polygonExists]
    have h1 : M.vertices.isEmpty = false := by
      cases hM : M.vertices with
      | nil => exact absurd hM hvne
      | cons v vs => rfl
    have h2 : M.indices.isEmpty = false := by
      cases hM : M.indices with
      | nil => exact absurd hM hidx
      | cons v vs => rfl
    simp [h1, h2, pure, Except.pure]
  refine ⟨hconv, ?_⟩
  intro ptr n out hout hn hmesh
  rw [hconv] at hout
  cases hout
  match ptr, hn with
  | [], hn => simp [Model.nodeAt] at hn
  | [0], hn =>
    simp only [Model.nodeAt, Model.getRootNodeAt, vecAt, List.getElem?_cons_zero, bind_ok_eq,
      Node.descend, Except.ok.injEq] at hn
    subst hn
    exact absurd rfl hmesh
  | [0, 0], _ => rfl
  | 0 :: 0 :: k :: rest, hn =>
    simp [Model.nodeAt, Model.getRootNodeAt, vecAt, bind_ok_eq, Node.descend, Node.getChildAt,
      bind_error_eq] at hn
  | 0 :: (j + 1) :: rest, hn =>
    simp [Model.nodeAt, Model.getRootNodeAt, vecAt, bind_ok_eq, Node.descend, Node.getChildAt,
      bind_error_eq] at hn
  | (i + 1) :: rest, hn =>
    simp [Model.nodeAt, Model.getRootNodeAt, vecAt, bind_error_eq] at hn

/-- Witness of C10 (amended) on Scenario A: the leaf is named "b1" and carries the vertices
`[(0,0,0),(1,0,0),(0,1,0)]`, the indices `[0,1,2]` and the sub-mesh `[0,2]`. -/
theorem convert_atomic_single_tag_witness :
    scenarioAMesh.WellFormed ∧ scenarioAMesh.indices ≠ [] ∧
    (∀ uv ∈ scenarioAMesh.uv4, CityObjectIndex.fromUV uv = ⟨0, 0⟩) ∧
    convert scenarioAModel MeshGranularity.PerAtomicFeatureObject =
      Except.ok ⟨[⟨"gml_id_not_found", none, true,
        [⟨"b1", some
          { vertices := [⟨0, 0, 0⟩, ⟨1, 0, 0⟩, ⟨0, 1, 0⟩]
            uv1 := [⟨0, 0⟩, ⟨1, 0⟩, ⟨0, 1⟩]
            uv4 := [⟨0, 0⟩, ⟨0, 0⟩, ⟨0, 0⟩]
            indices := [0, 1, 2]
            sub_meshes := [⟨0, 2, "m"⟩]
            city_object_list := [(⟨0, 0⟩, "b1")] }, false, []⟩]⟩]⟩ :=
  ⟨by unfold Mesh.WellFormed; decide, by decide, by decide,
   (convert_atomic_single_tag "root" scenarioAMesh false ⟨0, 0⟩
      (by unfold Mesh.WellFormed; decide) (by decide) (by decide) (by decide)).1⟩

/-! ## The iteration budget of `convertToAtomic` is never used up -/

theorem Node.count_eq (n : Node) : n.count = 1 + countList n.children := by
  cases n; simp [Node.count]

theorem countList_eq_sum (l : List Node) : countList l = (l.map Node.count).sum := by
  induction l with
  | nil => rfl
  | cons c rest ih => simp [countList, ih]

theorem posWeight_pos (src : Model) (pos : List Nat) : 1 ≤ posWeight src pos := by
  unfold posWeight
  cases Model.nodeAt pos src with
  | error e => exact Nat.le_refl _
  | ok n => simp only; rw [Node.count_eq]; omega

theorem map_range_vecAt {β : Type} (g : Except Error Node → β) :
    ∀ (l : List Node), (List.range l.length).map (fun i => g (vecAt l i)) =
      l.map (fun c => g (Except.ok c)) := by
  intro l
  induction l using List.reverseRecOn with
  | nil => rfl
  | append_singleton l a ih =>
    rw [List.length_append, List.length_singleton, List.range_succ, List.map_append,
      List.map_append]
    congr 1
    · rw [← ih]
      refine List.map_congr_left ?_
      intro i hi
      rw [List.mem_range] at hi
      have : vecAt (l ++ [a]) i = vecAt l i := by
        unfold vecAt
        rw [List.getElem?_append_left hi]
      rw [this]
    · simp [vecAt_append_length]

theorem queueWeight_children (src : Model) (pos : List Nat) (n : Node)
    (h : Model.nodeAt pos src = Except.ok n) :
    queueWeight src ((List.range n.children.length).map (NodePos.plus pos)) =
      countList n.children := by
  unfold queueWeight
  rw [List.map_map, countList_eq_sum]
  congr 1
  have := map_range_vecAt (fun r => match r with
    | .ok c => c.count
    | .error _ => 1) n.children
  rw [← this]
  refine List.map_congr_left ?_
  intro i _
  simp only [Function.comp, posWeight, NodePos.plus, Model.nodeAt_append pos i src n h,
    Node.getChildAt]

theorem noFuel_ok {α : Type} (a : α) : NoFuelError (Except.ok a : Except Error α) := by
  intro h; cases h

theorem noFuel_pure {α : Type} (a : α) : NoFuelError (pure a : Except Error α) := by
  intro h; cases h

theorem noFuel_bind {α β : Type} {x : Except Error α} {f : α → Except Error β}
    (hx : NoFuelError x) (hf : ∀ a, x = Except.ok a → NoFuelError (f a)) :
    NoFuelError (x >>= f) := by
  cases x with
  | error e =>
    intro h
    rw [bind_error_eq] at h
    cases h
    exact hx rfl
  | ok a => exact hf a rfl

theorem noFuel_map {α β : Type} {x : Except Error α} (f : α → β) (hx : NoFuelError x) :
    NoFuelError (x.map f) := by
  cases x with
  | error e =>
    intro h
    simp only [Except.map] at h
    cases h
    exact hx rfl
  | ok a => intro h; simp [Except.map] at h

theorem noFuel_ite {α : Type} (c : Prop) [Decidable c] {x y : Except Error α}
    (hx : NoFuelError x) (hy : NoFuelError y) : NoFuelError (if c then x else y) := by
  split
  · exact hx
  · exact hy

theorem noFuel_vecAt {α : Type} (l : List α) (i : Nat) : NoFuelError (vecAt l i) := by
  unfold vecAt
  cases l[i]? <;> (intro h; cases h)

theorem noFuel_foldlM {α β : Type} (f : β → α → Except Error β)
    (hf : ∀ s x, NoFuelError (f s x)) : ∀ (l : List α) (s : β), NoFuelError (l.foldlM f s) := by
  intro l
  induction l with
  | nil => intro s; exact noFuel_pure s
  | cons x xs ih =>
    intro s
    simp only [List.foldlM]
    exact noFuel_bind (hf s x) (fun a _ => ih a)

theorem noFuel_vertexLoop (src : Mesh) (fid : CityObjectIndex) (r : Int) :
    ∀ n, NoFuelError (vertexLoop src fid r n) := by
  intro n
  induction n with
  | zero => exact noFuel_ok _
  | succ n ih =>
    simp only [vertexLoop]
    refine noFuel_bind ih (fun st _ => ?_)
    unfold vertexStep
    refine noFuel_bind (noFuel_vecAt _ _) (fun uv _ => ?_)
    refine noFuel_ite _ ?_ (noFuel_pure _)
    exact noFuel_bind (noFuel_vecAt _ _) (fun v _ =>
      noFuel_bind (noFuel_vecAt _ _) (fun t _ => noFuel_pure _))

theorem noFuel_indexLoop (vt : List Int) :
    ∀ (idxs : List Nat) (acc : List Nat × List Int), NoFuelError (indexLoop vt idxs acc) := by
  intro idxs
  induction idxs with
  | nil => intro acc; exact noFuel_ok _
  | cons x xs ih =>
    intro acc
    obtain ⟨di, it⟩ := acc
    simp only [indexLoop]
    exact noFuel_bind (noFuel_vecAt _ _) (fun k _ => noFuel_ite _ (ih _) (ih _))

theorem noFuel_advanceStart :
    ∀ (suffix : List Int) (s e : Nat), NoFuelError (advanceStart suffix s e) := by
  intro suffix
  induction suffix with
  | nil => intro s e h; simp [advanceStart] at h
  | cons t rest ih =>
    intro s e
    simp only [advanceStart]
    exact noFuel_ite _ (noFuel_ite _ (noFuel_ok _) (ih _ _)) (noFuel_ok _)

theorem noFuel_retractEnd (tr : List Int) (s : Nat) :
    ∀ e, NoFuelError (retractEnd tr s e) := by
  intro e
  induction e with
  | zero =>
    simp only [retractEnd]
    refine noFuel_bind (noFuel_vecAt _ _) (fun t _ => noFuel_ite _ ?_ (noFuel_pure _))
    intro h; cases h
  | succ e ih =>
    simp only [retractEnd]
    exact noFuel_bind (noFuel_vecAt _ _) (fun t _ =>
      noFuel_ite _ (noFuel_ite _ (noFuel_pure _) ih) (noFuel_pure _))

theorem noFuel_subMeshStep (tr : List Int) (sm : SubMesh) : NoFuelError (subMeshStep tr sm) := by
  unfold subMeshStep
  refine noFuel_bind (noFuel_advanceStart _ _ _) (fun s' _ => noFuel_ite _ (noFuel_pure _) ?_)
  refine noFuel_bind (noFuel_retractEnd _ _ _) (fun e' _ => noFuel_ite _ (noFuel_pure _) ?_)
  exact noFuel_bind (noFuel_vecAt _ _) (fun a _ =>
    noFuel_bind (noFuel_vecAt _ _) (fun b _ => noFuel_pure _))

theorem noFuel_subMeshLoop (tr : List Int) :
    ∀ (sms acc : List SubMesh), NoFuelError (subMeshLoop tr sms acc) := by
  intro sms
  induction sms with
  | nil => intro acc; exact noFuel_ok _
  | cons sm rest ih =>
    intro acc
    simp only [subMeshLoop]
    refine noFuel_bind (noFuel_subMeshStep _ _) (fun st _ => ?_)
    cases st with
    | skip => exact ih _
    | stop => exact noFuel_pure _
    | emit d => exact ih _

theorem noFuel_filter (src : Mesh) (fid : CityObjectIndex) (r : Int) :
    NoFuelError (filterByCityObjIndex src fid r) := by
  unfold filterByCityObjIndex
  refine noFuel_bind (noFuel_vertexLoop _ _ _ _) (fun vp _ => ?_)
  refine noFuel_bind (noFuel_indexLoop _ _ _) (fun acc _ => ?_)
  obtain ⟨di, it⟩ := acc
  exact noFuel_bind (noFuel_subMeshLoop _ _ _) (fun sms _ => noFuel_pure _)

theorem noFuel_descend : ∀ (path : List Nat) (n : Node), NoFuelError (Node.descend path n) := by
  intro path
  induction path with
  | nil => intro n; exact noFuel_ok _
  | cons i rest ih =>
    intro n
    simp only [Node.descend]
    exact noFuel_bind (noFuel_vecAt _ _) (fun c _ => ih c)

theorem noFuel_nodeAt (ptr : List Nat) (m : Model) : NoFuelError (Model.nodeAt ptr m) := by
  cases ptr with
  | nil => intro h; simp [Model.nodeAt] at h
  | cons i rest =>
    simp only [Model.nodeAt]
    exact noFuel_bind (noFuel_vecAt _ _) (fun c _ => noFuel_descend rest c)

theorem noFuel_nodeModifyAt (f : Node → Node) :
    ∀ (path : List Nat) (n : Node), NoFuelError (Node.modifyAt f path n) := by
  intro path
  induction path with
  | nil => intro n; exact noFuel_ok _
  | cons i rest ih =>
    intro n
    simp only [Node.modifyAt]
    exact noFuel_bind (noFuel_vecAt _ _) (fun c _ =>
      noFuel_bind (ih c) (fun c' _ => noFuel_pure _))

theorem noFuel_modifyAt (f : Node → Node) (ptr : List Nat) (m : Model) :
    NoFuelError (Model.modifyAt f ptr m) := by
  cases ptr with
  | nil => intro h; simp [Model.modifyAt] at h
  | cons i rest =>
    simp only [Model.modifyAt]
    exact noFuel_bind (noFuel_vecAt _ _) (fun c _ =>
      noFuel_bind (noFuel_nodeModifyAt f rest c) (fun c' _ => noFuel_pure _))

theorem noFuel_addNodeUnder (parent : List Nat) (c : Node) (m : Model) :
    NoFuelError (Model.addNodeUnder parent c m) := by
  unfold Model.addNodeUnder
  exact noFuel_ite _ (noFuel_pure _) (noFuel_bind (noFuel_nodeAt _ _) (fun p _ =>
    noFuel_bind (noFuel_modifyAt _ _ _) (fun m' _ => noFuel_pure _)))

theorem noFuel_toNode (positions : List Nat) (m : Model) :
    NoFuelError (NodePos.toNode positions m) := by
  cases positions with
  | nil => exact noFuel_ok _
  | cons i rest =>
    simp only [NodePos.toNode]
    exact noFuel_bind (noFuel_nodeAt _ _) (fun _ _ => noFuel_pure _)

theorem noFuel_addChildNode (positions : List Nat) (c : Node) (m : Model) :
    NoFuelError (NodePos.addChildNode positions c m) := by
  cases positions with
  | nil => exact noFuel_pure _
  | cons i rest =>
    simp only [NodePos.addChildNode]
    exact noFuel_bind (noFuel_toNode _ _) (fun _ _ => noFuel_modifyAt _ _ _)

theorem noFuel_atomicStep (M : Mesh) (p : Int) (ptr : List Nat) (dst : Model)
    (id : CityObjectIndex) : NoFuelError (atomicStep M p ptr dst id) := by
  unfold atomicStep
  refine noFuel_ite _ (noFuel_pure _) (noFuel_ite _ (noFuel_pure _) ?_)
  refine noFuel_bind (noFuel_addNodeUnder _ _ _) (fun added _ => ?_)
  refine noFuel_bind (noFuel_filter _ _ _) (fun am _ => ?_)
  exact noFuel_ite _ (noFuel_modifyAt _ _ _) (noFuel_pure _)

theorem noFuel_makePrimaryNode (M : Mesh) (p : Int) (parent : List Nat) (dst : Model) :
    NoFuelError (makePrimaryNode M p parent dst) := by
  unfold makePrimaryNode
  refine noFuel_bind (noFuel_addNodeUnder _ _ _) (fun added _ => ?_)
  refine noFuel_bind (noFuel_modifyAt _ _ _) (fun dst1 _ => ?_)
  refine noFuel_bind (noFuel_filter _ _ _) (fun pm _ => ?_)
  exact noFuel_ite _ (noFuel_map _ (noFuel_modifyAt _ _ _)) (noFuel_pure _)

theorem noFuel_primaryStep (M : Mesh) (pos : List Nat) (ids : List CityObjectIndex)
    (dst : Model) (p : Int) : NoFuelError (primaryStep M pos ids dst p) := by
  unfold primaryStep
  refine noFuel_bind (noFuel_toNode _ _) (fun dp _ => ?_)
  refine noFuel_bind ?_ (fun ipp _ => ?_)
  · unfold isParentPrimary
    exact noFuel_ite _ (noFuel_pure _)
      (noFuel_bind (noFuel_nodeAt _ _) (fun _ _ => noFuel_pure _))
  · refine noFuel_bind (noFuel_ite _ (noFuel_pure _) (noFuel_makePrimaryNode _ _ _ _))
      (fun r _ => ?_)
    exact noFuel_foldlM _ (fun s x => noFuel_atomicStep _ _ _ s x) _ _

theorem noFuel_convertNode (pos : List Nat) (n : Node) (dst : Model) :
    NoFuelError (convertNode pos n dst) := by
  unfold convertNode
  cases n.mesh with
  | none => exact noFuel_addChildNode _ _ _
  | some M => exact noFuel_foldlM _ (fun s x => noFuel_primaryStep _ _ _ s x) _ _

/-- The `while` loop of `convertToAtomic` never runs out of iterations when it is given one
per node below the queued positions. -/
theorem convertLoop_fuel (src : Model) :
    ∀ (fuel : Nat) (queue : List (List Nat)) (dst : Model),
      queueWeight src queue ≤ fuel → NoFuelError (convertLoop src fuel queue dst) := by
  intro fuel
  induction fuel with
  | zero =>
    intro queue dst hq
    cases queue with
    | nil => exact noFuel_pure _
    | cons q qs =>
      have := posWeight_pos src q
      simp only [queueWeight, List.map_cons, List.sum_cons] at hq
      omega
  | succ fuel ih =>
    intro queue dst hq
    cases queue with
    | nil => exact noFuel_pure _
    | cons q qs =>
      simp only [convertLoop]
      refine noFuel_bind (noFuel_nodeAt _ _) (fun n hn => ?_)
      refine noFuel_bind (noFuel_convertNode _ _ _) (fun dst1 _ => ?_)
      refine ih _ dst1 ?_
      have hw := queueWeight_children src q n hn
      simp only [queueWeight, List.map_append, List.sum_append, List.map_cons,
        List.sum_cons] at hq hw ⊢
      have hpw : posWeight src q = n.count := by simp [posWeight, hn]
      rw [hpw, Node.count_eq] at hq
      omega

/-- The function `convertToAtomic` returns or throws an error of the program: the iteration
budget of the embedding, one iteration per source node, is never used up. -/
theorem convertToAtomic_noFuelError (src : Model) : NoFuelError (convertToAtomic src) := by
  unfold convertToAtomic
  refine convertLoop_fuel src _ _ _ ?_
  have : ∀ (l : List Node),
      ((List.range l.length).map (fun i => posWeight ⟨l⟩ [i])).sum = countList l := by
    intro l
    rw [countList_eq_sum]
    have := map_range_vecAt (fun r => match r with
      | .ok c => c.count
      | .error _ => 1) l
    rw [← this]
    congr 1
    refine List.map_congr_left ?_
    intro i _
    simp only [posWeight, Model.nodeAt, Model.getRootNodeAt]
    cases vecAt l i with
    | error e => rfl
    | ok c => rfl
  simp only [queueWeight, List.map_map]
  exact Nat.le_of_eq (this src.root_nodes)

/-! ## Pruning of empty nodes -/

theorem Node.eraseEmptyChildren_fields (n : Node) :
    n.eraseEmptyChildren.name = n.name ∧ n.eraseEmptyChildren.mesh = n.mesh ∧
    n.eraseEmptyChildren.is_primary = n.is_primary ∧
    n.eraseEmptyChildren.children = eraseEmptyList n.children := by
  cases n
  simp [Node.eraseEmptyChildren]

theorem Node.eraseEmptyChildren_polygonExists (n : Node) :
    n.eraseEmptyChildren.polygonExists = n.polygonExists := by
  simp only [Node.polygonExists, (Node.eraseEmptyChildren_fields n).2.1]

theorem eraseEmptyList_eq_filter :
    ∀ l : List Node, eraseEmptyList l =
      (l.map Node.eraseEmptyChildren).filter (fun c => !removedByErase c)
  | [] => by simp [eraseEmptyList]
  | c :: cs => by
    simp only [eraseEmptyList, List.map_cons, List.filter_cons, removedByErase,
      eraseEmptyList_eq_filter cs]
    generalize c.eraseEmptyChildren = d
    cases hp : d.polygonExists <;> cases hd : d.children <;> simp [hp, hd]

theorem eraseEmptyList_not_empty (l : List Node) :
    ∀ c ∈ eraseEmptyList l, ¬ c.IsEmpty := by
  intro c hc
  rw [eraseEmptyList_eq_filter, List.mem_filter] at hc
  intro he
  have h2 := hc.2
  simp [removedByErase, Node.IsEmpty] at h2 he
  rcases h2 with h | h
  · exact h he.1
  · rw [he.2] at h
    exact absurd h (by simp)

mutual
theorem Node.eraseEmptyChildren_pruned :
    ∀ n : Node, ListAll (fun x => ¬ x.IsEmpty) n.eraseEmptyChildren.children
  | ⟨_, _, _, cs⟩ => by
    simp only [Node.eraseEmptyChildren]
    exact eraseEmptyList_pruned cs
theorem eraseEmptyList_pruned :
    ∀ l : List Node, ListAll (fun x => ¬ x.IsEmpty) (eraseEmptyList l)
  | [] => by simp [eraseEmptyList, ListAll]
  | c :: cs => by
    have hmem : ∀ x ∈ eraseEmptyList (c :: cs), ¬ x.IsEmpty := eraseEmptyList_not_empty _
    simp only [eraseEmptyList] at hmem ⊢
    split
    · exact eraseEmptyList_pruned cs
    · rename_i hne
      simp only [ListAll]
      refine ⟨?_, eraseEmptyList_pruned cs⟩
      rw [Node.all_iff]
      refine ⟨?_, Node.eraseEmptyChildren_pruned c⟩
      apply hmem
      rw [if_neg hne]
      exact List.mem_cons_self _ _
end

/-- C13: after `n.eraseEmptyChildren()` no proper descendant of `n` has both zero children
and `polygonExists` false, and after `eraseEmptyNodes` (the same pruning applied to the root
nodes) no node of the model is empty in that sense. -/
theorem eraseEmptyChildren_no_empty_node :
    (∀ (n x : Node) (path : List Nat), path ≠ [] →
      Node.descend path n.eraseEmptyChildren = Except.ok x →
      ¬ (x.children.length = 0 ∧ x.polygonExists = false)) ∧
    (∀ (m : Model) (x : Node) (ptr : List Nat),
      Model.nodeAt ptr m.eraseEmptyNodes = Except.ok x →
      ¬ (x.children.length = 0 ∧ x.polygonExists = false)) := by
  constructor
  · intro n x path hpath h
    cases path with
    | nil => exact absurd rfl hpath
    | cons i rest =>
      simp only [Node.descend] at h
      obtain ⟨c, hc, h⟩ := bind_eq_ok h
      have hc2 : c.All (fun x => ¬ x.IsEmpty) :=
        listAll_vecAt _ _ i c (Node.eraseEmptyChildren_pruned n) hc
      exact ((Node.all_iff _ x).mp (Node.descend_all _ rest c x hc2 h)).1
  · intro m x ptr h
    have hm : m.eraseEmptyNodes.All (fun x => ¬ x.IsEmpty) := eraseEmptyList_pruned m.root_nodes
    exact ((Node.all_iff _ x).mp (Model.nodeAt_all _ _ ptr x hm h)).1

theorem eraseEmptyChildren_no_empty_node_witness :
    (Node.descend [0] pruneExampleNode.eraseEmptyChildren =
      Except.ok ⟨"a", some scenarioAMesh, false, []⟩ ∧
     ¬ ((⟨"a", some scenarioAMesh, false, []⟩ : Node).children.length = 0 ∧
        (⟨"a", some scenarioAMesh, false, []⟩ : Node).polygonExists = false)) ∧
    (Model.nodeAt [0] (Model.eraseEmptyNodes ⟨pruneExampleNode.children.reverse⟩) =
      Except.ok ⟨"a", some scenarioAMesh, false, []⟩ ∧
     ¬ ((⟨"a", some scenarioAMesh, false, []⟩ : Node).children.length = 0 ∧
        (⟨"a", some scenarioAMesh, false, []⟩ : Node).polygonExists = false)) :=
  ⟨⟨by decide!, eraseEmptyChildren_no_empty_node.1 pruneExampleNode
      ⟨"a", some scenarioAMesh, false, []⟩ [0] (by simp) (by decide!)⟩,
   ⟨by decide!, eraseEmptyChildren_no_empty_node.2 ⟨pruneExampleNode.children.reverse⟩
      ⟨"a", some scenarioAMesh, false, []⟩ [0] (by decide!)⟩⟩

/-- C14 (as stated) fails: the only child of `pointsOnlyParent` carries a mesh (three
vertices, no index), and `eraseEmptyChildren` removes it. -/
theorem eraseEmptyChildren_mesh_counterexample :
    pointsOnlyParent.children.map Node.mesh = [some pointsOnlyMesh] ∧
    pointsOnlyParent.eraseEmptyChildren.children = [] :=
  ⟨by decide!, by decide!⟩

/-- C14 (amended): `eraseEmptyChildren` keeps the name, mesh and flag of the node and, of
its children after their own pruning, removes exactly those with no child left and no
polygon-bearing mesh (`polygonExists` false), keeping the others in order; pruning does not
change `polygonExists`, so a child whose mesh has a vertex and an index is never removed and
a child without such a mesh and without remaining children is always removed. -/
theorem eraseEmptyChildren_removes_exactly (n : Node) :
    n.eraseEmptyChildren.name = n.name ∧ n.eraseEmptyChildren.mesh = n.mesh ∧
    n.eraseEmptyChildren.is_primary = n.is_primary ∧
    n.eraseEmptyChildren.children = (n.children.map Node.eraseEmptyChildren).filter
      (fun c => !(decide (c.children.length = 0) && !c.polygonExists)) ∧
    (∀ c ∈ n.children, c.polygonExists = true →
      c.eraseEmptyChildren.polygonExists = true ∧
      c.eraseEmptyChildren ∈ n.eraseEmptyChildren.children) ∧
    (∀ c ∈ n.children, c.polygonExists = false → c.eraseEmptyChildren.children.length = 0 →
      c.eraseEmptyChildren ∉ n.eraseEmptyChildren.children) := by
  have hf := Node.eraseEmptyChildren_fields n
  have hc : n.eraseEmptyChildren.children = (n.children.map Node.eraseEmptyChildren).filter
      (fun c => !(decide (c.children.length = 0) && !c.polygonExists)) := by
    rw [hf.2.2.2, eraseEmptyList_eq_filter]
    rfl
  refine ⟨hf.1, hf.2.1, hf.2.2.1, hc, ?_, ?_⟩
  · intro c hmem hp
    have hp2 := Node.eraseEmptyChildren_polygonExists c
    refine ⟨by rw [hp2, hp], ?_⟩
    rw [hc, List.mem_filter]
    refine ⟨List.mem_map_of_mem _ hmem, ?_⟩
    simp [hp2, hp]
  · intro c _ hp hlen
    have hp2 := Node.eraseEmptyChildren_polygonExists c
    rw [hc, List.mem_filter]
    intro h
    have h2 := h.2
    simp [hp2, hp, hlen] at h2

theorem eraseEmptyChildren_removes_exactly_witness :
    (⟨"a", some scenarioAMesh, false, [⟨"e", none, false, []⟩]⟩ : Node) ∈
      pruneExampleNode.children ∧
    (⟨"a", some scenarioAMesh, false, [⟨"e", none, false, []⟩]⟩ : Node).polygonExists = true ∧
    Node.eraseEmptyChildren ⟨"a", some scenarioAMesh, false, [⟨"e", none, false, []⟩]⟩ ∈
      pruneExampleNode.eraseEmptyChildren.children ∧
    pruneExampleNode.eraseEmptyChildren.children = [⟨"a", some scenarioAMesh, false, []⟩] :=
  ⟨by simp [pruneExampleNode], by decide,
   ((eraseEmptyChildren_removes_exactly pruneExampleNode).2.2.2.2.1
      ⟨"a", some scenarioAMesh, false, [⟨"e", none, false, []⟩]⟩ (by simp [pruneExampleNode])
      (by decide)).2, by decide!⟩

/-! ## Conversions of the example models -/

/-- C12: converting Scenario B's model to atomic granularity gives the primary node "P" over
the leaves "A0" and "A1" (depth 2); converting that result to atomic granularity again gives
a mesh-less, non-primary "P" over two new primary nodes named "gml_id_not_found", each over
one leaf (depth 3): the second conversion changes the shape of the tree. -/
theorem convert_atomic_twice_scenarioB :
    convert scenarioBModel MeshGranularity.PerAtomicFeatureObject =
      Except.ok scenarioBAtomicModel ∧
    convert scenarioBAtomicModel MeshGranularity.PerAtomicFeatureObject =
      Except.ok scenarioBReatomized ∧
    depthList scenarioBAtomicModel.root_nodes = 2 ∧
    depthList scenarioBReatomized.root_nodes = 3 ∧
    scenarioBAtomicModel.root_nodes.map (fun n => n.children.length) = [2] ∧
    scenarioBReatomized.root_nodes.map (fun n => n.children.map (fun c => c.children.length)) =
      [[1, 1]] :=
  ⟨by decide!, by decide!, by decide!, by decide!, by decide!, by decide!⟩

/-- C16: `convert` for primary granularity on the atomic model of Scenario B returns a
mesh-less "P" over two nodes named "gml_id_not_found" with one triangle each, not a single
node "P" carrying the six-vertex mesh; the step `convertFromAtomicToPrimary` alone, applied
to that atomic model, does build the node "P" with the mesh of Scenario C. -/
theorem convert_primary_scenarioBAtomic :
    convert scenarioBAtomicModel MeshGranularity.PerPrimaryFeatureObject =
      Except.ok scenarioBAtomicToPrimary ∧
    convertFromAtomicToPrimary scenarioBAtomicModel =
      Except.ok ⟨[⟨"P", some scenarioCMesh, false, []⟩]⟩ :=
  ⟨by decide!, by decide!⟩

/-- C20: the model `emptyMeshModel` (a root carrying a mesh with zero vertices, over a
mesh-less child) has only well-formed meshes, and `convert` throws the out-of-range error on
it for each of the three granularities. -/
theorem convert_emptyMeshModel_outOfRange :
    Mesh.empty.WellFormed ∧
    convert emptyMeshModel MeshGranularity.PerAtomicFeatureObject =
      Except.error Error.outOfRange ∧
    convert emptyMeshModel MeshGranularity.PerPrimaryFeatureObject =
      Except.error Error.outOfRange ∧
    convert emptyMeshModel MeshGranularity.PerCityModelArea =
      Except.error Error.outOfRange :=
  ⟨by unfold Mesh.WellFormed; decide, by decide!, by decide!, by decide!⟩

/-! ## Merging a subtree -/

theorem countList_append (a b : List Node) : countList (a ++ b) = countList a + countList b := by
  simp [countList_eq_sum]

theorem Node.count_pos (n : Node) : 1 ≤ n.count := by
  rw [Node.count_eq]; omega

theorem bfsNodes_length : ∀ (fuel : Nat) (queue : List Node), countList queue ≤ fuel →
    (bfsNodes fuel queue).length = countList queue := by
  intro fuel
  induction fuel with
  | zero =>
    intro queue h
    cases queue with
    | nil => rfl
    | cons n q =>
      have := Node.count_pos n
      simp only [countList] at h
      omega
  | succ fuel ih =>
    intro queue h
    cases queue with
    | nil => rfl
    | cons n q =>
      simp only [bfsNodes, List.length_cons]
      have hn := Node.count_eq n
      simp only [countList] at h ⊢
      rw [ih _ (by rw [countList_append]; omega), countList_append]
      omega

theorem mergeLoop_eq (p : Int) : ∀ (fuel : Nat) (queue : List Node) (st : Mesh × Int),
    countList queue ≤ fuel →
    mergeLoop p fuel queue st = Except.ok (mergeFold p (bfsNodes fuel queue) st) := by
  intro fuel
  induction fuel with
  | zero =>
    intro queue st h
    cases queue with
    | nil => rfl
    | cons n q =>
      have := Node.count_pos n
      simp only [countList] at h
      omega
  | succ fuel ih =>
    intro queue st h
    cases queue with
    | nil => rfl
    | cons n q =>
      simp only [mergeLoop, bfsNodes, mergeFold, List.foldl_cons]
      have hn := Node.count_eq n
      simp only [countList] at h
      exact ih _ _ (by rw [countList_append]; omega)

theorem mergePrimaryNodeAndChildren_eq (src : Node) (dst : Mesh) (p : Int) :
    mergePrimaryNodeAndChildren src dst p = Except.ok (mergeFold p src.bfs (dst, 0)).1 := by
  unfold mergePrimaryNodeAndChildren
  rw [mergeLoop_eq p src.count [src] (dst, 0) (by simp [countList])]
  rfl

theorem mergeNode_none (p : Int) (n : Node) (st : Mesh × Int) (h : n.mesh = none) :
    mergeNode p n st = st := by
  simp [mergeNode, h]

theorem mergeNode_some (p : Int) (n : Node) (st : Mesh × Int) (m : Mesh) (h : n.mesh = some m) :
    (mergeNode p n st).1.vertices = st.1.vertices ++ m.vertices ∧
    (mergeNode p n st).1.uv4 = st.1.uv4 ++ List.replicate m.uv4.length
      (CityObjectIndex.toUV ⟨p, if n.is_primary then -1 else st.2⟩) ∧
    (mergeNode p n st).2 = (if n.is_primary then st.2 else st.2 + 1) ∧
    ∃ gml, (mergeNode p n st).1.city_object_list =
      CityObjectList.add st.1.city_object_list ⟨p, if n.is_primary then -1 else st.2⟩ gml := by
  simp only [mergeNode, h, Mesh.merge, Mesh.setUV4, Mesh.setCityObjectList]
  exact ⟨trivial, trivial, trivial, _, rfl⟩

theorem CityObjectList.mem_add (l : CityObjectList) (k : CityObjectIndex) (v : String) :
    (k, v) ∈ CityObjectList.add l k v := by
  induction l with
  | nil => simp [CityObjectList.add]
  | cons e rest ih =>
    simp only [CityObjectList.add]
    split
    · simp
    · split
      · exact List.mem_cons_of_mem _ ih
      · simp

theorem CityObjectList.hasKey_add (l : CityObjectList) (k : CityObjectIndex) (v : String)
    (k' : CityObjectIndex) :
    CityObjectList.HasKey (CityObjectList.add l k v) k' ↔ CityObjectList.HasKey l k' ∨ k' = k := by
  induction l with
  | nil => 
    simp [CityObjectList.add, CityObjectList.HasKey]
  | cons e rest ih =>
    simp only [CityObjectList.add]
    split
    · simp only [CityObjectList.HasKey, List.mem_cons, Prod.mk.injEq] 
      constructor
      · rintro ⟨g, h | h⟩
        · exact Or.inr h.1
        · exact Or.inl ⟨g, h⟩
      · rintro (⟨g, h⟩ | h)
        · exact ⟨g, Or.inr h⟩
        · exact ⟨v, Or.inl ⟨h, rfl⟩⟩
    · split
      · have : CityObjectList.HasKey (e :: CityObjectList.add rest k v) k' ↔
            k' = e.1 ∨ CityObjectList.HasKey (CityObjectList.add rest k v) k' := by
          simp only [CityObjectList.HasKey, List.mem_cons]
          constructor
          · rintro ⟨g, h | h⟩
            · exact Or.inl (by rw [← h])
            · exact Or.inr ⟨g, h⟩
          · rintro (h | ⟨g, h⟩)
            · exact ⟨e.2, Or.inl (by rw [h])⟩
            · exact ⟨g, Or.inr h⟩
        rw [this, ih]
        simp only [CityObjectList.HasKey, List.mem_cons]
        constructor
        · rintro (h | ⟨g, h⟩ | h)
          · exact Or.inl ⟨e.2, Or.inl (by rw [h])⟩
          · exact Or.inl ⟨g, Or.inr h⟩
          · exact Or.inr h
        · rintro (⟨g, h | h⟩ | h)
          · exact Or.inl (by rw [← h])
          · exact Or.inr (Or.inl ⟨g, h⟩)
          · exact Or.inr (Or.inr h)
      · rename_i h1 h2
        have hek : e.1 = k := by
          have := strictTotal_cityObjectIndex.tri e.1 k (by simpa using h2) (by simpa using h1)
          exact this
        simp only [CityObjectList.HasKey, List.mem_cons, Prod.mk.injEq]
        constructor
        · rintro ⟨g, h | h⟩
          · exact Or.inr h.1
          · exact Or.inl ⟨g, Or.inr h⟩
        · rintro (⟨g, h | h⟩ | h)
          · exact ⟨v, Or.inl ⟨by rw [← hek, ← h], rfl⟩⟩
          · exact ⟨g, Or.inr h⟩
          · exact ⟨v, Or.inl ⟨h, rfl⟩⟩

theorem mergeFold_cons (p : Int) (n : Node) (L : List Node) (st : Mesh × Int) :
    mergeFold p (n :: L) st = mergeFold p L (mergeNode p n st) := rfl

theorem mergeTag_head (p : Int) (pre ns : List Node) (n : Node) :
    mergeTag p (pre ++ n :: ns) pre.length n =
      ⟨p, if n.is_primary then -1 else ((pre.countP (fun x => !x.is_primary) : Nat) : Int)⟩ := by
  unfold mergeTag
  rw [List.take_left]
  split <;> rfl

theorem mergeFold_spec (p : Int) : ∀ (L pre : List Node) (d : Mesh) (next : Int),
    next = ((pre.countP (fun x => !x.is_primary) : Nat) : Int) →
    (mergeFold p L (d, next)).1.vertices =
      d.vertices ++ (L.filter (fun x => x.mesh.isSome)).flatMap (fun n => n.meshOrEmpty.vertices) ∧
    (mergeFold p L (d, next)).1.uv4 = d.uv4 ++
      (List.enumFrom pre.length (L.filter (fun x => x.mesh.isSome))).flatMap (fun e =>
        List.replicate e.2.meshOrEmpty.uv4.length
          (mergeTag p (pre ++ L.filter (fun x => x.mesh.isSome)) e.1 e.2).toUV) ∧
    (∀ k, CityObjectList.HasKey (mergeFold p L (d, next)).1.city_object_list k ↔
      CityObjectList.HasKey d.city_object_list k ∨
      ∃ e ∈ List.enumFrom pre.length (L.filter (fun x => x.mesh.isSome)),
        k = mergeTag p (pre ++ L.filter (fun x => x.mesh.isSome)) e.1 e.2) := by
  intro L
  induction L with
  | nil =>
    intro pre d next _
    simp [mergeFold]
  | cons n L ih =>
    intro pre d next hnext
    rw [mergeFold_cons]
    cases hm : n.mesh with
    | none =>
      rw [mergeNode_none p n _ hm]
      have hf : (n :: L).filter (fun x => x.mesh.isSome) = L.filter (fun x => x.mesh.isSome) := by
        simp [List.filter_cons, hm]
      rw [hf]
      exact ih pre d next hnext
    | some m =>
      have hf : (n :: L).filter (fun x => x.mesh.isSome) =
          n :: L.filter (fun x => x.mesh.isSome) := by
        simp [List.filter_cons, hm]
      obtain ⟨hv, hu, ha, gml, hc⟩ := mergeNode_some p n (d, next) m hm
      have hnext2 : (mergeNode p n (d, next)).2 =
          (((pre ++ [n]).countP (fun x => !x.is_primary) : Nat) : Int) := by
        rw [ha, List.countP_append, hnext]
        cases hp : n.is_primary <;> simp [List.countP_cons, hp]
      have hmo : n.meshOrEmpty = m := by simp [Node.meshOrEmpty, hm]
      have htag := mergeTag_head p pre (L.filter (fun x => x.mesh.isSome)) n
      have happ : pre ++ [n] ++ L.filter (fun x => x.mesh.isSome) =
          pre ++ n :: L.filter (fun x => x.mesh.isSome) := by simp
      have hlen : (pre ++ [n]).length = pre.length + 1 := by simp
      obtain ⟨i1, i2, i3⟩ := ih (pre ++ [n]) (mergeNode p n (d, next)).1
        (mergeNode p n (d, next)).2 hnext2
      rw [happ, hlen] at i2 i3
      rw [hf]
      refine ⟨?_, ?_, ?_⟩
      · rw [i1, hv, List.flatMap_cons, hmo, List.append_assoc]
      · rw [i2, hu, List.enumFrom_cons, List.flatMap_cons, htag, hmo, hnext, List.append_assoc]
      · intro k
        rw [i3, hc, CityObjectList.hasKey_add, List.enumFrom_cons]
        simp only [List.mem_cons, exists_eq_or_imp, htag, hnext]
        tauto

/-- The queue order is the order level by level: a queue that starts with the nodes `F`
visits them, then what was queued behind them, then their children. -/
theorem bfsNodes_level : ∀ (F G : List Node) (fuel : Nat), countList (F ++ G) ≤ fuel →
    bfsNodes fuel (F ++ G) = F ++ bfsNodes (fuel - F.length) (G ++ F.flatMap Node.children) := by
  intro F
  induction F with
  | nil => intro G fuel _; simp
  | cons x F ih =>
    intro G fuel h
    have hx := Node.count_eq x
    rw [List.cons_append, countList, countList_append] at h
    cases fuel with
    | zero => omega
    | succ f =>
      rw [List.cons_append, bfsNodes, List.append_assoc,
        ih (G ++ x.children) f (by rw [countList_append, countList_append]; omega)]
      simp

theorem Node.bfs_head (n : Node) : n.bfs = n :: bfsNodes (countList n.children) n.children := by
  unfold Node.bfs
  rw [Node.count_eq, Nat.add_comm]
  rfl

theorem mergeTag_roundtrip (p : Int) (ns : List Node) (i : Nat) (n : Node) :
    CityObjectIndex.fromUV (mergeTag p ns i n).toUV = mergeTag p ns i n := by
  unfold mergeTag
  split <;> exact fromUV_intCast _ _

theorem forall₂_range_vecAt {β : Type} (R : β → Node → Prop) (f : Nat → β) :
    ∀ l : List Node, (∀ i c, vecAt l i = Except.ok c → R (f i) c) →
      List.Forall₂ R ((List.range l.length).map f) l := by
  intro l h
  rw [List.forall₂_iff_get]
  refine ⟨by simp, ?_⟩
  intro i h1 h2
  have : ((List.range l.length).map f).get ⟨i, h1⟩ = f i := by simp
  rw [this]
  exact h i _ (vecAt_of_lt h2)

theorem areaLoop_eq (src : Model) : ∀ (fuel : Nat) (queue : List (Option Node × Nat))
    (nodes : List Node) (st : Mesh × Int),
    List.Forall₂ (fun e n => getNodeFromParent e.1 e.2 src = Except.ok n) queue nodes →
    countList nodes ≤ fuel →
    areaLoop src fuel queue st = Except.ok (areaFold (areaNodes fuel nodes) st) := by
  intro fuel
  induction fuel with
  | zero =>
    intro queue nodes st hq h
    cases hq with
    | nil => rfl
    | cons hr hrest =>
      rename_i e n q ns
      have := Node.count_pos n
      simp only [countList] at h
      omega
  | succ fuel ih =>
    intro queue nodes st hq h
    obtain ⟨d, k⟩ := st
    cases hq with
    | nil => rfl
    | cons hr hrest =>
      rename_i e n q ns
      obtain ⟨e1, e2⟩ := e
      have hn := Node.count_eq n
      simp only [countList] at h
      simp only [areaLoop, areaNodes]
      simp only at hr
      rw [hr, bind_ok_eq]
      by_cases hp : n.is_primary = true
      · rw [if_pos hp, if_pos hp, mergePrimaryNodeAndChildren_eq, bind_ok_eq,
          ih q ns _ hrest (by omega)]
        rfl
      · rw [if_neg hp, if_neg hp]
        refine ih _ _ _ (List.rel_append hrest ?_) (by rw [countList_append]; omega)
        exact forall₂_range_vecAt _ _ n.children (fun i c hc => hc)

theorem convertFromAtomicToArea_eq (src : Model) :
    convertFromAtomicToArea src = Except.ok
      ⟨[⟨(match src.root_nodes with
          | [r] => r.name
          | _ => "combined"), some (areaFold src.primaries (Mesh.empty, 0)).1, true, []⟩]⟩ := by
  unfold convertFromAtomicToArea
  have hname : areaRootName src = Except.ok (match src.root_nodes with
      | [r] => r.name
      | _ => "combined") := by
    unfold areaRootName Model.getRootNodeAt
    match h : src.root_nodes with
    | [] => simp; rfl
    | [r] => simp [vecAt]
    | a :: b :: rest => simp; rfl
  rw [hname, bind_ok_eq,
    areaLoop_eq src _ _ src.root_nodes (Mesh.empty, 0)
      (forall₂_range_vecAt _ (fun i => ((none : Option Node), i)) src.root_nodes
        (fun i c hc => hc)) (le_refl _)]
  rfl

theorem areaNodes_primary : ∀ (fuel : Nat) (queue : List Node),
    ∀ P ∈ areaNodes fuel queue, P.is_primary = true := by
  intro fuel
  induction fuel with
  | zero => intro queue P h; simp [areaNodes] at h
  | succ fuel ih =>
    intro queue P h
    cases queue with
    | nil => simp [areaNodes] at h
    | cons n q =>
      simp only [areaNodes] at h
      by_cases hp : n.is_primary = true
      · rw [if_pos hp, List.mem_cons] at h
        rcases h with h | h
        · rw [h]; exact hp
        · exact ih q P h
      · rw [if_neg hp] at h
        exact ih _ P h

theorem areaFold_cons (P : Node) (Ps : List Node) (st : Mesh × Int) :
    areaFold (P :: Ps) st = areaFold Ps ((mergeFold st.2 P.bfs (st.1, 0)).1, st.2 + 1) := rfl

theorem areaFold_spec : ∀ (Ps : List Node) (k0 : Nat) (d : Mesh),
    (areaFold Ps (d, (k0 : Int))).1.vertices = d.vertices ++ Ps.flatMap Node.subtreeVertices ∧
    (areaFold Ps (d, (k0 : Int))).1.uv4 =
      d.uv4 ++ (List.enumFrom k0 Ps).flatMap (fun e => mergedUV4 (e.1 : Int) e.2) ∧
    (∀ k, CityObjectList.HasKey (areaFold Ps (d, (k0 : Int))).1.city_object_list k ↔
      CityObjectList.HasKey d.city_object_list k ∨
      ∃ e ∈ List.enumFrom k0 Ps, ∃ x ∈ e.2.meshNodes.enum,
        k = mergeTag (e.1 : Int) e.2.meshNodes x.1 x.2) := by
  intro Ps
  induction Ps with
  | nil => intro k0 d; simp [areaFold]
  | cons P Ps ih =>
    intro k0 d
    rw [areaFold_cons]
    obtain ⟨m1, m2, m3⟩ := mergeFold_spec (k0 : Int) P.bfs [] d 0 (by simp)
    simp only [List.nil_append, List.length_nil] at m2 m3
    have hk : ((k0 : Int) + 1) = ((k0 + 1 : Nat) : Int) := by push_cast; rfl
    simp only [hk]
    obtain ⟨i1, i2, i3⟩ := ih (k0 + 1) (mergeFold (k0 : Int) P.bfs (d, 0)).1
    refine ⟨?_, ?_, ?_⟩
    · rw [i1, m1, List.flatMap_cons, List.append_assoc]
      rfl
    · rw [i2, m2, List.enumFrom_cons, List.flatMap_cons, List.append_assoc]
      rfl
    · intro k
      rw [i3, m3, List.enumFrom_cons]
      simp only [List.mem_cons, exists_eq_or_imp, or_assoc]
      rfl

theorem mergeTag_primary (p : Int) (ns : List Node) (i : Nat) (n : Node) :
    (mergeTag p ns i n).primary_index = p := by
  unfold mergeTag
  split <;> rfl

theorem mem_mergedUV4 (p : Int) (P : Node) (uv : TVec2f) (h : uv ∈ mergedUV4 p P) :
    ∃ x ∈ P.meshNodes.enum, CityObjectIndex.fromUV uv = mergeTag p P.meshNodes x.1 x.2 := by
  unfold mergedUV4 at h
  rw [List.mem_flatMap] at h
  obtain ⟨x, hx, hu⟩ := h
  rw [List.mem_replicate] at hu
  exact ⟨x, hx, by rw [hu.2, mergeTag_roundtrip]⟩

theorem length_flatMap_replicate {α β : Type} (g : Nat × α → Nat) (f : Nat × α → β) :
    ∀ (l : List (Nat × α)),
      (l.flatMap (fun e => List.replicate (g e) (f e))).length = (l.map g).sum := by
  intro l
  induction l with
  | nil => rfl
  | cons a l ih => simp [List.flatMap_cons, ih]

theorem map_snd_enumFrom {α β : Type} (g : α → β) : ∀ (l : List α) (k : Nat),
    (List.enumFrom k l).map (fun e => g e.2) = l.map g := by
  intro l
  induction l with
  | nil => intro k; rfl
  | cons a l ih => intro k; simp [List.enumFrom_cons, ih]

theorem mergedUV4_length (p : Int) (P : Node) :
    (mergedUV4 p P).length = (P.meshNodes.map (fun n => n.meshOrEmpty.uv4.length)).sum := by
  unfold mergedUV4
  have h := length_flatMap_replicate (fun e : Nat × Node => e.2.meshOrEmpty.uv4.length)
    (fun e => (mergeTag p P.meshNodes e.1 e.2).toUV) P.meshNodes.enum
  rw [h]
  exact congrArg List.sum
    (map_snd_enumFrom (fun n : Node => n.meshOrEmpty.uv4.length) P.meshNodes 0)

/-- C17: for every model `src`, `convertFromAtomicToArea(src)` returns a model with exactly
one root node; that node has no children, is flagged primary and carries a mesh; it is named
by the root of `src` when `src` has exactly one root and "combined" otherwise. -/
theorem convertFromAtomicToArea_single_root (src : Model) :
    ∃ mesh, convertFromAtomicToArea src = Except.ok
      ⟨[⟨(match src.root_nodes with
          | [r] => r.name
          | _ => "combined"), some mesh, true, []⟩]⟩ :=
  ⟨_, convertFromAtomicToArea_eq src⟩

/-- Witness of C17 on the atomic model of Scenario B: one root, named "P". -/
theorem convertFromAtomicToArea_single_root_witness :
    ∃ mesh, convertFromAtomicToArea scenarioBAtomicModel =
      Except.ok ⟨[⟨"P", some mesh, true, []⟩]⟩ :=
  convertFromAtomicToArea_single_root scenarioBAtomicModel

/-- C18: `convertFromAtomicToArea` returns one root whose mesh holds the vertices of the
subtrees of the primary nodes in the order the breadth-first search reaches them; the `uv4`
channel is the sequence of their blocks in the same order, the block of the `k`-th primary
(`k = 0, 1, 2, ...`) has one entry per `uv4` entry of its subtree and all of them decode to
primary index `k` and to a key of the city-object list. On Scenario D the result, also
through `convert`, is the root "combined" with six vertices, `uv4` three `(0,-1)` then three
`(1,-1)`, and the keys `(0,-1)` and `(1,-1)`. -/
theorem convertFromAtomicToArea_primary_ids :
    (∀ src : Model, ∃ name mesh,
      convertFromAtomicToArea src = Except.ok ⟨[⟨name, some mesh, true, []⟩]⟩ ∧
      (∀ P ∈ src.primaries, P.is_primary = true) ∧
      mesh.vertices = src.primaries.flatMap
        (fun P => P.meshNodes.flatMap (fun n => n.meshOrEmpty.vertices)) ∧
      mesh.uv4 = src.primaries.enum.flatMap (fun e => mergedUV4 (e.1 : Int) e.2) ∧
      ∀ e ∈ src.primaries.enum,
        (mergedUV4 (e.1 : Int) e.2).length =
          (e.2.meshNodes.map (fun n => n.meshOrEmpty.uv4.length)).sum ∧
        ∀ uv ∈ mergedUV4 (e.1 : Int) e.2,
          (CityObjectIndex.fromUV uv).primary_index = (e.1 : Int) ∧
          ∃ gml, (CityObjectIndex.fromUV uv, gml) ∈ mesh.city_object_list) ∧
    scenarioDModel.primaries = scenarioDModel.root_nodes ∧
    convertFromAtomicToArea scenarioDModel =
      Except.ok ⟨[⟨"combined", some scenarioDAreaMesh, true, []⟩]⟩ ∧
    convert scenarioDModel MeshGranularity.PerCityModelArea =
      Except.ok ⟨[⟨"combined", some scenarioDAreaMesh, true, []⟩]⟩ := by
  refine ⟨?_, by decide!, by decide!, by decide!⟩
  intro src
  obtain ⟨h1, h2, h3⟩ := areaFold_spec src.primaries 0 Mesh.empty
  refine ⟨_, _, convertFromAtomicToArea_eq src, areaNodes_primary _ _, ?_, ?_, ?_⟩
  · rw [Nat.cast_zero] at h1
    rw [h1]; rfl
  · rw [Nat.cast_zero] at h2
    rw [h2]; rfl
  · intro e he
    refine ⟨mergedUV4_length _ _, ?_⟩
    intro uv huv
    obtain ⟨x, hx, hfx⟩ := mem_mergedUV4 _ _ uv huv
    refine ⟨by rw [hfx, mergeTag_primary], ?_⟩
    have := (h3 (CityObjectIndex.fromUV uv)).mpr (Or.inr ⟨e, he, x, hx, hfx⟩)
    rw [Nat.cast_zero] at this
    exact this

theorem convertFromAtomicToArea_primary_ids_witness :
    ∃ name mesh, convertFromAtomicToArea scenarioDModel =
        Except.ok ⟨[⟨name, some mesh, true, []⟩]⟩ ∧
      mesh.uv4 = [⟨0, -1⟩, ⟨0, -1⟩, ⟨0, -1⟩, ⟨1, -1⟩, ⟨1, -1⟩, ⟨1, -1⟩] := by
  obtain ⟨name, mesh, h, _, _, hu, _⟩ := convertFromAtomicToArea_primary_ids.1 scenarioDModel
  refine ⟨name, mesh, h, ?_⟩
  rw [hu, convertFromAtomicToArea_primary_ids.2.1]
  decide!

/-! ## Tag consistency of the converted model -/

mutual
theorem Node.all_mono (Q Q' : Node → Prop) (h : ∀ n, Q n → Q' n) :
    ∀ n : Node, n.All Q → n.All Q'
  | ⟨_, _, _, cs⟩, hn => by
    simp only [Node.All] at hn ⊢
    exact ⟨h _ hn.1, listAll_mono Q Q' h cs hn.2⟩
theorem listAll_mono (Q Q' : Node → Prop) (h : ∀ n, Q n → Q' n) :
    ∀ l : List Node, ListAll Q l → ListAll Q' l
  | [], _ => by simp [ListAll]
  | c :: cs, hl => by
    simp only [ListAll] at hl ⊢
    exact ⟨Node.all_mono Q Q' h c hl.1, listAll_mono Q Q' h cs hl.2⟩
end

theorem singleTagged_tagConsistent (n : Node) (h : n.SingleTagged) : n.TagConsistent := by
  intro m hm uv huv
  obtain ⟨_, _, h3, gml, h4⟩ := h m hm
  exact ⟨gml, by rw [h4, (h3 uv huv).2]; exact List.mem_singleton.mpr rfl⟩

theorem tagConsistent_children :
    ∀ (a : String) (b : Option Mesh) (c : Bool) (d e : List Node),
      Node.TagConsistent ⟨a, b, c, d⟩ → Node.TagConsistent ⟨a, b, c, e⟩ := by
  intro a b c d e h
  exact h

theorem tagConsistent_empty : Mesh.empty.TagConsistent := by
  intro uv h
  simp [Mesh.empty] at h

theorem mergeNode_tagConsistent (p : Int) (n : Node) (st : Mesh × Int)
    (h : st.1.TagConsistent) : (mergeNode p n st).1.TagConsistent := by
  cases hm : n.mesh with
  | none => rw [mergeNode_none p n st hm]; exact h
  | some m =>
    obtain ⟨_, hu, _, gml, hc⟩ := mergeNode_some p n st m hm
    intro uv huv
    rw [hu, List.mem_append] at huv
    have hk : CityObjectList.HasKey (mergeNode p n st).1.city_object_list
        (CityObjectIndex.fromUV uv) := by
      rw [hc, CityObjectList.hasKey_add]
      rcases huv with huv | huv
      · exact Or.inl (h uv huv)
      · rw [List.mem_replicate] at huv
        right
        rw [huv.2]
        exact fromUV_intCast _ _
    exact hk

theorem mergeFold_tagConsistent (p : Int) : ∀ (L : List Node) (st : Mesh × Int),
    st.1.TagConsistent → (mergeFold p L st).1.TagConsistent := by
  intro L
  induction L with
  | nil => intro st h; exact h
  | cons n L ih =>
    intro st h
    rw [mergeFold_cons]
    exact ih _ (mergeNode_tagConsistent p n st h)

theorem areaFold_tagConsistent : ∀ (Ps : List Node) (st : Mesh × Int),
    st.1.TagConsistent → (areaFold Ps st).1.TagConsistent := by
  intro Ps
  induction Ps with
  | nil => intro st h; exact h
  | cons P Ps ih =>
    intro st h
    rw [areaFold_cons]
    exact ih _ (mergeFold_tagConsistent _ _ _ h)

theorem ofName_all_tagConsistent (name : String) :
    (Node.ofName name).All Node.TagConsistent := by
  rw [Node.all_iff]
  refine ⟨?_, trivial⟩
  intro m hm
  simp [Node.ofName] at hm

theorem primaryChildStep_all (src_node : Node) (dst_node : List Nat)
    (st st' : Model × List (Option Node × Nat) × List (List Nat × Nat)) (i : Nat)
    (hs : st.1.All Node.TagConsistent)
    (h : primaryChildStep src_node dst_node st i = Except.ok st') :
    st'.1.All Node.TagConsistent := by
  unfold primaryChildStep at h
  obtain ⟨src_child, _, h⟩ := bind_eq_ok h
  obtain ⟨dst_model, hmod, h⟩ := bind_eq_ok h
  obtain ⟨d, _, h⟩ := bind_eq_ok h
  simp only [pure, Except.pure, Except.ok.injEq] at h
  subst h
  obtain ⟨t, ht, _, hall⟩ := modelModifyAt_spec Node.TagConsistent tagConsistent_children _ _ _ _ hmod
  apply hall hs
  have htall := Model.nodeAt_all Node.TagConsistent _ _ t hs ht
  rw [Node.all_iff] at htall ⊢
  refine ⟨htall.1, ?_⟩
  exact (listAll_append _ _ _).mpr ⟨htall.2, ofName_all_tagConsistent _⟩

theorem primaryLoop_all (src_model : Model) :
    ∀ (fuel : Nat) (src_queue : List (Option Node × Nat)) (dst_queue : List (List Nat × Nat))
      (dst out : Model), dst.All Node.TagConsistent →
      primaryLoop src_model fuel src_queue dst_queue dst = Except.ok out →
      out.All Node.TagConsistent := by
  intro fuel
  induction fuel with
  | zero =>
    intro sq dq dst out hd h
    cases sq with
    | nil =>
      simp only [primaryLoop, pure, Except.pure, Except.ok.injEq] at h
      subst h; exact hd
    | cons q qs => simp [primaryLoop] at h
  | succ fuel ih =>
    intro sq dq dst out hd h
    cases sq with
    | nil =>
      simp only [primaryLoop, pure, Except.pure, Except.ok.injEq] at h
      subst h; exact hd
    | cons q qs =>
      obtain ⟨spn, spi⟩ := q
      cases dq with
      | nil => simp [primaryLoop] at h
      | cons dqh dqs =>
        obtain ⟨dpn, dpi⟩ := dqh
        simp only [primaryLoop] at h
        obtain ⟨src_node, _, h⟩ := bind_eq_ok h
        obtain ⟨dst_node, _, h⟩ := bind_eq_ok h
        by_cases hp : src_node.is_primary = true
        · rw [if_pos hp] at h
          obtain ⟨dst_mesh, hmesh, h⟩ := bind_eq_ok h
          obtain ⟨dst1, hmod, h⟩ := bind_eq_ok h
          refine ih _ _ dst1 out ?_ h
          obtain ⟨t, ht, _, hall⟩ :=
            modelModifyAt_spec Node.TagConsistent tagConsistent_children _ _ _ _ hmod
          apply hall hd
          have htall := Model.nodeAt_all Node.TagConsistent _ _ t hd ht
          rw [Node.all_iff] at htall ⊢
          refine ⟨?_, htall.2⟩
          intro m hm
          simp only [Node.setMesh, Option.some.injEq] at hm
          rw [mergePrimaryNodeAndChildren_eq] at hmesh
          simp only [Except.ok.injEq] at hmesh
          rw [← hm, ← hmesh]
          exact mergeFold_tagConsistent _ _ _ tagConsistent_empty
        · rw [if_neg hp] at h
          obtain ⟨st, hst, h⟩ := bind_eq_ok h
          refine ih _ _ st.1 out ?_ h
          exact foldlM_inv (fun s : Model × List (Option Node × Nat) × List (List Nat × Nat) =>
              s.1.All Node.TagConsistent) _
            (fun s x s' hs hx => primaryChildStep_all src_node dst_node s s' x hs hx)
            _ _ st hd hst

theorem convertFromAtomicToPrimary_all (src out : Model)
    (h : convertFromAtomicToPrimary src = Except.ok out) : out.All Node.TagConsistent := by
  unfold convertFromAtomicToPrimary at h
  refine primaryLoop_all src _ _ _ _ out ?_ h
  show ListAll Node.TagConsistent (src.root_nodes.map (fun n => Node.ofName n.name))
  rw [listAll_iff]
  intro c hc
  rw [List.mem_map] at hc
  obtain ⟨n, _, hn⟩ := hc
  rw [← hn]
  exact ofName_all_tagConsistent _

theorem convertToAtomic_all (src atomic : Model) (h : convertToAtomic src = Except.ok atomic) :
    atomic.eraseEmptyNodes.All Node.TagConsistent := by
  have h1 : atomic.All Node.SingleTagged :=
    convertLoop_all src _ _ Model.empty atomic trivial h
  have h2 : atomic.eraseEmptyNodes.All Node.SingleTagged :=
    eraseEmptyList_all Node.SingleTagged singleTagged_children _ h1
  exact listAll_mono _ _ singleTagged_tagConsistent _ h2

/-- C11: for every input model and each of the three granularities, when `convert` returns,
every mesh of the returned model has every `uv4` entry decoding to a key of the city-object
list of that same mesh. -/
theorem convert_tagConsistent (m out : Model) (g : MeshGranularity)
    (h : convert m g = Except.ok out) :
    ∀ (ptr : List Nat) (n : Node) (mesh : Mesh), Model.nodeAt ptr out = Except.ok n →
      n.mesh = some mesh →
      ∀ uv ∈ mesh.uv4, ∃ gml, (CityObjectIndex.fromUV uv, gml) ∈ mesh.city_object_list := by
  have hall : out.All Node.TagConsistent := by
    unfold convert at h
    obtain ⟨atomic, hatomic, h⟩ := bind_eq_ok h
    have ha := convertToAtomic_all m atomic hatomic
    cases g with
    | PerAtomicFeatureObject =>
      simp only [pure, Except.pure, Except.ok.injEq] at h
      rw [← h]; exact ha
    | PerPrimaryFeatureObject => exact convertFromAtomicToPrimary_all _ out h
    | PerCityModelArea =>
      simp only [] at h
      rw [convertFromAtomicToArea_eq] at h
      simp only [Except.ok.injEq] at h
      rw [← h]
      refine ⟨?_, trivial⟩
      rw [Node.all_iff]
      refine ⟨?_, trivial⟩
      intro mesh hmesh
      simp only [Option.some.injEq] at hmesh
      rw [← hmesh]
      exact areaFold_tagConsistent _ _ tagConsistent_empty
    | other raw => simp at h
  intro ptr n mesh hn hmesh
  exact ((Node.all_iff _ n).mp (Model.nodeAt_all _ _ ptr n hall hn)).1 mesh hmesh

/-- Witness of C11 on Scenario B, primary granularity: the merged mesh of the node "P". -/
theorem convert_tagConsistent_witness :
    convert scenarioBModel MeshGranularity.PerPrimaryFeatureObject =
      Except.ok ⟨[⟨"P", some scenarioCMesh, false, []⟩]⟩ ∧
    ∀ uv ∈ scenarioCMesh.uv4,
      ∃ gml, (CityObjectIndex.fromUV uv, gml) ∈ scenarioCMesh.city_object_list :=
  ⟨by decide!,
   convert_tagConsistent scenarioBModel ⟨[⟨"P", some scenarioCMesh, false, []⟩]⟩
     MeshGranularity.PerPrimaryFeatureObject (by decide!) [0]
     ⟨"P", some scenarioCMesh, false, []⟩ scenarioCMesh (by decide!) rfl⟩

/-! ## The error of an unknown granularity -/

theorem noArg_ok {α : Type} (a : α) : NoArgumentError (Except.ok a : Except Error α) := by
  intro h; cases h

theorem noArg_pure {α : Type} (a : α) : NoArgumentError (pure a : Except Error α) := by
  intro h; cases h

theorem noArg_bind {α β : Type} {x : Except Error α} {f : α → Except Error β}
    (hx : NoArgumentError x) (hf : ∀ a, x = Except.ok a → NoArgumentError (f a)) :
    NoArgumentError (x >>= f) := by
  cases x with
  | error e =>
    intro h
    rw [bind_error_eq] at h
    cases h
    exact hx rfl
  | ok a => exact hf a rfl

theorem noArg_map {α β : Type} {x : Except Error α} (f : α → β) (hx : NoArgumentError x) :
    NoArgumentError (x.map f) := by
  cases x with
  | error e =>
    intro h
    simp only [Except.map] at h
    cases h
    exact hx rfl
  | ok a => intro h; simp [Except.map] at h

theorem noArg_ite {α : Type} (c : Prop) [Decidable c] {x y : Except Error α}
    (hx : NoArgumentError x) (hy : NoArgumentError y) : NoArgumentError (if c then x else y) := by
  split
  · exact hx
  · exact hy

theorem noArg_vecAt {α : Type} (l : List α) (i : Nat) : NoArgumentError (vecAt l i) := by
  unfold vecAt
  cases l[i]? <;> (intro h; cases h)

theorem noArg_foldlM {α β : Type} (f : β → α → Except Error β)
    (hf : ∀ s x, NoArgumentError (f s x)) : ∀ (l : List α) (s : β), NoArgumentError (l.foldlM f s) := by
  intro l
  induction l with
  | nil => intro s; exact noArg_pure s
  | cons x xs ih =>
    intro s
    simp only [List.foldlM]
    exact noArg_bind (hf s x) (fun a _ => ih a)

theorem noArg_vertexLoop (src : Mesh) (fid : CityObjectIndex) (r : Int) :
    ∀ n, NoArgumentError (vertexLoop src fid r n) := by
  intro n
  induction n with
  | zero => exact noArg_ok _
  | succ n ih =>
    simp only [vertexLoop]
    refine noArg_bind ih (fun st _ => ?_)
    unfold vertexStep
    refine noArg_bind (noArg_vecAt _ _) (fun uv _ => ?_)
    refine noArg_ite _ ?_ (noArg_pure _)
    exact noArg_bind (noArg_vecAt _ _) (fun v _ =>
      noArg_bind (noArg_vecAt _ _) (fun t _ => noArg_pure _))

theorem noArg_indexLoop (vt : List Int) :
    ∀ (idxs : List Nat) (acc : List Nat × List Int), NoArgumentError (indexLoop vt idxs acc) := by
  intro idxs
  induction idxs with
  | nil => intro acc; exact noArg_ok _
  | cons x xs ih =>
    intro acc
    obtain ⟨di, it⟩ := acc
    simp only [indexLoop]
    exact noArg_bind (noArg_vecAt _ _) (fun k _ => noArg_ite _ (ih _) (ih _))

theorem noArg_advanceStart :
    ∀ (suffix : List Int) (s e : Nat), NoArgumentError (advanceStart suffix s e) := by
  intro suffix
  induction suffix with
  | nil => intro s e h; simp [advanceStart] at h
  | cons t rest ih =>
    intro s e
    simp only [advanceStart]
    exact noArg_ite _ (noArg_ite _ (noArg_ok _) (ih _ _)) (noArg_ok _)

theorem noArg_retractEnd (tr : List Int) (s : Nat) :
    ∀ e, NoArgumentError (retractEnd tr s e) := by
  intro e
  induction e with
  | zero =>
    simp only [retractEnd]
    refine noArg_bind (noArg_vecAt _ _) (fun t _ => noArg_ite _ ?_ (noArg_pure _))
    intro h; cases h
  | succ e ih =>
    simp only [retractEnd]
    exact noArg_bind (noArg_vecAt _ _) (fun t _ =>
      noArg_ite _ (noArg_ite _ (noArg_pure _) ih) (noArg_pure _))

theorem noArg_subMeshStep (tr : List Int) (sm : SubMesh) : NoArgumentError (subMeshStep tr sm) := by
  unfold subMeshStep
  refine noArg_bind (noArg_advanceStart _ _ _) (fun s' _ => noArg_ite _ (noArg_pure _) ?_)
  refine noArg_bind (noArg_retractEnd _ _ _) (fun e' _ => noArg_ite _ (noArg_pure _) ?_)
  exact noArg_bind (noArg_vecAt _ _) (fun a _ =>
    noArg_bind (noArg_vecAt _ _) (fun b _ => noArg_pure _))

theorem noArg_subMeshLoop (tr : List Int) :
    ∀ (sms acc : List SubMesh), NoArgumentError (subMeshLoop tr sms acc) := by
  intro sms
  induction sms with
  | nil => intro acc; exact noArg_ok _
  | cons sm rest ih =>
    intro acc
    simp only [subMeshLoop]
    refine noArg_bind (noArg_subMeshStep _ _) (fun st _ => ?_)
    cases st with
    | skip => exact ih _
    | stop => exact noArg_pure _
    | emit d => exact ih _

theorem noArg_filter (src : Mesh) (fid : CityObjectIndex) (r : Int) :
    NoArgumentError (filterByCityObjIndex src fid r) := by
  unfold filterByCityObjIndex
  refine noArg_bind (noArg_vertexLoop _ _ _ _) (fun vp _ => ?_)
  refine noArg_bind (noArg_indexLoop _ _ _) (fun acc _ => ?_)
  obtain ⟨di, it⟩ := acc
  exact noArg_bind (noArg_subMeshLoop _ _ _) (fun sms _ => noArg_pure _)

theorem noArg_descend : ∀ (path : List Nat) (n : Node), NoArgumentError (Node.descend path n) := by
  intro path
  induction path with
  | nil => intro n; exact noArg_ok _
  | cons i rest ih =>
    intro n
    simp only [Node.descend]
    exact noArg_bind (noArg_vecAt _ _) (fun c _ => ih c)

theorem noArg_nodeAt (ptr : List Nat) (m : Model) : NoArgumentError (Model.nodeAt ptr m) := by
  cases ptr with
  | nil => intro h; simp [Model.nodeAt] at h
  | cons i rest =>
    simp only [Model.nodeAt]
    exact noArg_bind (noArg_vecAt _ _) (fun c _ => noArg_descend rest c)

theorem noArg_nodeModifyAt (f : Node → Node) :
    ∀ (path : List Nat) (n : Node), NoArgumentError (Node.modifyAt f path n) := by
  intro path
  induction path with
  | nil => intro n; exact noArg_ok _
  | cons i rest ih =>
    intro n
    simp only [Node.modifyAt]
    exact noArg_bind (noArg_vecAt _ _) (fun c _ =>
      noArg_bind (ih c) (fun c' _ => noArg_pure _))

theorem noArg_modifyAt (f : Node → Node) (ptr : List Nat) (m : Model) :
    NoArgumentError (Model.modifyAt f ptr m) := by
  cases ptr with
  | nil => intro h; simp [Model.modifyAt] at h
  | cons i rest =>
    simp only [Model.modifyAt]
    exact noArg_bind (noArg_vecAt _ _) (fun c _ =>
      noArg_bind (noArg_nodeModifyAt f rest c) (fun c' _ => noArg_pure _))

theorem noArg_addNodeUnder (parent : List Nat) (c : Node) (m : Model) :
    NoArgumentError (Model.addNodeUnder parent c m) := by
  unfold Model.addNodeUnder
  exact noArg_ite _ (noArg_pure _) (noArg_bind (noArg_nodeAt _ _) (fun p _ =>
    noArg_bind (noArg_modifyAt _ _ _) (fun m' _ => noArg_pure _)))

theorem noArg_toNode (positions : List Nat) (m : Model) :
    NoArgumentError (NodePos.toNode positions m) := by
  cases positions with
  | nil => exact noArg_ok _
  | cons i rest =>
    simp only [NodePos.toNode]
    exact noArg_bind (noArg_nodeAt _ _) (fun _ _ => noArg_pure _)

theorem noArg_addChildNode (positions : List Nat) (c : Node) (m : Model) :
    NoArgumentError (NodePos.addChildNode positions c m) := by
  cases positions with
  | nil => exact noArg_pure _
  | cons i rest =>
    simp only [NodePos.addChildNode]
    exact noArg_bind (noArg_toNode _ _) (fun _ _ => noArg_modifyAt _ _ _)

theorem noArg_atomicStep (M : Mesh) (p : Int) (ptr : List Nat) (dst : Model)
    (id : CityObjectIndex) : NoArgumentError (atomicStep M p ptr dst id) := by
  unfold atomicStep
  refine noArg_ite _ (noArg_pure _) (noArg_ite _ (noArg_pure _) ?_)
  refine noArg_bind (noArg_addNodeUnder _ _ _) (fun added _ => ?_)
  refine noArg_bind (noArg_filter _ _ _) (fun am _ => ?_)
  exact noArg_ite _ (noArg_modifyAt _ _ _) (noArg_pure _)

theorem noArg_makePrimaryNode (M : Mesh) (p : Int) (parent : List Nat) (dst : Model) :
    NoArgumentError (makePrimaryNode M p parent dst) := by
  unfold makePrimaryNode
  refine noArg_bind (noArg_addNodeUnder _ _ _) (fun added _ => ?_)
  refine noArg_bind (noArg_modifyAt _ _ _) (fun dst1 _ => ?_)
  refine noArg_bind (noArg_filter _ _ _) (fun pm _ => ?_)
  exact noArg_ite _ (noArg_map _ (noArg_modifyAt _ _ _)) (noArg_pure _)

theorem noArg_primaryStep (M : Mesh) (pos : List Nat) (ids : List CityObjectIndex)
    (dst : Model) (p : Int) : NoArgumentError (primaryStep M pos ids dst p) := by
  unfold primaryStep
  refine noArg_bind (noArg_toNode _ _) (fun dp _ => ?_)
  refine noArg_bind ?_ (fun ipp _ => ?_)
  · unfold isParentPrimary
    exact noArg_ite _ (noArg_pure _)
      (noArg_bind (noArg_nodeAt _ _) (fun _ _ => noArg_pure _))
  · refine noArg_bind (noArg_ite _ (noArg_pure _) (noArg_makePrimaryNode _ _ _ _))
      (fun r _ => ?_)
    exact noArg_foldlM _ (fun s x => noArg_atomicStep _ _ _ s x) _ _

theorem noArg_convertNode (pos : List Nat) (n : Node) (dst : Model) :
    NoArgumentError (convertNode pos n dst) := by
  unfold convertNode
  cases n.mesh with
  | none => exact noArg_addChildNode _ _ _
  | some M => exact noArg_foldlM _ (fun s x => noArg_primaryStep _ _ _ s x) _ _

theorem noArg_convertLoop (src : Model) :
    ∀ (fuel : Nat) (queue : List (List Nat)) (dst : Model),
      NoArgumentError (convertLoop src fuel queue dst) := by
  intro fuel
  induction fuel with
  | zero =>
    intro queue dst
    cases queue with
    | nil => exact noArg_pure _
    | cons q qs => intro h; simp [convertLoop] at h
  | succ fuel ih =>
    intro queue dst
    cases queue with
    | nil => exact noArg_pure _
    | cons q qs =>
      simp only [convertLoop]
      refine noArg_bind (noArg_nodeAt _ _) (fun n hn => ?_)
      exact noArg_bind (noArg_convertNode _ _ _) (fun dst1 _ => ih _ dst1)

theorem noArg_convertToAtomic (src : Model) : NoArgumentError (convertToAtomic src) :=
  noArg_convertLoop src _ _ _

theorem noArg_primaryChildStep (src_node : Node) (dst_node : List Nat)
    (st : Model × List (Option Node × Nat) × List (List Nat × Nat)) (i : Nat) :
    NoArgumentError (primaryChildStep src_node dst_node st i) := by
  unfold primaryChildStep
  refine noArg_bind (noArg_vecAt _ _) (fun c _ => ?_)
  refine noArg_bind (noArg_modifyAt _ _ _) (fun m _ => ?_)
  exact noArg_bind (noArg_nodeAt _ _) (fun d _ => noArg_pure _)

theorem noArg_getNodeFromParent (parent_node : Option Node) (child_index : Nat)
    (model : Model) : NoArgumentError (getNodeFromParent parent_node child_index model) := by
  unfold getNodeFromParent
  cases parent_node with
  | none => exact noArg_vecAt _ _
  | some p => exact noArg_vecAt _ _

theorem noArg_primaryLoop (src_model : Model) :
    ∀ (fuel : Nat) (src_queue : List (Option Node × Nat)) (dst_queue : List (List Nat × Nat))
      (dst : Model), NoArgumentError (primaryLoop src_model fuel src_queue dst_queue dst) := by
  intro fuel
  induction fuel with
  | zero =>
    intro sq dq dst
    cases sq with
    | nil => exact noArg_pure _
    | cons q qs => intro h; simp [primaryLoop] at h
  | succ fuel ih =>
    intro sq dq dst
    cases sq with
    | nil => exact noArg_pure _
    | cons q qs =>
      obtain ⟨spn, spi⟩ := q
      cases dq with
      | nil => intro h; simp [primaryLoop] at h
      | cons dqh dqs =>
        obtain ⟨dpn, dpi⟩ := dqh
        simp only [primaryLoop]
        refine noArg_bind (noArg_getNodeFromParent _ _ _) (fun src_node _ => ?_)
        refine noArg_bind ?_ (fun dst_node _ => ?_)
        · unfold getNodePtrFromParent
          exact noArg_bind (noArg_nodeAt _ _) (fun _ _ => noArg_pure _)
        · refine noArg_ite _ ?_ ?_
          · rw [mergePrimaryNodeAndChildren_eq, bind_ok_eq]
            exact noArg_bind (noArg_modifyAt _ _ _) (fun m _ => ih _ _ _)
          · exact noArg_bind
              (noArg_foldlM _ (fun s x => noArg_primaryChildStep _ _ s x) _ _)
              (fun st _ => ih _ _ _)

/-- C19 (as stated) fails: with a granularity that is none of the three, `convert` on
`emptyMeshModel` throws the out-of-range error of the conversion to atomic granularity, not
the error of an unknown granularity. -/
theorem convert_unknown_granularity_counterexample :
    convert emptyMeshModel (MeshGranularity.other 7) = Except.error Error.outOfRange := by
  decide!

/-- C19 (amended): when the granularity is none of the three and the conversion to atomic
granularity that precedes the dispatch returns, `convert` fails with the error of an unknown
granularity; with such a granularity it never returns a model; and it never raises that
error when the granularity is one of the three. -/
theorem convert_unknown_granularity :
    (∀ (src atomic : Model) (raw : Nat), convertToAtomic src = Except.ok atomic →
      convert src (MeshGranularity.other raw) = Except.error Error.unknownArgument) ∧
    (∀ (src out : Model) (raw : Nat), convert src (MeshGranularity.other raw) ≠ Except.ok out) ∧
    (∀ (src : Model) (g : MeshGranularity),
      g = MeshGranularity.PerAtomicFeatureObject ∨ g = MeshGranularity.PerPrimaryFeatureObject ∨
        g = MeshGranularity.PerCityModelArea →
      convert src g ≠ Except.error Error.unknownArgument) := by
  refine ⟨?_, ?_, ?_⟩
  · intro src atomic raw h
    unfold convert
    rw [h, bind_ok_eq]
  · intro src out raw h
    unfold convert at h
    obtain ⟨atomic, _, h⟩ := bind_eq_ok h
    simp at h
  · intro src g hg
    unfold convert
    refine noArg_bind (noArg_convertToAtomic src) (fun atomic _ => ?_)
    rcases hg with hg | hg | hg
    · subst hg; exact noArg_pure _
    · subst hg; exact noArg_primaryLoop _ _ _ _ _
    · subst hg
      show NoArgumentError (convertFromAtomicToArea atomic.eraseEmptyNodes)
      rw [convertFromAtomicToArea_eq]
      exact noArg_ok _

theorem convert_unknown_granularity_witness :
    convertToAtomic scenarioAModel = Except.ok (expectedAtomicModel scenarioAMesh) ∧
    convert scenarioAModel (MeshGranularity.other 7) = Except.error Error.unknownArgument ∧
    convert scenarioAModel MeshGranularity.PerCityModelArea ≠
      Except.error Error.unknownArgument :=
  ⟨by decide!,
   convert_unknown_granularity.1 scenarioAModel (expectedAtomicModel scenarioAMesh) 7
     (by decide!),
   convert_unknown_granularity.2.2 scenarioAModel MeshGranularity.PerCityModelArea
     (Or.inr (Or.inr rfl))⟩

/-! ## The iteration budgets of the conversions from the atomic model -/

theorem entryWeight_pos (src : Model) (e : Option Node × Nat) : 1 ≤ entryWeight src e := by
  unfold entryWeight
  cases getNodeFromParent e.1 e.2 src with
  | error e => exact Nat.le_refl _
  | ok n => exact Node.count_pos n

theorem entryWeight_children (src : Model) (n : Node) :
    ((List.range n.children.length).map
      (fun i => entryWeight src ((some n : Option Node), i))).sum = countList n.children := by
  rw [countList_eq_sum]
  have := map_range_vecAt (fun r => match r with
    | .ok c => c.count
    | .error _ => 1) n.children
  rw [← this]
  rfl

theorem entryWeight_roots (src : Model) :
    ((List.range src.root_nodes.length).map
      (fun i => entryWeight src ((none : Option Node), i))).sum = countList src.root_nodes := by
  rw [countList_eq_sum]
  have := map_range_vecAt (fun r => match r with
    | .ok c => c.count
    | .error _ => 1) src.root_nodes
  rw [← this]
  rfl

theorem primaryChildFold_queue (src_node : Node) (dst_node : List Nat) :
    ∀ (l : List Nat) (st st' : Model × List (Option Node × Nat) × List (List Nat × Nat)),
      l.foldlM (primaryChildStep src_node dst_node) st = Except.ok st' →
      st'.2.1 = st.2.1 ++ l.map (fun i => ((some src_node : Option Node), i)) := by
  intro l
  induction l with
  | nil =>
    intro st st' h
    simp only [List.foldlM, pure, Except.pure, Except.ok.injEq] at h
    subst h; simp
  | cons i l ih =>
    intro st st' h
    rw [List.foldlM_cons] at h
    obtain ⟨st1, h1, h⟩ := bind_eq_ok h
    rw [ih st1 st' h]
    unfold primaryChildStep at h1
    obtain ⟨src_child, _, h1⟩ := bind_eq_ok h1
    obtain ⟨dst_model, _, h1⟩ := bind_eq_ok h1
    obtain ⟨d, _, h1⟩ := bind_eq_ok h1
    simp only [pure, Except.pure, Except.ok.injEq] at h1
    subst h1
    simp

theorem noFuel_getNodeFromParent (parent_node : Option Node) (child_index : Nat)
    (model : Model) : NoFuelError (getNodeFromParent parent_node child_index model) := by
  unfold getNodeFromParent
  cases parent_node with
  | none => exact noFuel_vecAt _ _
  | some p => exact noFuel_vecAt _ _

theorem noFuel_primaryChildStep (src_node : Node) (dst_node : List Nat)
    (st : Model × List (Option Node × Nat) × List (List Nat × Nat)) (i : Nat) :
    NoFuelError (primaryChildStep src_node dst_node st i) := by
  unfold primaryChildStep
  refine noFuel_bind (noFuel_vecAt _ _) (fun c _ => ?_)
  refine noFuel_bind (noFuel_modifyAt _ _ _) (fun m _ => ?_)
  exact noFuel_bind (noFuel_nodeAt _ _) (fun d _ => noFuel_pure _)

/-- The `while` loop of `convertFromAtomicToPrimary` never runs out of iterations when it is
given one per node below the queued entries. -/
theorem primaryLoop_fuel (src_model : Model) :
    ∀ (fuel : Nat) (src_queue : List (Option Node × Nat)) (dst_queue : List (List Nat × Nat))
      (dst : Model), (src_queue.map (entryWeight src_model)).sum ≤ fuel →
      NoFuelError (primaryLoop src_model fuel src_queue dst_queue dst) := by
  intro fuel
  induction fuel with
  | zero =>
    intro sq dq dst hq
    cases sq with
    | nil => exact noFuel_pure _
    | cons q qs =>
      have := entryWeight_pos src_model q
      simp only [List.map_cons, List.sum_cons] at hq
      omega
  | succ fuel ih =>
    intro sq dq dst hq
    cases sq with
    | nil => exact noFuel_pure _
    | cons q qs =>
      obtain ⟨spn, spi⟩ := q
      cases dq with
      | nil => intro h; simp [primaryLoop] at h
      | cons dqh dqs =>
        obtain ⟨dpn, dpi⟩ := dqh
        simp only [primaryLoop]
        refine noFuel_bind (noFuel_getNodeFromParent _ _ _) (fun src_node hsrc => ?_)
        have hw : entryWeight src_model (spn, spi) = src_node.count := by
          simp [entryWeight, hsrc]
        have hc := Node.count_eq src_node
        simp only [List.map_cons, List.sum_cons] at hq
        refine noFuel_bind ?_ (fun dst_node _ => ?_)
        · unfold getNodePtrFromParent
          exact noFuel_bind (noFuel_nodeAt _ _) (fun _ _ => noFuel_pure _)
        · refine noFuel_ite _ ?_ ?_
          · rw [mergePrimaryNodeAndChildren_eq, bind_ok_eq]
            exact noFuel_bind (noFuel_modifyAt _ _ _) (fun m _ => ih _ _ _ (by omega))
          · refine noFuel_bind
              (noFuel_foldlM _ (fun s x => noFuel_primaryChildStep _ _ s x) _ _)
              (fun st hst => ih _ _ _ ?_)
            rw [primaryChildFold_queue _ _ _ _ _ hst, List.map_append, List.sum_append,
              List.map_map]
            have := entryWeight_children src_model src_node
            have h2 : (entryWeight src_model ∘ fun i => ((some src_node : Option Node), i)) =
                fun i => entryWeight src_model ((some src_node : Option Node), i) := rfl
            rw [h2]
            show (qs.map (entryWeight src_model)).sum + _ ≤ fuel
            omega

/-- The function `convert` returns or throws an error of the program, whatever the
granularity: the iteration budgets of the embedding are never used up. -/
theorem convert_noFuelError (src : Model) (g : MeshGranularity) :
    NoFuelError (convert src g) := by
  unfold convert
  refine noFuel_bind (convertToAtomic_noFuelError src) (fun atomic _ => ?_)
  cases g with
  | PerAtomicFeatureObject => exact noFuel_pure _
  | PerPrimaryFeatureObject =>
    refine primaryLoop_fuel _ _ _ _ _ ?_
    rw [List.map_map]
    exact Nat.le_of_eq (entryWeight_roots _)
  | PerCityModelArea =>
    show NoFuelError (convertFromAtomicToArea atomic.eraseEmptyNodes)
    rw [convertFromAtomicToArea_eq]
    exact noFuel_ok _
  | other raw => intro h; simp at h

/-! ## Sub-mesh ends, totality and idempotence of `filterByCityObjIndex` -/

theorem forall₂_mem_left {α β : Type} {R : α → β → Prop} {l1 : List α} {l2 : List β}
    (h : List.Forall₂ R l1 l2) : ∀ a ∈ l1, ∃ b ∈ l2, R a b := by
  induction h with
  | nil => intro a ha; simp at ha
  | cons hr _ ih =>
    intro a ha
    rcases List.mem_cons.mp ha with ha | ha
    · subst ha; exact ⟨_, List.mem_cons_self _ _, hr⟩
    · obtain ⟨b, hb, hab⟩ := ih a ha
      exact ⟨b, List.mem_cons_of_mem _ hb, hab⟩

theorem survivorsBefore_succ (src : Mesh) (fid : CityObjectIndex) (j : Nat) :
    survivorsBefore src fid (j + 1) =
      survivorsBefore src fid j + (if survives src fid j then 1 else 0) := by
  unfold survivorsBefore survives
  rw [List.take_succ, List.countP_append]
  cases h : src.indices[j]? with
  | none => simp
  | some x =>
    by_cases hk : keepsVertex src fid x = true <;> simp [List.countP_cons, hk]

theorem survivorsBefore_mono (src : Mesh) (fid : CityObjectIndex) {i j : Nat} (h : i ≤ j) :
    survivorsBefore src fid i ≤ survivorsBefore src fid j :=
  countP_take_mono _ _ h

theorem survivorsBefore_const (src : Mesh) (fid : CityObjectIndex) (a : Nat) :
    ∀ b, a ≤ b → (∀ p, a ≤ p → p < b → survives src fid p = false) →
      survivorsBefore src fid b = survivorsBefore src fid a := by
  intro b
  induction b with
  | zero => intro hab _; have : a = 0 := by omega
            rw [this]
  | succ b ih =>
    intro hab hno
    by_cases hb : a = b + 1
    · rw [hb]
    · rw [survivorsBefore_succ, hno b (by omega) (by omega),
        ih (by omega) (fun p h1 h2 => hno p h1 (by omega))]
      simp

theorem survivorsBefore_ivt (src : Mesh) (fid : CityObjectIndex) (a q : Nat) :
    ∀ b, a ≤ b → survivorsBefore src fid a ≤ q → q < survivorsBefore src fid b →
      ∃ p, a ≤ p ∧ p < b ∧ survives src fid p = true ∧ survivorsBefore src fid p = q := by
  intro b
  induction b with
  | zero =>
    intro hab h1 h2
    have : a = 0 := by omega
    rw [this] at h1
    omega
  | succ b ih =>
    intro hab h1 h2
    by_cases hb : a = b + 1
    · rw [hb] at h1; omega
    · by_cases hq : q < survivorsBefore src fid b
      · obtain ⟨p, hp1, hp2, hp3, hp4⟩ := ih (by omega) h1 hq
        exact ⟨p, hp1, by omega, hp3, hp4⟩
      · rw [survivorsBefore_succ] at h2
        by_cases hs : survives src fid b = true
        · rw [hs] at h2
          simp at h2
          exact ⟨b, by omega, by omega, hs, by omega⟩
        · simp [hs] at h2
          omega

theorem survivorsIn_eq (src : Mesh) (fid : CityObjectIndex) (sm : SubMesh)
    (h : sm.start_index ≤ sm.end_index + 1) :
    survivorsIn src fid sm + survivorsBefore src fid sm.start_index =
      survivorsBefore src fid (sm.end_index + 1) := by
  unfold survivorsIn survivorsBefore
  have h1 : src.indices.take sm.start_index =
      (src.indices.take (sm.end_index + 1)).take sm.start_index := by
    rw [List.take_take, Nat.min_eq_left h]
  have h2 := List.countP_append (fun x => keepsVertex src fid x)
    ((src.indices.take (sm.end_index + 1)).take sm.start_index)
    ((src.indices.take (sm.end_index + 1)).drop sm.start_index)
  rw [List.take_append_drop] at h2
  rw [h1, h2]
  omega

/-- The mesh `filterByCityObjIndex` returns satisfies the invariants of the data model. -/
theorem filter_wellFormed (src : Mesh) (fid : CityObjectIndex) (r : Int) (out : Mesh)
    (h : filterByCityObjIndex src fid r = Except.ok out) : out.WellFormed := by
  obtain ⟨vp, hvp, hidx, hsm, hv, hu, hu4, hi, _⟩ := filter_unfold src fid r out h
  obtain ⟨_, _, hcur, hdv, hdu, hd4, _, _⟩ := vertexLoop_inv src fid r _ vp hvp
  refine ⟨by rw [hu, hv, hdu, hdv], by rw [hu4, hv, hd4, hdv]; simp, ?_, ?_⟩
  · intro x hx
    rw [hi] at hx
    obtain ⟨y, hy, rfl⟩ := List.mem_map.mp hx
    obtain ⟨hy1, hy2⟩ := List.mem_filter.mp hy
    rw [hv, hdv, hcur]
    exact keptBefore_lt src fid (hidx y hy1) hy2
  · obtain ⟨steps, hsteps, hout⟩ := subMeshLoop_spec _ _ _ _ hsm
    rw [List.nil_append] at hout
    have hall := emitted_forall₂ src fid
      (fun o _ => o.start_index ≤ o.end_index ∧ o.end_index < out.indices.length) (by
        intro sm d hd
        have hsp := subMeshStep_src src fid sm (.emit d) hd
        simp only at hsp
        obtain ⟨_, s', e', _, hse, _, _, he, _, _, rfl⟩ := hsp
        refine ⟨countP_take_mono _ _ hse, ?_⟩
        rw [hi, List.length_map]
        exact survivorsBefore_lt_total src fid e' he) _ _ hsteps
    rw [← hout] at hall
    intro sm hmem
    obtain ⟨_, _, hq⟩ := forall₂_mem_left hall sm hmem
    exact hq

/-- C24: on a mesh with `|uv1| = |uv4| = |vertices|`, every index value below `|vertices|`
and every sub-mesh with `0 ≤ start ≤ end < |indices|`, `filterByCityObjIndex` returns a mesh
for every filter id and replacement: no bounds-checked access of the three passes throws. -/
theorem filterByCityObjIndex_never_fails (src : Mesh) (filter_id : CityObjectIndex) (r : Int)
    (h1 : src.uv1.length = src.vertices.length) (h4 : src.uv4.length = src.vertices.length)
    (hidx : ∀ x ∈ src.indices, x < src.vertices.length)
    (hsm : ∀ sm ∈ src.sub_meshes, 0 ≤ sm.start_index ∧ sm.start_index ≤ sm.end_index ∧
      sm.end_index < src.indices.length) :
    (∃ out, filterByCityObjIndex src filter_id r = Except.ok out) ∧
    ∀ e, filterByCityObjIndex src filter_id r ≠ Except.error e := by
  have hw : src.WellFormed := ⟨h1, h4, hidx, fun sm hmem => (hsm sm hmem).2⟩
  obtain ⟨out, h⟩ := filter_total src filter_id r hw
  exact ⟨⟨out, h⟩, fun e he => by rw [h] at he; cases he⟩

/-- Witness of C24 on Scenario E's mesh: under tag `(0,0)` the sub-mesh `[3,5]`, which ends
at the last index position, is entirely dropped; under tag `(7,7)` no vertex matches. -/
theorem filterByCityObjIndex_never_fails_witness :
    scenarioEMesh.indices.length = 6 ∧
    (∃ out, filterByCityObjIndex scenarioEMesh ⟨0, 0⟩ 0 = Except.ok out) ∧
    (filterByCityObjIndex scenarioEMesh ⟨0, 0⟩ 0).map (fun m => m.sub_meshes) =
      Except.ok [⟨0, 2, "m0"⟩] ∧
    (∃ out, filterByCityObjIndex scenarioEMesh ⟨7, 7⟩ 0 = Except.ok out) ∧
    filterByCityObjIndex scenarioEMesh ⟨7, 7⟩ 0 = Except.ok Mesh.empty :=
  ⟨by decide,
   (filterByCityObjIndex_never_fails scenarioEMesh ⟨0, 0⟩ 0 (by decide) (by decide) (by decide)
      (by decide)).1,
   by decide,
   (filterByCityObjIndex_never_fails scenarioEMesh ⟨7, 7⟩ 0 (by decide) (by decide) (by decide)
      (by decide)).1,
   by decide⟩

/-- C23: the sub-meshes of the mesh returned by `filterByCityObjIndex` pair off, in order,
with the source sub-meshes `[s, e]` that have a survivor; for each pair there are the first
surviving position `s'` and the last surviving position `e'` of `[s, e]`, and the emitted
sub-mesh has `start` the output position of `s'`, `end` the output position of `e'`, the
material of the source sub-mesh, `start ≤ end`, `end - start + 1` the number of survivors of
`[s, e]`, and the output positions in `[start, end]` are exactly the output positions of the
surviving positions of `[s, e]`. -/
theorem filterByCityObjIndex_subMesh_ends (src : Mesh) (filter_id : CityObjectIndex) (r : Int)
    (out : Mesh) (h : filterByCityObjIndex src filter_id r = Except.ok out) :
    List.Forall₂
      (fun o sm => ∃ s' e', sm.start_index ≤ s' ∧ s' ≤ e' ∧ e' ≤ sm.end_index ∧
        e' < src.indices.length ∧
        survives src filter_id s' = true ∧ survives src filter_id e' = true ∧
        (∀ p, sm.start_index ≤ p → p < s' → survives src filter_id p = false) ∧
        (∀ p, e' < p → p ≤ sm.end_index → survives src filter_id p = false) ∧
        o.start_index = survivorsBefore src filter_id s' ∧
        o.end_index = survivorsBefore src filter_id e' ∧
        o.material = sm.material ∧
        o.start_index ≤ o.end_index ∧
        o.end_index - o.start_index + 1 = survivorsIn src filter_id sm ∧
        ∀ q, (o.start_index ≤ q ∧ q ≤ o.end_index) ↔
          ∃ p, sm.start_index ≤ p ∧ p ≤ sm.end_index ∧ survives src filter_id p = true ∧
            survivorsBefore src filter_id p = q)
      out.sub_meshes (src.sub_meshes.filter (fun sm => hasSurvivor src filter_id sm)) := by
  obtain ⟨vp, _, _, hsm, _, _, _, hi, _⟩ := filter_unfold src filter_id r out h
  obtain ⟨steps, hsteps, hout⟩ := subMeshLoop_spec _ _ _ _ hsm
  rw [List.nil_append] at hout
  rw [hout]
  refine emitted_forall₂ src filter_id _ ?_ _ _ hsteps
  intro sm d hd
  have hsp := subMeshStep_src src filter_id sm (.emit d) hd
  simp only at hsp
  obtain ⟨_, s', e', h1, hse, h2, hs, he, hbefore, hafter, rfl⟩ := hsp
  have helt : e' < src.indices.length := by
    obtain ⟨x, hx, _⟩ := survives_iff.mp he
    exact getElem?_some_lt hx
  have hc1 := survivorsBefore_const src filter_id sm.start_index s' h1 hbefore
  have hc2 := survivorsBefore_const src filter_id (e' + 1) (sm.end_index + 1) (by omega)
    (fun p hp1 hp2 => (hafter p (by omega) (by omega)).2)
  have hsucc := survivorsBefore_succ src filter_id e'
  rw [he] at hsucc
  simp only [if_true] at hsucc
  have hin := survivorsIn_eq src filter_id sm (by omega)
  have hmono := survivorsBefore_mono src filter_id hse
  refine ⟨s', e', h1, hse, h2, helt, hs, he, hbefore, fun p hp1 hp2 => (hafter p hp1 hp2).2,
    rfl, rfl, rfl, hmono, ?_, ?_⟩
  · simp only
    omega
  · intro q
    simp only
    constructor
    · rintro ⟨hq1, hq2⟩
      obtain ⟨p, hp1, hp2, hp3, hp4⟩ := survivorsBefore_ivt src filter_id s' q (e' + 1)
        (by omega) hq1 (by omega)
      exact ⟨p, by omega, by omega, hp3, hp4⟩
    · rintro ⟨p, hp1, hp2, hp3, rfl⟩
      have hps : s' ≤ p := by
        by_contra hlt
        have := hbefore p hp1 (by omega)
        rw [hp3] at this; cases this
      have hpe : p ≤ e' := by
        by_contra hlt
        have := (hafter p (by omega) hp2).2
        rw [hp3] at this; cases this
      exact ⟨survivorsBefore_mono src filter_id hps, survivorsBefore_mono src filter_id hpe⟩

/-- Witness of C23: Scenario E's mesh filtered by tag `(0,1)`; the source sub-mesh `[3,5]`
is emitted as `[0,2]`, three survivors. -/
theorem filterByCityObjIndex_subMesh_ends_witness :
    filterByCityObjIndex scenarioEMesh ⟨0, 1⟩ 0 =
      Except.ok { scenarioBAtomic1 with sub_meshes := [⟨0, 2, "m1"⟩] } ∧
    scenarioEMesh.sub_meshes.filter (fun sm => hasSurvivor scenarioEMesh ⟨0, 1⟩ sm) =
      [⟨3, 5, "m1"⟩] ∧
    survivorsIn scenarioEMesh ⟨0, 1⟩ ⟨3, 5, "m1"⟩ = 3 ∧
    List.Forall₂
      (fun (o sm : SubMesh) => ∃ s' e', sm.start_index ≤ s' ∧ s' ≤ e' ∧ e' ≤ sm.end_index ∧
        o.start_index = survivorsBefore scenarioEMesh ⟨0, 1⟩ s' ∧
        o.end_index = survivorsBefore scenarioEMesh ⟨0, 1⟩ e' ∧
        o.end_index - o.start_index + 1 = survivorsIn scenarioEMesh ⟨0, 1⟩ sm)
      [⟨0, 2, "m1"⟩] [⟨3, 5, "m1"⟩] := by
  refine ⟨by decide, by decide, by decide, ?_⟩
  have h := filterByCityObjIndex_subMesh_ends scenarioEMesh ⟨0, 1⟩ 0
    { scenarioBAtomic1 with sub_meshes := [⟨0, 2, "m1"⟩] } (by decide)
  have hf : scenarioEMesh.sub_meshes.filter (fun sm => hasSurvivor scenarioEMesh ⟨0, 1⟩ sm) =
      [⟨3, 5, "m1"⟩] := by decide
  rw [hf] at h
  refine List.Forall₂.imp ?_ h
  rintro o sm ⟨s', e', a1, a2, a3, _, _, _, _, _, a4, a5, _, _, a6, _⟩
  exact ⟨s', e', a1, a2, a3, a4, a5, a6⟩

/-- C30 (as stated) fails: Scenario A's mesh is well-formed; filtered by its tag `(0,0)` with
the replacement `16777217 = 2^24 + 1` it keeps its three vertices, now tagged
`(0, 16777216)`, and filtering that result again by the tag `(0, 16777217)` returns the empty
mesh. -/
theorem filterByCityObjIndex_idempotent_counterexample :
    scenarioAMesh.WellFormed ∧
    ∃ out, filterByCityObjIndex scenarioAMesh ⟨0, 0⟩ 16777217 = Except.ok out ∧
      out.vertices.length = 3 ∧
      filterByCityObjIndex out ⟨0, 16777217⟩ 16777217 = Except.ok Mesh.empty ∧
      out ≠ Mesh.empty :=
  ⟨by unfold Mesh.WellFormed; decide,
    { scenarioAMesh with
      uv4 := [⟨0, 16777216⟩, ⟨0, 16777216⟩, ⟨0, 16777216⟩], city_object_list := [] },
    by decide!, rfl, by decide!, by decide!⟩

/-- C30 (amended): on a well-formed mesh, filtering the mesh `out` that
`filterByCityObjIndex(src, id, r)` returns again by the tag `(0, (float)r)` that its `uv4`
entries carry, with replacement `r`, returns `out` itself: the same vertices, `uv1`, `uv4`,
indices and sub-meshes (and the empty city-object list). That tag is `(0, r)` for every `r`
that a 32-bit float holds exactly, and every `r` with `|r| ≤ 2^24` is such a value. -/
theorem filterByCityObjIndex_idempotent (src : Mesh) (filter_id : CityObjectIndex) (r : Int)
    (hw : src.WellFormed) :
    ∃ out, filterByCityObjIndex src filter_id r = Except.ok out ∧
      filterByCityObjIndex out ⟨0, floatOfInt r⟩ r = Except.ok out ∧
      (floatOfInt r = r → filterByCityObjIndex out ⟨0, r⟩ r = Except.ok out) ∧
      (r.natAbs ≤ 2 ^ 24 → floatOfInt r = r) := by
  obtain ⟨out, h⟩ := filter_total src filter_id r hw
  have hwo := filter_wellFormed src filter_id r out h
  have hrep := filter_uv4_replicate src filter_id r out h
  have htag : ∀ uv ∈ out.uv4, CityObjectIndex.fromUV uv = ⟨0, floatOfInt r⟩ := by
    intro uv huv
    rw [hrep] at huv
    rw [(List.mem_replicate.mp huv).2]
    exact fromUV_intCast 0 (floatOfInt r)
  obtain ⟨_, _, _, _, _, _, _, _, hc⟩ := filter_unfold src filter_id r out h
  have hagain : filterByCityObjIndex out ⟨0, floatOfInt r⟩ r = Except.ok out := by
    rw [filter_ok_result out ⟨0, floatOfInt r⟩ r hwo,
      filterResult_all out ⟨0, floatOfInt r⟩ r hwo htag, ← hrep]
    congr 1
    cases out
    simp only at hc
    simp [hc]
  refine ⟨out, h, hagain, ?_, floatOfInt_small r⟩
  intro hr
  rw [hr] at hagain
  exact hagain

/-- Witness of C30 on Scenario B's mesh, filtered by tag `(0,1)` with replacement `0`. -/
theorem filterByCityObjIndex_idempotent_witness :
    scenarioBMesh.WellFormed ∧
    filterByCityObjIndex scenarioBMesh ⟨0, 1⟩ 0 = Except.ok scenarioBAtomic1 ∧
    floatOfInt 0 = 0 ∧
    ∃ out, filterByCityObjIndex scenarioBMesh ⟨0, 1⟩ 0 = Except.ok out ∧
      filterByCityObjIndex out ⟨0, 0⟩ 0 = Except.ok out :=
  ⟨by unfold Mesh.WellFormed; decide, by decide, by decide,
    (filterByCityObjIndex_idempotent scenarioBMesh ⟨0, 1⟩ 0
      (by unfold Mesh.WellFormed; decide)).imp
      (fun _ h => ⟨h.1, h.2.2.1 (by decide)⟩)⟩

/-! ## Filtering as a partition; triangles -/

theorem keepsVertex_eq_tagAt (src : Mesh) (t : CityObjectIndex) (x : Nat) :
    keepsVertex src t x = decide (src.tagAt x = some t) := by
  unfold keepsVertex Mesh.tagAt
  cases src.uv4[x]? <;> simp

theorem sum_indicator_count {β : Type} [DecidableEq β] (t0 : β) :
    ∀ S : List β, (S.map (fun t => if t0 = t then 1 else 0)).sum = S.count t0 := by
  intro S
  induction S with
  | nil => rfl
  | cons a S ih =>
    rw [List.map_cons, List.sum_cons, ih, List.count_cons]
    by_cases h : t0 = a
    · subst h; simp; omega
    · have h' : ¬ a = t0 := fun e => h e.symm
      simp [h, h']

theorem sum_countP_classes {α β : Type} [DecidableEq β] (tag : α → Option β) (S : List β)
    (hS : S.Nodup) :
    ∀ L : List α, (∀ x ∈ L, ∃ t ∈ S, tag x = some t) →
      (S.map (fun t => L.countP (fun x => decide (tag x = some t)))).sum = L.length := by
  intro L
  induction L with
  | nil => intro _; simp
  | cons a L ih =>
    intro h
    obtain ⟨t0, ht0, hta⟩ := h a (List.mem_cons_self _ _)
    have hrest := ih (fun x hx => h x (List.mem_cons_of_mem _ hx))
    have hsplit : (fun t => (a :: L).countP (fun x => decide (tag x = some t))) =
        (fun t => L.countP (fun x => decide (tag x = some t)) + (if t0 = t then 1 else 0)) := by
      funext t
      rw [List.countP_cons, hta]
      simp
    rw [hsplit, List.sum_map_add, hrest, sum_indicator_count,
      List.count_eq_one_of_mem hS ht0, List.length_cons]

theorem filter_indices_length (src : Mesh) (fid : CityObjectIndex) (r : Int) (out : Mesh)
    (h : filterByCityObjIndex src fid r = Except.ok out) :
    out.indices.length = src.indices.countP (fun x => keepsVertex src fid x) := by
  obtain ⟨_, _, _, _, _, _, _, hi, _⟩ := filter_unfold src fid r out h
  rw [hi, List.length_map, List.countP_eq_length_filter]

theorem tagAt_mem_tags (src : Mesh) (x : Nat) (hx : x < src.uv4.length) :
    ∃ t ∈ src.tags, src.tagAt x = some t := by
  refine ⟨CityObjectIndex.fromUV (src.uv4.get ⟨x, hx⟩), ?_, ?_⟩
  · unfold Mesh.tags
    rw [List.mem_dedup]
    exact List.mem_map_of_mem _ (List.get_mem _ _ _)
  · unfold Mesh.tagAt
    simp [List.getElem?_eq_getElem hx]

/-- Filtering by a tag that does not occur returns a mesh without vertices, indices and
sub-meshes. -/
theorem filter_absent_tag (src : Mesh) (t : CityObjectIndex) (r : Int) (hw : src.WellFormed)
    (ht : t ∉ src.uv4.map CityObjectIndex.fromUV) :
    ∃ out, filterByCityObjIndex src t r = Except.ok out ∧ out.vertices = [] ∧
      out.indices = [] ∧ out.sub_meshes = [] := by
  have hok := filter_ok_result src t r hw
  have hnv := filterResult_no_vertices src t r hw (by
    intro uv huv he
    exact ht (List.mem_map.mpr ⟨uv, huv, he⟩))
  have hwo := filter_wellFormed src t r _ hok
  have hv : (filterResult src t r).vertices = [] := by
    cases hvs : (filterResult src t r).vertices with
    | nil => rfl
    | cons a l => simp [Mesh.hasVertices, hvs] at hnv
  have hi : (filterResult src t r).indices = [] := by
    cases his : (filterResult src t r).indices with
    | nil => rfl
    | cons a l =>
      have := hwo.2.2.1 a (by rw [his]; exact List.mem_cons_self _ _)
      rw [hv] at this
      simp at this
  have hs : (filterResult src t r).sub_meshes = [] := by
    cases hss : (filterResult src t r).sub_meshes with
    | nil => rfl
    | cons a l =>
      have := (hwo.2.2.2 a (by rw [hss]; exact List.mem_cons_self _ _)).2
      rw [hi] at this
      simp at this
  exact ⟨_, hok, hv, hi, hs⟩

/-- C29: on a well-formed mesh, the meshes `filterByCityObjIndex` returns for the distinct
tags occurring in `uv4` have vertex counts that add up to `|vertices|` and index counts that
add up to `|indices|`; every vertex position is kept by exactly one of these tags and every
index position survives under exactly one of them; filtering by a tag that does not occur
returns a mesh with no vertices, no indices and no sub-meshes. -/
theorem filterByCityObjIndex_partition (src : Mesh) (r : Int) (hw : src.WellFormed) :
    (∃ outs : List Mesh,
      List.Forall₂ (fun t o => filterByCityObjIndex src t r = Except.ok o)
        ((src.uv4.map CityObjectIndex.fromUV).dedup) outs ∧
      (outs.map (fun o => o.vertices.length)).sum = src.vertices.length ∧
      (outs.map (fun o => o.indices.length)).sum = src.indices.length) ∧
    (∀ i, i < src.vertices.length →
      ∃ t ∈ (src.uv4.map CityObjectIndex.fromUV).dedup,
        ∀ t', keepsVertex src t' i = true ↔ t' = t) ∧
    (∀ j, j < src.indices.length →
      ∃ t ∈ (src.uv4.map CityObjectIndex.fromUV).dedup,
        ∀ t', survives src t' j = true ↔ t' = t) ∧
    (∀ t, t ∉ src.uv4.map CityObjectIndex.fromUV →
      ∃ out, filterByCityObjIndex src t r = Except.ok out ∧ out.vertices = [] ∧
        out.indices = [] ∧ out.sub_meshes = []) := by
  have hnd : src.tags.Nodup := List.nodup_dedup _
  have hone : ∀ x, x < src.uv4.length → ∃ t ∈ src.tags,
      ∀ t', keepsVertex src t' x = true ↔ t' = t := by
    intro x hx
    obtain ⟨t, ht, htx⟩ := tagAt_mem_tags src x hx
    refine ⟨t, ht, fun t' => ?_⟩
    rw [keepsVertex_eq_tagAt, htx]
    simp [eq_comm]
  refine ⟨⟨src.tags.map (fun t => filterResult src t r), ?_, ?_, ?_⟩, ?_, ?_,
    fun t ht => filter_absent_tag src t r hw ht⟩
  · rw [List.forall₂_map_right_iff]
    exact List.forall₂_same.mpr (fun t _ => filter_ok_result src t r hw)
  · rw [List.map_map]
    have hf : ((fun o : Mesh => o.vertices.length) ∘ fun t => filterResult src t r) =
        fun t => src.uv4.countP (fun uv => decide ((some (CityObjectIndex.fromUV uv)) = some t)) := by
      funext t
      simp only [Function.comp]
      rw [filter_vertices_length src t r _ (filter_ok_result src t r hw)]
      unfold keptBefore
      rw [← hw.2.1, List.take_length]
      congr 1
      funext uv
      simp
    rw [hf, sum_countP_classes (fun uv => some (CityObjectIndex.fromUV uv)) src.tags hnd src.uv4
      (fun uv huv => ⟨_, List.mem_dedup.mpr (List.mem_map_of_mem _ huv), rfl⟩), hw.2.1]
  · rw [List.map_map]
    have hf : ((fun o : Mesh => o.indices.length) ∘ fun t => filterResult src t r) =
        fun t => src.indices.countP (fun x => decide (src.tagAt x = some t)) := by
      funext t
      simp only [Function.comp]
      rw [filter_indices_length src t r _ (filter_ok_result src t r hw)]
      congr 1
      funext x
      exact keepsVertex_eq_tagAt src t x
    rw [hf, sum_countP_classes src.tagAt src.tags hnd src.indices
      (fun x hx => tagAt_mem_tags src x (by rw [hw.2.1]; exact hw.2.2.1 x hx))]
  · intro i hi
    exact hone i (by rw [hw.2.1]; exact hi)
  · intro j hj
    have hx := hw.2.2.1 _ (List.getElem_mem hj)
    obtain ⟨t, ht, htx⟩ := hone _ (by rw [hw.2.1]; exact hx)
    refine ⟨t, ht, fun t' => ?_⟩
    rw [← htx t']
    unfold survives
    rw [List.getElem?_eq_getElem hj]

/-- Witness of C29 on Scenario B's mesh: the tags `(0,0)` and `(0,1)` take three vertices and
three indices each; the tag `(0,-1)` does not occur. -/
theorem filterByCityObjIndex_partition_witness :
    scenarioBMesh.WellFormed ∧
    (scenarioBMesh.uv4.map CityObjectIndex.fromUV).dedup = [⟨0, 0⟩, ⟨0, 1⟩] ∧
    (∃ outs : List Mesh,
      List.Forall₂ (fun t o => filterByCityObjIndex scenarioBMesh t 0 = Except.ok o)
        ((scenarioBMesh.uv4.map CityObjectIndex.fromUV).dedup) outs ∧
      (outs.map (fun o => o.vertices.length)).sum = scenarioBMesh.vertices.length ∧
      (outs.map (fun o => o.indices.length)).sum = scenarioBMesh.indices.length) ∧
    ∃ out, filterByCityObjIndex scenarioBMesh ⟨0, -1⟩ 0 = Except.ok out ∧ out.vertices = [] ∧
      out.indices = [] ∧ out.sub_meshes = [] :=
  ⟨by unfold Mesh.WellFormed; decide, by decide,
   (filterByCityObjIndex_partition scenarioBMesh 0 (by unfold Mesh.WellFormed; decide)).1,
   (filterByCityObjIndex_partition scenarioBMesh 0
      (by unfold Mesh.WellFormed; decide)).2.2.2 ⟨0, -1⟩ (by decide)⟩

theorem triangles_mem (l : List Nat) :
    ∀ t ∈ triangles l, t.1 ∈ l ∧ t.2.1 ∈ l ∧ t.2.2 ∈ l := by
  induction l using triangles.induct with
  | case1 a b c rest ih =>
    intro t ht
    rw [triangles, List.mem_cons] at ht
    rcases ht with ht | ht
    · subst ht; simp
    · obtain ⟨h1, h2, h3⟩ := ih t ht
      simp [h1, h2, h3]
  | case2 l hne =>
    intro t ht
    rw [triangles] at ht
    · simp at ht
    · exact hne

theorem triangles_filter_map (k : Nat → Bool) (g : Nat → Nat) (l : List Nat) :
    l.length % 3 = 0 →
    (∀ t ∈ triangles l, k t.1 = k t.2.1 ∧ k t.2.1 = k t.2.2) →
    triangles ((l.filter k).map g) =
      ((triangles l).filter (fun t => k t.1)).map (fun t => (g t.1, g t.2.1, g t.2.2)) ∧
    ((l.filter k).map g).length % 3 = 0 := by
  induction l using triangles.induct with
  | case1 a b c rest ih =>
    intro hlen htri
    have hlen' : rest.length % 3 = 0 := by
      simp only [List.length_cons] at hlen
      omega
    have hhead := htri (a, b, c) (by rw [triangles]; exact List.mem_cons_self _ _)
    simp only at hhead
    obtain ⟨i1, i2⟩ := ih hlen' (fun t ht => htri t (by
      rw [triangles]; exact List.mem_cons_of_mem _ ht))
    cases hk : k a with
    | true =>
      have hb : k b = true := by rw [← hhead.1]; exact hk
      have hc : k c = true := by rw [← hhead.2]; exact hb
      simp only [List.filter_cons, hk, hb, hc, if_true, List.map_cons, triangles, i1,
        List.length_cons]
      exact ⟨trivial, by omega⟩
    | false =>
      have hb : k b = false := by rw [← hhead.1]; exact hk
      have hc : k c = false := by rw [← hhead.2]; exact hb
      simp only [List.filter_cons, hk, hb, hc, Bool.false_eq_true, if_false, triangles, i1]
      exact ⟨trivial, i2⟩
  | case2 l hne =>
    intro hlen _
    have hl : l = [] := by
      match l, hne, hlen with
      | [], _, _ => rfl
      | [a], _, h => simp at h
      | [a, b], _, h => simp at h
      | a :: b :: c :: rest, hne, _ => exact (hne a b c rest rfl).elim
    subst hl
    simp [triangles]

/-- C27: on a well-formed mesh whose index list has length divisible by 3 and in which the
three vertices of every triangle carry the same tag, `filterByCityObjIndex` returns, for
every filter id, a mesh whose index list has length divisible by 3; its triangles are the
source triangles with a kept vertex, in source order, every index renumbered to the output
position of the same vertex; and the output is again well-formed with the three vertices of
every triangle carrying the same tag. -/
theorem filterByCityObjIndex_triangles (src : Mesh) (filter_id : CityObjectIndex) (r : Int)
    (hw : src.WellFormed) (h3 : src.indices.length % 3 = 0)
    (htri : ∀ t ∈ triangles src.indices,
      src.tagAt t.1 = src.tagAt t.2.1 ∧ src.tagAt t.2.1 = src.tagAt t.2.2) :
    ∃ out, filterByCityObjIndex src filter_id r = Except.ok out ∧
      out.indices.length % 3 = 0 ∧
      triangles out.indices =
        ((triangles src.indices).filter (fun t => keepsVertex src filter_id t.1)).map
          (fun t => (keptBefore src filter_id t.1, keptBefore src filter_id t.2.1,
            keptBefore src filter_id t.2.2)) ∧
      (∀ x, x < src.vertices.length → keepsVertex src filter_id x = true →
        out.vertices[keptBefore src filter_id x]? = src.vertices[x]?) ∧
      out.uv1.length = out.vertices.length ∧ out.uv4.length = out.vertices.length ∧
      (∀ x ∈ out.indices, x < out.vertices.length) ∧
      (∀ sm ∈ out.sub_meshes, sm.start_index ≤ sm.end_index ∧
        sm.end_index < out.indices.length) ∧
      (∀ t ∈ triangles out.indices,
        out.tagAt t.1 = out.tagAt t.2.1 ∧ out.tagAt t.2.1 = out.tagAt t.2.2) := by
  obtain ⟨out, h⟩ := filter_total src filter_id r hw
  obtain ⟨vp, hvp, hidx, _, hv, _, _, hi, _⟩ := filter_unfold src filter_id r out h
  obtain ⟨_, _, _, _, _, _, _, hdata⟩ := vertexLoop_inv src filter_id r _ vp hvp
  have hwo := filter_wellFormed src filter_id r out h
  have hrep := filter_uv4_replicate src filter_id r out h
  obtain ⟨t1, t2⟩ := triangles_filter_map (fun x => keepsVertex src filter_id x)
    (keptBefore src filter_id) src.indices h3 (by
      intro t ht
      obtain ⟨a1, a2⟩ := htri t ht
      simp only [keepsVertex_eq_tagAt, a1, a2]
      exact ⟨trivial, trivial⟩)
  rw [← hi] at t1 t2
  refine ⟨out, h, t2, t1, ?_, hwo.1, hwo.2.1, hwo.2.2.1, hwo.2.2.2, ?_⟩
  · intro x hx hk
    obtain ⟨v, _, hv1, _, hv2, _⟩ := hdata x hx hk
    rw [hv, hv2, hv1]
  · intro t ht
    obtain ⟨m1, m2, m3⟩ := triangles_mem out.indices t ht
    have htag : ∀ x ∈ out.indices, out.tagAt x =
        some (CityObjectIndex.fromUV ⟨0, (floatOfInt r : ℚ)⟩) := by
      intro x hx
      have hlt := hwo.2.2.1 x hx
      unfold Mesh.tagAt
      rw [hrep]
      simp [hlt]
    rw [htag _ m1, htag _ m2, htag _ m3]
    exact ⟨rfl, rfl⟩

/-- Witness of C27 on Scenario B's mesh (two triangles, tagged `(0,0)` and `(0,1)`), filtered
by tag `(0,1)`: the second triangle is kept and renumbered `(0,1,2)`. -/
theorem filterByCityObjIndex_triangles_witness :
    scenarioBMesh.WellFormed ∧ scenarioBMesh.indices.length % 3 = 0 ∧
    triangles scenarioBMesh.indices = [(0, 1, 2), (3, 4, 5)] ∧
    ∃ out, filterByCityObjIndex scenarioBMesh ⟨0, 1⟩ 0 = Except.ok out ∧
      out.indices.length % 3 = 0 ∧ triangles out.indices = [(0, 1, 2)] := by
  refine ⟨by unfold Mesh.WellFormed; decide, by decide, by decide, ?_⟩
  obtain ⟨out, h, h1, h2, _⟩ := filterByCityObjIndex_triangles scenarioBMesh ⟨0, 1⟩ 0
    (by unfold Mesh.WellFormed; decide) (by decide) (by decide)
  refine ⟨out, h, h1, ?_⟩
  rw [h2]
  decide

/-! ## Breadth-first constructions of a tree -/

theorem Model.nodeAt_vroot (ptr : List Nat) (m : Model) (h : ptr ≠ []) :
    Model.nodeAt ptr m = Node.descend ptr m.vroot := by
  cases ptr with
  | nil => exact absurd rfl h
  | cons i rest => rfl

theorem Model.modifyAt_vroot (f : Node → Node) (ptr : List Nat) (m : Model) (h : ptr ≠ []) :
    Model.modifyAt f ptr m = (Node.modifyAt f ptr m.vroot).map Model.ofVroot := by
  cases ptr with
  | nil => exact absurd rfl h
  | cons i rest =>
    simp only [Model.modifyAt, Node.modifyAt, Model.getRootNodeAt, Node.getChildAt, Model.vroot]
    cases vecAt m.root_nodes i with
    | error e => rfl
    | ok c =>
      simp only [bind_ok_eq]
      cases Node.modifyAt f rest c with
      | error e => rfl
      | ok c' => rfl

theorem Node.descend_append_path (p q : List Nat) :
    ∀ (n : Node), Node.descend (p ++ q) n = (Node.descend p n >>= Node.descend q) := by
  induction p with
  | nil => intro n; rfl
  | cons i rest ih =>
    intro n
    simp only [List.cons_append, Node.descend]
    cases n.getChildAt i with
    | error e => rfl
    | ok c => simp only [bind_ok_eq]; exact ih c

theorem nodeModifyAt_ok (f : Node → Node) :
    ∀ (p : List Nat) (n t : Node), Node.descend p n = Except.ok t →
      ∃ n', Node.modifyAt f p n = Except.ok n' := by
  intro p
  induction p with
  | nil => intro n t _; exact ⟨f n, rfl⟩
  | cons i rest ih =>
    intro n t h
    simp only [Node.descend] at h
    obtain ⟨c, hc, h⟩ := bind_eq_ok h
    obtain ⟨c', hc'⟩ := ih c t h
    exact ⟨_, by simp only [Node.modifyAt, hc, bind_ok_eq, hc']; rfl⟩

theorem getChildAt_set (n : Node) (i : Nat) (c c' : Node) (h : n.getChildAt i = Except.ok c) :
    Node.getChildAt { n with children := n.children.set i c' } i = Except.ok c' := by
  unfold Node.getChildAt at h ⊢
  rw [vecAt_eq_ok] at h ⊢
  have := getElem?_some_lt h
  simp [List.getElem?_set_self, this]

/-- Two writes through the same pointer are one write of the composed update. -/
theorem nodeModifyAt_twice (f g : Node → Node) :
    ∀ (p : List Nat) (n : Node),
      (Node.modifyAt f p n >>= Node.modifyAt g p) = Node.modifyAt (fun x => g (f x)) p n := by
  intro p
  induction p with
  | nil => intro n; rfl
  | cons i rest ih =>
    intro n
    simp only [Node.modifyAt]
    cases hc : n.getChildAt i with
    | error e => rfl
    | ok c =>
      simp only [bind_ok_eq]
      rw [← ih c]
      cases hc' : Node.modifyAt f rest c with
      | error e => rfl
      | ok c' =>
        simp only [bind_ok_eq, pure, Except.pure, Node.modifyAt, getChildAt_set n i c c' hc]
        cases Node.modifyAt g rest c' with
        | error e => rfl
        | ok c'' => simp [bind_ok_eq, List.set_set]

/-- A write through a pointer only depends on the value of the update at the node read
through the pointer. -/
theorem nodeModifyAt_const (f : Node → Node) :
    ∀ (p : List Nat) (n t : Node), Node.descend p n = Except.ok t →
      Node.modifyAt f p n = Node.modifyAt (fun _ => f t) p n := by
  intro p
  induction p with
  | nil =>
    intro n t h
    simp only [Node.descend, Except.ok.injEq] at h
    subst h; rfl
  | cons i rest ih =>
    intro n t h
    simp only [Node.descend] at h
    obtain ⟨c, hc, h⟩ := bind_eq_ok h
    simp only [Node.modifyAt, hc, bind_ok_eq, ih c t h]

/-- A write through a pointer to a descendant of the node at `p` is a write at `p`. -/
theorem nodeModifyAt_below (f : Node → Node) (q : List Nat) :
    ∀ (p : List Nat) (n t t' : Node), Node.descend p n = Except.ok t →
      Node.modifyAt f q t = Except.ok t' →
      Node.modifyAt f (p ++ q) n = Node.modifyAt (fun _ => t') p n := by
  intro p
  induction p with
  | nil =>
    intro n t t' h ht
    simp only [Node.descend, Except.ok.injEq] at h
    subst h
    simpa [Node.modifyAt] using ht
  | cons i rest ih =>
    intro n t t' h ht
    simp only [Node.descend] at h
    obtain ⟨c, hc, h⟩ := bind_eq_ok h
    have := ih c t t' h ht
    rw [List.cons_append]
    simp only [Node.modifyAt, hc, bind_ok_eq]
    rw [this]

theorem nodeModifyAt_read (f : Node → Node) (p : List Nat) (n n' t : Node)
    (h : Node.modifyAt f p n = Except.ok n') (ht : Node.descend p n = Except.ok t) :
    Node.descend p n' = Except.ok (f t) := by
  obtain ⟨t0, h0, h1, _⟩ := nodeModifyAt_spec (fun _ => True) (fun _ _ _ _ _ h => h) f p n n' h
  rw [ht] at h0
  cases h0
  exact h1

theorem partialImage_pending (fin : Node → Node) (opn : Node → Bool) (pend : List (List Nat))
    (π : List Nat) (n : Node) (h : π ∈ pend) :
    partialImage fin opn pend π n = Node.ofName n.name := by
  cases n
  simp [partialImage, h]

theorem partialImage_done (fin : Node → Node) (opn : Node → Bool) (pend : List (List Nat))
    (π : List Nat) (n : Node) (h : π ∉ pend) :
    partialImage fin opn pend π n =
      { fin n with children := if opn n then partialImageList fin opn pend π 0 n.children
                                else [] } := by
  cases n
  simp [partialImage, h]

theorem partialImageList_getElem? (fin : Node → Node) (opn : Node → Bool)
    (pend : List (List Nat)) (π : List Nat) :
    ∀ (cs : List Node) (k i : Nat) (c : Node), cs[i]? = some c →
      (partialImageList fin opn pend π k cs)[i]? =
        some (partialImage fin opn pend (π ++ [k + i]) c) := by
  intro cs
  induction cs with
  | nil => intro k i c h; simp at h
  | cons x xs ih =>
    intro k i c h
    cases i with
    | zero =>
      simp only [List.getElem?_cons_zero, Option.some.injEq] at h
      subst h
      simp [partialImageList]
    | succ i =>
      simp only [List.getElem?_cons_succ] at h
      simp only [partialImageList, List.getElem?_cons_succ]
      rw [ih (k + 1) i c h]
      congr 4
      omega

theorem partialImageList_pending (fin : Node → Node) (opn : Node → Bool)
    (pend : List (List Nat)) (π : List Nat) :
    ∀ (cs : List Node) (k : Nat), (∀ i, i < cs.length → π ++ [k + i] ∈ pend) →
      partialImageList fin opn pend π k cs = cs.map (fun c => Node.ofName c.name) := by
  intro cs
  induction cs with
  | nil => intro k _; rfl
  | cons x xs ih =>
    intro k h
    simp only [partialImageList, List.map_cons]
    rw [partialImage_pending fin opn pend _ x (by simpa using h 0 (by simp)),
      ih (k + 1) (fun i hi => by
        have := h (i + 1) (by simp; omega)
        rwa [show k + 1 + i = k + (i + 1) from by omega])]

mutual
theorem partialImage_congr (fin : Node → Node) (opn : Node → Bool)
    (pend pend' : List (List Nat)) :
    ∀ (n : Node) (π : List Nat), (∀ σ, π <+: σ → (σ ∈ pend ↔ σ ∈ pend')) →
      partialImage fin opn pend π n = partialImage fin opn pend' π n
  | ⟨name, mesh, prim, cs⟩, π, h => by
    have hπ := h π (List.prefix_refl π)
    by_cases hp : π ∈ pend
    · rw [partialImage_pending _ _ _ _ _ hp, partialImage_pending _ _ _ _ _ (hπ.mp hp)]
    · rw [partialImage_done _ _ _ _ _ hp,
        partialImage_done _ _ _ _ _ (fun h' => hp (hπ.mpr h'))]
      have := partialImageList_congr fin opn pend pend' cs π 0 (fun σ j _ hj =>
        h σ ((List.prefix_append π [j]).trans hj))
      simp only [this]
theorem partialImageList_congr (fin : Node → Node) (opn : Node → Bool)
    (pend pend' : List (List Nat)) :
    ∀ (cs : List Node) (π : List Nat) (k : Nat),
      (∀ σ j, k ≤ j → (π ++ [j]) <+: σ → (σ ∈ pend ↔ σ ∈ pend')) →
      partialImageList fin opn pend π k cs = partialImageList fin opn pend' π k cs
  | [], _, _, _ => rfl
  | c :: cs, π, k, h => by
    simp only [partialImageList]
    rw [partialImage_congr fin opn pend pend' c (π ++ [k]) (fun σ hσ => h σ k (Nat.le_refl _) hσ),
      partialImageList_congr fin opn pend pend' cs π (k + 1)
        (fun σ j hj hσ => h σ j (by omega) hσ)]
end

theorem prefix_branch {π0 ρ τ : List Nat} {i j : Nat} (hij : i ≠ j) :
    ¬ (π0 ++ i :: ρ) <+: (π0 ++ j :: τ) := by
  intro h
  rw [List.prefix_append_right_inj] at h
  obtain ⟨t, ht⟩ := h
  simp at ht
  exact hij ht.1

theorem partialImageList_set (fin : Node → Node) (opn : Node → Bool)
    (pend pend' : List (List Nat)) (π : List Nat) :
    ∀ (cs : List Node) (k i : Nat) (c : Node), cs[i]? = some c →
      (∀ σ j, j ≠ k + i → (π ++ [j]) <+: σ → (σ ∈ pend ↔ σ ∈ pend')) →
      (partialImageList fin opn pend π k cs).set i (partialImage fin opn pend' (π ++ [k + i]) c) =
        partialImageList fin opn pend' π k cs := by
  intro cs
  induction cs with
  | nil => intro k i c h; simp at h
  | cons x xs ih =>
    intro k i c h hag
    cases i with
    | zero =>
      simp only [List.getElem?_cons_zero, Option.some.injEq] at h
      subst h
      simp only [partialImageList, List.set_cons_zero, Nat.add_zero]
      rw [partialImageList_congr fin opn pend pend' xs π (k + 1)
        (fun σ j hj hσ => hag σ j (by omega) hσ)]
    | succ i =>
      simp only [List.getElem?_cons_succ] at h
      simp only [partialImageList, List.set_cons_succ]
      rw [partialImage_congr fin opn pend pend' x (π ++ [k])
        (fun σ hσ => hag σ k (by omega) hσ)]
      have := ih (k + 1) i c h (fun σ j hj hσ => hag σ j (by omega) hσ)
      rw [show k + 1 + i = k + (i + 1) from by omega] at this
      rw [this]

/-- Reading the construction through the position of a queued node, or of a node above
which nothing is queued. -/
theorem partialImage_descend (fin : Node → Node) (opn : Node → Bool) (pend : List (List Nat)) :
    ∀ (ρ π0 : List Nat) (n0 n : Node), openDescend opn ρ n0 = some n →
      (∀ σ, σ <+: π0 ++ ρ → σ ≠ π0 ++ ρ → σ ∉ pend) →
      Node.descend ρ (partialImage fin opn pend π0 n0) =
        Except.ok (partialImage fin opn pend (π0 ++ ρ) n) := by
  intro ρ
  induction ρ with
  | nil =>
    intro π0 n0 n h _
    simp only [openDescend, Option.some.injEq] at h
    subst h
    simp [Node.descend]
  | cons i ρ ih =>
    intro π0 n0 n h hno
    simp only [openDescend] at h
    by_cases ho : opn n0 = true
    · rw [if_pos ho] at h
      cases hc : n0.children[i]? with
      | none => rw [hc] at h; simp at h
      | some c =>
        rw [hc] at h
        change openDescend opn ρ c = some n at h
        have hπ0 : π0 ∉ pend := hno π0 (List.prefix_append _ _) (by simp)
        rw [partialImage_done _ _ _ _ _ hπ0]
        simp only [Node.descend, Node.getChildAt, ho, if_true]
        rw [vecAt_eq_ok.mpr (partialImageList_getElem? fin opn pend π0 n0.children 0 i c hc),
          bind_ok_eq, Nat.zero_add]
        have := ih (π0 ++ [i]) c n h (by
          intro σ h1 h2
          rw [List.append_assoc] at h1 h2
          exact hno σ h1 h2)
        rw [this]
        simp
    · rw [if_neg ho] at h
      cases h

/-- Taking the node at position `π` from the queue: the write `f` through its position turns
the construction for the queue `pend` into the one for the queue `pend'`, which differs from
`pend` only at and below `π`. -/
theorem partialImage_modify (fin : Node → Node) (opn : Node → Bool) (f : Node → Node)
    (pend pend' : List (List Nat)) (π : List Nat) (n : Node) (hπ : π ∈ pend)
    (hagree : ∀ σ, ¬ π <+: σ → (σ ∈ pend ↔ σ ∈ pend'))
    (hno : ∀ σ, σ <+: π → σ ≠ π → σ ∉ pend)
    (hf : f (Node.ofName n.name) = partialImage fin opn pend' π n) :
    ∀ (ρ π0 : List Nat) (n0 : Node), π = π0 ++ ρ → openDescend opn ρ n0 = some n →
      Node.modifyAt f ρ (partialImage fin opn pend π0 n0) =
        Except.ok (partialImage fin opn pend' π0 n0) := by
  intro ρ
  induction ρ with
  | nil =>
    intro π0 n0 hπ0 h
    simp only [openDescend, Option.some.injEq] at h
    subst h
    simp only [List.append_nil] at hπ0
    subst hπ0
    rw [partialImage_pending _ _ _ _ _ hπ]
    simp [Node.modifyAt, hf]
  | cons i ρ ih =>
    intro π0 n0 hπ0 h
    simp only [openDescend] at h
    by_cases ho : opn n0 = true
    · rw [if_pos ho] at h
      cases hc : n0.children[i]? with
      | none => rw [hc] at h; simp at h
      | some c =>
        rw [hc] at h
        change openDescend opn ρ c = some n at h
        have hne : π0 ≠ π := by
          intro e
          rw [hπ0] at e
          have := congrArg List.length e
          simp at this
        have hπ0pend : π0 ∉ pend := hno π0 (by rw [hπ0]; exact List.prefix_append _ _) hne
        have hπ0pend' : π0 ∉ pend' := by
          intro hmem
          apply hπ0pend
          refine (hagree π0 ?_).mpr hmem
          intro hpre
          have := hpre.length_le
          rw [hπ0] at this
          simp at this
        rw [partialImage_done _ _ _ _ _ hπ0pend, partialImage_done _ _ _ _ _ hπ0pend']
        simp only [Node.modifyAt, Node.getChildAt, ho, if_true]
        rw [vecAt_eq_ok.mpr (partialImageList_getElem? fin opn pend π0 n0.children 0 i c hc),
          bind_ok_eq, Nat.zero_add,
          ih (π0 ++ [i]) c (by rw [hπ0, List.append_assoc]; rfl) h, bind_ok_eq]
        have hset := partialImageList_set fin opn pend pend' π0 n0.children 0 i c hc (by
          intro σ j hj hσ
          refine (hagree σ ?_).symm.symm
          intro hpre
          obtain ⟨τ, hτ⟩ := hσ
          rw [hπ0, ← hτ, List.append_assoc] at hpre
          exact prefix_branch (by omega) hpre)
        rw [Nat.zero_add] at hset
        simp only [pure, Except.pure, hset]
    · rw [if_neg ho] at h
      cases h

/-! ## The conversion to primary granularity in closed form -/

theorem pathWeight_pos (opn : Node → Bool) (root : Node) (π : List Nat) :
    1 ≤ pathWeight opn root π := by
  unfold pathWeight
  cases openDescend opn π root with
  | none => exact Nat.le_refl _
  | some n => exact Node.count_pos n

theorem openDescend_append (opn : Node → Bool) (i : Nat) (c : Node) :
    ∀ (π : List Nat) (root n : Node), openDescend opn π root = some n → opn n = true →
      n.children[i]? = some c → openDescend opn (π ++ [i]) root = some c := by
  intro π
  induction π with
  | nil =>
    intro root n h ho hc
    simp only [openDescend, Option.some.injEq] at h
    subst h
    simp [openDescend, ho, hc]
  | cons j π ih =>
    intro root n h ho hc
    simp only [openDescend] at h
    by_cases hr : opn root = true
    · rw [if_pos hr] at h
      cases hj : root.children[j]? with
      | none => rw [hj] at h; cases h
      | some d =>
        rw [hj] at h
        change openDescend opn π d = some n at h
        simp only [List.cons_append, openDescend, hr, if_true, hj]
        exact ih d n h ho hc
    · rw [if_neg hr] at h; cases h

theorem map_count_children (opn : Node → Bool) (root n : Node) (π : List Nat)
    (h : openDescend opn π root = some n) (ho : opn n = true) :
    ((List.range n.children.length).map (fun i => pathWeight opn root (π ++ [i]))).sum =
      countList n.children := by
  rw [countList_eq_sum]
  have := map_range_vecAt (fun r => match r with
    | .ok c => c.count
    | .error _ => 1) n.children
  rw [← this]
  congr 1
  refine List.map_congr_left ?_
  intro i hi
  rw [List.mem_range] at hi
  have hc : n.children[i]? = some (n.children.get ⟨i, hi⟩) := by
    simp [List.getElem?_eq_getElem hi]
  simp only [pathWeight, openDescend_append opn i _ π root n h ho hc, vecAt_of_lt hi]

/-- The queue of positions after the node at `π` was taken from it and the positions of its
`m` children were pushed. -/
theorem queue_step (π : List Nat) (rest : List (List Nat)) (m : Nat)
    (hp : (π :: rest).Pairwise Incomparable) :
    (rest ++ (List.range m).map (fun i => π ++ [i])).Pairwise Incomparable ∧
    π ∉ rest ++ (List.range m).map (fun i => π ++ [i]) ∧
    (∀ σ, ¬ π <+: σ → (σ ∈ π :: rest ↔ σ ∈ rest ++ (List.range m).map (fun i => π ++ [i]))) ∧
    (∀ σ, σ <+: π → σ ≠ π → σ ∉ π :: rest) := by
  rw [List.pairwise_cons] at hp
  obtain ⟨hhead, hrest⟩ := hp
  have hπrest : π ∉ rest := fun h => (hhead π h).1 (List.prefix_refl π)
  have hπnew : π ∉ (List.range m).map (fun i => π ++ [i]) := by
    intro h
    obtain ⟨i, _, hi⟩ := List.mem_map.mp h
    have := congrArg List.length hi
    simp at this
  refine ⟨?_, ?_, ?_, ?_⟩
  · rw [List.pairwise_append]
    refine ⟨hrest, ?_, ?_⟩
    · rw [List.pairwise_map]
      refine List.Pairwise.imp ?_ (List.nodup_range m)
      intro a b hab
      have h1 := @prefix_branch π [] [] a b hab
      have h2 := @prefix_branch π [] [] b a (Ne.symm hab)
      exact ⟨h1, h2⟩
    · intro a ha b hb
      obtain ⟨i, _, hi⟩ := List.mem_map.mp hb
      subst hi
      obtain ⟨h1, h2⟩ := hhead a ha
      refine ⟨?_, ?_⟩
      · intro hpre
        rcases List.prefix_concat_iff.mp hpre with he | he
        · apply h1
          rw [he]
          exact List.prefix_append _ _
        · exact h2 he
      · intro hpre
        exact h1 ((List.prefix_append π [i]).trans hpre)
  · intro h
    rcases List.mem_append.mp h with h | h
    · exact hπrest h
    · exact hπnew h
  · intro σ hσ
    have hne : σ ≠ π := fun e => hσ (by rw [e])
    constructor
    · intro h
      rcases List.mem_cons.mp h with h | h
      · exact absurd h hne
      · exact List.mem_append_left _ h
    · intro h
      rcases List.mem_append.mp h with h | h
      · exact List.mem_cons_of_mem _ h
      · obtain ⟨i, _, hi⟩ := List.mem_map.mp h
        exact absurd (by rw [← hi]; exact List.prefix_append _ _) hσ
  · intro σ hσ hne h
    rcases List.mem_cons.mp h with h | h
    · exact hne h
    · exact (hhead σ h).2 hσ

theorem modelModifyAt_twice (f g : Node → Node) (p : List Nat) (m : Model) :
    (Model.modifyAt f p m >>= Model.modifyAt g p) = Model.modifyAt (fun x => g (f x)) p m := by
  cases p with
  | nil => rfl
  | cons i rest =>
    simp only [Model.modifyAt, Model.getRootNodeAt]
    cases hc : vecAt m.root_nodes i with
    | error e => rfl
    | ok c =>
      simp only [bind_ok_eq]
      rw [← nodeModifyAt_twice f g rest c]
      cases Node.modifyAt f rest c with
      | error e => rfl
      | ok c' =>
        have hi : i < m.root_nodes.length := getElem?_some_lt (vecAt_eq_ok.mp hc)
        have hget : vecAt (m.root_nodes.set i c') i = Except.ok c' := by
          rw [vecAt_eq_ok]
          simp [List.getElem?_set_self, hi]
        simp only [bind_ok_eq, pure, Except.pure, Model.modifyAt, Model.getRootNodeAt, hget]
        cases Node.modifyAt g rest c' with
        | error e => rfl
        | ok c'' => simp [bind_ok_eq, List.set_set]

theorem modelModifyAt_ok (f : Node → Node) (p : List Nat) (m : Model) (t : Node)
    (h : Model.nodeAt p m = Except.ok t) : ∃ m', Model.modifyAt f p m = Except.ok m' := by
  cases p with
  | nil => simp [Model.nodeAt] at h
  | cons i rest =>
    simp only [Model.nodeAt] at h
    obtain ⟨c, hc, h⟩ := bind_eq_ok h
    obtain ⟨c', hc'⟩ := nodeModifyAt_ok f rest c t h
    exact ⟨_, by simp only [Model.modifyAt, hc, bind_ok_eq, hc']; rfl⟩

theorem modelModifyAt_read (f : Node → Node) (p : List Nat) (m m' : Model) (t : Node)
    (h : Model.modifyAt f p m = Except.ok m') (ht : Model.nodeAt p m = Except.ok t) :
    Model.nodeAt p m' = Except.ok (f t) := by
  obtain ⟨t0, h0, h1, _⟩ := modelModifyAt_spec (fun _ => True) (fun _ _ _ _ _ h => h) f p m m' h
  rw [ht] at h0
  cases h0
  exact h1

theorem nodeModifyAt_id :
    ∀ (p : List Nat) (n t : Node), Node.descend p n = Except.ok t →
      Node.modifyAt (fun d => d) p n = Except.ok n := by
  intro p
  induction p with
  | nil => intro n t _; rfl
  | cons i rest ih =>
    intro n t h
    simp only [Node.descend] at h
    obtain ⟨c, hc, h⟩ := bind_eq_ok h
    simp only [Node.modifyAt, hc, bind_ok_eq, ih c t h, pure, Except.pure]
    unfold Node.getChildAt at hc
    rw [vecAt_eq_ok] at hc
    have hi := getElem?_some_lt hc
    have : n.children.set i c = n.children := by
      apply List.ext_getElem?
      intro j
      by_cases hj : i = j
      · subst hj
        simp [List.getElem?_set_self, hi, hc]
      · rw [List.getElem?_set_ne hj]
    rw [this]
    cases n
    rfl

theorem modelModifyAt_id (p : List Nat) (m : Model) (t : Node)
    (h : Model.nodeAt p m = Except.ok t) : Model.modifyAt (fun d => d) p m = Except.ok m := by
  have hp : p ≠ [] := by
    intro e; subst e; simp [Model.nodeAt] at h
  rw [Model.modifyAt_vroot _ _ _ hp]
  rw [Model.nodeAt_vroot _ _ hp] at h
  rw [nodeModifyAt_id p m.vroot t h]
  rfl

theorem primaryChildFold_eq (src_node : Node) (π : List Nat) (dst : Model) (t : Node)
    (ht : Model.nodeAt π dst = Except.ok t) (htc : t.children = [])
    (sq : List (Option Node × Nat)) (dq : List (List Nat × Nat)) :
    ∀ k, k ≤ src_node.children.length →
      ∃ dst_k, Model.modifyAt (fun d => d.addChildren
          ((src_node.children.take k).map (fun c => Node.ofName c.name))) π dst =
          Except.ok dst_k ∧
        (List.range k).foldlM (primaryChildStep src_node π) (dst, sq, dq) =
          Except.ok (dst_k, sq ++ (List.range k).map (fun i => ((some src_node : Option Node), i)),
            dq ++ (List.range k).map (fun i => (π, i))) := by
  intro k
  induction k with
  | zero =>
    intro _
    refine ⟨dst, ?_, by simp [pure, Except.pure]⟩
    have : (fun d : Node => d.addChildren
        ((src_node.children.take 0).map (fun c => Node.ofName c.name))) = fun d => d := by
      funext d
      cases d
      simp [Node.addChildren]
    rw [this]
    exact modelModifyAt_id π dst t ht
  | succ k ih =>
    intro hk
    obtain ⟨dst_k, hmod, hfold⟩ := ih (by omega)
    have hklt : k < src_node.children.length := by omega
    have hc : src_node.children[k]? = some (src_node.children.get ⟨k, hklt⟩) := by
      simp [List.getElem?_eq_getElem hklt]
    obtain ⟨dst', hmod'⟩ := modelModifyAt_ok (fun d => d.addChildren
      ((src_node.children.take (k + 1)).map (fun c => Node.ofName c.name))) π dst t ht
    have hfun : (fun d : Node => d.addChildren
        ((src_node.children.take (k + 1)).map (fun c => Node.ofName c.name))) =
        fun x => (fun n : Node => n.addChildNode
          (Node.ofName (src_node.children.get ⟨k, hklt⟩).name))
          ((fun d : Node => d.addChildren
            ((src_node.children.take k).map (fun c => Node.ofName c.name))) x) := by
      funext d
      have htk : src_node.children.take (k + 1) =
          src_node.children.take k ++ [src_node.children.get ⟨k, hklt⟩] := by
        rw [List.take_succ, hc]; rfl
      simp only [Node.addChildren, Node.addChildNode, htk, List.map_append, List.map_cons,
        List.map_nil, List.append_assoc]
    have hstep : Model.modifyAt (fun n : Node => n.addChildNode
        (Node.ofName (src_node.children.get ⟨k, hklt⟩).name)) π dst_k = Except.ok dst' := by
      have := modelModifyAt_twice (fun d : Node => d.addChildren
        ((src_node.children.take k).map (fun c => Node.ofName c.name)))
        (fun n : Node => n.addChildNode (Node.ofName (src_node.children.get ⟨k, hklt⟩).name))
        π dst
      rw [hmod, bind_ok_eq, ← hfun, hmod'] at this
      exact this
    have hread := modelModifyAt_read _ π dst dst' t hmod' ht
    refine ⟨dst', hmod', ?_⟩
    rw [List.range_succ, List.foldlM_append, hfold, bind_ok_eq]
    simp only [List.foldlM_cons, List.foldlM_nil, primaryChildStep, Node.getChildAt,
      vecAt_of_lt hklt, bind_ok_eq, hstep, hread, pure, Except.pure, List.map_append,
      List.map_cons, List.map_nil, List.append_assoc]
    have hlen : (Node.addChildren t ((src_node.children.take (k + 1)).map
        (fun c => Node.ofName c.name))).children.length - 1 = k := by
      simp [Node.addChildren, htc, List.length_take]
      omega
    rw [hlen]

theorem partialImage_vroot (fin : Node → Node) (opn : Node → Bool) (pend : List (List Nat))
    (src : Model) (h : [] ∉ pend) (hfin : fin src.vroot = Node.ofName "")
    (ho : opn src.vroot = true) :
    partialImage fin opn pend [] src.vroot =
      Model.vroot ⟨partialImageList fin opn pend [] 0 src.root_nodes⟩ := by
  rw [partialImage_done _ _ _ _ _ h, hfin, ho]
  rfl

theorem paths_ne_nil (dq : List (List Nat × Nat)) :
    [] ∉ dq.map (fun e => e.1 ++ [e.2]) := by
  intro h
  obtain ⟨e, _, he⟩ := List.mem_map.mp h
  simp at he

theorem primaryFin_vroot (src : Model) : primaryFin src.vroot = Node.ofName "" := rfl

/-- The `while` loop of `convertFromAtomicToPrimary` in closed form: from a state in which
the destination is the construction for the queued positions, it returns the finished
construction. -/
theorem primaryLoop_eq (src : Model) :
    ∀ (fuel : Nat) (sq : List (Option Node × Nat)) (dq : List (List Nat × Nat)) (dst : Model),
      List.Forall₂ (fun se de => ∃ n, getNodeFromParent se.1 se.2 src = Except.ok n ∧
        openDescend primaryOpen (de.1 ++ [de.2]) src.vroot = some n) sq dq →
      (dq.map (fun e => e.1 ++ [e.2])).Pairwise Incomparable →
      dst = ⟨partialImageList primaryFin primaryOpen (dq.map (fun e => e.1 ++ [e.2])) [] 0
        src.root_nodes⟩ →
      ((dq.map (fun e => e.1 ++ [e.2])).map (pathWeight primaryOpen src.vroot)).sum ≤ fuel →
      primaryLoop src fuel sq dq dst =
        Except.ok ⟨partialImageList primaryFin primaryOpen [] [] 0 src.root_nodes⟩ := by
  intro fuel
  induction fuel with
  | zero =>
    intro sq dq dst hq _ hdst hw
    cases dq with
    | nil =>
      cases hq
      rw [hdst]; rfl
    | cons de dq' =>
      have := pathWeight_pos primaryOpen src.vroot (de.1 ++ [de.2])
      simp only [List.map_cons, List.sum_cons] at hw
      omega
  | succ fuel ih =>
    intro sq dq dst hq hp hdst hw
    cases hq with
    | nil => rw [hdst]; rfl
    | cons hr hrest =>
      rename_i se de sq' dq'
      obtain ⟨spn, spi⟩ := se
      obtain ⟨dpn, dpi⟩ := de
      obtain ⟨n, hn, hopen⟩ := hr
      simp only at hn hopen
      simp only [List.map_cons] at hp hdst hw
      generalize hπ : dpn ++ [dpi] = π at hp hdst hw hopen
      generalize hrestp : dq'.map (fun e => e.1 ++ [e.2]) = rest at hp hdst hw
      have hπne : π ≠ [] := by rw [← hπ]; simp
      have hwn : pathWeight primaryOpen src.vroot π = n.count := by
        simp [pathWeight, hopen]
      have hcount := Node.count_eq n
      simp only [List.sum_cons, hwn] at hw
      have hvr : dst.vroot = partialImage primaryFin primaryOpen (π :: rest) [] src.vroot := by
        rw [hdst]
        refine (partialImage_vroot _ _ _ src ?_ (primaryFin_vroot src) rfl).symm
        rw [← hπ, ← hrestp]
        exact paths_ne_nil ((dpn, dpi) :: dq')
      have hread : Model.nodeAt π dst = Except.ok (Node.ofName n.name) := by
        rw [Model.nodeAt_vroot _ _ hπne, hvr]
        have := partialImage_descend primaryFin primaryOpen (π :: rest) π [] src.vroot n hopen
          (by
            intro σ h1 h2
            rw [List.nil_append] at h1 h2
            exact (queue_step π rest 0 hp).2.2.2 σ h1 h2)
        rw [this, List.nil_append, partialImage_pending _ _ _ _ _ (List.mem_cons_self _ _)]
      simp only [primaryLoop, hn, bind_ok_eq, getNodePtrFromParent, hπ, hread, pure, Except.pure]
      by_cases hprim : n.is_primary = true
      · rw [if_pos hprim, mergePrimaryNodeAndChildren_eq, bind_ok_eq]
        obtain ⟨hpw, hπnot, hagree, hno⟩ := queue_step π rest 0 hp
        simp only [List.range_zero, List.map_nil, List.append_nil] at hpw hπnot hagree
        have hmod := partialImage_modify primaryFin primaryOpen
          (fun d => d.setMesh (some (mergeFold 0 n.bfs (Mesh.empty, 0)).1))
          (π :: rest) rest π n (List.mem_cons_self _ _) hagree hno (by
            rw [partialImage_done _ _ _ _ _ hπnot]
            simp [primaryFin, primaryOpen, hprim, Node.ofName, Node.setMesh, Node.mergedMesh])
          π [] src.vroot rfl hopen
        rw [Model.modifyAt_vroot _ _ _ hπne, hvr, hmod]
        simp only [Except.map, bind_ok_eq]
        refine ih sq' dq' _ hrest (by rw [hrestp]; exact hpw) ?_ (by rw [hrestp]; omega)
        rw [hrestp, partialImage_vroot _ _ _ src (by rw [← hrestp]; exact paths_ne_nil dq')
          (primaryFin_vroot src) rfl]
        rfl
      · rw [if_neg hprim]
        obtain ⟨dst', hmod', hfold⟩ := primaryChildFold_eq n π dst (Node.ofName n.name) hread rfl
          sq' dq' n.children.length (Nat.le_refl _)
        rw [hfold, bind_ok_eq]
        simp only
        obtain ⟨hpw, hπnot, hagree, hno⟩ := queue_step π rest n.children.length hp
        have hopn : primaryOpen n = true := by simp [primaryOpen, hprim]
        have hmod := partialImage_modify primaryFin primaryOpen
          (fun d => d.addChildren ((n.children.take n.children.length).map
            (fun c => Node.ofName c.name)))
          (π :: rest) (rest ++ (List.range n.children.length).map (fun i => π ++ [i])) π n
          (List.mem_cons_self _ _) hagree hno (by
            rw [partialImage_done _ _ _ _ _ hπnot, hopn, if_pos rfl,
              partialImageList_pending _ _ _ _ _ _ (fun i hi => by
                rw [Nat.zero_add]
                exact List.mem_append_right _ (List.mem_map.mpr ⟨i, List.mem_range.mpr hi, rfl⟩)),
              List.take_length]
            simp [primaryFin, hprim, Node.ofName, Node.addChildren])
          π [] src.vroot rfl hopen
        rw [Model.modifyAt_vroot _ _ _ hπne, hvr, hmod] at hmod'
        simp only [Except.map, Except.ok.injEq] at hmod'
        have hdq : (dq' ++ (List.range n.children.length).map (fun i => (π, i))).map
            (fun e => e.1 ++ [e.2]) =
            rest ++ (List.range n.children.length).map (fun i => π ++ [i]) := by
          rw [List.map_append, hrestp, List.map_map]
          rfl
        refine ih _ _ dst' ?_ (by rw [hdq]; exact hpw) ?_ ?_
        · refine List.rel_append hrest ?_
          rw [List.forall₂_map_left_iff, List.forall₂_map_right_iff]
          refine List.forall₂_same.mpr ?_
          intro i hi
          rw [List.mem_range] at hi
          have hc : n.children[i]? = some (n.children.get ⟨i, hi⟩) := by
            simp [List.getElem?_eq_getElem hi]
          exact ⟨n.children.get ⟨i, hi⟩, by
            simp only [getNodeFromParent, Node.getChildAt]
            exact vecAt_of_lt hi,
            openDescend_append primaryOpen i _ π src.vroot n hopen hopn hc⟩
        · rw [hdq, ← hmod',
            partialImage_vroot _ _ _ src (by rw [← hdq]; exact paths_ne_nil _)
              (primaryFin_vroot src) rfl]
          rfl
        · rw [hdq, List.map_append, List.sum_append, List.map_map]
          have := map_count_children primaryOpen src.vroot n π hopen hopn
          have h2 : (pathWeight primaryOpen src.vroot ∘ fun i => π ++ [i]) =
              fun i => pathWeight primaryOpen src.vroot (π ++ [i]) := rfl
          rw [h2, this]
          omega

theorem primaryImageList_eq_map (cs : List Node) :
    primaryImageList cs = cs.map Node.primaryImage := by
  induction cs with
  | nil => rfl
  | cons c cs ih => simp [primaryImageList, ih]

theorem Node.primaryImage_primary (n : Node) (h : n.is_primary = true) :
    n.primaryImage = ⟨n.name, some n.mergedMesh, false, []⟩ := by
  cases n
  simp only at h
  simp [Node.primaryImage, h]

theorem Node.primaryImage_other (n : Node) (h : n.is_primary = false) :
    n.primaryImage = ⟨n.name, none, false, n.children.map Node.primaryImage⟩ := by
  cases n
  simp only at h
  simp [Node.primaryImage, h, primaryImageList_eq_map]

mutual
theorem partialImage_primary_done :
    ∀ (n : Node) (π : List Nat),
      partialImage primaryFin primaryOpen [] π n = n.primaryImage
  | ⟨name, mesh, prim, cs⟩, π => by
    rw [partialImage_done _ _ _ _ _ (List.not_mem_nil _)]
    cases prim with
    | true => simp [primaryFin, primaryOpen, Node.primaryImage]
    | false =>
      simp only [primaryFin, primaryOpen, Node.primaryImage, Bool.false_eq_true, if_false,
        Bool.not_false, if_true, Node.ofName]
      rw [partialImageList_primary_done cs π 0]
theorem partialImageList_primary_done :
    ∀ (cs : List Node) (π : List Nat) (k : Nat),
      partialImageList primaryFin primaryOpen [] π k cs = primaryImageList cs
  | [], _, _ => rfl
  | c :: cs, π, k => by
    simp only [partialImageList, primaryImageList]
    rw [partialImage_primary_done c (π ++ [k]), partialImageList_primary_done cs π (k + 1)]
end

/-- The function `convertFromAtomicToPrimary` in closed form. -/
theorem convertFromAtomicToPrimary_eq (src : Model) :
    convertFromAtomicToPrimary src = Except.ok ⟨src.root_nodes.map Node.primaryImage⟩ := by
  unfold convertFromAtomicToPrimary
  have hq := queue_step [] [] src.root_nodes.length (List.pairwise_singleton _ _)
  simp only [List.nil_append] at hq
  have hdq : ((List.range src.root_nodes.length).map (fun i => (([] : List Nat), i))).map
      (fun e => e.1 ++ [e.2]) = (List.range src.root_nodes.length).map (fun i => [i]) := by
    rw [List.map_map]; rfl
  rw [primaryLoop_eq src _ _ _ _ ?_ (by rw [hdq]; exact hq.1) ?_ ?_,
    partialImageList_primary_done, primaryImageList_eq_map]
  · rw [List.forall₂_map_left_iff, List.forall₂_map_right_iff]
    refine List.forall₂_same.mpr ?_
    intro i hi
    rw [List.mem_range] at hi
    have hc : src.vroot.children[i]? = some (src.root_nodes.get ⟨i, hi⟩) := by
      simp [Model.vroot, List.getElem?_eq_getElem hi]
    exact ⟨src.root_nodes.get ⟨i, hi⟩, by
      simp only [getNodeFromParent, Model.getRootNodeAt]
      exact vecAt_of_lt hi,
      openDescend_append primaryOpen i _ [] src.vroot src.vroot rfl rfl hc⟩
  · rw [hdq, partialImageList_pending _ _ _ _ _ _ (fun i hi => by
      rw [Nat.zero_add]
      exact List.mem_map.mpr ⟨i, List.mem_range.mpr hi, rfl⟩)]
  · rw [hdq]
    have := map_count_children primaryOpen src.vroot src.vroot [] rfl rfl
    simp only [List.nil_append, List.map_map] at this ⊢
    exact Nat.le_of_eq this

/-- C22: for every model `src`, `convertFromAtomicToPrimary(src)` returns the model whose
roots are the images of the roots of `src`, in order (as many roots, the same names); the
image of a node flagged primary is a childless node of the same name whose mesh is what
`mergePrimaryNodeAndChildren` merges from the whole subtree of the node into an empty mesh
under primary id 0; the image of a node not flagged primary is a mesh-less node of the same
name over the images of its children, in the same order. -/
theorem convertFromAtomicToPrimary_mirror (src : Model) :
    convertFromAtomicToPrimary src = Except.ok ⟨src.root_nodes.map Node.primaryImage⟩ ∧
    (src.root_nodes.map Node.primaryImage).map Node.name = src.root_nodes.map Node.name ∧
    (∀ n : Node, n.is_primary = true →
      ∃ mesh, mergePrimaryNodeAndChildren n Mesh.empty 0 = Except.ok mesh ∧
        n.primaryImage = ⟨n.name, some mesh, false, []⟩) ∧
    (∀ n : Node, n.is_primary = false →
      n.primaryImage = ⟨n.name, none, false, n.children.map Node.primaryImage⟩) := by
  refine ⟨convertFromAtomicToPrimary_eq src, ?_, ?_, Node.primaryImage_other⟩
  · rw [List.map_map]
    refine List.map_congr_left ?_
    intro n _
    cases hp : n.is_primary with
    | true => simp [Function.comp, Node.primaryImage_primary n hp]
    | false => simp [Function.comp, Node.primaryImage_other n hp]
  · intro n hp
    exact ⟨_, mergePrimaryNodeAndChildren_eq n Mesh.empty 0, Node.primaryImage_primary n hp⟩

/-- Witness of C22 on the atomic model of Scenario B: the primary node "P" becomes one
childless node carrying the mesh of Scenario C. -/
theorem convertFromAtomicToPrimary_mirror_witness :
    scenarioBAtomicModel.root_nodes.map Node.primaryImage =
      [⟨"P", some scenarioCMesh, false, []⟩] ∧
    convertFromAtomicToPrimary scenarioBAtomicModel =
      Except.ok ⟨scenarioBAtomicModel.root_nodes.map Node.primaryImage⟩ :=
  ⟨by decide!, (convertFromAtomicToPrimary_mirror scenarioBAtomicModel).1⟩

/-! ## The conversion of a model without meshes -/

theorem childEntries_fst (π : List Nat) :
    ∀ (cs : List Node) (k : Nat),
      (childEntries π k cs).map Prod.fst = (List.range' k cs.length).map (fun i => π ++ [i]) := by
  intro cs
  induction cs with
  | nil => intro k; rfl
  | cons c cs ih =>
    intro k
    simp only [childEntries, List.map_cons, List.length_cons, List.range'_succ, ih]

theorem childEntries_fst_zero (π : List Nat) (cs : List Node) :
    (childEntries π 0 cs).map Prod.fst = (List.range cs.length).map (fun i => π ++ [i]) := by
  rw [childEntries_fst, List.range_eq_range']

theorem childEntries_mem (π : List Nat) :
    ∀ (cs : List Node) (k : Nat) (e : List Nat × Node), e ∈ childEntries π k cs →
      ∃ i, cs[i]? = some e.2 ∧ e.1 = π ++ [k + i] := by
  intro cs
  induction cs with
  | nil => intro k e h; simp [childEntries] at h
  | cons c cs ih =>
    intro k e h
    simp only [childEntries, List.mem_cons] at h
    rcases h with h | h
    · subst h
      exact ⟨0, by simp, by simp⟩
    · obtain ⟨i, h1, h2⟩ := ih (k + 1) e h
      exact ⟨i + 1, by simpa using h1, by rw [h2]; congr 2; omega⟩

theorem childEntries_weight (π : List Nat) :
    ∀ (cs : List Node) (k : Nat),
      ((childEntries π k cs).map (fun e => countList e.2.children)).sum + cs.length =
        countList cs := by
  intro cs
  induction cs with
  | nil => intro k; rfl
  | cons c cs ih =>
    intro k
    have := ih (k + 1)
    have hc := Node.count_eq c
    simp only [childEntries, List.map_cons, List.sum_cons, List.length_cons, countList]
    omega

theorem childEntries_length (π : List Nat) (cs : List Node) (k : Nat) :
    (childEntries π k cs).length = cs.length := by
  have := congrArg List.length (childEntries_fst π cs k)
  simpa using this

theorem openDescend_always :
    ∀ (ρ : List Nat) (n t : Node), openDescend alwaysOpen ρ n = some t →
      Node.descend ρ n = Except.ok t := by
  intro ρ
  induction ρ with
  | nil =>
    intro n t h
    simp only [openDescend, Option.some.injEq] at h
    subst h; rfl
  | cons i ρ ih =>
    intro n t h
    simp only [openDescend, alwaysOpen, if_true] at h
    cases hc : n.children[i]? with
    | none => rw [hc] at h; cases h
    | some c =>
      rw [hc] at h
      change openDescend alwaysOpen ρ c = some t at h
      simp only [Node.descend, Node.getChildAt, vecAt_eq_ok.mpr hc, bind_ok_eq]
      exact ih c t h

/-- A block of queued positions is worked off before anything pushed meanwhile. -/
theorem convertLoop_block (src : Model) :
    ∀ (L : List (List Nat × Node)), (∀ e ∈ L, Model.nodeAt e.1 src = Except.ok e.2) →
      ∀ (G : List (List Nat)) (fuel : Nat) (dst : Model), L.length ≤ fuel →
        convertLoop src fuel (L.map Prod.fst ++ G) dst =
          (L.foldlM (fun d e => convertNode e.1 e.2 d) dst >>= fun dst' =>
            convertLoop src (fuel - L.length)
              (G ++ L.flatMap (fun e =>
                (List.range e.2.children.length).map (NodePos.plus e.1))) dst') := by
  intro L
  induction L with
  | nil =>
    intro _ G fuel dst _
    simp [pure, Except.pure, bind_ok_eq]
  | cons e L ih =>
    intro hall G fuel dst hlen
    cases fuel with
    | zero => simp at hlen
    | succ fuel =>
      have he := hall e (List.mem_cons_self _ _)
      simp only [List.map_cons, List.cons_append, convertLoop, he, bind_ok_eq, List.foldlM_cons,
        List.length_cons, List.flatMap_cons]
      cases convertNode e.1 e.2 dst with
      | error err => rfl
      | ok d1 =>
        simp only [bind_ok_eq]
        have := ih (fun x hx => hall x (List.mem_cons_of_mem _ hx))
          (G ++ (List.range e.2.children.length).map (NodePos.plus e.1)) fuel d1
          (by simp at hlen; omega)
        rw [List.append_assoc] at this
        show convertLoop src fuel ((L.map Prod.fst ++ G) ++
          (List.range e.2.children.length).map (NodePos.plus e.1)) d1 = _
        rw [List.append_assoc, this, Nat.add_sub_add_right]

theorem nodeModifyAt_top (f : Node → Node)
    (hf : ∀ d, (f d).name = d.name ∧ (f d).mesh = d.mesh ∧ (f d).is_primary = d.is_primary)
    (p : List Nat) (n n' : Node) (h : Node.modifyAt f p n = Except.ok n') :
    n'.name = n.name ∧ n'.mesh = n.mesh ∧ n'.is_primary = n.is_primary := by
  cases p with
  | nil =>
    simp only [Node.modifyAt, Except.ok.injEq] at h
    rw [← h]; exact hf n
  | cons i rest =>
    simp only [Node.modifyAt] at h
    obtain ⟨c, _, h⟩ := bind_eq_ok h
    obtain ⟨c', _, h⟩ := bind_eq_ok h
    simp only [pure, Except.pure, Except.ok.injEq] at h
    rw [← h]
    exact ⟨rfl, rfl, rfl⟩

theorem vroot_ofVroot (n : Node) (h1 : n.name = "") (h2 : n.mesh = none)
    (h3 : n.is_primary = false) : (Model.ofVroot n).vroot = n := by
  cases n
  simp only at h1 h2 h3
  simp [Model.ofVroot, Model.vroot, h1, h2, h3]

theorem addChildNode_vroot (π : List Nat) (c : Node) (dst : Model) (t : Node)
    (h : Node.descend π dst.vroot = Except.ok t) :
    NodePos.addChildNode π c dst =
      (Node.modifyAt (fun n => n.addChildNode c) π dst.vroot).map Model.ofVroot := by
  cases π with
  | nil => rfl
  | cons i rest =>
    simp only [NodePos.addChildNode, NodePos.toNode]
    rw [Model.nodeAt_vroot _ _ (by simp), h]
    simp only [bind_ok_eq, pure, Except.pure]
    exact Model.modifyAt_vroot _ _ _ (by simp)

/-- The iterations of `convertToAtomic` for the mesh-less children `cs` of the node at
position `π`: one write that appends their copies to the node at `π`. -/
theorem meshFree_block_fold (π : List Nat) :
    ∀ (cs : List Node) (k : Nat) (dst : Model) (t : Node),
      Node.descend π dst.vroot = Except.ok t → (∀ c ∈ cs, c.mesh = none) →
      ∃ n', Node.modifyAt (fun d => d.addChildren (cs.map (fun c => Node.ofName c.name))) π
            dst.vroot = Except.ok n' ∧
        (childEntries π k cs).foldlM (fun d e => convertNode e.1 e.2 d) dst =
          Except.ok (Model.ofVroot n') := by
  intro cs
  induction cs with
  | nil =>
    intro k dst t ht _
    refine ⟨dst.vroot, ?_, ?_⟩
    · have : (fun d : Node => d.addChildren (([] : List Node).map
          (fun c => Node.ofName c.name))) = fun d => d := by
        funext d
        cases d
        simp [Node.addChildren]
      rw [this]
      exact nodeModifyAt_id π dst.vroot t ht
    · cases dst
      rfl
  | cons c cs ih =>
    intro k dst t ht hmesh
    obtain ⟨n1, hn1⟩ := nodeModifyAt_ok (fun n => n.addChildNode (Node.ofName c.name)) π
      dst.vroot t ht
    have htop := nodeModifyAt_top (fun n => n.addChildNode (Node.ofName c.name))
      (fun d => ⟨rfl, rfl, rfl⟩) π _ _ hn1
    have hv : (Model.ofVroot n1).vroot = n1 :=
      vroot_ofVroot n1 htop.1 htop.2.1 htop.2.2
    have hread := nodeModifyAt_read _ π _ _ t hn1 ht
    obtain ⟨n', hn', hfold⟩ := ih (k + 1) (Model.ofVroot n1) _ (by rw [hv]; exact hread)
      (fun x hx => hmesh x (List.mem_cons_of_mem _ hx))
    rw [hv] at hn'
    refine ⟨n', ?_, ?_⟩
    · have htw := nodeModifyAt_twice (fun n : Node => n.addChildNode (Node.ofName c.name))
        (fun d : Node => d.addChildren (cs.map (fun c => Node.ofName c.name))) π dst.vroot
      rw [hn1, bind_ok_eq, hn'] at htw
      rw [htw]
      congr 1
      funext d
      simp [Node.addChildren, Node.addChildNode]
    · simp only [childEntries, List.foldlM_cons, convertNode,
        hmesh c (List.mem_cons_self _ _), NodePos.parent, List.dropLast_concat]
      rw [addChildNode_vroot π _ dst t ht, hn1]
      simp only [Except.map, bind_ok_eq]
      exact hfold

theorem partialImage_skeleton_top (pend : List (List Nat)) (π : List Nat) (n : Node) :
    (partialImage skeletonFin alwaysOpen pend π n).name = n.name ∧
    (partialImage skeletonFin alwaysOpen pend π n).mesh = none ∧
    (partialImage skeletonFin alwaysOpen pend π n).is_primary = false := by
  by_cases h : π ∈ pend
  · rw [partialImage_pending _ _ _ _ _ h]
    exact ⟨rfl, rfl, rfl⟩
  · rw [partialImage_done _ _ _ _ _ h]
    exact ⟨rfl, rfl, rfl⟩

theorem Model.vroot_all (Q : Node → Prop) (m : Model) (hq : Q m.vroot) (h : m.All Q) :
    m.vroot.All Q := by
  rw [Node.all_iff]
  exact ⟨hq, h⟩

/-- The `while` loop of `convertToAtomic` on a model without meshes, in closed form: from a
state in which the destination is the construction for the queued positions, it returns the
finished construction. -/
theorem convertLoop_meshFree (src : Model) (hfree : src.All (fun n => n.mesh = none)) :
    ∀ (N fuel : Nat) (P : List (List Nat × Node)) (dst : Model),
      fuel + P.length ≤ N →
      (∀ e ∈ P, openDescend alwaysOpen e.1 src.vroot = some e.2) →
      (P.map Prod.fst).Pairwise Incomparable →
      dst.vroot = partialImage skeletonFin alwaysOpen (P.map Prod.fst) [] src.vroot →
      (P.map (fun e => countList e.2.children)).sum ≤ fuel →
      convertLoop src fuel
          (P.flatMap (fun e => (childEntries e.1 0 e.2.children).map Prod.fst)) dst =
        Except.ok (Model.ofVroot (partialImage skeletonFin alwaysOpen [] [] src.vroot)) := by
  intro N
  induction N with
  | zero =>
    intro fuel P dst hN _ _ hdst _
    have hP : P = [] := List.length_eq_zero.mp (by omega)
    have hf : fuel = 0 := by omega
    subst hP; subst hf
    simp only [List.flatMap_nil, convertLoop, pure, Except.pure, List.map_nil] at hdst ⊢
    rw [← hdst]
    cases dst; rfl
  | succ N ih =>
    intro fuel P dst hN hres hp hdst hw
    cases P with
    | nil =>
      simp only [List.flatMap_nil, List.map_nil] at hdst ⊢
      have : convertLoop src fuel [] dst = Except.ok dst := by
        cases fuel <;> rfl
      rw [this, ← hdst]
      cases dst; rfl
    | cons e rest =>
      obtain ⟨π, n⟩ := e
      have hopen : openDescend alwaysOpen π src.vroot = some n :=
        hres (π, n) (List.mem_cons_self _ _)
      have hdesc := openDescend_always π src.vroot n hopen
      have hnall : n.All (fun x => x.mesh = none) :=
        Node.descend_all _ π src.vroot n (Model.vroot_all _ src rfl hfree) hdesc
      have hcs : ∀ c ∈ n.children, c.mesh = none := by
        intro c hc
        have := (listAll_iff _ _).mp ((Node.all_iff _ n).mp hnall).2 c hc
        exact ((Node.all_iff _ c).mp this).1
      simp only [List.map_cons, List.sum_cons, List.length_cons] at hp hdst hw hN
      have hwt := childEntries_weight π n.children 0
      have hlen := childEntries_length π n.children 0
      obtain ⟨hpw, hπnot, hagree, hno⟩ := queue_step π (rest.map Prod.fst) n.children.length hp
      -- the block of the children of the node at `π`
      have hL : ∀ e ∈ childEntries π 0 n.children, Model.nodeAt e.1 src = Except.ok e.2 := by
        intro e he
        obtain ⟨i, h1, h2⟩ := childEntries_mem π n.children 0 e he
        rw [Nat.zero_add] at h2
        rw [h2, Model.nodeAt_vroot _ _ (by simp), Node.descend_append, hdesc, bind_ok_eq]
        exact vecAt_eq_ok.mpr h1
      rw [List.flatMap_cons, convertLoop_block src _ hL _ fuel dst (by omega)]
      have hread : Node.descend π dst.vroot =
          Except.ok (partialImage skeletonFin alwaysOpen (π :: rest.map Prod.fst) π n) := by
        rw [hdst]
        have := partialImage_descend skeletonFin alwaysOpen (π :: rest.map Prod.fst) π []
          src.vroot n hopen (by
            intro σ h1 h2
            rw [List.nil_append] at h1 h2
            exact hno σ h1 h2)
        rw [this, List.nil_append]
      obtain ⟨n', hn', hfold⟩ := meshFree_block_fold π n.children 0 dst _ hread hcs
      have hmod := partialImage_modify skeletonFin alwaysOpen
        (fun d => d.addChildren (n.children.map (fun c => Node.ofName c.name)))
        (π :: rest.map Prod.fst)
        (rest.map Prod.fst ++ (List.range n.children.length).map (fun i => π ++ [i])) π n
        (List.mem_cons_self _ _) hagree hno (by
          rw [partialImage_done _ _ _ _ _ hπnot]
          simp only [alwaysOpen, if_true]
          rw [partialImageList_pending _ _ _ _ _ _ (fun i hi => by
            rw [Nat.zero_add]
            exact List.mem_append_right _ (List.mem_map.mpr ⟨i, List.mem_range.mpr hi, rfl⟩))]
          simp [skeletonFin, Node.ofName, Node.addChildren])
        π [] src.vroot rfl hopen
      rw [hdst, hmod] at hn'
      simp only [Except.ok.injEq] at hn'
      rw [hfold, bind_ok_eq]
      have hmap : (rest ++ childEntries π 0 n.children).map Prod.fst =
          rest.map Prod.fst ++ (List.range n.children.length).map (fun i => π ++ [i]) := by
        rw [List.map_append, childEntries_fst_zero]
      have hqueue : rest.flatMap (fun e => (childEntries e.1 0 e.2.children).map Prod.fst) ++
          (childEntries π 0 n.children).flatMap (fun e =>
            (List.range e.2.children.length).map (NodePos.plus e.1)) =
          (rest ++ childEntries π 0 n.children).flatMap
            (fun e => (childEntries e.1 0 e.2.children).map Prod.fst) := by
        rw [List.flatMap_append]
        congr 2
        funext e
        rw [childEntries_fst_zero]
        rfl
      rw [hqueue]
      have htop := partialImage_skeleton_top
        (rest.map Prod.fst ++ (List.range n.children.length).map (fun i => π ++ [i])) []
        src.vroot
      refine ih (fuel - (childEntries π 0 n.children).length) (rest ++ childEntries π 0 n.children)
        (Model.ofVroot n') ?_ ?_ (by rw [hmap]; exact hpw) ?_ ?_
      · rw [List.length_append]
        omega
      · intro e he
        rcases List.mem_append.mp he with he | he
        · exact hres e (List.mem_cons_of_mem _ he)
        · obtain ⟨i, h1, h2⟩ := childEntries_mem π n.children 0 e he
          rw [Nat.zero_add] at h2
          rw [h2]
          exact openDescend_append alwaysOpen i e.2 π src.vroot n hopen rfl h1
      · rw [hmap, ← hn']
        exact vroot_ofVroot _ htop.1 htop.2.1 htop.2.2
      · rw [List.map_append, List.sum_append]
        omega

mutual
theorem partialImage_skeleton_done :
    ∀ (n : Node) (π : List Nat), partialImage skeletonFin alwaysOpen [] π n = n.skeleton
  | ⟨name, mesh, prim, cs⟩, π => by
    rw [partialImage_done _ _ _ _ _ (List.not_mem_nil _)]
    simp only [alwaysOpen, if_true, skeletonFin, Node.ofName, Node.skeleton]
    rw [partialImageList_skeleton_done cs π 0]
theorem partialImageList_skeleton_done :
    ∀ (cs : List Node) (π : List Nat) (k : Nat),
      partialImageList skeletonFin alwaysOpen [] π k cs = skeletonList cs
  | [], _, _ => rfl
  | c :: cs, π, k => by
    simp only [partialImageList, skeletonList]
    rw [partialImage_skeleton_done c (π ++ [k]), partialImageList_skeleton_done cs π (k + 1)]
end

theorem skeletonList_eq_map (cs : List Node) : skeletonList cs = cs.map Node.skeleton := by
  induction cs with
  | nil => rfl
  | cons c cs ih => simp [skeletonList, ih]

/-- The function `convertToAtomic` on a model without meshes. -/
theorem convertToAtomic_meshFree (src : Model) (hfree : src.All (fun n => n.mesh = none)) :
    convertToAtomic src = Except.ok ⟨src.root_nodes.map Node.skeleton⟩ := by
  unfold convertToAtomic
  have h := convertLoop_meshFree src hfree (countList src.root_nodes + 1)
    (countList src.root_nodes) [([], src.vroot)] Model.empty (by simp)
    (by intro e he; simp at he; subst he; rfl) (List.pairwise_singleton _ _)
    (by
      simp only [List.map_cons, List.map_nil]
      rw [partialImage_pending _ _ _ _ _ (List.mem_singleton.mpr rfl)]
      rfl)
    (by simp [Model.vroot])
  simp only [List.flatMap_cons, List.flatMap_nil, List.append_nil, childEntries_fst_zero,
    List.nil_append] at h
  rw [partialImage_skeleton_done] at h
  simp only [Model.vroot, Node.skeleton, Model.ofVroot, skeletonList_eq_map] at h
  exact h

mutual
theorem Node.skeleton_erase :
    ∀ n : Node, n.skeleton.eraseEmptyChildren = ⟨n.name, none, false, []⟩
  | ⟨name, mesh, prim, cs⟩ => by
    simp only [Node.skeleton, Node.eraseEmptyChildren, skeletonList_erase cs]
theorem skeletonList_erase : ∀ cs : List Node, eraseEmptyList (skeletonList cs) = []
  | [] => rfl
  | c :: cs => by
    simp only [skeletonList, eraseEmptyList, Node.skeleton_erase c, skeletonList_erase cs]
    rfl
end

theorem Node.skeleton_eq (n : Node) :
    n.skeleton = ⟨n.name, none, false, n.children.map Node.skeleton⟩ := by
  cases n
  simp only [Node.skeleton, skeletonList_eq_map]

theorem eraseEmptyList_root (l : List Node) (r' : Node) (h : r' ∈ eraseEmptyList l) :
    ∃ r ∈ l, r' = r.eraseEmptyChildren ∧ (r'.children ≠ [] ∨ r.polygonExists = true) := by
  rw [eraseEmptyList_eq_filter, List.mem_filter, List.mem_map] at h
  obtain ⟨⟨r, hr, rfl⟩, hk⟩ := h
  refine ⟨r, hr, rfl, ?_⟩
  simp only [removedByErase, Bool.not_and, Bool.or_eq_true, Bool.not_eq_true',
    decide_eq_false_iff_not, Bool.not_not, List.length_eq_zero,
    Node.eraseEmptyChildren_polygonExists] at hk
  exact hk

/-- C21: on a model in which no node carries a mesh, `convertToAtomic` returns the tree of
the same shape and names (every node mirrored by name, without mesh and not flagged primary,
over the mirrors of its children in order), and `convert` to the atomic granularity returns
the model without any node; and for every model, a root that is left after the pruning
`eraseEmptyNodes` is the pruned form of a root that keeps a child after pruning or has a
mesh with polygons of its own. -/
theorem convertToAtomic_meshFree_pruned (m : Model) (h : m.All (fun n => n.mesh = none)) :
    convertToAtomic m = Except.ok ⟨m.root_nodes.map Node.skeleton⟩ ∧
    (∀ n : Node, n.skeleton = ⟨n.name, none, false, n.children.map Node.skeleton⟩) ∧
    convert m MeshGranularity.PerAtomicFeatureObject = Except.ok ⟨[]⟩ ∧
    ∀ (a : Model) (r' : Node), r' ∈ a.eraseEmptyNodes.root_nodes →
      ∃ r ∈ a.root_nodes, r' = r.eraseEmptyChildren ∧
        (r'.children ≠ [] ∨ r.polygonExists = true) := by
  refine ⟨convertToAtomic_meshFree m h, Node.skeleton_eq, ?_, ?_⟩
  · simp only [convert, convertToAtomic_meshFree m h, bind_ok_eq, Model.eraseEmptyNodes,
      ← skeletonList_eq_map, skeletonList_erase]
    rfl
  · intro a r' hr
    exact eraseEmptyList_root a.root_nodes r' hr

theorem convertToAtomic_meshFree_pruned_witness :
    meshFreeExampleModel.All (fun n => n.mesh = none) ∧
    convertToAtomic meshFreeExampleModel =
      Except.ok ⟨meshFreeExampleModel.root_nodes.map Node.skeleton⟩ ∧
    convert meshFreeExampleModel MeshGranularity.PerAtomicFeatureObject = Except.ok ⟨[]⟩ :=
  have h : meshFreeExampleModel.All (fun n => n.mesh = none) := by
    simp [meshFreeExampleModel, Model.All, ListAll, Node.All]
  ⟨h, (convertToAtomic_meshFree_pruned meshFreeExampleModel h).1,
    (convertToAtomic_meshFree_pruned meshFreeExampleModel h).2.2.1⟩

/-! ## A mesh-less node below a node with a mesh -/

/-- C25: on the model `scenarioShiftModel` the source node at the path `[0, 0]` is the
mesh-less node `"c"`; `convertToAtomic` returns a model whose node at the path `[0, 0]` is
named `"A0"` and carries a mesh, and whose node named `"c"` is at the path `[0, 2]`. -/
theorem convertToAtomic_scenarioShift :
    Model.nodeAt [0, 0] scenarioShiftModel = Except.ok ⟨"c", none, false, []⟩ ∧
    ∃ out, convertToAtomic scenarioShiftModel = Except.ok out ∧
      (Model.nodeAt [0, 0] out).map (fun n => (n.name, n.mesh.isSome)) =
        Except.ok ("A0", true) ∧
      Model.nodeAt [0, 2] out = Except.ok ⟨"c", none, false, []⟩ :=
  ⟨by decide!, _, rfl, by decide!, by decide!⟩

/-! ## A source mesh under a primary node of the destination -/

theorem filterResult_vertices (M : Mesh) (id : CityObjectIndex) (r : Int) (hw : M.WellFormed) :
    (filterResult M id r).vertices = keptEntries M.vertices M.uv4 id := by
  obtain ⟨vp, hvp, _, _, hv, _, _, _, _⟩ :=
    filter_unfold M id r _ (filter_ok_result M id r hw)
  obtain ⟨e1, _⟩ := vertexLoop_entries M id r _ vp hvp (Nat.le_refl _) (by have := hw.1; omega)
  have t1 : List.take M.vertices.length M.vertices = M.vertices := List.take_length _
  have t4 : List.take M.vertices.length M.uv4 = M.uv4 := by
    rw [← hw.2.1]; exact List.take_length _
  rw [t1, t4] at e1
  rw [hv, e1]

/-- Appending a child through a pointer and then writing through the pointer to the new
child is one write of the appended, updated child. -/
theorem modelModifyAt_child (g : Node → Node) (c : Node) (q : List Nat) (m : Model) (P : Node)
    (h : Model.nodeAt q m = Except.ok P) :
    (Model.modifyAt (fun d => d.addChildNode c) q m >>=
        Model.modifyAt g (q ++ [P.children.length])) =
      Model.modifyAt (fun d => d.addChildNode (g c)) q m := by
  have hq : q ≠ [] := by
    intro e; subst e; simp [Model.nodeAt] at h
  rw [Model.nodeAt_vroot _ _ hq] at h
  obtain ⟨n1, hn1⟩ := nodeModifyAt_ok (fun d => d.addChildNode c) q m.vroot P h
  have htop := nodeModifyAt_top (fun d => d.addChildNode c) (fun d => ⟨rfl, rfl, rfl⟩) q _ _ hn1
  have hv : (Model.ofVroot n1).vroot = n1 := vroot_ofVroot n1 htop.1 htop.2.1 htop.2.2
  have hread := nodeModifyAt_read _ q _ _ _ hn1 h
  have hlast : Node.modifyAt g [P.children.length] (P.addChildNode c) =
      Except.ok (P.addChildNode (g c)) := by
    cases P
    exact Node.modifyAt_lastChild g _ _ _ _ c
  have hbelow := nodeModifyAt_below g [P.children.length] q n1 _ _ hread hlast
  have htw := nodeModifyAt_twice (fun d => d.addChildNode c) (fun _ => P.addChildNode (g c)) q
    m.vroot
  rw [hn1, bind_ok_eq] at htw
  rw [Model.modifyAt_vroot _ _ _ hq, Model.modifyAt_vroot _ _ _ hq, hn1]
  show Model.modifyAt g (q ++ [P.children.length]) (Model.ofVroot n1) = _
  rw [Model.modifyAt_vroot _ _ _ (by simp), hv, hbelow, htw,
    nodeModifyAt_const (fun d => d.addChildNode (g c)) q m.vroot P h]

/-- One step of the loop over `indices_in_mesh` for a tag `(p, a)`, `a ≠ -1`, under an
existing node: the atomic child is appended to that node. -/
theorem atomicStep_under (M : Mesh) (p : Int) (q : List Nat) (dst : Model) (P : Node)
    (id : CityObjectIndex) (hw : M.WellFormed)
    (hocc : ∃ uv ∈ M.uv4, CityObjectIndex.fromUV uv = id)
    (h1 : id.primary_index = p) (h2 : id.atomic_index ≠ -1)
    (hP : Model.nodeAt q dst = Except.ok P) :
    atomicStep M p q dst id =
      Model.modifyAt (fun d => d.addChildNode (expectedAtomicNode M id)) q dst := by
  have hq : q ≠ [] := by
    intro e; subst e; simp [Model.nodeAt] at hP
  obtain ⟨m1, hm1⟩ := modelModifyAt_ok
    (fun d => d.addChildNode (Node.ofName (M.city_object_list.tryGetAtomicGmlID id gmlIdNotFound)))
    q dst P hP
  have hch := modelModifyAt_child
    (fun n => n.setMesh (some ((filterResult M id 0).setCityObjectList
      [(⟨0, 0⟩, M.city_object_list.tryGetAtomicGmlID id gmlIdNotFound)])))
    (Node.ofName (M.city_object_list.tryGetAtomicGmlID id gmlIdNotFound)) q dst P hP
  rw [hm1, bind_ok_eq] at hch
  unfold atomicStep
  rw [if_neg (by simpa using h1), if_neg (by simpa [CityObjectIndex.invalidIndex] using h2)]
  simp only [Model.addNodeUnder, if_neg hq, hP, hm1, bind_ok_eq, pure, Except.pure,
    filter_ok_result M id 0 hw, filterResult_hasVertices M id 0 hw hocc, if_true]
  rw [hch]
  rfl

theorem addChildren_nil_fun : (fun d : Node => d.addChildren []) = fun d => d := by
  funext d
  cases d
  simp [Node.addChildren]

theorem addChildren_cons_fun (c : Node) (cs : List Node) :
    (fun d : Node => (d.addChildNode c).addChildren cs) = fun d => d.addChildren (c :: cs) := by
  funext d
  cases d
  simp [Node.addChildren, Node.addChildNode]

theorem addChildren_append_fun (cs ds : List Node) :
    (fun d : Node => (d.addChildren cs).addChildren ds) = fun d => d.addChildren (cs ++ ds) := by
  funext d
  cases d
  simp [Node.addChildren]

/-- The loop over `indices_in_mesh` under an existing node appends the atomic children of
the primary index to that node. -/
theorem atomicFold_under (M : Mesh) (p : Int) (q : List Nat) (hw : M.WellFormed) :
    ∀ (ids : List CityObjectIndex) (dst : Model) (P : Node),
      (∀ id ∈ ids, ∃ uv ∈ M.uv4, CityObjectIndex.fromUV uv = id) →
      Model.nodeAt q dst = Except.ok P →
      ids.foldlM (atomicStep M p q) dst =
        Model.modifyAt (fun d => d.addChildren ((atomicIdsOf ids p).map (expectedAtomicNode M)))
          q dst := by
  intro ids
  induction ids with
  | nil =>
    intro dst P _ hP
    simp only [List.foldlM, atomicIdsOf, List.filter_nil, List.map_nil, addChildren_nil_fun]
    rw [modelModifyAt_id q dst P hP]
    rfl
  | cons id rest ih =>
    intro dst P hocc hP
    rw [List.foldlM_cons]
    by_cases hk : id.primary_index = p ∧ id.atomic_index ≠ -1
    · rw [atomicStep_under M p q dst P id hw (hocc id (List.mem_cons_self _ _)) hk.1 hk.2 hP,
        atomicIdsOf_cons_pos id rest p hk.1 hk.2, List.map_cons, ← addChildren_cons_fun,
        ← modelModifyAt_twice (fun d => d.addChildNode (expectedAtomicNode M id))
          (fun d => d.addChildren ((atomicIdsOf rest p).map (expectedAtomicNode M))) q dst]
      obtain ⟨m1, hm1⟩ := modelModifyAt_ok
        (fun d => d.addChildNode (expectedAtomicNode M id)) q dst P hP
      rw [hm1, bind_ok_eq, bind_ok_eq]
      exact ih m1 _ (fun x hx => hocc x (List.mem_cons_of_mem _ hx))
        (modelModifyAt_read _ q dst m1 P hm1 hP)
    · rw [atomicStep_skip M p q dst id hk, bind_ok_eq, atomicIdsOf_cons_neg id rest p hk]
      exact ih dst P (fun x hx => hocc x (List.mem_cons_of_mem _ hx)) hP

/-- One iteration of the loop over `primary_indices_in_mesh` when the node of `dst_model` at
the parent position is flagged primary. -/
theorem primaryStep_under (M : Mesh) (pos : List Nat) (ids : List CityObjectIndex)
    (dst : Model) (P : Node) (p : Int) (hw : M.WellFormed)
    (hocc : ∀ id ∈ ids, ∃ uv ∈ M.uv4, CityObjectIndex.fromUV uv = id)
    (hP : Model.nodeAt (NodePos.parent pos) dst = Except.ok P) (hprim : P.is_primary = true) :
    primaryStep M pos ids dst p =
      Model.modifyAt (fun d => d.addChildren ((atomicIdsOf ids p).map (expectedAtomicNode M)))
        (NodePos.parent pos) dst := by
  have hq : NodePos.parent pos ≠ [] := by
    intro e; rw [e] at hP; simp [Model.nodeAt] at hP
  have hto : NodePos.toNode (NodePos.parent pos) dst = Except.ok (NodePos.parent pos) := by
    cases hq' : NodePos.parent pos with
    | nil => exact absurd hq' hq
    | cons i rest =>
      rw [hq'] at hP
      simp only [NodePos.toNode, hP, bind_ok_eq]
      rfl
  unfold primaryStep
  simp only [hto, bind_ok_eq, isParentPrimary, if_neg hq, hP, hprim, pure, Except.pure, if_true]
  exact atomicFold_under M p _ hw ids dst P hocc hP

/-- The loop over `primary_indices_in_mesh` when the node of `dst_model` at the parent
position is flagged primary. -/
theorem primaryFold_under (M : Mesh) (pos : List Nat) (ids : List CityObjectIndex)
    (hw : M.WellFormed) (hocc : ∀ id ∈ ids, ∃ uv ∈ M.uv4, CityObjectIndex.fromUV uv = id) :
    ∀ (ps : List Int) (dst : Model) (P : Node),
      Model.nodeAt (NodePos.parent pos) dst = Except.ok P → P.is_primary = true →
      ps.foldlM (primaryStep M pos ids) dst =
        Model.modifyAt (fun d => d.addChildren
          ((ps.flatMap (fun p => atomicIdsOf ids p)).map (expectedAtomicNode M)))
          (NodePos.parent pos) dst := by
  intro ps
  induction ps with
  | nil =>
    intro dst P hP _
    simp only [List.foldlM, List.flatMap_nil, List.map_nil, addChildren_nil_fun]
    rw [modelModifyAt_id _ dst P hP]
    rfl
  | cons p rest ih =>
    intro dst P hP hprim
    rw [List.foldlM_cons, primaryStep_under M pos ids dst P p hw hocc hP hprim,
      List.flatMap_cons, List.map_append, ← addChildren_append_fun,
      ← modelModifyAt_twice
        (fun d => d.addChildren ((atomicIdsOf ids p).map (expectedAtomicNode M)))
        (fun d => d.addChildren
          ((rest.flatMap (fun p => atomicIdsOf ids p)).map (expectedAtomicNode M)))
        (NodePos.parent pos) dst]
    obtain ⟨m1, hm1⟩ := modelModifyAt_ok
      (fun d => d.addChildren ((atomicIdsOf ids p).map (expectedAtomicNode M)))
      (NodePos.parent pos) dst P hP
    rw [hm1, bind_ok_eq, bind_ok_eq]
    exact ih m1 _ (modelModifyAt_read _ _ dst m1 P hm1 hP) hprim

theorem atomicTagsOf_nodup (M : Mesh) : (atomicTagsOf M).Nodup := by
  obtain ⟨s1, s2, _, _⟩ := collectIndices_spec M.uv4
  unfold atomicTagsOf
  rw [List.nodup_flatMap]
  constructor
  · intro p _
    unfold atomicIdsOf
    refine List.Nodup.filter _ ?_
    refine s1.imp ?_
    intro a b hab e
    subst e
    simp [CityObjectIndex.lt] at hab
  · refine s2.imp ?_
    intro a b hab
    simp only [decide_eq_true_eq] at hab
    simp only [Function.onFun]
    rw [List.disjoint_left]
    intro x hx hy
    simp only [atomicIdsOf, List.mem_filter, Bool.and_eq_true, decide_eq_true_eq] at hx hy
    omega

theorem mem_atomicTagsOf (M : Mesh) (id : CityObjectIndex) :
    id ∈ atomicTagsOf M ↔
      id.atomic_index ≠ -1 ∧ ∃ uv ∈ M.uv4, CityObjectIndex.fromUV uv = id := by
  obtain ⟨_, _, s3, s4⟩ := collectIndices_spec M.uv4
  simp only [atomicTagsOf, List.mem_flatMap, atomicIdsOf, List.mem_filter, Bool.and_eq_true,
    decide_eq_true_eq]
  constructor
  · rintro ⟨p, _, hid, _, h2⟩
    exact ⟨h2, (s3 id).mp hid⟩
  · rintro ⟨h2, hocc⟩
    obtain ⟨uv, huv, e⟩ := hocc
    exact ⟨id.primary_index, (s4 _).mpr ⟨uv, huv, by rw [e]⟩, (s3 id).mpr ⟨uv, huv, e⟩, rfl, h2⟩

/-- C26: in one iteration of the `while` loop of `convertToAtomic` for a source node with a
valid mesh `M`, when the node `P` of `dst_model` at the parent position is flagged primary,
the iteration returns `dst_model` with `P` replaced by `P` with new children appended and
nothing else changed: no node flagged primary is added, the new children are one childless
node not flagged primary per tag `(p, a)`, `a ≠ -1`, occurring in `M` (each tag once), and
the mesh of the child for a tag holds exactly the vertices of `M` with that tag, so the
vertices tagged `(p, -1)` are in no mesh. -/
theorem convertNode_primary_parent (pos : List Nat) (src_node : Node) (M : Mesh) (dst : Model)
    (P : Node) (hmesh : src_node.mesh = some M) (hw : M.WellFormed)
    (hP : Model.nodeAt (NodePos.parent pos) dst = Except.ok P) (hprim : P.is_primary = true) :
    (∃ dst', convertNode pos src_node dst = Except.ok dst' ∧
      Model.modifyAt (fun d => d.addChildren ((atomicTagsOf M).map (expectedAtomicNode M)))
        (NodePos.parent pos) dst = Except.ok dst' ∧
      Model.nodeAt (NodePos.parent pos) dst' =
        Except.ok (P.addChildren ((atomicTagsOf M).map (expectedAtomicNode M)))) ∧
    (atomicTagsOf M).Nodup ∧
    (∀ id, id ∈ atomicTagsOf M ↔
      id.atomic_index ≠ -1 ∧ ∃ uv ∈ M.uv4, CityObjectIndex.fromUV uv = id) ∧
    ∀ id ∈ atomicTagsOf M, (expectedAtomicNode M id).is_primary = false ∧
      (expectedAtomicNode M id).children = [] ∧
      ∃ mesh, (expectedAtomicNode M id).mesh = some mesh ∧
        mesh.vertices = keptEntries M.vertices M.uv4 id := by
  refine ⟨?_, atomicTagsOf_nodup M, mem_atomicTagsOf M, ?_⟩
  · obtain ⟨m1, hm1⟩ := modelModifyAt_ok
      (fun d => d.addChildren ((atomicTagsOf M).map (expectedAtomicNode M)))
      (NodePos.parent pos) dst P hP
    refine ⟨m1, ?_, hm1, modelModifyAt_read _ _ dst m1 P hm1 hP⟩
    unfold convertNode
    rw [hmesh]
    simp only
    rw [primaryFold_under M pos _ hw
      (fun id hid => ((collectIndices_spec M.uv4).2.2.1 id).mp hid) _ dst P hP hprim]
    exact hm1
  · intro id _
    exact ⟨rfl, rfl, _, rfl, filterResult_vertices M id 0 hw⟩

theorem convertNode_primary_parent_witness :
    Model.nodeAt (NodePos.parent [0, 0]) primaryParentExampleModel =
      Except.ok ⟨"P", none, true, []⟩ ∧
    convertNode [0, 0] ⟨"a", some scenarioBMesh, false, []⟩ primaryParentExampleModel =
      Model.modifyAt (fun d => d.addChildren
        ((atomicTagsOf scenarioBMesh).map (expectedAtomicNode scenarioBMesh)))
        (NodePos.parent [0, 0]) primaryParentExampleModel ∧
    atomicTagsOf scenarioBMesh = [⟨0, 0⟩, ⟨0, 1⟩] :=
  have h := convertNode_primary_parent [0, 0] ⟨"a", some scenarioBMesh, false, []⟩
    scenarioBMesh primaryParentExampleModel ⟨"P", none, true, []⟩ rfl
    (by unfold Mesh.WellFormed; decide) (by decide) rfl
  ⟨by decide, (by
    obtain ⟨⟨d, h1, h2, _⟩, _⟩ := h
    rw [h1, h2]), by decide!⟩

/-! ## Regrouping keeps the number of vertices -/

theorem Node.vertexCount_eq (n : Node) :
    n.vertexCount = n.meshVertexCount + vertexCountList n.children := by
  cases n; rfl

theorem vertexCountList_eq_sum (l : List Node) :
    vertexCountList l = (l.map Node.vertexCount).sum := by
  induction l with
  | nil => rfl
  | cons c rest ih => simp [vertexCountList, ih]

theorem vertexCountList_append (a b : List Node) :
    vertexCountList (a ++ b) = vertexCountList a + vertexCountList b := by
  simp [vertexCountList_eq_sum]

theorem Node.anchored_iff (up : Bool) (n : Node) :
    n.Anchored up ↔ (n.mesh.isSome = true → n.is_primary = true ∨ up = true) ∧
      AnchoredList (n.is_primary || up) n.children := by
  cases n; simp [Node.Anchored]

theorem anchoredList_iff (up : Bool) (l : List Node) :
    AnchoredList up l ↔ ∀ c ∈ l, c.Anchored up := by
  induction l with
  | nil => simp [AnchoredList]
  | cons c rest ih => simp [AnchoredList, ih]

/-- The breadth-first order visits every node of the forest once: a sum over it is the
structural total. -/
theorem bfsNodes_vertexCount : ∀ (fuel : Nat) (queue : List Node), countList queue ≤ fuel →
    ((bfsNodes fuel queue).map Node.meshVertexCount).sum = vertexCountList queue := by
  intro fuel
  induction fuel with
  | zero =>
    intro queue h
    cases queue with
    | nil => rfl
    | cons n q =>
      have := Node.count_pos n
      simp only [countList] at h
      omega
  | succ fuel ih =>
    intro queue h
    cases queue with
    | nil => rfl
    | cons n q =>
      have hn := Node.count_eq n
      simp only [countList] at h
      simp only [bfsNodes, List.map_cons, List.sum_cons, vertexCountList]
      rw [ih (q ++ n.children) (by rw [countList_append]; omega), vertexCountList_append,
        Node.vertexCount_eq]
      omega

theorem length_flatMap_meshNodes (L : List Node) :
    ((L.filter (fun x => x.mesh.isSome)).flatMap (fun n => n.meshOrEmpty.vertices)).length =
      (L.map Node.meshVertexCount).sum := by
  induction L with
  | nil => rfl
  | cons n L ih =>
    cases hm : n.mesh with
    | none =>
      have h0 : n.meshVertexCount = 0 := by
        simp [Node.meshVertexCount, Node.meshOrEmpty, hm, Mesh.empty]
      rw [List.filter_cons, if_neg (by simp [hm]), List.map_cons, List.sum_cons, h0, ih,
        Nat.zero_add]
    | some M =>
      rw [List.filter_cons, if_pos (by simp [hm]), List.flatMap_cons, List.length_append,
        List.map_cons, List.sum_cons, ih]
      rfl

theorem Node.subtreeVertices_length (P : Node) : P.subtreeVertices.length = P.vertexCount := by
  unfold Node.subtreeVertices Node.meshNodes
  rw [length_flatMap_meshNodes, Node.bfs_head, List.map_cons, List.sum_cons,
    bfsNodes_vertexCount _ _ (Nat.le_refl _), Node.vertexCount_eq]

theorem Node.mergedMesh_vertices (n : Node) : n.mergedMesh.vertices.length = n.vertexCount := by
  unfold Node.mergedMesh
  rw [(mergeFold_spec 0 n.bfs [] Mesh.empty 0 (by simp)).1, ← Node.subtreeVertices_length]
  simp [Node.subtreeVertices, Node.meshNodes, Mesh.empty]

mutual
theorem Node.primaryImage_vertexCount :
    ∀ n : Node, n.Anchored false → n.primaryImage.vertexCount = n.vertexCount
  | ⟨name, mesh, prim, cs⟩, h => by
    cases prim with
    | true =>
      have := Node.mergedMesh_vertices ⟨name, mesh, true, cs⟩
      simp only [Node.primaryImage, if_true, Node.vertexCount, Node.meshVertexCount,
        Node.meshOrEmpty, Option.getD_some, vertexCountList, Nat.add_zero] at this ⊢
      exact this
    | false =>
      simp only [Node.Anchored, Bool.false_eq_true, or_self, imp_false, Bool.or_self] at h
      have hm : mesh = none := by
        cases mesh with
        | none => rfl
        | some M => exact absurd rfl h.1
      subst hm
      simp only [Node.primaryImage, Bool.false_eq_true, if_false, Node.vertexCount,
        Node.meshVertexCount]
      rw [primaryImageList_vertexCount cs h.2]
theorem primaryImageList_vertexCount :
    ∀ cs : List Node, AnchoredList false cs →
      vertexCountList (primaryImageList cs) = vertexCountList cs
  | [], _ => rfl
  | c :: cs, h => by
    simp only [AnchoredList] at h
    simp only [primaryImageList, vertexCountList]
    rw [Node.primaryImage_vertexCount c h.1, primaryImageList_vertexCount cs h.2]
end

/-- The search of `convertFromAtomicToArea` reaches the topmost primary nodes, and under
them lie all meshes of an anchored forest. -/
theorem areaNodes_vertexCount : ∀ (fuel : Nat) (queue : List Node), countList queue ≤ fuel →
    AnchoredList false queue →
    ((areaNodes fuel queue).map Node.vertexCount).sum = vertexCountList queue := by
  intro fuel
  induction fuel with
  | zero =>
    intro queue h _
    cases queue with
    | nil => rfl
    | cons n q =>
      have := Node.count_pos n
      simp only [countList] at h
      omega
  | succ fuel ih =>
    intro queue h ha
    cases queue with
    | nil => rfl
    | cons n q =>
      have hn := Node.count_eq n
      simp only [countList] at h
      simp only [AnchoredList] at ha
      simp only [areaNodes, vertexCountList]
      by_cases hp : n.is_primary = true
      · rw [if_pos hp, List.map_cons, List.sum_cons, ih q (by omega) ha.2]
      · rw [if_neg hp]
        have hnp : n.is_primary = false := by simpa using hp
        have ha1 := (Node.anchored_iff false n).mp ha.1
        rw [hnp] at ha1
        simp only [Bool.false_eq_true, or_self, imp_false, Bool.or_self] at ha1
        have hm : n.mesh = none := by
          cases hm : n.mesh with
          | none => rfl
          | some M => rw [hm] at ha1; exact absurd rfl ha1.1
        have hq : AnchoredList false (q ++ n.children) := by
          rw [anchoredList_iff] at ha1 ⊢
          intro c hc
          rcases List.mem_append.mp hc with hc | hc
          · exact (anchoredList_iff false q).mp ha.2 c hc
          · exact ha1.2 c hc
        rw [ih (q ++ n.children) (by rw [countList_append]; omega) hq, vertexCountList_append,
          Node.vertexCount_eq, Node.meshVertexCount, Node.meshOrEmpty, hm]
        simp only [Option.getD_none, Mesh.empty, List.length_nil]
        omega

theorem length_flatMap_sum {α β : Type} (f : α → List β) (l : List α) :
    (l.flatMap f).length = (l.map (fun a => (f a).length)).sum := by
  induction l with
  | nil => rfl
  | cons a l ih => simp [List.flatMap_cons, ih]

/-- The mesh of the area model holds as many vertices as the anchored atomic model. -/
theorem areaFold_vertexCount (a : Model) (h : a.Anchored) :
    (areaFold a.primaries (Mesh.empty, 0)).1.vertices.length = a.vertexCount := by
  have hs := (areaFold_spec a.primaries 0 Mesh.empty).1
  simp only [Nat.cast_zero] at hs
  rw [hs, List.length_append, length_flatMap_sum]
  have : (fun P : Node => P.subtreeVertices.length) = Node.vertexCount := by
    funext P; exact Node.subtreeVertices_length P
  rw [this]
  unfold Model.primaries
  rw [areaNodes_vertexCount _ _ (Nat.le_refl _) h]
  simp [Mesh.empty, Model.vertexCount]

mutual
theorem Node.eraseEmptyChildren_anchored :
    ∀ (n : Node) (up : Bool), n.Anchored up → n.eraseEmptyChildren.Anchored up
  | ⟨name, mesh, prim, cs⟩, up, h => by
    simp only [Node.Anchored, Node.eraseEmptyChildren] at h ⊢
    exact ⟨h.1, eraseEmptyList_anchored cs _ h.2⟩
theorem eraseEmptyList_anchored :
    ∀ (cs : List Node) (up : Bool), AnchoredList up cs → AnchoredList up (eraseEmptyList cs)
  | [], _, _ => by simp [eraseEmptyList, AnchoredList]
  | c :: cs, up, h => by
    simp only [AnchoredList] at h
    simp only [eraseEmptyList]
    split
    · exact eraseEmptyList_anchored cs up h.2
    · exact ⟨Node.eraseEmptyChildren_anchored c up h.1, eraseEmptyList_anchored cs up h.2⟩
end

theorem Model.anchored_vroot (m : Model) : m.Anchored ↔ m.vroot.Anchored false := by
  simp [Model.Anchored, Model.vroot, Node.Anchored]

theorem vroot_modify (f : Node → Node)
    (hf : ∀ d, (f d).name = d.name ∧ (f d).mesh = d.mesh ∧ (f d).is_primary = d.is_primary)
    (q : List Nat) (m : Model) (n1 : Node) (h : Node.modifyAt f q m.vroot = Except.ok n1) :
    (Model.ofVroot n1).vroot = n1 := by
  have htop := nodeModifyAt_top f hf q _ _ h
  exact vroot_ofVroot n1 htop.1 htop.2.1 htop.2.2

theorem addNodeUnder_added (q : List Nat) (c : Node) (m : Model) (P : Node)
    (hP : Node.descend q m.vroot = Except.ok P) :
    ∃ m2, Model.addNodeUnder q c m = Except.ok (q ++ [P.children.length], m2) ∧
      AddedUnder q c m m2 := by
  by_cases hq : q = []
  · subst hq
    simp only [Node.descend, Except.ok.injEq] at hP
    subst hP
    exact ⟨m.addNode c, rfl, rfl⟩
  · obtain ⟨n1, hn1⟩ := nodeModifyAt_ok (fun d => d.addChildNode c) q m.vroot P hP
    refine ⟨Model.ofVroot n1, ?_, ?_⟩
    · unfold Model.addNodeUnder
      rw [if_neg hq, Model.nodeAt_vroot _ _ hq, hP, Model.modifyAt_vroot _ _ _ hq, hn1]
      rfl
    · unfold AddedUnder
      rw [vroot_modify (fun d => d.addChildNode c) (fun d => ⟨rfl, rfl, rfl⟩) q m n1 hn1]
      exact hn1

theorem added_read (q : List Nat) (c : Node) (m m2 : Model) (P : Node)
    (hP : Node.descend q m.vroot = Except.ok P) (h : AddedUnder q c m m2) :
    Node.descend q m2.vroot = Except.ok (P.addChildNode c) ∧
    Node.descend (q ++ [P.children.length]) m2.vroot = Except.ok c := by
  have h1 := nodeModifyAt_read _ q _ _ _ h hP
  refine ⟨h1, ?_⟩
  rw [Node.descend_append, h1, bind_ok_eq]
  exact vecAt_append_length _ _

theorem added_modify (g : Node → Node) (q : List Nat) (c : Node) (m m1 : Model) (P : Node)
    (hP : Node.descend q m.vroot = Except.ok P) (h : AddedUnder q c m m1) :
    ∃ m2, Model.modifyAt g (q ++ [P.children.length]) m1 = Except.ok m2 ∧
      AddedUnder q (g c) m m2 := by
  unfold AddedUnder at h
  have hread := nodeModifyAt_read _ q _ _ _ h hP
  have hlast : Node.modifyAt g [P.children.length] (P.addChildNode c) =
      Except.ok (P.addChildNode (g c)) := by
    cases P
    exact Node.modifyAt_lastChild g _ _ _ _ c
  have hbelow := nodeModifyAt_below g [P.children.length] q m1.vroot _ _ hread hlast
  have htw := nodeModifyAt_twice (fun d => d.addChildNode c) (fun _ => P.addChildNode (g c)) q
    m.vroot
  rw [h, bind_ok_eq] at htw
  obtain ⟨n2, hn2⟩ := nodeModifyAt_ok (fun d => d.addChildNode (g c)) q m.vroot P hP
  refine ⟨Model.ofVroot n2, ?_, ?_⟩
  · rw [Model.modifyAt_vroot _ _ _ (by simp), hbelow, htw,
      ← nodeModifyAt_const (fun d => d.addChildNode (g c)) q m.vroot P hP, hn2]
    rfl
  · unfold AddedUnder
    rw [vroot_modify (fun d => d.addChildNode (g c)) (fun d => ⟨rfl, rfl, rfl⟩) q m n2 hn2]
    exact hn2

theorem anchored_modify_append (c : Node) (hc : c.children = []) :
    ∀ (q : List Nat) (n n2 P : Node) (up : Bool), Node.descend q n = Except.ok P →
      Node.modifyAt (fun d => d.addChildNode c) q n = Except.ok n2 →
      (c.mesh.isSome = true → c.is_primary = true ∨ P.is_primary = true) →
      n.Anchored up → n2.Anchored up := by
  intro q
  induction q with
  | nil =>
    intro n n2 P up hP h hcm ha
    simp only [Node.descend, Except.ok.injEq] at hP
    simp only [Node.modifyAt, Except.ok.injEq] at h
    subst hP; subst h
    rw [Node.anchored_iff] at ha ⊢
    refine ⟨ha.1, ?_⟩
    rw [anchoredList_iff] at ha ⊢
    intro x hx
    simp only [Node.addChildNode, List.mem_append, List.mem_singleton] at hx
    rcases hx with hx | hx
    · exact ha.2 x hx
    · subst hx
      rw [Node.anchored_iff, hc]
      refine ⟨?_, trivial⟩
      intro hm
      rcases hcm hm with h1 | h1
      · exact Or.inl h1
      · right
        show (n.is_primary || up) = true
        rw [h1]; rfl
  | cons i rest ih =>
    intro n n2 P up hP h hcm ha
    simp only [Node.descend] at hP
    obtain ⟨ch, hch, hP⟩ := bind_eq_ok hP
    simp only [Node.modifyAt, hch, bind_ok_eq] at h
    obtain ⟨ch2, hch2, h⟩ := bind_eq_ok h
    simp only [pure, Except.pure, Except.ok.injEq] at h
    subst h
    rw [Node.anchored_iff] at ha ⊢
    refine ⟨ha.1, ?_⟩
    rw [anchoredList_iff] at ha ⊢
    have hmem : ch ∈ n.children := by
      unfold Node.getChildAt at hch
      rw [vecAt_eq_ok] at hch
      exact List.getElem?_mem hch
    intro x hx
    rcases List.mem_or_eq_of_mem_set hx with hx | hx
    · exact ha.2 x hx
    · subst hx
      exact ih ch x P _ hP hch2 hcm (ha.2 ch hmem)

theorem added_anchored (q : List Nat) (c : Node) (m m2 : Model) (P : Node)
    (hP : Node.descend q m.vroot = Except.ok P) (h : AddedUnder q c m m2)
    (hc : c.children = [])
    (hcm : c.mesh.isSome = true → c.is_primary = true ∨ P.is_primary = true)
    (hm : m.Anchored) : m2.Anchored := by
  rw [Model.anchored_vroot] at hm ⊢
  exact anchored_modify_append c hc q _ _ P false hP h hcm hm

theorem makePrimaryNode_anchored (M : Mesh) (p : Int) (dp : List Nat) (dst : Model)
    (r : List Nat × Model) (P : Node)
    (h : makePrimaryNode M p dp dst = Except.ok r)
    (hP : Node.descend dp dst.vroot = Except.ok P) (hd : dst.Anchored) :
    r.2.Anchored ∧ ∃ P2, Node.descend r.1 r.2.vroot = Except.ok P2 ∧ P2.is_primary = true := by
  unfold makePrimaryNode at h
  obtain ⟨m1, hadd, ha1⟩ := addNodeUnder_added dp
    (Node.ofName (M.city_object_list.tryGetPrimaryGmlID p gmlIdNotFound)) dst P hP
  obtain ⟨m2, hmod, ha2⟩ := added_modify (fun n => n.setIsPrimary true) dp _ dst m1 P hP ha1
  simp only [hadd, bind_ok_eq, hmod] at h
  obtain ⟨pm, _, h⟩ := bind_eq_ok h
  by_cases hv : pm.hasVertices = true
  · rw [if_pos hv] at h
    obtain ⟨m3, hmod3, ha3⟩ := added_modify (fun n => n.setMesh (some (pm.setCityObjectList
      [(⟨0, -1⟩, M.city_object_list.tryGetPrimaryGmlID p gmlIdNotFound)]))) dp _ dst m2 P hP ha2
    rw [hmod3] at h
    simp only [Except.map, Except.ok.injEq] at h
    subst h
    exact ⟨added_anchored dp _ dst m3 P hP ha3 rfl (fun _ => Or.inl rfl) hd,
      _, (added_read dp _ dst m3 P hP ha3).2, rfl⟩
  · rw [if_neg hv] at h
    simp only [pure, Except.pure, Except.ok.injEq] at h
    subst h
    exact ⟨added_anchored dp _ dst m2 P hP ha2 rfl (fun _ => Or.inl rfl) hd,
      _, (added_read dp _ dst m2 P hP ha2).2, rfl⟩

theorem atomicStep_anchored (M : Mesh) (p : Int) (pn : List Nat) (dst dst2 : Model)
    (id : CityObjectIndex)
    (hd : dst.Anchored ∧ ∃ P, Node.descend pn dst.vroot = Except.ok P ∧ P.is_primary = true)
    (h : atomicStep M p pn dst id = Except.ok dst2) :
    dst2.Anchored ∧ ∃ P, Node.descend pn dst2.vroot = Except.ok P ∧ P.is_primary = true := by
  obtain ⟨hd, P, hP, hprim⟩ := hd
  unfold atomicStep at h
  by_cases h1 : id.primary_index ≠ p
  · rw [if_pos h1] at h
    simp only [pure, Except.pure, Except.ok.injEq] at h
    subst h; exact ⟨hd, P, hP, hprim⟩
  · rw [if_neg h1] at h
    by_cases h2 : id.atomic_index = CityObjectIndex.invalidIndex
    · rw [if_pos h2] at h
      simp only [pure, Except.pure, Except.ok.injEq] at h
      subst h; exact ⟨hd, P, hP, hprim⟩
    · rw [if_neg h2] at h
      obtain ⟨m1, hadd, ha1⟩ := addNodeUnder_added pn
        (Node.ofName (M.city_object_list.tryGetAtomicGmlID id gmlIdNotFound)) dst P hP
      simp only [hadd, bind_ok_eq] at h
      obtain ⟨am, _, h⟩ := bind_eq_ok h
      by_cases hv : am.hasVertices = true
      · rw [if_pos hv] at h
        obtain ⟨m2, hmod, ha2⟩ := added_modify (fun n => n.setMesh (some (am.setCityObjectList
          [(⟨0, 0⟩, M.city_object_list.tryGetAtomicGmlID id gmlIdNotFound)]))) pn _ dst m1 P
          hP ha1
        rw [hmod] at h
        simp only [Except.ok.injEq] at h
        subst h
        exact ⟨added_anchored pn _ dst m2 P hP ha2 rfl (fun _ => Or.inr hprim) hd,
          _, (added_read pn _ dst m2 P hP ha2).1, hprim⟩
      · rw [if_neg hv] at h
        simp only [pure, Except.pure, Except.ok.injEq] at h
        subst h
        exact ⟨added_anchored pn _ dst m1 P hP ha1 rfl (fun hm => by simp [Node.ofName] at hm) hd,
          _, (added_read pn _ dst m1 P hP ha1).1, hprim⟩

theorem primaryStep_anchored (M : Mesh) (pos : List Nat) (ids : List CityObjectIndex)
    (dst dst2 : Model) (p : Int) (hd : dst.Anchored)
    (h : primaryStep M pos ids dst p = Except.ok dst2) : dst2.Anchored := by
  unfold primaryStep at h
  obtain ⟨dp, hdp, h⟩ := bind_eq_ok h
  obtain ⟨ipp, hipp, h⟩ := bind_eq_ok h
  obtain ⟨pr, hpr, h⟩ := bind_eq_ok h
  have hinv : pr.2.Anchored ∧
      ∃ P, Node.descend pr.1 pr.2.vroot = Except.ok P ∧ P.is_primary = true := by
    cases hq : NodePos.parent pos with
    | nil =>
      rw [hq] at hdp
      simp only [NodePos.toNode, Except.ok.injEq] at hdp
      subst hdp
      simp only [isParentPrimary, if_true, pure, Except.pure, Except.ok.injEq] at hipp
      subst hipp
      simp only [Bool.false_eq_true, if_false] at hpr
      exact makePrimaryNode_anchored M p [] dst pr dst.vroot hpr rfl hd
    | cons i rest =>
      rw [hq] at hdp
      simp only [NodePos.toNode] at hdp
      obtain ⟨P, hP, hdp⟩ := bind_eq_ok hdp
      simp only [pure, Except.pure, Except.ok.injEq] at hdp
      subst hdp
      simp only [isParentPrimary, if_neg (List.cons_ne_nil i rest), hP, bind_ok_eq, pure,
        Except.pure, Except.ok.injEq] at hipp
      subst hipp
      rw [Model.nodeAt_vroot _ _ (List.cons_ne_nil i rest)] at hP
      by_cases hprim : P.is_primary = true
      · rw [if_pos hprim] at hpr
        simp only [pure, Except.pure, Except.ok.injEq] at hpr
        subst hpr
        exact ⟨hd, P, hP, hprim⟩
      · rw [if_neg hprim] at hpr
        exact makePrimaryNode_anchored M p _ dst pr P hpr hP hd
  exact (foldlM_inv
    (fun d => d.Anchored ∧ ∃ P, Node.descend pr.1 d.vroot = Except.ok P ∧ P.is_primary = true)
    (atomicStep M p pr.1)
    (fun s x s2 hs hx => atomicStep_anchored M p pr.1 s s2 x hs hx) ids pr.2 dst2 hinv h).1

theorem convertNode_anchored (pos : List Nat) (src_node : Node) (dst dst2 : Model)
    (hd : dst.Anchored) (h : convertNode pos src_node dst = Except.ok dst2) :
    dst2.Anchored := by
  unfold convertNode at h
  cases hm : src_node.mesh with
  | some M =>
    rw [hm] at h
    simp only at h
    exact foldlM_inv Model.Anchored _
      (fun s x s2 hs hx => primaryStep_anchored M pos _ s s2 x hs hx) _ dst dst2 hd h
  | none =>
    rw [hm] at h
    simp only at h
    have hdesc : ∃ P, Node.descend (NodePos.parent pos) dst.vroot = Except.ok P := by
      cases hq : NodePos.parent pos with
      | nil => exact ⟨_, rfl⟩
      | cons i rest =>
        rw [hq] at h
        simp only [NodePos.addChildNode, NodePos.toNode] at h
        obtain ⟨ptr, hptr, _⟩ := bind_eq_ok h
        obtain ⟨P, hP, _⟩ := bind_eq_ok hptr
        exact ⟨P, by rw [← Model.nodeAt_vroot _ _ (List.cons_ne_nil i rest)]; exact hP⟩
    obtain ⟨P, hP⟩ := hdesc
    rw [addChildNode_vroot _ _ dst P hP] at h
    obtain ⟨n1, hn1⟩ := nodeModifyAt_ok (fun d => d.addChildNode (Node.ofName src_node.name))
      _ dst.vroot P hP
    rw [hn1] at h
    simp only [Except.map, Except.ok.injEq] at h
    subst h
    refine added_anchored _ (Node.ofName src_node.name) dst _ P hP ?_ rfl
      (fun hm => by simp [Node.ofName] at hm) hd
    unfold AddedUnder
    rw [vroot_modify (fun d => d.addChildNode (Node.ofName src_node.name))
      (fun d => ⟨rfl, rfl, rfl⟩) _ dst n1 hn1]
    exact hn1

theorem convertLoop_anchored (src : Model) :
    ∀ (fuel : Nat) (queue : List (List Nat)) (dst dst2 : Model),
      dst.Anchored → convertLoop src fuel queue dst = Except.ok dst2 → dst2.Anchored := by
  intro fuel
  induction fuel with
  | zero =>
    intro queue dst dst2 hd h
    cases queue with
    | nil =>
      simp only [convertLoop, pure, Except.pure, Except.ok.injEq] at h
      subst h; exact hd
    | cons q qs => simp [convertLoop] at h
  | succ fuel ih =>
    intro queue dst dst2 hd h
    cases queue with
    | nil =>
      simp only [convertLoop, pure, Except.pure, Except.ok.injEq] at h
      subst h; exact hd
    | cons q qs =>
      simp only [convertLoop] at h
      obtain ⟨src_node, _, h⟩ := bind_eq_ok h
      obtain ⟨dst1, h1, h⟩ := bind_eq_ok h
      exact ih _ dst1 dst2 (convertNode_anchored q src_node dst dst1 hd h1) h

/-- In the pruned output of `convertToAtomic` every mesh-carrying node is flagged primary or
lies below a node flagged primary. -/
theorem convertToAtomic_anchored (src atomic : Model)
    (h : convertToAtomic src = Except.ok atomic) : atomic.eraseEmptyNodes.Anchored :=
  eraseEmptyList_anchored _ false
    (convertLoop_anchored src _ _ Model.empty atomic trivial h)

/-- C28: when `convert` to the atomic granularity returns the model `a`, `convert` to the
primary and to the area granularity return too, the area model is one primary root without
children whose mesh has as many vertices as all meshes of `a` together, and so have all
meshes of the primary model together. -/
theorem convert_vertexCount (m a : Model)
    (h : convert m MeshGranularity.PerAtomicFeatureObject = Except.ok a) :
    ∃ (p : Model) (name : String) (mesh : Mesh),
      convert m MeshGranularity.PerPrimaryFeatureObject = Except.ok p ∧
      convert m MeshGranularity.PerCityModelArea =
        Except.ok ⟨[⟨name, some mesh, true, []⟩]⟩ ∧
      mesh.vertices.length = a.vertexCount ∧ p.vertexCount = a.vertexCount := by
  unfold convert at h
  obtain ⟨atomic, hat, h⟩ := bind_eq_ok h
  simp only [pure, Except.pure, Except.ok.injEq] at h
  subst h
  have hanch := convertToAtomic_anchored m atomic hat
  obtain ⟨name, hname⟩ : ∃ name, convert m MeshGranularity.PerCityModelArea = Except.ok
      ⟨[⟨name, some (areaFold atomic.eraseEmptyNodes.primaries (Mesh.empty, 0)).1, true, []⟩]⟩ :=
    ⟨_, by simp only [convert, hat, bind_ok_eq]; exact convertFromAtomicToArea_eq _⟩
  refine ⟨⟨atomic.eraseEmptyNodes.root_nodes.map Node.primaryImage⟩, name, _, ?_, hname,
    areaFold_vertexCount _ hanch, ?_⟩
  · simp only [convert, hat, bind_ok_eq, convertFromAtomicToPrimary_eq]
  · show vertexCountList _ = vertexCountList _
    rw [← primaryImageList_eq_map]
    exact primaryImageList_vertexCount _ hanch

theorem convert_vertexCount_witness :
    convert scenarioBModel MeshGranularity.PerAtomicFeatureObject =
      Except.ok scenarioBAtomicModel ∧
    scenarioBAtomicModel.vertexCount = 6 ∧
    ∃ (p : Model) (name : String) (mesh : Mesh),
      convert scenarioBModel MeshGranularity.PerPrimaryFeatureObject = Except.ok p ∧
      convert scenarioBModel MeshGranularity.PerCityModelArea =
        Except.ok ⟨[⟨name, some mesh, true, []⟩]⟩ ∧
      mesh.vertices.length = scenarioBAtomicModel.vertexCount ∧
      p.vertexCount = scenarioBAtomicModel.vertexCount :=
  ⟨by decide!, by decide,
    convert_vertexCount scenarioBModel scenarioBAtomicModel (by decide!)⟩

/-! ## Pruning only deletes -/

theorem Node.hasPolygon_eq (n : Node) :
    n.hasPolygon = (n.polygonExists || anyPolygon n.children) := by
  cases n; rfl

theorem anyPolygon_eq_any (l : List Node) : anyPolygon l = l.any Node.hasPolygon := by
  induction l with
  | nil => rfl
  | cons c rest ih => simp [anyPolygon, ih]

theorem filter_eq_nil_of_any {α : Type} (p : α → Bool) (l : List α) :
    (l.filter p = []) ↔ l.any p = false := by
  induction l with
  | nil => simp
  | cons a l ih =>
    cases h : p a <;> simp [List.filter_cons, h, ih]

mutual
/-- The pruned children are the children whose subtree holds a polygon-bearing mesh, each
pruned, in order. -/
theorem Node.eraseEmptyChildren_children :
    ∀ n : Node, n.eraseEmptyChildren.children =
      (n.children.filter Node.hasPolygon).map Node.eraseEmptyChildren
  | ⟨name, mesh, prim, cs⟩ => by
    simp only [Node.eraseEmptyChildren]
    exact eraseEmptyList_closed cs
theorem eraseEmptyList_closed :
    ∀ l : List Node, eraseEmptyList l = (l.filter Node.hasPolygon).map Node.eraseEmptyChildren
  | [] => rfl
  | c :: cs => by
    have hc := Node.eraseEmptyChildren_children c
    have hp := Node.eraseEmptyChildren_polygonExists c
    have hrest := eraseEmptyList_closed cs
    have hlen : (c.eraseEmptyChildren.children.length = 0) ↔ anyPolygon c.children = false := by
      rw [hc, List.length_map, List.length_eq_zero, filter_eq_nil_of_any, anyPolygon_eq_any]
    simp only [eraseEmptyList, hrest, List.filter_cons, Node.hasPolygon_eq c, hp]
    cases h1 : c.polygonExists <;> cases h2 : anyPolygon c.children <;>
      simp [h1, h2, hlen]
end

theorem Node.hasPolygon_erase (n : Node) : n.eraseEmptyChildren.hasPolygon = n.hasPolygon := by
  have key : ∀ (k : Nat) (n : Node), n.count ≤ k →
      n.eraseEmptyChildren.hasPolygon = n.hasPolygon := by
    intro k
    induction k with
    | zero =>
      intro n h
      have := Node.count_pos n
      omega
    | succ k ih =>
      intro n h
      rw [Node.hasPolygon_eq, Node.hasPolygon_eq n, Node.eraseEmptyChildren_polygonExists,
        Node.eraseEmptyChildren_children, anyPolygon_eq_any, anyPolygon_eq_any]
      congr 1
      rw [Node.count_eq, countList_eq_sum] at h
      have hall : ∀ c ∈ n.children, c.eraseEmptyChildren.hasPolygon = c.hasPolygon := by
        intro c hc
        refine ih c ?_
        have := List.single_le_sum (fun x _ => Nat.zero_le x) _ (List.mem_map_of_mem Node.count hc)
        omega
      generalize n.children = cs at hall
      induction cs with
      | nil => rfl
      | cons c cs ihc =>
        have h1 := hall c (List.mem_cons_self _ _)
        have h2 := ihc (fun x hx => hall x (List.mem_cons_of_mem _ hx))
        cases hcp : c.hasPolygon
        · simp only [List.filter_cons, hcp, Bool.false_eq_true, if_false, List.any_cons,
            Bool.false_or]
          exact h2
        · simp [List.filter_cons, hcp, h1]
  exact key n.count n (Nat.le_refl _)

/-- A node above a node whose subtree holds a polygon-bearing mesh holds one too. -/
theorem Node.hasPolygon_descend :
    ∀ (path : List Nat) (n d : Node), Node.descend path n = Except.ok d →
      d.hasPolygon = true → n.hasPolygon = true := by
  intro path
  induction path with
  | nil =>
    intro n d h hd
    simp only [Node.descend, Except.ok.injEq] at h
    subst h; exact hd
  | cons i rest ih =>
    intro n d h hd
    simp only [Node.descend] at h
    obtain ⟨c, hc, h⟩ := bind_eq_ok h
    have hcp := ih c d h hd
    unfold Node.getChildAt at hc
    rw [vecAt_eq_ok] at hc
    rw [Node.hasPolygon_eq, anyPolygon_eq_any, Bool.or_eq_true, List.any_eq_true]
    exact Or.inr ⟨c, List.getElem?_mem hc, hcp⟩

mutual
theorem Node.hasPolygon_path :
    ∀ n : Node, n.hasPolygon = true →
      ∃ path d, Node.descend path n = Except.ok d ∧ d.polygonExists = true
  | ⟨name, mesh, prim, cs⟩, h => by
    simp only [Node.hasPolygon, Bool.or_eq_true] at h
    rcases h with h | h
    · exact ⟨[], _, rfl, h⟩
    · obtain ⟨i, c, path, d, hc, hd, hp⟩ := anyPolygon_path cs h
      refine ⟨i :: path, d, ?_, hp⟩
      simp only [Node.descend, Node.getChildAt, vecAt_eq_ok.mpr hc, bind_ok_eq, hd]
theorem anyPolygon_path :
    ∀ l : List Node, anyPolygon l = true →
      ∃ (i : Nat) (c : Node) (path : List Nat) (d : Node), l[i]? = some c ∧
        Node.descend path c = Except.ok d ∧
        d.polygonExists = true
  | [], h => by simp [anyPolygon] at h
  | c :: cs, h => by
    simp only [anyPolygon, Bool.or_eq_true] at h
    rcases h with h | h
    · obtain ⟨path, d, hd, hp⟩ := Node.hasPolygon_path c h
      exact ⟨0, c, path, d, by simp, hd, hp⟩
    · obtain ⟨i, x, path, d, hx, hd, hp⟩ := anyPolygon_path cs h
      exact ⟨i + 1, x, path, d, by simpa using hx, hd, hp⟩
end

/-- A node whose subtree holds a polygon-bearing mesh is reached in the pruned tree, pruned
itself, through the corresponding path. -/
theorem prunedPath_descend :
    ∀ (path : List Nat) (n d : Node), Node.descend path n = Except.ok d →
      d.hasPolygon = true →
      Node.descend (prunedPath path n) n.eraseEmptyChildren = Except.ok d.eraseEmptyChildren := by
  intro path
  induction path with
  | nil =>
    intro n d h _
    simp only [Node.descend, Except.ok.injEq] at h
    subst h; rfl
  | cons i rest ih =>
    intro n d h hd
    simp only [Node.descend] at h
    obtain ⟨c, hc, h⟩ := bind_eq_ok h
    have hcp := Node.hasPolygon_descend rest c d h hd
    unfold Node.getChildAt at hc
    rw [vecAt_eq_ok] at hc
    have hk := filter_getElem?_countP Node.hasPolygon n.children i c hc hcp
    have hk2 : n.eraseEmptyChildren.children[(n.children.take i).countP Node.hasPolygon]? =
        some c.eraseEmptyChildren := by
      rw [Node.eraseEmptyChildren_children, List.getElem?_map, hk]
      rfl
    simp only [prunedPath, hc, Node.descend, Node.getChildAt, vecAt_eq_ok.mpr hk2, bind_ok_eq]
    exact ih c d h hd

mutual
theorem Node.eraseEmptyChildren_idem :
    ∀ n : Node, n.eraseEmptyChildren.eraseEmptyChildren = n.eraseEmptyChildren
  | ⟨name, mesh, prim, cs⟩ => by
    simp only [Node.eraseEmptyChildren, eraseEmptyList_idem cs]
theorem eraseEmptyList_idem :
    ∀ l : List Node, eraseEmptyList (eraseEmptyList l) = eraseEmptyList l
  | [] => rfl
  | c :: cs => by
    have hc := Node.eraseEmptyChildren_idem c
    have hrest := eraseEmptyList_idem cs
    simp only [eraseEmptyList]
    split
    · exact hrest
    · rename_i hkeep
      simp only [eraseEmptyList, hc, hkeep, hrest]
      rfl
end

/-- C31: `eraseEmptyChildren` only deletes. It keeps the name, mesh and flag of the node;
its children are the pruned forms of exactly those children whose subtree holds a
polygon-bearing mesh, in their order, so the names and meshes of the children left are a
sublist of those before; every descendant whose subtree holds a polygon-bearing mesh (a
node with such a mesh, or a node above one) is found in the pruned tree, through the path
that counts the kept siblings before each step, with its name and mesh unchanged; and a
second call returns the same tree. -/
theorem eraseEmptyChildren_only_deletes (n : Node) :
    (n.eraseEmptyChildren.name = n.name ∧ n.eraseEmptyChildren.mesh = n.mesh ∧
      n.eraseEmptyChildren.is_primary = n.is_primary ∧
      n.eraseEmptyChildren.children =
        (n.children.filter Node.hasPolygon).map Node.eraseEmptyChildren) ∧
    List.Sublist (n.eraseEmptyChildren.children.map (fun c => (c.name, c.mesh)))
      (n.children.map (fun c => (c.name, c.mesh))) ∧
    (∀ x : Node, x.hasPolygon = true ↔
      ∃ path d, Node.descend path x = Except.ok d ∧ d.polygonExists = true) ∧
    (∀ (path : List Nat) (d : Node), Node.descend path n = Except.ok d →
      d.hasPolygon = true →
      ∃ d2, Node.descend (prunedPath path n) n.eraseEmptyChildren = Except.ok d2 ∧
        d2.name = d.name ∧ d2.mesh = d.mesh ∧ d2 = d.eraseEmptyChildren) ∧
    n.eraseEmptyChildren.eraseEmptyChildren = n.eraseEmptyChildren := by
  have hf := Node.eraseEmptyChildren_fields n
  refine ⟨⟨hf.1, hf.2.1, hf.2.2.1, Node.eraseEmptyChildren_children n⟩, ?_, ?_, ?_,
    Node.eraseEmptyChildren_idem n⟩
  · rw [Node.eraseEmptyChildren_children, List.map_map]
    have : ((fun c : Node => (c.name, c.mesh)) ∘ Node.eraseEmptyChildren) =
        fun c => (c.name, c.mesh) := by
      funext c
      have := Node.eraseEmptyChildren_fields c
      simp [this.1, this.2.1]
    rw [this]
    exact (List.filter_sublist _).map _
  · intro x
    constructor
    · exact Node.hasPolygon_path x
    · rintro ⟨path, d, hd, hp⟩
      refine Node.hasPolygon_descend path x d hd ?_
      rw [Node.hasPolygon_eq, hp]
      rfl
  · intro path d hd hp
    have hfd := Node.eraseEmptyChildren_fields d
    exact ⟨_, prunedPath_descend path n d hd hp, hfd.1, hfd.2.1, rfl⟩

theorem eraseEmptyChildren_only_deletes_witness :
    Node.descend [2] pruneExampleNode = Except.ok ⟨"c", some pointsOnlyMesh, false, []⟩ ∧
    Node.descend [0] pruneExampleNode =
      Except.ok ⟨"a", some scenarioAMesh, false, [⟨"e", none, false, []⟩]⟩ ∧
    pruneExampleNode.eraseEmptyChildren =
      ⟨"r", none, false, [⟨"a", some scenarioAMesh, false, []⟩]⟩ ∧
    prunedPath [0] pruneExampleNode = [0] ∧
    ∃ d2, Node.descend (prunedPath [0] pruneExampleNode) pruneExampleNode.eraseEmptyChildren =
        Except.ok d2 ∧ d2.name = "a" ∧ d2.mesh = some scenarioAMesh ∧
      d2 = Node.eraseEmptyChildren ⟨"a", some scenarioAMesh, false, [⟨"e", none, false, []⟩]⟩ :=
  ⟨by decide, by decide, by decide!, by decide!,
    (eraseEmptyChildren_only_deletes pruneExampleNode).2.2.2.1 [0]
      ⟨"a", some scenarioAMesh, false, [⟨"e", none, false, []⟩]⟩ (by decide) (by decide!)⟩

end Plateau
